import Mathlib

set_option autoImplicit false

/-!
# Morat connectivity boards (Y and Havannah)

A shallow embedding of `src/y/board.h`, `src/havannah/board.h` and the code
built on them.  The board headers include a number of library headers
(`lib/outcome.h`, `lib/move.h`, `lib/zobrist.h`, `lib/bitcount.h`,
`lib/board_grid_hex.h`, `lib/board_shape_*.h`) that are not part of the
sources at hand.  Their types are modelled below; the board geometry they
provide (neighbour enumeration, shape test, edge and corner classification,
the local-pattern pre-filter, the ring detectors and the Zobrist string
table) enters every definition as a parameter.
-/

namespace Morat

/-! ## Sides, outcomes and moves -/

/-- Modelled from the spec: `Side` of `lib/outcome.h`, which is not among the
sources.  The owner of a cell is one of none, player 1, player 2, off-board. -/
inductive Side where
  | UNDEF
  | NONE
  | P1
  | P2
  deriving DecidableEq, Repr, Inhabited

/-- Modelled from the spec: the integer value of a side (`Side::to_i`), used
as the colour component of a hash key. -/
def Side.to_i : Side → Int
  | .UNDEF => -4
  | .NONE => 0
  | .P1 => 1
  | .P2 => 2

/-- Modelled from the spec: `operator~` on sides, the opponent of a player.
The two non-player values are left alone. -/
def Side.opp : Side → Side
  | .P1 => .P2
  | .P2 => .P1
  | s => s

/-- A side that is one of the two players. -/
def Side.isPlayer : Side → Bool
  | .P1 => true
  | .P2 => true
  | _ => false

/-- Modelled from the spec: `Outcome` of `lib/outcome.h`, which is not among
the sources: `outcome ∈ {unknown, draw, player1, player2}`. -/
inductive Outcome where
  | UNKNOWN
  | DRAW
  | P1
  | P2
  deriving DecidableEq, Repr, Inhabited

/-- Modelled from the spec: the integer value of an outcome; the comparisons
`outcome < Outcome::DRAW` and `outcome >= Outcome::DRAW` of the sources are
comparisons of these values. -/
def Outcome.to_i : Outcome → Int
  | .UNKNOWN => -3
  | .DRAW => 0
  | .P1 => 1
  | .P2 => 2

/-- Modelled from the spec: `Outcome::solved`, a decided outcome (a draw or a
win for either player). -/
def Outcome.solved (o : Outcome) : Bool := decide (Outcome.DRAW.to_i ≤ o.to_i)

/-- Modelled from the spec: unary `operator+` turning a side into the outcome
"that side wins". -/
def Outcome.ofSide : Side → Outcome
  | .P1 => .P1
  | .P2 => .P2
  | .NONE => .DRAW
  | .UNDEF => .UNKNOWN

/-- Modelled from the spec: `Move` of `lib/move.h`, a pair of coordinates. -/
structure Move where
  x : Int
  y : Int
  deriving DecidableEq, Repr, Inhabited

/-- Modelled from the spec: the special move `M_NONE` ("no move yet") of
`lib/move.h`; its row is negative, so it is not a cell of any board. -/
def M_NONE : Move := { x := 120, y := -3 }

/-- Modelled from the spec: `MoveValid` of `lib/move.h`, a move together with
the index `xy` of its cell; the entries of the neighbour list that fall off
the board carry the index `-1`. -/
structure MoveValid where
  x : Int
  y : Int
  xy : Int
  deriving DecidableEq, Repr, Inhabited

/-- The predicate `MoveValid::on_board`. -/
def MoveValid.on_board (m : MoveValid) : Bool := decide (m.xy ≠ -1)

/-- The coordinates of a `MoveValid` (its `Move` base class). -/
def MoveValid.toMove (m : MoveValid) : Move := { x := m.x, y := m.y }

/-- The cell index of a `MoveValid` as an array index. -/
def MoveValid.idx (m : MoveValid) : Nat := m.xy.toNat

/-! ## Cells and the union-find structure

`Board::Cell` of both variants.  The Havannah cell has the fields below; the
Y cell has no `corner` and no `mark` field, and in the Y model these two
stay `0`.  The `pattern` field belongs to the neighbour-pattern cache of
`lib/board_grid_hex.h` and is not modelled; the one function of the sources
that reads it, `test_local`, is a parameter. -/

structure Cell where
  piece : Side
  size : Nat
  parent : Nat
  corner : Nat
  edge : Nat
  mark : Nat
  perm : Nat
  deriving DecidableEq, Repr

/-- The default constructor `Cell()`. -/
instance : Inhabited Cell := ⟨{ piece := .NONE, size := 0, parent := 0, corner := 0, edge := 0, mark := 0, perm := 0 }⟩

/-- What distinguishes the cells of the two variants: the width of the `size`
field (`uint16_t` in Y, `uint8_t` in Havannah) and whether there is a
`corner` field. -/
structure Variant where
  size_mod : Nat
  corners : Bool
  deriving DecidableEq, Repr

/-- Modelled from the spec: `BitsSetTable256` of `lib/bitcount.h`, the static
bit-counting table: the number of bits set in a byte. -/
def BitsSetTable256 (b : Nat) : Nat :=
  ((List.range 8).filter (fun k => b.testBit k)).length

/-- Read access `cells_[i]`. -/
def cellAt (cells : List Cell) (i : Nat) : Cell := cells.getD i default

/-- Method `Cell::numedges`. -/
def Cell.numedges (c : Cell) : Nat := BitsSetTable256 c.edge

/-- Method `Cell::numcorners`. -/
def Cell.numcorners (c : Cell) : Nat := BitsSetTable256 c.corner

/-- Method `Board::get(int i)`: the owner of cell `i`. -/
def get (cells : List Cell) (i : Nat) : Side := (cellAt cells i).piece

/-- The loop `do { p = cells_[p].parent; } while (p != cells_[p].parent);` of
`Board::find_group`, run for at most `fuel` iterations. -/
def find_loop (cells : List Cell) : Nat → Nat → Nat
  | 0, p => p
  | fuel + 1, p =>
    let p1 := (cellAt cells p).parent
    if p1 ≠ (cellAt cells p1).parent then find_loop cells fuel p1 else p1

/-- Method `Board::find_group(unsigned int i)`, identical in both variants.  It
returns the representative together with the cell array after the one
path-compression write.  The loop gets as many iterations as there are
cells. -/
def find_group (cells : List Cell) (i : Nat) : Nat × List Cell :=
  let p := (cellAt cells i).parent
  if p ≠ i then
    let p := find_loop cells cells.length p
    (p, cells.set i { cellAt cells i with parent := p })
  else
    (p, cells)

/-- The last four statements of `Board::join_groups`, with `i` the root that
survives and `j` the root attached under it:
`cells_[j].parent = i; cells_[i].size += cells_[j].size; cells_[i].corner |= cells_[j].corner; cells_[i].edge |= cells_[j].edge;`
(the `corner` line in the Havannah variant only). -/
def link_groups (v : Variant) (cells : List Cell) (i j : Nat) : List Cell :=
  let cells := cells.set j { cellAt cells j with parent := i }
  let ci := cellAt cells i
  let cj := cellAt cells j
  cells.set i
    { ci with
      size := (ci.size + cj.size) % v.size_mod
      corner := if v.corners then ci.corner ||| cj.corner else ci.corner
      edge := ci.edge ||| cj.edge }

/-- Method `Board::join_groups(int i, int j)` of both variants.  The
`std::swap(i, j)` of the source is the choice of the arguments of
`link_groups`. -/
def join_groups (v : Variant) (cells : List Cell) (i j : Nat) : Bool × List Cell :=
  let fi := find_group cells i
  let fj := find_group fi.2 j
  let cells := fj.2
  if fi.1 = fj.1 then (true, cells)
  else if (cellAt cells fi.1).size < (cellAt cells fj.1).size then
    (false, link_groups v cells fj.1 fi.1)
  else
    (false, link_groups v cells fi.1 fj.1)

/-- The neighbour loop of `Board::move`:
`for (i = begin; i < end; i++) if (i->on_board() && to_play_ == get(i->xy)) { alreadyjoined |= join_groups(pos.xy, i->xy); i++; }`.
The flag `skip` records that the previous iteration executed the inner `i++`.
The Y variant runs the same loop and discards the boolean. -/
def join_neighbors (v : Variant) (turn : Side) (posxy : Nat) :
    List MoveValid → Bool → Bool × List Cell → Bool × List Cell
  | [], _, st => st
  | _ :: rest, true, st => join_neighbors v turn posxy rest false st
  | i :: rest, false, st =>
    if i.on_board && turn == get st.2 i.idx then
      let r := join_groups v st.2 posxy i.idx
      join_neighbors v turn posxy rest true (st.1 || r.1, r.2)
    else
      join_neighbors v turn posxy rest false st

/-- The statements of `Board::move` that write the cell array:
`cell.piece = to_play_; cell.perm = permanent;` followed by the neighbour
loop.  The result is the flag `alreadyjoined` and the new array. -/
def place_stone (v : Variant) (nbrs : List MoveValid) (cells : List Cell) (turn : Side)
    (posxy : Nat) (permanent : Bool) : Bool × List Cell :=
  join_neighbors v turn posxy nbrs false
    (false, cells.set posxy
      { cellAt cells posxy with piece := turn, perm := if permanent then 1 else 0 })

/-- The neighbour loop of `Board::test_outcome` (and of `Board::test_cell`):
it accumulates into the local copy `testcell` and counts the groups met.  The
calls of `find_group` compress paths in the cell array, which is threaded
through. -/
def test_neighbors (v : Variant) (turn : Side) :
    List MoveValid → Bool → (Cell × Nat) × List Cell → (Cell × Nat) × List Cell
  | [], _, st => st
  | _ :: rest, true, st => test_neighbors v turn rest false st
  | i :: rest, false, st =>
    if i.on_board && turn == get st.2 i.idx then
      let f := find_group st.2 i.idx
      let g := cellAt f.2 f.1
      let tc := st.1.1
      let tc1 : Cell :=
        { tc with
          corner := if v.corners then tc.corner ||| g.corner else tc.corner
          edge := tc.edge ||| g.edge
          size := (tc.size + g.size) % v.size_mod }
      test_neighbors v turn rest true ((tc1, st.1.2 + 1), f.2)
    else
      test_neighbors v turn rest false st

/-! ## Zobrist hashing -/

/-- Modelled from the spec: `Zobrist<num>::clear` of `lib/zobrist.h`, which is
not among the sources: every slot is reset to `0`. -/
def zobrist_clear (num : Nat) : List Nat := List.replicate num 0

/-- Modelled from the spec: `Zobrist<num>::get(int i)`, the value of one slot. -/
def zobrist_slot (h : List Nat) (i : Nat) : Nat := h.getD i 0

/-- Modelled from the spec: `Zobrist<num>::get()`, "the canonical hash is the
minimum across slots". -/
def zobrist_get : List Nat → Nat
  | [] => 0
  | a :: l => l.foldl min a

/-- Modelled from the spec: `Zobrist<num>::test(i, key)`, the value slot `i`
would have after combining the contribution of `key` (a Zobrist hash combines
contributions with exclusive or); `strings` is the table of contributions. -/
def zobrist_test (strings : Int → Nat) (h : List Nat) (i : Nat) (key : Int) : Nat :=
  zobrist_slot h i ^^^ strings key

/-- Modelled from the spec: `Zobrist<num>::update(i, key)`. -/
def zobrist_update (strings : Int → Nat) (h : List Nat) (i : Nat) (key : Int) : List Nat :=
  h.set i (zobrist_test strings h i key)

/-- The constant `unique_depth` of both boards. -/
def unique_depth : Int := 5

/-! ## The grid and shape parameters

The parts of `BoardGridHex` (`lib/board_grid_hex.h`) and of the shape classes
that the boards call.  Every function takes the board size first. -/

structure Grid where
  /-- the six entries `neighbors_small(xy)` of the neighbour list, in the
  order the loops visit them -/
  neighbors_small : Int → Nat → List MoveValid
  /-- the shape test `on_board(x, y)` -/
  on_board : Int → Int → Int → Bool
  /-- the pre-filter `test_local(pos, turn)`, which reads the pattern cache -/
  test_local : Int → List Cell → MoveValid → Side → Bool
  /-- the table of Zobrist strings -/
  strings : Int → Nat

namespace Y

/-- The grid of the Y board: `BoardGridHex` and `BoardShapeTriangle` plus the
private `Board::edges(x, y)`, whose body is in a source file not at hand. -/
structure Grid extends Morat.Grid where
  edges : Int → Int → Int → Nat

/-- Width of `Cell::size` in the Y board (`uint16_t`); no `corner` field. -/
def variant : Variant := { size_mod := 65536, corners := false }

def min_size : Int := 4
def max_size : Int := 25

structure Board where
  size_ : Int
  sizem1_ : Int
  num_cells_ : Int
  num_moves_ : Int
  last_move_ : Move
  to_play_ : Side
  first_move : Side
  outcome_ : Outcome
  cells_ : List Cell
  hash : List Nat
  deriving DecidableEq, Repr

/-- The members as they are before the constructor body runs: the default
member initialisers of the class, the other scalars taken as `0`. -/
def Board.blank : Board :=
  { size_ := 0, sizem1_ := 0, num_cells_ := 0, num_moves_ := 0, last_move_ := M_NONE,
    to_play_ := .NONE, first_move := .NONE, outcome_ := .UNKNOWN, cells_ := [], hash := zobrist_clear 6 }

/-- Method `Board::valid_size`, on the integer parsed from the string. -/
def valid_size (s : Int) : Bool := decide (min_size ≤ s) && decide (s ≤ max_size)

/-- Method `Board::vec_size`. -/
def Board.vec_size (b : Board) : Int := b.size_ * b.size_

/-- Method `Board::xy(int x, int y)`. -/
def Board.xy (b : Board) (x y : Int) : Int := y * b.size_ + x

/-- Method `Board::yx(int i)` together with `move_valid(x, y)`: the cell with
index `i` has coordinates `(i % size_, i / size_)`. -/
def Board.yx (b : Board) (i : Nat) : MoveValid :=
  { x := (i : Int) % b.size_, y := (i : Int) / b.size_, xy := i }

/-- The constructor call `MoveValid(pos, xy(pos))` of the `Move` overloads. -/
def Board.move_valid (b : Board) (pos : Move) : MoveValid :=
  { x := pos.x, y := pos.y, xy := b.xy pos.x pos.y }

/-- The cell written by `Board::clear` at index `i`:
`Cell(s, pos.xy, 1, edges(x, y), init_pattern(pos))`. -/
def clear_cell (G : Grid) (size : Int) (i : Nat) : Cell :=
  let x := (i : Int) % size
  let y := (i : Int) / size
  { piece := if G.on_board size x y then .NONE else .UNDEF
    size := 1, parent := i, corner := 0, edge := G.edges size x y % 256, mark := 0, perm := 0 }

/-- Method `Board::clear`.  The double loop over `y` and `x` writes the cells
with index `y * size_ + x` in increasing order, that is every cell of the
array. -/
def Board.clear (G : Grid) (b : Board) : Board :=
  { b with
    last_move_ := M_NONE
    num_moves_ := 0
    to_play_ := if b.to_play_ = .NONE then .P1 else b.first_move
    first_move := if b.to_play_ = .NONE then .P1 else b.first_move
    outcome_ := .UNKNOWN
    hash := zobrist_clear 6
    cells_ := (List.range b.vec_size.toNat).map (clear_cell G b.size_) }

/-- Method `Board::size(std::string)`, on the integer parsed from the string. -/
def Board.size (G : Grid) (b : Board) (s : Int) : Bool × Board :=
  if !valid_size s then (false, b)
  else
    (true, Board.clear G
      { b with size_ := s, sizem1_ := s - 1, num_cells_ := s * s - s * (s - 1) / 2 })

/-- The constructor `Board(std::string s) { assert(size(s)); }`; `none` is the
failed assertion. -/
def Board.create (G : Grid) (s : Int) : Option Board :=
  if (Board.size G Board.blank s).1 then some (Board.size G Board.blank s).2 else none

/-- Method `Board::toggle_to_play`. -/
def Board.toggle_to_play (b : Board) : Board :=
  if b.last_move_ = M_NONE then
    if b.first_move = .P2 then { b with first_move := .P1, to_play_ := .P1 }
    else if b.first_move = .P1 then { b with first_move := .P2, to_play_ := .P2 }
    else b
  else b

def Board.num_cells (b : Board) : Int := b.num_cells_
def Board.moves_made (b : Board) : Int := b.num_moves_
def Board.outcome (b : Board) : Outcome := b.outcome_
def Board.to_play (b : Board) : Side := b.to_play_

/-- Method `Board::moves_avail`. -/
def Board.moves_avail (b : Board) : Int :=
  if Outcome.DRAW.to_i ≤ b.outcome_.to_i then 0 else b.num_cells_ - b.num_moves_

/-- Method `Board::get(int i)`. -/
def Board.get (b : Board) (i : Nat) : Side := Morat.get b.cells_ i

/-- Method `Board::valid_move_fast(int i)`. -/
def Board.valid_move_fast (b : Board) (i : Nat) : Bool := b.get i == .NONE

/-- Method `Board::valid_move(const Move &)`, which tests the shape. -/
def Board.valid_move_xy (G : Grid) (b : Board) (m : Move) : Bool :=
  decide (b.outcome_.to_i < Outcome.DRAW.to_i) && G.on_board b.size_ m.x m.y &&
    b.valid_move_fast (b.xy m.x m.y).toNat

/-- Method `Board::valid_move(const MoveValid &)`. -/
def Board.valid_move (b : Board) (m : MoveValid) : Bool :=
  decide (b.outcome_.to_i < Outcome.DRAW.to_i) && m.on_board && b.valid_move_fast m.idx

/-- Method `Board::gethash`. -/
def Board.gethash (b : Board) : Nat :=
  if b.num_moves_ > unique_depth then zobrist_slot b.hash 0 else zobrist_get b.hash

/-- Method `Board::update_hash`; it returns the new hash slots. -/
def Board.update_hash (G : Grid) (b : Board) (pos : MoveValid) (side : Side) : List Nat :=
  let turn := side.to_i
  if b.num_moves_ > unique_depth then
    zobrist_update G.strings b.hash 0 (3 * pos.xy + turn)
  else
    let x := pos.x
    let y := pos.y
    let z := b.sizem1_ - x - y
    let h := zobrist_update G.strings b.hash 0 (3 * b.xy x y + turn)
    let h := zobrist_update G.strings h 1 (3 * b.xy z y + turn)
    let h := zobrist_update G.strings h 2 (3 * b.xy z x + turn)
    let h := zobrist_update G.strings h 3 (3 * b.xy x z + turn)
    let h := zobrist_update G.strings h 4 (3 * b.xy y z + turn)
    zobrist_update G.strings h 5 (3 * b.xy y x + turn)

/-- Method `Board::test_hash(const MoveValid &, Side)`. -/
def Board.test_hash (G : Grid) (b : Board) (pos : MoveValid) (side : Side) : Nat :=
  let turn := side.to_i
  if b.num_moves_ ≥ unique_depth then
    zobrist_test G.strings b.hash 0 (3 * pos.xy + turn)
  else
    let x := pos.x
    let y := pos.y
    let z := b.sizem1_ - x - y
    let m := zobrist_test G.strings b.hash 0 (3 * b.xy x y + turn)
    let m := min m (zobrist_test G.strings b.hash 1 (3 * b.xy z y + turn))
    let m := min m (zobrist_test G.strings b.hash 2 (3 * b.xy z x + turn))
    let m := min m (zobrist_test G.strings b.hash 3 (3 * b.xy x z + turn))
    let m := min m (zobrist_test G.strings b.hash 4 (3 * b.xy y z + turn))
    min m (zobrist_test G.strings b.hash 5 (3 * b.xy y x + turn))

/-- The body of `Board::move(const MoveValid &, bool, bool)` after the
assertion.  The call of `update_pattern` touches the pattern cache only. -/
def Board.move_body (G : Grid) (b : Board) (pos : MoveValid) (permanent : Bool) : Bool × Board :=
  if !b.valid_move pos then (false, b)
  else
    let b1 : Board := { b with last_move_ := pos.toMove, num_moves_ := b.num_moves_ + 1 }
    let hash := b1.update_hash G pos b1.to_play_
    let joined := place_stone variant (G.neighbors_small b1.size_ pos.idx) b1.cells_ b1.to_play_
      pos.idx permanent
    let f := find_group joined.2 pos.idx
    let g := cellAt f.2 f.1
    let outcome := if g.numedges = 3 then Outcome.ofSide b1.to_play_ else b1.outcome_
    (true, { b1 with cells_ := f.2, hash := hash, outcome_ := outcome, to_play_ := b1.to_play_.opp })

/-- Method `Board::move(const MoveValid &, bool checkwin, bool permanent)`.
It opens with `assert(!outcome_.solved())`; `none` is the failed assertion.
The Y board does not read `checkwin`. -/
def Board.move (G : Grid) (b : Board) (pos : MoveValid) (permanent : Bool) : Option (Bool × Board) :=
  if b.outcome_.solved then none else some (b.move_body G pos permanent)

/-- Method `Board::move(const Move &, bool, bool)`. -/
def Board.move_xy (G : Grid) (b : Board) (pos : Move) (permanent : Bool) : Option (Bool × Board) :=
  b.move G (b.move_valid pos) permanent

/-- Method `Board::test_outcome(const MoveValid &, Side)`.  It is a `const`
method, but `find_group` writes the `mutable` parent field, so the cell array
after the call is returned as well. -/
def Board.test_outcome (G : Grid) (b : Board) (pos : MoveValid) (turn : Side) : Outcome × Board :=
  if G.test_local b.size_ b.cells_ pos turn then
    let f := find_group b.cells_ pos.idx
    let testcell := cellAt f.2 f.1
    let r := test_neighbors variant turn (G.neighbors_small b.size_ pos.idx) false ((testcell, 0), f.2)
    if r.1.1.numedges = 3 then (Outcome.ofSide turn, { b with cells_ := r.2 })
    else (.UNKNOWN, { b with cells_ := r.2 })
  else (.UNKNOWN, b)

/-- Method `Board::test_outcome(const Move &, Side)`. -/
def Board.test_outcome_xy (G : Grid) (b : Board) (pos : Move) (turn : Side) : Outcome × Board :=
  b.test_outcome G (b.move_valid pos) turn

end Y

namespace Havannah

/-- The grid of the Havannah board: `BoardGridHex` and `BoardShapeHex` plus
the private members whose bodies are in a source file not at hand.
`corner_mask size x y` and `edge_mask size x y` stand for the expressions
`(1 << iscorner(x, y))` and `(1 << isedge(x, y))` that `clear` stores in the
byte-wide mask fields; the ring detectors read the cell array and
`perm_rings`. -/
structure Grid extends Morat.Grid where
  corner_mask : Int → Int → Int → Nat
  edge_mask : Int → Int → Int → Nat
  checkring_df : Int → List Cell → Int → MoveValid → Side → Bool
  checkring_o1 : Int → List Cell → Int → MoveValid → Side → Bool

/-- Width of `Cell::size` in the Havannah board (`uint8_t`); it has a `corner`
field. -/
def variant : Variant := { size_mod := 256, corners := true }

def min_size : Int := 3
def max_size : Int := 10

structure Board where
  size_ : Int
  size_r_ : Int
  size_r_m1_ : Int
  num_cells_ : Int
  num_moves_ : Int
  last_move_ : Move
  to_play_ : Side
  outcome_ : Outcome
  win_type_ : Int
  cells_ : List Cell
  hash : List Nat
  check_rings : Bool
  perm_rings : Int
  deriving DecidableEq, Repr

/-- The members before the constructor body runs, the scalars taken as `0`. -/
def Board.blank : Board :=
  { size_ := 0, size_r_ := 0, size_r_m1_ := 0, num_cells_ := 0, num_moves_ := 0, last_move_ := M_NONE,
    to_play_ := .NONE, outcome_ := .UNKNOWN, win_type_ := 0, cells_ := [], hash := zobrist_clear 12,
    check_rings := false, perm_rings := 0 }

/-- Method `Board::valid_size`, on the integer parsed from the string. -/
def valid_size (s : Int) : Bool := decide (min_size ≤ s) && decide (s ≤ max_size)

/-- Method `Board::vec_size`. -/
def Board.vec_size (b : Board) : Int := b.size_ * b.size_

/-- Method `Board::xy(int x, int y)`. -/
def Board.xy (b : Board) (x y : Int) : Int := y * b.size_ + x

/-- Method `Board::xyc(int x, int y)`. -/
def Board.xyc (b : Board) (x y : Int) : Int := b.xy (x + b.size_r_m1_) (y + b.size_r_m1_)

/-- The constructor call `MoveValid(pos, xy(pos))` of the `Move` overloads. -/
def Board.move_valid (b : Board) (pos : Move) : MoveValid :=
  { x := pos.x, y := pos.y, xy := b.xy pos.x pos.y }

/-- The cell written by `Board::clear` at index `i`:
`Cell(s, pos.xy, 1, (1 << iscorner(x, y)), (1 << isedge(x, y)), init_pattern(pos))`. -/
def clear_cell (G : Grid) (size : Int) (i : Nat) : Cell :=
  let x := (i : Int) % size
  let y := (i : Int) / size
  { piece := if G.on_board size x y then .NONE else .UNDEF
    size := 1, parent := i, corner := G.corner_mask size x y % 256,
    edge := G.edge_mask size x y % 256, mark := 0, perm := 0 }

/-- Method `Board::clear`.  The double loop over `y` and `x` writes the cells
with index `y * size_ + x` in increasing order, that is every cell of the
array. -/
def Board.clear (G : Grid) (b : Board) : Board :=
  { b with
    last_move_ := M_NONE
    num_moves_ := 0
    to_play_ := .P1
    outcome_ := .UNKNOWN
    win_type_ := -1
    check_rings := true
    perm_rings := 0
    hash := zobrist_clear 12
    cells_ := (List.range b.vec_size.toNat).map (clear_cell G b.size_) }

/-- Method `Board::size(std::string)`, on the integer parsed from the string. -/
def Board.size (G : Grid) (b : Board) (s : Int) : Bool × Board :=
  if !valid_size s then (false, b)
  else
    (true, Board.clear G
      { b with
        size_r_ := s, size_r_m1_ := s - 1, size_ := s * 2 - 1
        num_cells_ := (s * 2 - 1) * (s * 2 - 1) - s * (s - 1) })

/-- The constructor `Board(std::string s) { assert(size(s)); }`; `none` is the
failed assertion. -/
def Board.create (G : Grid) (s : Int) : Option Board :=
  if (Board.size G Board.blank s).1 then some (Board.size G Board.blank s).2 else none

def Board.num_cells (b : Board) : Int := b.num_cells_
def Board.moves_made (b : Board) : Int := b.num_moves_
def Board.outcome (b : Board) : Outcome := b.outcome_
def Board.win_type (b : Board) : Int := b.win_type_
def Board.to_play (b : Board) : Side := b.to_play_

/-- Method `Board::moves_avail`. -/
def Board.moves_avail (b : Board) : Int :=
  if Outcome.DRAW.to_i ≤ b.outcome_.to_i then 0 else b.num_cells_ - b.num_moves_

/-- Method `Board::get(int i)`. -/
def Board.get (b : Board) (i : Nat) : Side := Morat.get b.cells_ i

/-- Method `Board::valid_move_fast(int i)`. -/
def Board.valid_move_fast (b : Board) (i : Nat) : Bool := b.get i == .NONE

/-- Method `Board::valid_move(const Move &)`, which tests the shape. -/
def Board.valid_move_xy (G : Grid) (b : Board) (m : Move) : Bool :=
  decide (b.outcome_.to_i < Outcome.DRAW.to_i) && G.on_board b.size_ m.x m.y &&
    b.valid_move_fast (b.xy m.x m.y).toNat

/-- Method `Board::valid_move(const MoveValid &)`. -/
def Board.valid_move (b : Board) (m : MoveValid) : Bool :=
  decide (b.outcome_.to_i < Outcome.DRAW.to_i) && m.on_board && b.valid_move_fast m.idx

/-- Method `Board::gethash`. -/
def Board.gethash (b : Board) : Nat :=
  if b.num_moves_ > unique_depth then zobrist_slot b.hash 0 else zobrist_get b.hash

/-- Method `Board::update_hash`; it returns the new hash slots. -/
def Board.update_hash (G : Grid) (b : Board) (pos : MoveValid) (side : Side) : List Nat :=
  let turn := side.to_i
  if b.num_moves_ > unique_depth then
    zobrist_update G.strings b.hash 0 (3 * pos.xy + turn)
  else
    let x := pos.x - b.size_r_m1_
    let y := pos.y - b.size_r_m1_
    let z := y - x
    let h := zobrist_update G.strings b.hash 0 (3 * b.xyc x y + turn)
    let h := zobrist_update G.strings h 1 (3 * b.xyc y z + turn)
    let h := zobrist_update G.strings h 2 (3 * b.xyc z (-x) + turn)
    let h := zobrist_update G.strings h 3 (3 * b.xyc (-x) (-y) + turn)
    let h := zobrist_update G.strings h 4 (3 * b.xyc (-y) (-z) + turn)
    let h := zobrist_update G.strings h 5 (3 * b.xyc (-z) x + turn)
    let h := zobrist_update G.strings h 6 (3 * b.xyc y x + turn)
    let h := zobrist_update G.strings h 7 (3 * b.xyc z y + turn)
    let h := zobrist_update G.strings h 8 (3 * b.xyc (-x) z + turn)
    let h := zobrist_update G.strings h 9 (3 * b.xyc (-y) (-x) + turn)
    let h := zobrist_update G.strings h 10 (3 * b.xyc (-z) (-y) + turn)
    zobrist_update G.strings h 11 (3 * b.xyc x (-z) + turn)

/-- Method `Board::test_hash(const MoveValid &, Side)`. -/
def Board.test_hash (G : Grid) (b : Board) (pos : MoveValid) (side : Side) : Nat :=
  let turn := side.to_i
  if b.num_moves_ ≥ unique_depth then
    zobrist_test G.strings b.hash 0 (3 * pos.xy + turn)
  else
    let x := pos.x - b.size_r_m1_
    let y := pos.y - b.size_r_m1_
    let z := y - x
    let m := zobrist_test G.strings b.hash 0 (3 * b.xyc x y + turn)
    let m := min m (zobrist_test G.strings b.hash 1 (3 * b.xyc y z + turn))
    let m := min m (zobrist_test G.strings b.hash 2 (3 * b.xyc z (-x) + turn))
    let m := min m (zobrist_test G.strings b.hash 3 (3 * b.xyc (-x) (-y) + turn))
    let m := min m (zobrist_test G.strings b.hash 4 (3 * b.xyc (-y) (-z) + turn))
    let m := min m (zobrist_test G.strings b.hash 5 (3 * b.xyc (-z) x + turn))
    let m := min m (zobrist_test G.strings b.hash 6 (3 * b.xyc y x + turn))
    let m := min m (zobrist_test G.strings b.hash 7 (3 * b.xyc z y + turn))
    let m := min m (zobrist_test G.strings b.hash 8 (3 * b.xyc (-x) z + turn))
    let m := min m (zobrist_test G.strings b.hash 9 (3 * b.xyc (-y) (-x) + turn))
    let m := min m (zobrist_test G.strings b.hash 10 (3 * b.xyc (-z) (-y) + turn))
    min m (zobrist_test G.strings b.hash 11 (3 * b.xyc x (-z) + turn))

/-- The terminal test of `Board::move`, the `if (checkwin) { ... }` block: from
the representative cell `g` of the new stone, the flag `alreadyjoined` and
the cell array after the joins it computes the new `outcome_` and
`win_type_`. -/
def Board.check_win (G : Grid) (b : Board) (cells : List Cell) (pos : MoveValid) (g : Cell)
    (alreadyjoined : Bool) : Outcome × Int :=
  if g.numedges ≥ 3 then (Outcome.ofSide b.to_play_, 0)
  else if g.numcorners ≥ 2 then (Outcome.ofSide b.to_play_, 1)
  else if b.check_rings && alreadyjoined && decide (g.size ≥ 6) &&
      G.checkring_df b.size_ cells b.perm_rings pos b.to_play_ then (Outcome.ofSide b.to_play_, 2)
  else if b.num_moves_ = b.num_cells_ then (.DRAW, b.win_type_)
  else (b.outcome_, b.win_type_)

/-- The body of `Board::move(const MoveValid &, bool, bool)` after the
assertion.  The call of `update_pattern` touches the pattern cache only. -/
def Board.move_body (G : Grid) (b : Board) (pos : MoveValid) (checkwin permanent : Bool) :
    Bool × Board :=
  if !b.valid_move pos then (false, b)
  else
    let b1 : Board := { b with last_move_ := pos.toMove, num_moves_ := b.num_moves_ + 1 }
    let hash := b1.update_hash G pos b1.to_play_
    let joined := place_stone variant (G.neighbors_small b1.size_ pos.idx) b1.cells_ b1.to_play_
      pos.idx permanent
    let f := if checkwin then find_group joined.2 pos.idx else (pos.idx, joined.2)
    let w := if checkwin then b1.check_win G f.2 pos (cellAt f.2 f.1) joined.1
      else (b1.outcome_, b1.win_type_)
    (true, { b1 with cells_ := f.2, hash := hash, outcome_ := w.1, win_type_ := w.2,
                     to_play_ := b1.to_play_.opp })

/-- Method `Board::move(const MoveValid &, bool checkwin, bool permanent)`.
It opens with `assert(!outcome_.solved())`; `none` is the failed assertion. -/
def Board.move (G : Grid) (b : Board) (pos : MoveValid) (checkwin permanent : Bool) :
    Option (Bool × Board) :=
  if b.outcome_.solved then none else some (b.move_body G pos checkwin permanent)

/-- Method `Board::move(const Move &, bool, bool)`. -/
def Board.move_xy (G : Grid) (b : Board) (pos : Move) (checkwin permanent : Bool) :
    Option (Bool × Board) :=
  b.move G (b.move_valid pos) checkwin permanent

/-- Method `Board::test_outcome(const MoveValid &, Side)`.  It is a `const`
method, but `find_group` writes the `mutable` parent field, so the cell array
after the call is returned as well. -/
def Board.test_outcome (G : Grid) (b : Board) (pos : MoveValid) (turn : Side) : Outcome × Board :=
  let r :=
    if G.test_local b.size_ b.cells_ pos turn then
      let f := find_group b.cells_ pos.idx
      let testcell := cellAt f.2 f.1
      let r := test_neighbors variant turn (G.neighbors_small b.size_ pos.idx) false
        ((testcell, 0), f.2)
      (decide (r.1.1.numcorners ≥ 2) || decide (r.1.1.numedges ≥ 3) ||
        (b.check_rings && decide (r.1.2 ≥ 2) && decide (r.1.1.size ≥ 6) &&
          G.checkring_o1 b.size_ r.2 b.perm_rings pos turn), r.2)
    else (false, b.cells_)
  if r.1 then (Outcome.ofSide turn, { b with cells_ := r.2 })
  else if b.num_moves_ + 1 = b.num_cells_ then (.DRAW, { b with cells_ := r.2 })
  else (.UNKNOWN, { b with cells_ := r.2 })

/-- Method `Board::test_outcome(const Move &, Side)`. -/
def Board.test_outcome_xy (G : Grid) (b : Board) (pos : Move) (turn : Side) : Outcome × Board :=
  b.test_outcome G (b.move_valid pos) turn

end Havannah

/-! ## Concrete grids

Two instances of the parameters, a triangular grid for the Y board and a
hexagonal grid for the Havannah board, on which the definitions can be
evaluated. -/

/-- Six neighbours of the cell with index `i` on a board of side `size`, in
ring order: the cells at the given offsets, with index `-1` when the shape
test `onb` fails. -/
def ring_neighbors (offsets : List (Int × Int)) (onb : Int → Int → Int → Bool) (size : Int)
    (i : Nat) : List MoveValid :=
  offsets.map fun d =>
    let x := (i : Int) % size + d.1
    let y := (i : Int) / size + d.2
    { x := x, y := y, xy := if onb size x y then y * size + x else -1 }

/-- A pre-filter in the role of `test_local`: some neighbour of `pos` is owned
by `turn`. -/
def any_neighbor (nb : Int → Nat → List MoveValid) (size : Int) (cells : List Cell)
    (pos : MoveValid) (turn : Side) : Bool :=
  (nb size pos.idx).any fun m => m.on_board && turn == get cells m.idx

/-- A table of Zobrist strings. -/
def sample_strings (k : Int) : Nat := (k.toNat * 2654435761 + 40503) % 18446744073709551616

namespace Y

def tri_offsets : List (Int × Int) := [(0, -1), (1, -1), (1, 0), (0, 1), (-1, 1), (-1, 0)]

def tri_on_board (size x y : Int) : Bool := decide (0 ≤ x) && decide (0 ≤ y) && decide (x + y < size)

def tri_edges (size x y : Int) : Nat :=
  (if x = 0 then 1 else 0) + (if y = 0 then 2 else 0) + (if x + y = size - 1 then 4 else 0)

/-- The triangular grid: cell `(x, y)` is on the board when `x + y < size`. -/
def triGrid : Grid :=
  { neighbors_small := ring_neighbors tri_offsets tri_on_board
    on_board := tri_on_board
    test_local := any_neighbor (ring_neighbors tri_offsets tri_on_board)
    strings := sample_strings
    edges := tri_edges }

end Y

namespace Havannah

def hex_offsets : List (Int × Int) := [(-1, -1), (0, -1), (1, 0), (1, 1), (0, 1), (-1, 0)]

/-- A cell of the square of side `size = 2 r - 1` is on the hexagon when its
coordinates differ by less than `r`. -/
def hex_on_board (size x y : Int) : Bool :=
  decide (0 ≤ x) && decide (x < size) && decide (0 ≤ y) && decide (y < size) &&
    decide (2 * (x - y) < size + 1) && decide (2 * (y - x) < size + 1)

def hex_corner_mask (size x y : Int) : Nat :=
  let m := (size - 1) / 2
  let e := size - 1
  if x = 0 ∧ y = 0 then 1 else if x = m ∧ y = 0 then 2 else if x = e ∧ y = m then 4
  else if x = e ∧ y = e then 8 else if x = m ∧ y = e then 16 else if x = 0 ∧ y = m then 32 else 0

def hex_edge_mask (size x y : Int) : Nat :=
  let m := (size - 1) / 2
  let e := size - 1
  if hex_corner_mask size x y ≠ 0 then 0
  else if y = 0 then 1 else if x - y = m then 2 else if x = e then 4
  else if y = e then 8 else if y - x = m then 16 else if x = 0 then 32 else 0

/-- The hexagonal grid, with ring detectors that never fire. -/
def hexGrid : Grid :=
  { neighbors_small := ring_neighbors hex_offsets hex_on_board
    on_board := hex_on_board
    test_local := any_neighbor (ring_neighbors hex_offsets hex_on_board)
    strings := sample_strings
    corner_mask := hex_corner_mask
    edge_mask := hex_edge_mask
    checkring_df := fun _ _ _ _ _ => false
    checkring_o1 := fun _ _ _ _ _ => false }

end Havannah

/-! ## Connectivity and the union-find invariant -/

/-- Cell `j` is an on-board entry of the neighbour list of cell `i`. -/
def IsNbr (nb : Nat → List MoveValid) (i j : Nat) : Prop :=
  ∃ m ∈ nb i, m.on_board = true ∧ m.idx = j

instance (nb : Nat → List MoveValid) (i j : Nat) : Decidable (IsNbr nb i j) := by
  unfold IsNbr; infer_instance

/-- Two adjacent cells owned by the same player. -/
def Adj (nb : Nat → List MoveValid) (cells : List Cell) (i j : Nat) : Prop :=
  i < cells.length ∧ j < cells.length ∧ (get cells i).isPlayer = true ∧
    get cells j = get cells i ∧ IsNbr nb i j

/-- Cells joined by a path of adjacent cells of one owner: the connected
components a flood fill computes. -/
def Connected (nb : Nat → List MoveValid) (cells : List Cell) : Nat → Nat → Prop :=
  Relation.ReflTransGen (Adj nb cells)

/-- Any two consecutive on-board entries of the list are adjacent to each
other. -/
def ring_ok (nb : Nat → List MoveValid) : List MoveValid → Bool
  | a :: b :: rest =>
    (!a.on_board || !b.on_board || decide (IsNbr nb a.idx b.idx)) && ring_ok nb (b :: rest)
  | _ => true

/-- What the proofs need of a neighbour list over `n` cells: on-board entries
are cells of the array other than the centre, and two consecutive on-board
entries are adjacent to each other (the list runs around the centre). -/
structure NbrOK (nb : Nat → List MoveValid) (n : Nat) : Prop where
  idx_lt : ∀ i, i < n → ∀ m ∈ nb i, m.on_board = true → m.idx < n
  irrefl : ∀ i, i < n → ∀ m ∈ nb i, m.on_board = true → m.idx ≠ i
  ring : ∀ i, i < n → ring_ok nb (nb i) = true

/-- The number of cells among the first `n` whose representative is `r`. -/
def group_count (rep : Nat → Nat) (n r : Nat) : Nat :=
  (List.range n).countP fun j => decide (rep j = r)

/-- The bitwise OR of the masks `mask j` of the cells `j < n` whose
representative is `r`. -/
def group_mask (mask : Nat → Nat) (rep : Nat → Nat) (n r : Nat) : Nat :=
  (List.range n).foldr (fun j acc => if rep j = r then mask j ||| acc else acc) 0

/-- The invariant of the cell array.  `rep` is the representative of every
cell and `rank` a height that increases along parent links; `E` and `C` are
the edge and corner masks the cells were cleared with; `pend` marks a cell
just placed whose joins are still to be made. -/
structure CellsInv (v : Variant) (nb : Nat → List MoveValid) (E C : Nat → Nat)
    (cells : List Cell) (pend : Nat → Prop) (rep rank : Nat → Nat) : Prop where
  par_lt : ∀ i, i < cells.length → (cellAt cells i).parent < cells.length
  rep_par : ∀ i, i < cells.length → rep (cellAt cells i).parent = rep i
  rank_par : ∀ i, i < cells.length → (cellAt cells i).parent ≠ i →
    rank i < rank (cellAt cells i).parent
  rep_root : ∀ i, i < cells.length → (cellAt cells i).parent = i → rep i = i
  rank_count : ∀ i, i < cells.length → rank i < group_count rep cells.length (rep i)
  single : ∀ i, i < cells.length → (get cells i).isPlayer = false →
    ∀ j, j < cells.length → rep j = rep i → j = i
  piece_rep : ∀ i, i < cells.length → get cells (rep i) = get cells i
  size_eq : ∀ r, r < cells.length → (cellAt cells r).parent = r →
    (cellAt cells r).size = group_count rep cells.length r % v.size_mod
  edge_eq : ∀ r, r < cells.length → (cellAt cells r).parent = r → ∀ k,
    (cellAt cells r).edge.testBit k = true ↔
      ∃ j, j < cells.length ∧ rep j = r ∧ (E j).testBit k = true
  corner_eq : v.corners = true → ∀ r, r < cells.length → (cellAt cells r).parent = r → ∀ k,
    (cellAt cells r).corner.testBit k = true ↔
      ∃ j, j < cells.length ∧ rep j = r ∧ (C j).testBit k = true
  conn : ∀ i, i < cells.length → Connected nb cells i (rep i)
  sym : ∀ i, i < cells.length → (get cells i).isPlayer = true →
    ∀ j, j < cells.length → IsNbr nb i j → IsNbr nb j i
  closed : ∀ i j, Adj nb cells i j → ¬ pend i → ¬ pend j → rep i = rep j

/-- The neighbours the loops of `move` and `test_outcome` act on: the on-board
entries owned by `turn`, without the entry following one that was taken. -/
def taken_neighbors (turn : Side) (cells : List Cell) : List MoveValid → Bool → List MoveValid
  | [], _ => []
  | _ :: rest, true => taken_neighbors turn cells rest false
  | i :: rest, false =>
    if i.on_board && turn == get cells i.idx then i :: taken_neighbors turn cells rest true
    else taken_neighbors turn cells rest false

/-- Two arrays that agree on owner, permanence flag and ring mark of every
cell, the fields the union-find operations never write. -/
def SameStatic (c1 c2 : List Cell) : Prop :=
  ∀ k, (cellAt c1 k).piece = (cellAt c2 k).piece ∧ (cellAt c1 k).perm = (cellAt c2 k).perm ∧
    (cellAt c1 k).mark = (cellAt c2 k).mark

/-- The cells among the first `n` whose group, as `find_group` computes it, is `r`. -/
def group_cells (cells : List Cell) (r : Nat) : List Nat :=
  (List.range cells.length).filter fun j => decide ((find_group cells j).1 = r)

/-! ## Reachable boards -/

namespace Y

/-- The edge mask cell `i` is cleared with. -/
def edge0 (G : Grid) (s : Int) (i : Nat) : Nat := (clear_cell G s i).edge

/-- The corner mask cell `i` is cleared with (none on the Y board). -/
def corner0 (G : Grid) (s : Int) (i : Nat) : Nat := (clear_cell G s i).corner

/-- What is assumed of the grid parameters of a board of side `s`. -/
structure GridOK (G : Grid) (s : Int) : Prop where
  nbr : NbrOK (G.neighbors_small s) (s * s).toNat
  shape : ∀ x y, G.on_board s x y = true → 0 ≤ x ∧ x < s ∧ 0 ≤ y ∧ y < s
  symm : ∀ x y, G.on_board s x y = true → ∀ j, j < (s * s).toNat →
    IsNbr (G.neighbors_small s) (y * s + x).toNat j → IsNbr (G.neighbors_small s) j (y * s + x).toNat

/-- The boards of side `s` that the public interface produces: the
constructor, then any sequence of `clear`, `toggle_to_play` and legal
moves. -/
inductive Reachable (G : Grid) (s : Int) : Board → Prop
  | create : valid_size s = true → Reachable G s (Board.size G Board.blank s).2
  | clear (b : Board) : Reachable G s b → Reachable G s (b.clear G)
  | toggle (b : Board) : Reachable G s b → Reachable G s b.toggle_to_play
  | move (b : Board) (m : Move) (permanent : Bool) (r : Bool) (b1 : Board) :
      Reachable G s b → b.valid_move_xy G m = true →
      b.move_xy G m permanent = some (r, b1) → Reachable G s b1

/-- The invariant of reachable boards. -/
structure BoardInv (G : Grid) (s : Int) (b : Board) : Prop where
  size_eq : b.size_ = s
  sizem1_eq : b.sizem1_ = s - 1
  len : b.cells_.length = (s * s).toNat
  cells : ∃ rep rank, CellsInv variant (G.neighbors_small s) (edge0 G s) (corner0 G s)
    b.cells_ (fun _ => False) rep rank
  to_play : b.to_play_.isPlayer = true
  first : b.first_move.isPlayer = true
  hash_len : b.hash.length = 6

end Y

namespace Havannah

/-- The edge mask cell `i` is cleared with. -/
def edge0 (G : Grid) (s : Int) (i : Nat) : Nat := (clear_cell G s i).edge

/-- The corner mask cell `i` is cleared with. -/
def corner0 (G : Grid) (s : Int) (i : Nat) : Nat := (clear_cell G s i).corner

/-- What is assumed of the grid parameters of a board of diameter `d`. -/
structure GridOK (G : Grid) (d : Int) : Prop where
  nbr : NbrOK (G.neighbors_small d) (d * d).toNat
  shape : ∀ x y, G.on_board d x y = true → 0 ≤ x ∧ x < d ∧ 0 ≤ y ∧ y < d
  symm : ∀ x y, G.on_board d x y = true → ∀ j, j < (d * d).toNat →
    IsNbr (G.neighbors_small d) (y * d + x).toNat j → IsNbr (G.neighbors_small d) j (y * d + x).toNat

/-- The boards of radius `s` that the public interface produces: the
constructor, then any sequence of `clear`, assignments to the public members
`check_rings` and `perm_rings`, and legal moves. -/
inductive Reachable (G : Grid) (s : Int) : Board → Prop
  | create : valid_size s = true → Reachable G s (Board.size G Board.blank s).2
  | clear (b : Board) : Reachable G s b → Reachable G s (b.clear G)
  | rings (b : Board) (c : Bool) (p : Int) :
      Reachable G s b → Reachable G s { b with check_rings := c, perm_rings := p }
  | move (b : Board) (m : Move) (checkwin permanent : Bool) (r : Bool) (b1 : Board) :
      Reachable G s b → b.valid_move_xy G m = true →
      b.move_xy G m checkwin permanent = some (r, b1) → Reachable G s b1

/-- The number of cells owned by `side`. -/
def stones (cells : List Cell) (side : Side) : Nat :=
  (List.range cells.length).countP fun j => decide (get cells j = side)

/-- The invariant of reachable boards. -/
structure BoardInv (G : Grid) (s : Int) (b : Board) : Prop where
  size_eq : b.size_ = s * 2 - 1
  size_r_m1_eq : b.size_r_m1_ = s - 1
  len : b.cells_.length = ((s * 2 - 1) * (s * 2 - 1)).toNat
  cells : ∃ rep rank, CellsInv variant (G.neighbors_small (s * 2 - 1))
    (edge0 G (s * 2 - 1)) (corner0 G (s * 2 - 1)) b.cells_ (fun _ => False) rep rank
  to_play : b.to_play_.isPlayer = true
  hash_len : b.hash.length = 12
  balance : stones b.cells_ .P1 = stones b.cells_ .P2 + (if b.to_play_ = .P2 then 1 else 0)

end Havannah

/-! ## The terminal test of the Havannah board, seen from outside -/

namespace Havannah

/-- The representative cell `cells_[find_group(pos.xy)]` of the group of `pos`. -/
def Board.rep_cell (b : Board) (pos : MoveValid) : Cell :=
  cellAt b.cells_ (find_group b.cells_ pos.idx).1

/-- The ring condition of `Board::move`,
`check_rings && alreadyjoined && g->size >= 6 && checkring_df(pos, to_play_)`,
for the move at `pos` that leads from board `b` to board `b1`. -/
def Board.ring_condition (G : Grid) (b b1 : Board) (pos : MoveValid) (permanent : Bool) : Bool :=
  b.check_rings &&
    (place_stone variant (G.neighbors_small b.size_ pos.idx) b.cells_ b.to_play_ pos.idx
      permanent).1 &&
    decide (6 ≤ (b1.rep_cell pos).size) &&
    G.checkring_df b.size_ b1.cells_ b.perm_rings pos b.to_play_

end Havannah

/-! ## Hash keys and board symmetries -/

/-- The exclusive or of the keys `3 * i + side` of all stones on the board,
taken from the table `strings`. -/
def stone_hash (strings : Int → Nat) (cells : List Cell) : Nat :=
  (List.range cells.length).foldr
    (fun i acc =>
      (if (get cells i).isPlayer then strings (3 * (i : Int) + (get cells i).to_i) else 0) ^^^ acc) 0

namespace Y

/-- The six coordinate maps of `Board::update_hash`, in the order of the hash
slots: with `z = sizem1_ - x - y` slot `k` is keyed by `(x,y)`, `(z,y)`,
`(z,x)`, `(x,z)`, `(y,z)`, `(y,x)`.  They are the symmetries of the
triangle. -/
def sym (sizem1 : Int) (k : Nat) (m : Move) : Move :=
  let x := m.x
  let y := m.y
  let z := sizem1 - x - y
  match k with
  | 0 => ⟨x, y⟩
  | 1 => ⟨z, y⟩
  | 2 => ⟨z, x⟩
  | 3 => ⟨x, z⟩
  | 4 => ⟨y, z⟩
  | _ => ⟨y, x⟩

/-- Row `k` lists, for every slot `j`, the slot whose coordinate map is map
`j` after map `k`. -/
def sym_table : List (List Nat) :=
  [[0, 1, 2, 3, 4, 5],
    [1, 0, 3, 2, 5, 4],
    [2, 5, 4, 1, 0, 3],
    [3, 4, 5, 0, 1, 2],
    [4, 3, 0, 5, 2, 1],
    [5, 2, 1, 4, 3, 0]]

/-- The slot whose coordinate map is map `j` after map `k`. -/
def sym_slot (k j : Nat) : Nat := (sym_table.getD k []).getD j 0

end Y

namespace Havannah

/-- The twelve coordinate maps of `Board::update_hash`, in the order of the
hash slots, on the coordinates centred with `size_r_m1_`: with `z = y - x`
slot `k` is keyed by `(x,y)`, `(y,z)`, `(z,-x)`, `(-x,-y)`, `(-y,-z)`,
`(-z,x)`, `(y,x)`, `(z,y)`, `(-x,z)`, `(-y,-x)`, `(-z,-y)`, `(x,-z)`.  They
are the symmetries of the hexagon. -/
def sym (m1 : Int) (k : Nat) (m : Move) : Move :=
  let x := m.x - m1
  let y := m.y - m1
  let z := y - x
  match k with
  | 0 => ⟨x + m1, y + m1⟩
  | 1 => ⟨y + m1, z + m1⟩
  | 2 => ⟨z + m1, -x + m1⟩
  | 3 => ⟨-x + m1, -y + m1⟩
  | 4 => ⟨-y + m1, -z + m1⟩
  | 5 => ⟨-z + m1, x + m1⟩
  | 6 => ⟨y + m1, x + m1⟩
  | 7 => ⟨z + m1, y + m1⟩
  | 8 => ⟨-x + m1, z + m1⟩
  | 9 => ⟨-y + m1, -x + m1⟩
  | 10 => ⟨-z + m1, -y + m1⟩
  | _ => ⟨x + m1, -z + m1⟩

/-- Row `k` lists, for every slot `j`, the slot whose coordinate map is map
`j` after map `k`. -/
def sym_table : List (List Nat) :=
  [[0, 1, 2, 3, 4, 5, 6, 7, 8, 9, 10, 11],
    [1, 2, 3, 4, 5, 0, 7, 8, 9, 10, 11, 6],
    [2, 3, 4, 5, 0, 1, 8, 9, 10, 11, 6, 7],
    [3, 4, 5, 0, 1, 2, 9, 10, 11, 6, 7, 8],
    [4, 5, 0, 1, 2, 3, 10, 11, 6, 7, 8, 9],
    [5, 0, 1, 2, 3, 4, 11, 6, 7, 8, 9, 10],
    [6, 11, 10, 9, 8, 7, 0, 5, 4, 3, 2, 1],
    [7, 6, 11, 10, 9, 8, 1, 0, 5, 4, 3, 2],
    [8, 7, 6, 11, 10, 9, 2, 1, 0, 5, 4, 3],
    [9, 8, 7, 6, 11, 10, 3, 2, 1, 0, 5, 4],
    [10, 9, 8, 7, 6, 11, 4, 3, 2, 1, 0, 5],
    [11, 10, 9, 8, 7, 6, 5, 4, 3, 2, 1, 0]]

/-- The slot whose coordinate map is map `j` after map `k`. -/
def sym_slot (k j : Nat) : Nat := (sym_table.getD k []).getD j 0

end Havannah

/-! ## Playing move sequences -/

namespace Y

/-- Play a list of moves the way `History::move` does, each one tested with
`valid_move` and then made with `Board::move(const Move &)`; `none` when a
move is not legal. -/
def Board.play (G : Grid) (b : Board) : List Move → Option Board
  | [] => some b
  | m :: ms =>
    if b.valid_move_xy G m then
      match b.move_xy G m true with
      | some (_, b1) => Board.play G b1 ms
      | none => none
    else none

/-- The empty board of side 4 on the triangular grid. -/
def board4 : Board := (Board.size triGrid Board.blank 4).2

/-- A game of seven moves on `board4` in which the first player connects the
three edges with the stones `(0,0)`, `(1,0)`, `(1,1)`, `(1,2)`. -/
def game7 : List Move :=
  [⟨0, 0⟩, ⟨3, 0⟩, ⟨1, 0⟩, ⟨2, 1⟩, ⟨1, 1⟩, ⟨0, 2⟩, ⟨1, 2⟩]

/-- The board after the first `k` moves of `game7`. -/
def after (k : Nat) : Board := ((Board.play triGrid board4 (game7.take k)).getD board4)

end Y

namespace Havannah

/-- Play a list of moves the way `History::move` does, each one tested with
`valid_move` and then made with `Board::move(const Move &)` (`checkwin` and
`permanent` at their default `true`); `none` when a move is not legal. -/
def Board.play (G : Grid) (b : Board) : List Move → Option Board
  | [] => some b
  | m :: ms =>
    if b.valid_move_xy G m then
      match b.move_xy G m true true with
      | some (_, b1) => Board.play G b1 ms
      | none => none
    else none

/-- The empty board of radius 3 on the hexagonal grid. -/
def board3 : Board := (Board.size hexGrid Board.blank 3).2

/-- A game on `board3` in which the first player connects the corners
`(0,0)` and `(2,0)` along the edge between them. -/
def game5 : List Move := [⟨0, 0⟩, ⟨2, 2⟩, ⟨1, 0⟩, ⟨3, 3⟩, ⟨2, 0⟩]

/-- The board after the first `k` moves of `game5`. -/
def after (k : Nat) : Board := ((Board.play hexGrid board3 (game5.take k)).getD board3)

end Havannah

end Morat

namespace Morat

/-! ## The move history (`lib/history.h`) and the board-size command -/

namespace Y

/-- Class `History<Board>` of `lib/history.h`, instantiated with the Y board:
the vectors `hist` and `players` and the board. -/
structure History where
  hist : List Move
  players : List Side
  board : Board
  deriving DecidableEq, Repr

/-- Method `History::len`. -/
def History.len (h : History) : Nat := h.hist.length

/-- Method `History::clear`. -/
def History.clear (G : Grid) (h : History) : History :=
  { hist := [], players := [], board := h.board.clear G }

/-- Method `History::toggle_to_play`. -/
def History.toggle_to_play (h : History) : History :=
  { h with board := h.board.toggle_to_play }

/-- The loop of `History::undo`,
`for (i = 0; i < len(); ++i) { if (players[i] != board.to_play()) toggle_to_play(); board.move(hist[i]); }`:
iteration `i` reads `hist[i]` and `players[i]`, so the two lists are consumed
in step.  The result of `board.move` is discarded.  `none` is a failed
assertion of `Board::move` or a read past the end of `players`. -/
def History.replay (G : Grid) : List Move → List Side → Board → Option Board
  | [], _, b => some b
  | _ :: _, [], _ => none
  | m :: ms, p :: ps, b =>
    let b1 := if p ≠ b.to_play then b.toggle_to_play else b
    match b1.move_xy G m true with
    | none => none
    | some r => History.replay G ms ps r.2

/-- Method `History::undo`.  `none` is a failed assertion inside the replay. -/
def History.undo (G : Grid) (h : History) : Option (Bool × History) :=
  if h.hist.length ≤ 0 then some (false, h)
  else
    match History.replay G h.hist.dropLast h.players.dropLast (h.board.clear G) with
    | none => none
    | some b => some (true, { hist := h.hist.dropLast, players := h.players.dropLast, board := b })

/-- Method `History::move`.  `none` is a failed assertion of `Board::move`. -/
def History.move (G : Grid) (h : History) (m : Move) : Option (Bool × History) :=
  if h.board.valid_move_xy G m then
    match h.board.move_xy G m true with
    | none => none
    | some r =>
      some (true, { hist := h.hist ++ [m], players := h.players ++ [h.board.to_play], board := r.2 })
  else some (false, h)

/-- The histories of boards of side `s` that the public interface produces:
a history constructed on a board that the constructor of `Board` or
`Board::clear` has left, followed by any sequence of `clear`,
`toggle_to_play`, `move` and `undo`. -/
inductive History.Built (G : Grid) (s : Int) : History → Prop
  | create : valid_size s = true →
      History.Built G s { hist := [], players := [], board := (Board.size G Board.blank s).2 }
  | init (c : Board) : Reachable G s c →
      History.Built G s { hist := [], players := [], board := c.clear G }
  | clear (h : History) : History.Built G s h → History.Built G s (h.clear G)
  | toggle (h : History) : History.Built G s h → History.Built G s h.toggle_to_play
  | move (h : History) (m : Move) (r : Bool) (h1 : History) :
      History.Built G s h → h.move G m = some (r, h1) → History.Built G s h1
  | undo (h : History) (r : Bool) (h1 : History) :
      History.Built G s h → h.undo G = some (r, h1) → History.Built G s h1

/-- A replay in which every recorded player is the side to move and every
move is legal when it is made. -/
def History.strict_replay (G : Grid) : List Move → List Side → Board → Option Board
  | [], [], b => some b
  | m :: ms, p :: ps, b =>
    if p = b.to_play ∧ b.valid_move_xy G m = true then
      match b.move_xy G m true with
      | none => none
      | some r => History.strict_replay G ms ps r.2
    else none
  | _, _, _ => none

/-- The board of the history is the one that replaying the recorded moves on
the cleared board gives. -/
def History.Consistent (G : Grid) (s : Int) (h : History) : Prop :=
  Reachable G s h.board ∧
    History.strict_replay G h.hist h.players (h.board.clear G) = some h.board

/-- Calls of `History::move` in a row, whatever they return. -/
def History.play (G : Grid) (h : History) : List Move → History
  | [] => h
  | m :: ms =>
    match h.move G m with
    | some r => History.play G r.2 ms
    | none => h

/-- The history of a game on `board4` in which the second player starts:
`toggle_to_play`, then the moves `(0,0)` and `(3,0)`. -/
def hist_sample : History :=
  History.play triGrid (History.toggle_to_play { hist := [], players := [], board := board4 })
    [⟨0, 0⟩, ⟨3, 0⟩]

/-- A GTP response: the success flag and the text. -/
structure GTPResponse where
  success : Bool
  response : String
  deriving DecidableEq, Repr

/-- The part of the class `GTP` that `gtp_boardsize` touches: the history
`hist`, and in `rest` the agent and the time control, which `set_board()` and
`time_control.new_game()` update. -/
structure GTP (α : Type) where
  hist : History
  rest : α

/-- Method `GTP::gtp_boardsize` of `y/gtpgeneral.cpp`.  `from_str` is
`from_str<int>` of `lib/string.h`; `set_board` and `new_game` stand for
`GTP::set_board()` and `time_control.new_game()`, whose bodies are in files not
at hand.  `none` is the failed assertion of the constructor `Board(args[0])`. -/
def GTP.gtp_boardsize {α : Type} (G : Grid) (from_str : String → Int)
    (set_board : History → α → α) (new_game : α → α) (g : GTP α) (args : List String) :
    Option (GTPResponse × GTP α) :=
  if args.length ≠ 1 then
    some ({ success := false, response := "Current board size: " ++ toString g.hist.board.size_ }, g)
  else if !valid_size (from_str (args.headD "")) then
    some ({ success := false, response := "Size " ++ args.headD "" ++ " is out of range." }, g)
  else
    match Board.create G (from_str (args.headD "")) with
    | none => none
    | some b =>
      let hist : History := { hist := [], players := [], board := b }
      some ({ success := true, response := "" }, { hist := hist, rest := new_game (set_board hist g.rest) })

/-- A decimal reader standing for `from_str<int>` on strings of digits. -/
def sample_from_str (s : String) : Int :=
  ((s.data.foldl (fun n c => 10 * n + (c.toNat - 48)) 0 : Nat) : Int)

/-- A state of the GTP front end on the sample history; nothing of the agent
and the time control is kept. -/
def gtp_sample : GTP Unit := { hist := hist_sample, rest := () }

end Y

end Morat

namespace Morat

/-! ## The search tree of `AgentMCTS` (`y/agentmcts.cpp`)

The class declaration (`y/agentmcts.h`) and the statistics pair
(`lib/exppair.h`) are not part of the sources at hand; the node type below
carries the fields that `Node::to_s` and `Node::from_s` of `agentmcts.cpp`
list. -/

/-- Modelled from the spec: the comparison `outcome == side` of an outcome
with a side, on their integer values. -/
def Outcome.is_side (o : Outcome) (s : Side) : Bool := decide (o.to_i = s.to_i)

namespace Y

/-- Modelled from the spec: the special move `M_UNKNOWN` of `lib/move.h`. -/
def M_UNKNOWN : Move := { x := 120, y := -4 }

/-- Modelled from the spec: the special move `M_RESIGN` of `lib/move.h`. -/
def M_RESIGN : Move := { x := 120, y := -2 }

/-- Modelled from the spec: `ExpPair`, the statistics `(wins, playouts)` of a
node: `n` playouts and the wins `s`, counted twice so that a tie counts
once. -/
structure ExpPair where
  s : Nat
  n : Nat
  deriving DecidableEq, Repr

/-- Modelled from the spec: `ExpPair::num`, the number of playouts. -/
def ExpPair.num (e : ExpPair) : Nat := e.n

/-- Modelled from the spec: `ExpPair::sum`, the number of wins. -/
def ExpPair.sum (e : ExpPair) : Nat := e.s / 2

/-- Modelled from the spec: `ExpPair::addwins(num)`, `num` more playouts, all
of them won. -/
def ExpPair.addwins (e : ExpPair) (num : Nat) : ExpPair := { s := e.s + 2 * num, n := e.n + num }

/-- Modelled from the spec: `AgentMCTS::Node`,
`{move, direct_stats, rave_stats, knowledge_bonus, outcome, proof_depth,
best_move_if_proven, children}`, with the field names of `Node::to_s`. -/
inductive Node where
  | mk (move : Move) (exp : ExpPair) (rave : ExpPair) (know : Int) (outcome : Outcome)
      (proofdepth : Nat) (bestmove : Move) (children : List Node)

def Node.move : Node → Move
  | .mk m _ _ _ _ _ _ _ => m
def Node.exp : Node → ExpPair
  | .mk _ e _ _ _ _ _ _ => e
def Node.rave : Node → ExpPair
  | .mk _ _ r _ _ _ _ _ => r
def Node.know : Node → Int
  | .mk _ _ _ k _ _ _ _ => k
def Node.outcome : Node → Outcome
  | .mk _ _ _ _ o _ _ _ => o
def Node.proofdepth : Node → Nat
  | .mk _ _ _ _ _ d _ _ => d
def Node.bestmove : Node → Move
  | .mk _ _ _ _ _ _ b _ => b
def Node.children : Node → List Node
  | .mk _ _ _ _ _ _ _ c => c

/-- The node with another children array (`swap_tree` with a node that owns
`c`). -/
def Node.with_children : Node → List Node → Node
  | .mk m e r k o d b _, c => .mk m e r k o d b c

/-- The assignment `node.move = m`. -/
def Node.with_move : Node → Move → Node
  | .mk _ e r k o d b c, m => .mk m e r k o d b c

/-- The assignment `node.exp = e`. -/
def Node.with_exp : Node → ExpPair → Node
  | .mk m _ r k o d b c, e => .mk m e r k o d b c

/-- The assignment `node.outcome = o`. -/
def Node.with_outcome : Node → Outcome → Node
  | .mk m e r k _ d b c, o => .mk m e r k o d b c

/-- Modelled from the spec: the default constructor `Node()`, a leaf without
statistics, with unknown outcome and no move. -/
def Node.fresh : Node := .mk M_UNKNOWN ⟨0, 0⟩ ⟨0, 0⟩ 0 .UNKNOWN 0 M_UNKNOWN []

mutual
/-- Modelled from the spec: `Node::size`, the number of nodes below a node. -/
def Node.size : Node → Nat
  | .mk _ _ _ _ _ _ _ c => Node.size_list c
/-- The number of nodes of an array of children and below them. -/
def Node.size_list : List Node → Nat
  | [] => 0
  | c :: cs => 1 + Node.size c + Node.size_list cs
end

/-- Modelled from the spec: `Node::dealloc`, "deallocation recursively frees a
subtree bottom-up and returns the freed count": the count and the node, left
without children. -/
def Node.dealloc (n : Node) : Nat × Node := (n.size, n.with_children [])

/-- The two values of `return_move` whose bodies are not at hand:
`child.value(msrave, 0, 0)`, a function of the statistics, the RAVE statistics
and the knowledge of the child, and the term
`msexplore*sqrt(log(node->exp.num())/(child.exp.num() + 1))`, a function of
the two playout counts.  Both are taken as finite numbers. -/
structure Scoring where
  value : ExpPair → ExpPair → Int → Int → ℚ
  explore : Nat → Nat → ℚ

/-- The state of `AgentMCTS` that `move`, `return_move`, `get_pv` and
`garbage_collect` read and write.  The thread pool, which `move` pauses and
resumes, is left out. -/
structure AgentMCTS where
  root : Node
  rootboard : Board
  nodes : Nat
  keeptree : Bool
  visitexpand : Nat
  msrave : Int
  gcsolved : Nat
  gclimit : Nat

/-- The value `val` that the loop of `return_move` gives a child.  The
integers are exact in `double` for playout counts below `2^53`. -/
def AgentMCTS.child_val (a : AgentMCTS) (sc : Scoring) (node : Node) (to_play : Side)
    (child : Node) : ℚ :=
  if Outcome.DRAW.to_i ≤ child.outcome.to_i then
    if child.outcome.is_side to_play then 800000000000 - (child.exp.num : ℚ)
    else if child.outcome = .DRAW then -400000000000 + (child.exp.num : ℚ)
    else -800000000000 + (child.exp.num : ℚ)
  else
    if a.msrave = -1 then (child.exp.num : ℚ)
    else if a.msrave = -2 then (child.exp.sum : ℚ)
    else sc.value child.exp child.rave child.know a.msrave - sc.explore node.exp.num child.exp.num

/-- The loop of `return_move` over the children: the pair `(maxval, ret)`. -/
def AgentMCTS.return_scan (a : AgentMCTS) (sc : Scoring) (node : Node) (to_play : Side) :
    List Node → ℚ × Option Node → ℚ × Option Node
  | [], st => st
  | child :: rest, st =>
    if st.1 < a.child_val sc node to_play child then
      AgentMCTS.return_scan a sc node to_play rest (a.child_val sc node to_play child, some child)
    else AgentMCTS.return_scan a sc node to_play rest st

/-- Method `AgentMCTS::return_move(const Node *, Side, int)`; `none` is a
failed assertion.  The `verbose` branch only logs. -/
def AgentMCTS.return_move (a : AgentMCTS) (sc : Scoring) (node : Node) (to_play : Side) :
    Option Move :=
  if Outcome.DRAW.to_i ≤ node.outcome.to_i then some node.bestmove
  else if node.children.isEmpty then none
  else
    match (a.return_scan sc node to_play node.children (-1000000000000, none)).2 with
    | none => none
    | some ret => some ret.move

/-- The class of a child in the order of `return_move`: 3 for a child proven
as the win of `to_play`, 2 for a child that is not proven, 1 for a child
proven a draw, 0 for a child proven as a loss of `to_play`. -/
def AgentMCTS.child_rank (to_play : Side) (child : Node) : Nat :=
  if Outcome.DRAW.to_i ≤ child.outcome.to_i then
    if child.outcome.is_side to_play then 3 else if child.outcome = .DRAW then 1 else 0
  else 2

mutual
/-- The loop of `AgentMCTS::get_pv` from the node `n`, with the moves of the
argument `moves` that are still to be used:
`while (n && !n->children.empty()) { m = (i < moves.size() ? moves[i++] : return_move(n, turn)); pv.push_back(m); n = find_child(n, m); turn = ~turn; }`.
`none` is a failed assertion of `return_move`. -/
def AgentMCTS.pv_node (a : AgentMCTS) (sc : Scoring) : Node → Side → List Move → Option (List Move)
  | .mk m e r k o d b c, turn, moves =>
    if c.isEmpty then some []
    else
      match (match moves with
        | mv :: _ => some mv
        | [] => a.return_move sc (.mk m e r k o d b c) turn) with
      | none => none
      | some mv => (AgentMCTS.pv_find a sc mv c turn.opp moves.tail).map (fun pv => mv :: pv)
/-- The call `find_child(n, m)` on the children of `n`, a search for the first
child with move `mv`, followed by the rest of the loop of `get_pv`. -/
def AgentMCTS.pv_find (a : AgentMCTS) (sc : Scoring) (mv : Move) :
    List Node → Side → List Move → Option (List Move)
  | [], _, _ => some []
  | c :: cs, turn, moves =>
    if c.move = mv then AgentMCTS.pv_node a sc c turn moves
    else AgentMCTS.pv_find a sc mv cs turn moves
end

/-- Method `AgentMCTS::get_pv(const vecmove &)`. -/
def AgentMCTS.get_pv (a : AgentMCTS) (sc : Scoring) (moves : List Move) : Option (List Move) :=
  (a.pv_node sc a.root a.rootboard.to_play moves).map
    (fun pv => if pv.length = 0 then [M_RESIGN] else pv)

/-- Method `AgentMCTS::find_child`, on the children of the node. -/
def AgentMCTS.find_child (children : List Node) (m : Move) : Option Node :=
  children.find? (fun c => decide (c.move = m))

/-- The loop of `AgentMCTS::move` over `root.children`: the copy `child` of
the first child whose move is `m`, with the subtree of that child swapped in,
and the array after the swap, in which that child has no children left.
Without such a child, `child` stays the default node `fresh`. -/
def AgentMCTS.take_child (fresh : Node) (m : Move) : List Node → Node × List Node
  | [] => (fresh, [])
  | i :: rest =>
    if i.move = m then (i, i.with_children [] :: rest)
    else ((AgentMCTS.take_child fresh m rest).1, i :: (AgentMCTS.take_child fresh m rest).2)

/-- The root that `AgentMCTS::move` leaves when the tree reuse gave the node
`r` and the move led to the board `rb`: the statements
`root.exp.addwins(visitexpand+1); if (rootboard.outcome() < Outcome::DRAW) root.outcome = Outcome::UNKNOWN;`. -/
def AgentMCTS.new_root (a : AgentMCTS) (r : Node) (rb : Board) : Node :=
  if rb.outcome.to_i < Outcome.DRAW.to_i then
    (r.with_exp (r.exp.addwins (a.visitexpand + 1))).with_outcome .UNKNOWN
  else r.with_exp (r.exp.addwins (a.visitexpand + 1))

/-- Method `AgentMCTS::move`; `fresh` is the value of `Node()`.  `none` is a
failed assertion, of `move` itself or of `rootboard.move(m)`. -/
def AgentMCTS.move (G : Grid) (fresh : Node) (a : AgentMCTS) (m : Move) : Option AgentMCTS :=
  let r : Node × Nat :=
    if a.keeptree && decide (a.root.children.length > 0) then
      let t := AgentMCTS.take_child fresh m a.root.children
      let d := (a.root.with_children t.2).dealloc
      (t.1, a.nodes - d.1)
    else
      let d := a.root.dealloc
      (fresh.with_move m, a.nodes - d.1)
  if r.2 ≠ r.1.size then none
  else
    match a.rootboard.move_xy G m true with
    | none => none
    | some rb =>
      some { a with root := a.new_root r.1 rb.2, nodes := r.2, rootboard := rb.2 }

/-- The condition of `garbage_collect` under which the subtree of `child` is
kept, for a parent with outcome `o` and the side `to_play`. -/
def AgentMCTS.gc_keep (a : AgentMCTS) (o : Outcome) (to_play : Side) (child : Node) : Bool :=
  (o.solved && decide (child.exp.num > a.gcsolved) &&
      (!o.is_side to_play || child.outcome.is_side to_play)) ||
    (!o.solved &&
      decide (child.exp.num > (if child.outcome.solved then a.gcsolved else a.gclimit)))

mutual
/-- Method `AgentMCTS::garbage_collect(Node &, Side)`: the node after the
call and the number of nodes freed, which the method subtracts from
`nodes`. -/
def AgentMCTS.garbage_collect (a : AgentMCTS) : Node → Side → Node × Nat
  | .mk m e r k o d b c, to_play =>
    (.mk m e r k o d b (AgentMCTS.gc_children a o c to_play).1,
      (AgentMCTS.gc_children a o c to_play).2)
/-- The loop of `garbage_collect` over the children of a node with outcome
`o`. -/
def AgentMCTS.gc_children (a : AgentMCTS) (o : Outcome) : List Node → Side → List Node × Nat
  | [], _ => ([], 0)
  | child :: rest, to_play =>
    if child.children.length = 0 then
      (child :: (AgentMCTS.gc_children a o rest to_play).1,
        (AgentMCTS.gc_children a o rest to_play).2)
    else if a.gc_keep o to_play child then
      ((AgentMCTS.garbage_collect a child to_play.opp).1 ::
          (AgentMCTS.gc_children a o rest to_play).1,
        (AgentMCTS.garbage_collect a child to_play.opp).2 +
          (AgentMCTS.gc_children a o rest to_play).2)
    else
      (child.dealloc.2 :: (AgentMCTS.gc_children a o rest to_play).1,
        child.dealloc.1 + (AgentMCTS.gc_children a o rest to_play).2)
end

/-! ### Sample trees -/

/-- A leaf with move `m`, wins `s / 2` of `n` playouts and outcome `o`. -/
def leaf (m : Move) (s n : Nat) (o : Outcome) : Node := .mk m ⟨s, n⟩ ⟨0, 0⟩ 0 o 0 M_UNKNOWN []

/-- A scoring whose two values are constantly `0`. -/
def sc_zero : Scoring := { value := fun _ _ _ _ => 0, explore := fun _ _ => 0 }

/-- An unproven node with three children: `(0,0)` proven a draw, `(1,0)`
proven as the win of the second player, `(2,0)` not proven. -/
def node_sample : Node :=
  .mk M_UNKNOWN ⟨20, 30⟩ ⟨0, 0⟩ 0 .UNKNOWN 0 M_UNKNOWN
    [leaf ⟨0, 0⟩ 0 10 .DRAW, leaf ⟨1, 0⟩ 0 7 .P2, leaf ⟨2, 0⟩ 6 5 .UNKNOWN]

/-- A node proven as the win of the first player, with best move `(1,1)`. -/
def node_proven : Node := .mk ⟨0, 0⟩ ⟨8, 4⟩ ⟨0, 0⟩ 0 .P1 3 ⟨1, 1⟩ []

/-- An agent with the settings of the constructor of `AgentMCTS`, the tree
`node_sample` and the empty board of side 4. -/
def agent_sample : AgentMCTS :=
  { root := node_sample, rootboard := board4, nodes := 3, keeptree := true, visitexpand := 1,
    msrave := -2, gcsolved := 100000, gclimit := 5 }

/-- A node proven as the win of the first player with two children that have
children of their own: `(0,0)`, proven as that win, with 10 playouts, and
`(1,0)`, not proven, with 200000 playouts. -/
def node_deep : Node :=
  .mk M_UNKNOWN ⟨400040, 200020⟩ ⟨0, 0⟩ 0 .P1 3 ⟨0, 0⟩
    [.mk ⟨0, 0⟩ ⟨20, 10⟩ ⟨0, 0⟩ 0 .P1 2 ⟨1, 0⟩ [leaf ⟨1, 0⟩ 2 1 .P1],
      .mk ⟨1, 0⟩ ⟨0, 200000⟩ ⟨0, 0⟩ 0 .UNKNOWN 0 M_UNKNOWN [leaf ⟨0, 0⟩ 0 1 .UNKNOWN]]

/-- A node proven as the win of the first player whose child `(0,0)`, proven
as that win, has 150000 playouts and a child of its own. -/
def node_proof : Node :=
  .mk M_UNKNOWN ⟨300040, 150020⟩ ⟨0, 0⟩ 0 .P1 3 ⟨0, 0⟩
    [.mk ⟨0, 0⟩ ⟨300000, 150000⟩ ⟨0, 0⟩ 0 .P1 2 ⟨1, 0⟩ [leaf ⟨1, 0⟩ 2 1 .P1]]

/-- The sample agent on the tree `node_deep`. -/
def agent_deep : AgentMCTS := { agent_sample with root := node_deep, nodes := 4 }

end Y

end Morat

namespace Morat

/-! ## The ring check of the Havannah board -/

/-- Some entry of the list and a later entry are related by `R`. -/
def has_pair (R : Nat → Nat → Prop) : List MoveValid → Prop
  | [] => False
  | x :: xs => (∃ y ∈ xs, R x.idx y.idx) ∨ has_pair R xs

namespace Havannah

/-- The hexagonal grid with a ring detector `checkring_df` that always
fires. -/
def hexGridRing : Grid := { hexGrid with checkring_df := fun _ _ _ _ _ => true }

/-- A game on `board3` after which the first player owns the groups
`(0,0) (1,1) (2,1)` and `(3,3) (2,3)`, which the empty cell `(3,2)` lies
between, and the second player owns the centre and four corners. -/
def game10 : List Move :=
  [⟨0, 0⟩, ⟨2, 2⟩, ⟨1, 1⟩, ⟨2, 0⟩, ⟨2, 1⟩, ⟨4, 2⟩, ⟨3, 3⟩, ⟨4, 4⟩, ⟨2, 3⟩, ⟨2, 4⟩]

/-- The board after `game10`. -/
def ring_board : Board := (Board.play hexGrid board3 game10).getD board3

end Havannah

end Morat

namespace Morat

/-! ## Parent chains -/

/-- The cell reached from cell `i` by following the parent links `k` times. -/
def follow (cells : List Cell) : Nat → Nat → Nat
  | 0, i => i
  | k + 1, i => follow cells k (cellAt cells i).parent

/-- A parent array whose chains end in a self-parented cell (so that they are
acyclic): every parent link points into the array, and from every cell some
number of steps along the links leads to a cell that is its own parent. -/
def Rooted (cells : List Cell) : Prop :=
  ∀ i, i < cells.length → (cellAt cells i).parent < cells.length ∧
    ∃ k, (cellAt cells (follow cells k i)).parent = follow cells k i

/-- A parent array of six cells with the chains `4 → 3 → 1 → 0`, `2 → 2` and
`5 → 2`; cell `i` has size `i + 1` and edge mask `i`. -/
def chain_cells : List Cell :=
  [0, 0, 2, 1, 3, 2].enum.map fun (ip : Nat × Nat) =>
    { piece := .P1, size := ip.1 + 1, parent := ip.2, corner := 0, edge := ip.1, mark := 0, perm := 0 }

namespace Havannah

/-! ## `encirclable` -/

/-- The test `g->piece == otherplayer && (g->edge || g->corner)` of
`Board::encirclable`. -/
def Cell.connected_to (g : Cell) (otherplayer : Side) : Bool :=
  g.piece == otherplayer && (decide (g.edge ≠ 0) || decide (g.corner ≠ 0))

/-- The loop `for (auto m : neighbors_small(posxy))` of `Board::encirclable`;
the calls of `find_group` compress paths in the cell array, which is threaded
through. -/
def encirclable_loop (otherplayer : Side) : List MoveValid → List Cell → Bool × List Cell
  | [], cells => (true, cells)
  | m :: rest, cells =>
    if !m.on_board then (false, cells)
    else if Cell.connected_to (cellAt (find_group cells m.idx).2 (find_group cells m.idx).1)
        otherplayer then
      (false, (find_group cells m.idx).2)
    else encirclable_loop otherplayer rest (find_group cells m.idx).2

/-- Method `Board::encirclable(const Move pos, Side player)`.  It is a `const`
method, but `find_group` writes the `mutable` parent field, so the board after
the call is returned as well. -/
def Board.encirclable (G : Grid) (b : Board) (pos : Move) (player : Side) : Bool × Board :=
  let otherplayer := player.opp
  let posxy := (b.xy pos.x pos.y).toNat
  let f := find_group b.cells_ posxy
  if Cell.connected_to (cellAt f.2 f.1) otherplayer then (false, { b with cells_ := f.2 })
  else
    let r := encirclable_loop otherplayer (G.neighbors_small b.size_ posxy) f.2
    (r.1, { b with cells_ := r.2 })

/-- The group of cell `c`, the cells connected with it, is owned by `side` and
contains a cell of an edge or a corner of the board. -/
def Board.group_touches (G : Grid) (b : Board) (side : Side) (c : Nat) : Prop :=
  b.get c = side ∧ ∃ j, j < b.cells_.length ∧
    Connected (G.neighbors_small b.size_) b.cells_ c j ∧
    (edge0 G b.size_ j ≠ 0 ∨ corner0 G b.size_ j ≠ 0)

end Havannah

namespace Y

/-! ## The node counter of `AgentMCTS` and the expansion of a leaf -/

/-- The number of empty cells of the board, the cells owned by `Side::NONE`. -/
def Board.empty_cells (b : Board) : Nat :=
  (List.range b.cells_.length).countP fun i => b.get i == .NONE

/-- Modelled from the spec: the constructor `Node(move)` of `y/agentmcts.h`,
"each seeded as a fresh leaf": the default node with the move set. -/
def Node.of_move (m : Move) : Node := Node.fresh.with_move m

/-- The constructor `AgentMCTS(const Board &)`: the member `root` is
default-constructed (`fresh` is the value of `Node()`), `Agent(b)` copies the
board, and the body sets the counter and the settings. -/
def AgentMCTS.create (fresh : Node) (b : Board) : AgentMCTS :=
  { root := fresh, rootboard := b, nodes := 0, keeptree := true, visitexpand := 1, msrave := -2,
    gcsolved := 100000, gclimit := 5 }

/-- Method `AgentMCTS::set_board`:
`nodes -= root.dealloc(ctmem); root = Node(); root.exp.addwins(visitexpand+1); rootboard = board;`.
The counter is unsigned; the subtraction is exact as long as the counter is
not smaller than the count freed. -/
def AgentMCTS.set_board (fresh : Node) (a : AgentMCTS) (board : Board) : AgentMCTS :=
  { a with
    nodes := a.nodes - a.root.dealloc.1
    root := fresh.with_exp (fresh.exp.addwins (a.visitexpand + 1))
    rootboard := board }

/-- Method `AgentMCTS::create_children_simple(const Board &, Node *)`.  `moves`
is what the loop `for (auto move : board)` yields; the iterator is part of a
library header that is not at hand.  The children array is allocated with
`board.moves_avail()` slots and filled with `Node(move)` in the order of the
loop.  The result is the node with its children and the number
`node->children.num()` that is added to `nodes`.  `none` is a failed
assertion: the node has children already, or the loop does not end exactly at
the end of the array (a loop that runs longer writes past the array). -/
def AgentMCTS.create_children_simple (moves : List Move) (board : Board) (node : Node) :
    Option (Node × Nat) :=
  if !node.children.isEmpty then none
  else if (moves.length : Int) ≠ board.moves_avail then none
  else some (node.with_children (moves.map Node.of_move), moves.length)

/-- The ten cells of the board of side 4, row by row. -/
def cells4 : List Move :=
  [⟨0, 0⟩, ⟨1, 0⟩, ⟨2, 0⟩, ⟨3, 0⟩, ⟨0, 1⟩, ⟨1, 1⟩, ⟨2, 1⟩, ⟨0, 2⟩, ⟨1, 2⟩, ⟨0, 3⟩]

mutual
/-- The node that a path of child indices leads to from a node. -/
def Node.get_at : Node → List Nat → Option Node
  | .mk m e r k o d b c, path =>
    match path with
    | [] => some (.mk m e r k o d b c)
    | i :: rest => Node.get_list c i rest
/-- The node that a path leads to from child `i` of an array of children. -/
def Node.get_list : List Node → Nat → List Nat → Option Node
  | [], _, _ => none
  | c :: cs, i, path =>
    match i with
    | 0 => Node.get_at c path
    | j + 1 => Node.get_list cs j path
end

mutual
/-- The tree in which the node at the end of a path is replaced by `new`. -/
def Node.subst : Node → List Nat → Node → Node
  | .mk m e r k o d b c, path, new =>
    match path with
    | [] => new
    | i :: rest => .mk m e r k o d b (Node.subst_list c i rest new)
/-- The array of children in which the node at the end of a path from child
`i` is replaced by `new`. -/
def Node.subst_list : List Node → Nat → List Nat → Node → List Node
  | [], _, _, _ => []
  | c :: cs, i, path, new =>
    match i with
    | 0 => Node.subst c path new :: cs
    | j + 1 => c :: Node.subst_list cs j path new
end

end Y

end Morat

namespace Morat

namespace Y

/-! ## The play commands of the GTP front end (`y/gtpgeneral.cpp`) -/

/-- Modelled from the spec: `GTP::move(const Move &)` of `y/gtp.h`, which is
not among the sources, `commit_move(move)`: the move goes to the history and
to the agent.  `agent_move` stands for `agent->move(m)` on the rest of the
state.  `none` is a failed assertion of `Board::move`. -/
def GTP.move {α : Type} (G : Grid) (agent_move : Move → α → α) (g : GTP α) (m : Move) :
    Option (GTP α) :=
  match g.hist.move G m with
  | none => none
  | some r => some { hist := r.2, rest := agent_move m g.rest }

/-- Method `GTP::play(const std::string & pos, Side to_play)`.  `parse` is the
constructor `Move(std::string)` of `lib/move.h`.  The `verbose` branch only
logs. -/
def GTP.play {α : Type} (G : Grid) (parse : String → Move) (agent_move : Move → α → α)
    (g : GTP α) (pos : String) (to_play : Side) : Option (GTPResponse × GTP α) :=
  if to_play ≠ g.hist.board.to_play then
    some ({ success := false, response := "It is the other player's turn!" }, g)
  else if Outcome.DRAW.to_i ≤ g.hist.board.outcome.to_i then
    some ({ success := false, response := "The game is already over." }, g)
  else if !g.hist.board.valid_move_xy G (parse pos) then
    some ({ success := false, response := "Invalid move" }, g)
  else
    match GTP.move G agent_move g (parse pos) with
    | none => none
    | some g1 => some ({ success := true, response := "" }, g1)

/-- The loop of `GTP::gtp_playgame`,
`for (i = 0; ret.success && i < args.size(); i++) ret = play(args[i], hist->to_play());`,
on the arguments that are left. -/
def GTP.playgame_loop {α : Type} (G : Grid) (parse : String → Move)
    (agent_move : Move → α → α) : List String → GTPResponse × GTP α →
    Option (GTPResponse × GTP α)
  | [], st => some st
  | arg :: rest, st =>
    if st.1.success then
      match GTP.play G parse agent_move st.2 arg st.2.hist.board.to_play with
      | none => none
      | some st1 => GTP.playgame_loop G parse agent_move rest st1
    else some st

/-- Method `GTP::gtp_playgame`. -/
def GTP.gtp_playgame {α : Type} (G : Grid) (parse : String → Move)
    (agent_move : Move → α → α) (g : GTP α) (args : List String) :
    Option (GTPResponse × GTP α) :=
  GTP.playgame_loop G parse agent_move args ({ success := true, response := "" }, g)

/-- A reader of moves written as a letter for the row and a digit for the
column, `a1` for `(0,0)`, standing for `Move(std::string)`. -/
def sample_move (s : String) : Move :=
  match s.data with
  | [c, d] => { x := (d.toNat : Int) - 49, y := (c.toNat : Int) - 97 }
  | _ => M_UNKNOWN

/-- The sample state after the move `(0,1)`, written `b1`, of the second
player. -/
def gtp_b1 : GTP Unit :=
  (GTP.move triGrid (fun _ u => u) gtp_sample ⟨0, 1⟩).getD gtp_sample

/-- A state of the front end at the end of the sample game `game7`, which the
first player has won. -/
def gtp_over : GTP Unit :=
  { hist := History.play triGrid { hist := [], players := [], board := board4 } game7, rest := () }

end Y

end Morat

namespace Morat

namespace Y

/-! ## Trees of legal moves -/

mutual
/-- Every node of the tree below a node at the position `b` has children that
are legal moves of its position: the move of each child is a valid move of
the board, and the child is at the position that the move leads to. -/
def AgentMCTS.legal_node (G : Grid) : Node → Board → Bool
  | .mk _ _ _ _ _ _ _ c, b => AgentMCTS.legal_children G c b
/-- The children of a node at the position `b` are legal moves, and so are
those of the nodes below them. -/
def AgentMCTS.legal_children (G : Grid) : List Node → Board → Bool
  | [], _ => true
  | c :: cs, b =>
    (b.valid_move_xy G c.move &&
      match b.move_xy G c.move true with
      | some r => AgentMCTS.legal_node G c r.2
      | none => false) &&
    AgentMCTS.legal_children G cs b
end

mutual
/-- Every child in the tree below a node has fewer than `4 * 10^11` playouts
and, unless the agent ranks by one of the two counts (`msrave` is `-1` or
`-2`), a search value above the start value `-10^12` of the loop of
`return_move`. -/
def AgentMCTS.scored (a : AgentMCTS) (sc : Scoring) : Node → Prop
  | .mk _ e _ _ _ _ _ c => AgentMCTS.scored_list a sc e.num c
/-- The condition of `scored` on the children of a node with `pn` playouts. -/
def AgentMCTS.scored_list (a : AgentMCTS) (sc : Scoring) : Nat → List Node → Prop
  | _, [] => True
  | pn, c :: cs =>
    (c.exp.num < 400000000000 ∧
      (a.msrave = -1 ∨ a.msrave = -2 ∨
        (c.outcome.to_i < Outcome.DRAW.to_i →
          -1000000000000 < sc.value c.exp c.rave c.know a.msrave - sc.explore pn c.exp.num))) ∧
    AgentMCTS.scored a sc c ∧ AgentMCTS.scored_list a sc pn cs
end

/-- A tree of legal moves on the empty board of side 4: the root has the
children `(0,0)` and `(1,0)`, the first of them the child `(1,0)`. -/
def node_legal : Node :=
  .mk M_UNKNOWN ⟨20, 30⟩ ⟨0, 0⟩ 0 .UNKNOWN 0 M_UNKNOWN
    [.mk ⟨0, 0⟩ ⟨12, 10⟩ ⟨0, 0⟩ 0 .UNKNOWN 0 M_UNKNOWN [leaf ⟨1, 0⟩ 2 3 .UNKNOWN],
      leaf ⟨1, 0⟩ 6 5 .UNKNOWN]

/-- The sample agent on the tree `node_legal`. -/
def agent_legal : AgentMCTS := { agent_sample with root := node_legal, nodes := 3 }

end Y

end Morat

namespace Morat

/-! ## Counting the cells of the shape -/

/-- The number of cells of the array of a board of side `s` that the shape
test `on_board` accepts. -/
def Grid.on_board_count (G : Grid) (s : Int) : Nat :=
  (List.range (s * s).toNat).countP fun (i : Nat) =>
    G.on_board s ((i : Int) % s) ((i : Int) / s)

namespace Y

/-- What a reachable board of side `s` keeps besides `BoardInv`: the count
`num_cells_` that `size` has computed, the empty cells are cells of the
shape, and the empty cells and the moves made add up to the cells of the
shape. -/
structure CountInv (G : Grid) (s : Int) (b : Board) : Prop where
  cells_eq : b.num_cells_ = s * s - s * (s - 1) / 2
  on_shape : ∀ i, i < b.cells_.length → b.get i = .NONE →
    G.on_board s ((i : Int) % s) ((i : Int) / s) = true
  count : (b.empty_cells : Int) + b.num_moves_ = (G.on_board_count s : Int)

end Y

end Morat

namespace Morat

/-! ## The queries for a hypothetical move (`test_cell`, `test_connectivity`, `test_size`) -/

/-- The sum of the `size` fields of the representatives of the groups of the
entries of a list, a group counted once for every entry in it. -/
def contact_sizes (cells : List Cell) (l : List MoveValid) : Nat :=
  (l.map fun m => (cellAt cells (find_group cells m.idx).1).size).sum

namespace Y

/-- Method `Board::test_cell(const Move &)`: the local copy `testcell` after
the neighbour loop.  It is a `const` method, but `find_group` writes the
`mutable` parent field, so the board after the call is returned as well. -/
def Board.test_cell (G : Grid) (b : Board) (pos : Move) : Cell × Board :=
  let turn := b.to_play
  let posxy := (b.xy pos.x pos.y).toNat
  let f := find_group b.cells_ posxy
  let r := test_neighbors variant turn (G.neighbors_small b.size_ posxy) false
    ((cellAt f.2 f.1, 0), f.2)
  (r.1.1, { b with cells_ := r.2 })

/-- Method `Board::test_connectivity`. -/
def Board.test_connectivity (G : Grid) (b : Board) (pos : Move) : Nat × Board :=
  ((b.test_cell G pos).1.numedges, (b.test_cell G pos).2)

/-- Method `Board::test_size`. -/
def Board.test_size (G : Grid) (b : Board) (pos : Move) : Nat × Board :=
  ((b.test_cell G pos).1.size, (b.test_cell G pos).2)

/-- The representative cell `cells_[find_group(pos.xy)]` of the group of `pos`. -/
def Board.rep_cell (b : Board) (pos : MoveValid) : Cell :=
  cellAt b.cells_ (find_group b.cells_ pos.idx).1

/-- A game of six moves on `board4` after which the first player, who is to
move, owns the group `(1,0) (2,0) (2,1)`, which touches the empty cell
`(1,1)` on two sides, and the second player the three corners. -/
def game_fork : List Move := [⟨1, 0⟩, ⟨0, 0⟩, ⟨2, 0⟩, ⟨0, 3⟩, ⟨2, 1⟩, ⟨3, 0⟩]

/-- The board after `game_fork`. -/
def fork_board : Board := (Board.play triGrid board4 game_fork).getD board4

end Y

namespace Havannah

/-- Method `Board::test_cell(const Move &)`: the local copy `testcell` after
the neighbour loop, and the board after the call. -/
def Board.test_cell (G : Grid) (b : Board) (pos : Move) : Cell × Board :=
  let turn := b.to_play
  let posxy := (b.xy pos.x pos.y).toNat
  let f := find_group b.cells_ posxy
  let r := test_neighbors variant turn (G.neighbors_small b.size_ posxy) false
    ((cellAt f.2 f.1, 0), f.2)
  (r.1.1, { b with cells_ := r.2 })

/-- Method `Board::test_connectivity`. -/
def Board.test_connectivity (G : Grid) (b : Board) (pos : Move) : Nat × Board :=
  ((b.test_cell G pos).1.numcorners + (b.test_cell G pos).1.numedges, (b.test_cell G pos).2)

/-- Method `Board::test_size`. -/
def Board.test_size (G : Grid) (b : Board) (pos : Move) : Nat × Board :=
  ((b.test_cell G pos).1.size, (b.test_cell G pos).2)

end Havannah

end Morat

namespace Morat

namespace Y

/-! ## The one-ply and two-ply solvers (`y/agent.h`) -/

/-- The variables of the loops of `Agent::solve1ply` and `Agent::solve2ply`:
the local `outcome`, the local `losses` (of `solve2ply` only), the counter
`nodes` passed by reference, and the board, which is `const` but for the
parent links that `find_group` writes. -/
structure SolveState where
  outcome : Outcome
  losses : Nat
  nodes : Nat
  board : Board

/-- The loop `for (auto move : board)` of `Agent::solve1ply` over the moves
that are left; the flag tells that the loop was left by `return won`, and
`outcome` then holds the value returned.  The moves are those that the
iterator of the board yields, and `test_outcome` is called with the cell
index `xy(move)`. -/
def solve1ply_loop (G : Grid) (turn : Side) : List Move → SolveState → Bool × SolveState
  | [], st => (false, st)
  | move :: rest, st =>
    if (st.board.test_outcome_xy G move turn).1 = Outcome.ofSide turn then
      (true,
        { st with
          outcome := (st.board.test_outcome_xy G move turn).1
          nodes := st.nodes + 1
          board := (st.board.test_outcome_xy G move turn).2 })
    else
      solve1ply_loop G turn rest
        { st with
          outcome :=
            if (st.board.test_outcome_xy G move turn).1 = .DRAW then .DRAW else st.outcome
          nodes := st.nodes + 1
          board := (st.board.test_outcome_xy G move turn).2 }

/-- Method `Agent::solve1ply(const Board &, unsigned int & nodes)`: the value
returned and the state after the call.  `moves` is what the loop
`for (auto move : board)` yields. -/
def Agent.solve1ply (G : Grid) (moves : List Move) (board : Board) (nodes : Nat) :
    Outcome × SolveState :=
  ((solve1ply_loop G board.to_play moves
      { outcome := .UNKNOWN, losses := 0, nodes := nodes, board := board }).2.outcome,
    (solve1ply_loop G board.to_play moves
      { outcome := .UNKNOWN, losses := 0, nodes := nodes, board := board }).2)

/-- The loop of `Agent::solve2ply` over the moves that are left; the flag
tells that the loop was left by `return won`. -/
def solve2ply_loop (G : Grid) (turn op : Side) : List Move → SolveState → Bool × SolveState
  | [], st => (false, st)
  | move :: rest, st =>
    if (st.board.test_outcome_xy G move turn).1 = Outcome.ofSide turn then
      (true,
        { st with
          outcome := (st.board.test_outcome_xy G move turn).1
          nodes := st.nodes + 1
          board := (st.board.test_outcome_xy G move turn).2 })
    else
      solve2ply_loop G turn op rest
        { outcome :=
            if (st.board.test_outcome_xy G move turn).1 = .DRAW then .DRAW else st.outcome
          losses :=
            if ((st.board.test_outcome_xy G move turn).2.test_outcome_xy G move op).1 =
                Outcome.ofSide op then st.losses + 1
            else st.losses
          nodes := st.nodes + 1
          board := ((st.board.test_outcome_xy G move turn).2.test_outcome_xy G move op).2 }

/-- Method `Agent::solve2ply(const Board &, unsigned int & nodes)`: the value
returned and the state after the call.  The cast `(Outcome)op` is the outcome
"`op` wins". -/
def Agent.solve2ply (G : Grid) (moves : List Move) (board : Board) (nodes : Nat) :
    Outcome × SolveState :=
  let r := solve2ply_loop G board.to_play board.to_play.opp moves
    { outcome := .UNKNOWN, losses := 0, nodes := nodes, board := board }
  if r.1 then (r.2.outcome, r.2)
  else if r.2.losses ≥ 2 then (Outcome.ofSide board.to_play.opp, r.2)
  else (r.2.outcome, r.2)

/-- The edge mask that the neighbour loop of `test_outcome` accumulates for
the cell `p` and the side `side` on a cell array. -/
def test_mask (G : Grid) (size : Int) (cells : List Cell) (p : Nat) (side : Side) : Nat :=
  (test_neighbors variant side (G.neighbors_small size p) false
    ((cellAt (find_group cells p).2 (find_group cells p).1, 0), (find_group cells p).2)).1.1.edge

/-- The board `b1` is the board `b` after calls of `find_group`: it differs
from `b` in parent links only, and the links still lead every cell to one
representative of its group. -/
def Compressed (G : Grid) (b b1 : Board) : Prop :=
  { b1 with cells_ := b.cells_ } = b ∧ b1.cells_.length = b.cells_.length ∧
    (∀ k, cellAt b1.cells_ k = { cellAt b.cells_ k with parent := (cellAt b1.cells_ k).parent }) ∧
    ∃ rep rank, CellsInv variant (G.neighbors_small b.size_) (edge0 G b.size_) (corner0 G b.size_)
      b1.cells_ (fun _ => False) rep rank

/-- A game of six moves on `board4` after which the second player, who has
the stones `(1,0)`, `(1,1)` and `(0,2)`, wins with `(2,1)`, with `(1,2)` and with `(0,3)`;
the first player, who is to move, has `(0,0)`, `(2,0)` and `(3,0)`. -/
def game_lost : List Move := [⟨0, 0⟩, ⟨1, 0⟩, ⟨3, 0⟩, ⟨1, 1⟩, ⟨2, 0⟩, ⟨0, 2⟩]

/-- The board after `game_lost`. -/
def lost_board : Board := (Board.play triGrid board4 game_lost).getD board4

/-- The empty cells of `lost_board`, row by row. -/
def lost_moves : List Move := [⟨0, 1⟩, ⟨2, 1⟩, ⟨1, 2⟩, ⟨0, 3⟩]

/-- The empty cells of `after 6`, row by row; the side to move wins with
`(1,2)`. -/
def won_moves : List Move := [⟨2, 0⟩, ⟨0, 1⟩, ⟨1, 2⟩, ⟨0, 3⟩]

end Y

end Morat

namespace Morat

/-! ## The two roots of `join_groups` -/

/-- The root that `join_groups` keeps, of the roots `i` of its first and `j`
of its second argument: `i`, unless `cells_[i].size < cells_[j].size` makes
the `std::swap(i, j)` run. -/
def kept_root (cells : List Cell) (i j : Nat) : Nat :=
  if (cellAt cells i).size < (cellAt cells j).size then j else i

/-- The root that `join_groups` attaches under the other one. -/
def attached_root (cells : List Cell) (i j : Nat) : Nat :=
  if (cellAt cells i).size < (cellAt cells j).size then i else j

namespace Y

/-- The number of cells of the board owned by one of the two players. -/
def Board.stones (b : Board) : Nat :=
  (List.range b.cells_.length).countP fun i => (b.get i).isPlayer

/-- What a reachable board keeps of the course of the game: the moves made
are the stones on the board, without a move the last move is `M_NONE`, after
a move it is a cell of the shape, the side to move follows from the first
player and the number of moves, and a win belongs to the owner of the cell of
the last move, who is not the side to move.  The Y board has no draw. -/
structure PlayInv (G : Grid) (s : Int) (b : Board) : Prop where
  stones_eq : (b.stones : Int) = b.num_moves_
  fresh : b.num_moves_ = 0 → b.last_move_ = M_NONE
  last : b.num_moves_ ≠ 0 → G.on_board s b.last_move_.x b.last_move_.y = true
  turn : b.to_play_ = if b.num_moves_ % 2 = 0 then b.first_move else b.first_move.opp
  won : ∀ side : Side, side.isPlayer = true → b.outcome_ = Outcome.ofSide side →
    b.num_moves_ ≠ 0 ∧ b.get (b.move_valid b.last_move_).idx = side ∧ b.to_play_ = side.opp
  no_draw : b.outcome_ ≠ .DRAW

/-- The boards that follow the board `b` by calls of `toggle_to_play` and of
`move` whose opening assertion holds, without a call of `clear`. -/
inductive Later (G : Grid) (b : Board) : Board → Prop
  | refl : Later G b b
  | toggle (c : Board) : Later G b c → Later G b c.toggle_to_play
  | move (c : Board) (m : Move) (permanent : Bool) (r : Bool) (c1 : Board) :
      Later G b c → c.move_xy G m permanent = some (r, c1) → Later G b c1

end Y

end Morat

namespace Morat

namespace Y

/-! ## Groups and edges, seen on the board -/

/-- The group of the cell `c`, the cells joined to `c` by a path of adjacent
(`neighbors_small`) cells of one owner, has a cell whose mask `edges(x, y)`
has the bit `e`: the group lies on that edge of the board. -/
def Board.group_on_edge (G : Grid) (b : Board) (c e : Nat) : Prop :=
  ∃ j, j < b.cells_.length ∧ Connected (G.neighbors_small b.size_) b.cells_ c j ∧
    (edge0 G b.size_ j).testBit e = true

/-- The group of the cell `c` lies on all three edges of the board, the bits
`1`, `2` and `4` of the masks. -/
def Board.three_edges (G : Grid) (b : Board) (c : Nat) : Prop :=
  b.group_on_edge G c 0 ∧ b.group_on_edge G c 1 ∧ b.group_on_edge G c 2

end Y

end Morat

/-! # Proofs -/

namespace Morat

/-! ## Array access -/

theorem cellAt_set (cells : List Cell) (i j : Nat) (c : Cell) :
    cellAt (cells.set i c) j = if i = j ∧ i < cells.length then c else cellAt cells j := by
  unfold cellAt
  by_cases h : i = j
  · subst h
    by_cases hl : i < cells.length
    · simp [hl, List.getD_eq_getElem?_getD]
    · have : cells.length ≤ i := Nat.le_of_not_lt hl
      simp [hl, List.getD_eq_getElem?_getD, List.getElem?_eq_none, this]
  · simp [h, List.getD_eq_getElem?_getD, List.getElem?_set_ne h]

theorem cellAt_set_self (cells : List Cell) (i : Nat) (c : Cell) (h : i < cells.length) :
    cellAt (cells.set i c) i = c := by
  simp [cellAt_set, h]

theorem cellAt_set_ne (cells : List Cell) (i j : Nat) (c : Cell) (h : i ≠ j) :
    cellAt (cells.set i c) j = cellAt cells j := by
  simp [cellAt_set, h]

/-! ## The representative loop -/

section uf
variable {v : Variant} {nb : Nat → List MoveValid} {E C : Nat → Nat} {cells : List Cell}
  {pend : Nat → Prop} {rep rank : Nat → Nat}

theorem group_count_le (rep : Nat → Nat) (n r : Nat) : group_count rep n r ≤ n := by
  unfold group_count
  calc (List.range n).countP _ ≤ (List.range n).length := List.countP_le_length _
    _ = n := List.length_range n

theorem CellsInv.rank_lt (h : CellsInv v nb E C cells pend rep rank) (i : Nat)
    (hi : i < cells.length) : rank i < cells.length :=
  lt_of_lt_of_le (h.rank_count i hi) (group_count_le _ _ _)

/-- With enough iterations the loop of `find_group` stops at the
representative, which is its own parent. -/
theorem find_loop_spec (h : CellsInv v nb E C cells pend rep rank) :
    ∀ (fuel p : Nat), p < cells.length → cells.length ≤ fuel + rank p + 1 →
      find_loop cells fuel p = rep p ∧ (cellAt cells (rep p)).parent = rep p ∧
        rep p < cells.length ∧ rank p ≤ rank (rep p) := by
  intro fuel
  induction fuel with
  | zero =>
    intro p hp hf
    have hr := h.rank_lt p hp
    have hroot : (cellAt cells p).parent = p := by
      by_contra hne
      have h1 := h.rank_par p hp hne
      have h2 := h.rank_lt _ (h.par_lt p hp)
      omega
    have hrep := h.rep_root p hp hroot
    simp only [find_loop, hrep]
    exact ⟨trivial, hroot, hp, le_refl _⟩
  | succ fuel ih =>
    intro p hp hf
    have hp1 := h.par_lt p hp
    have hrp := h.rep_par p hp
    unfold find_loop
    by_cases hc : (cellAt cells p).parent ≠ (cellAt cells (cellAt cells p).parent).parent
    · have hne : (cellAt cells p).parent ≠ p := by
        intro he
        apply hc
        rw [he, he]
      have hrk := h.rank_par p hp hne
      obtain ⟨a, b, c, d⟩ := ih (cellAt cells p).parent hp1 (by omega)
      rw [if_pos hc]
      rw [hrp] at a b c d
      exact ⟨a, b, c, by omega⟩
    · have hroot : (cellAt cells (cellAt cells p).parent).parent = (cellAt cells p).parent := by
        by_contra hx
        exact hc (fun he => hx he.symm)
      have hrep := h.rep_root _ hp1 hroot
      rw [if_neg hc]
      rw [hrp] at hrep
      refine ⟨hrep.symm, ?_, ?_, ?_⟩
      · rw [hrep]; exact hroot
      · rw [hrep]; exact hp1
      · rw [hrep]
        by_cases hne : (cellAt cells p).parent = p
        · rw [hne]
        · exact le_of_lt (h.rank_par p hp hne)

theorem CellsInv.rep_lt (h : CellsInv v nb E C cells pend rep rank) (i : Nat)
    (hi : i < cells.length) : rep i < cells.length :=
  (find_loop_spec h cells.length i hi (by omega)).2.2.1

theorem CellsInv.par_rep (h : CellsInv v nb E C cells pend rep rank) (i : Nat)
    (hi : i < cells.length) : (cellAt cells (rep i)).parent = rep i :=
  (find_loop_spec h cells.length i hi (by omega)).2.1

theorem CellsInv.rank_le_rep (h : CellsInv v nb E C cells pend rep rank) (i : Nat)
    (hi : i < cells.length) : rank i ≤ rank (rep i) :=
  (find_loop_spec h cells.length i hi (by omega)).2.2.2

theorem CellsInv.rep_rep (h : CellsInv v nb E C cells pend rep rank) (i : Nat)
    (hi : i < cells.length) : rep (rep i) = rep i :=
  h.rep_root _ (h.rep_lt i hi) (h.par_rep i hi)

theorem CellsInv.root_iff (h : CellsInv v nb E C cells pend rep rank) (i : Nat)
    (hi : i < cells.length) : (cellAt cells i).parent = i ↔ rep i = i := by
  constructor
  · exact h.rep_root i hi
  · intro he
    have := h.par_rep i hi
    rw [he] at this
    exact this

/-! ## `find_group` -/

theorem find_group_fst (h : CellsInv v nb E C cells pend rep rank) (i : Nat)
    (hi : i < cells.length) : (find_group cells i).1 = rep i := by
  unfold find_group
  by_cases hc : (cellAt cells i).parent ≠ i
  · rw [if_pos hc]
    have := find_loop_spec h cells.length _ (h.par_lt i hi) (by omega)
    show find_loop cells cells.length (cellAt cells i).parent = rep i
    rw [this.1, h.rep_par i hi]
  · have hroot : (cellAt cells i).parent = i := by
      by_contra hx; exact hc hx
    rw [if_neg hc]
    show (cellAt cells i).parent = rep i
    rw [hroot, h.rep_root i hi hroot]

theorem find_group_snd (cells : List Cell) (i : Nat) :
    (find_group cells i).2 =
      if (cellAt cells i).parent ≠ i then
        cells.set i { cellAt cells i with parent := (find_group cells i).1 }
      else cells := by
  unfold find_group
  by_cases hc : (cellAt cells i).parent ≠ i
  · rw [if_pos hc, if_pos hc]
  · rw [if_neg hc, if_neg hc]

theorem find_group_length (cells : List Cell) (i : Nat) :
    (find_group cells i).2.length = cells.length := by
  rw [find_group_snd]
  split <;> simp

/-- The cells after `find_group` differ from the cells before in parent
fields only. -/
theorem find_group_cellAt (cells : List Cell) (i j : Nat) :
    cellAt (find_group cells i).2 j =
      { cellAt cells j with parent := (cellAt (find_group cells i).2 j).parent } := by
  rw [find_group_snd]
  split
  · rw [cellAt_set]
    split
    · next hx => rw [hx.1]
    · rfl
  · rfl

theorem find_group_parent (h : CellsInv v nb E C cells pend rep rank) (i : Nat)
    (hi : i < cells.length) (j : Nat) :
    (cellAt (find_group cells i).2 j).parent = if j = i then rep i else (cellAt cells j).parent := by
  rw [find_group_snd]
  by_cases hc : (cellAt cells i).parent ≠ i
  · rw [if_pos hc]
    rw [cellAt_set]
    by_cases hj : j = i
    · subst hj
      simp [hi, find_group_fst h j hi]
    · have : ¬ (i = j ∧ i < cells.length) := fun hx => hj hx.1.symm
      simp [this, hj]
  · have hroot : (cellAt cells i).parent = i := by
      by_contra hx; exact hc hx
    rw [if_neg hc]
    by_cases hj : j = i
    · subst hj
      simp [hroot, h.rep_root j hi hroot]
    · simp [hj]

theorem find_group_get (cells : List Cell) (i j : Nat) :
    get (find_group cells i).2 j = get cells j := by
  unfold get
  rw [find_group_cellAt]

end uf
end Morat

namespace Morat

section uf
variable {v : Variant} {nb : Nat → List MoveValid} {E C : Nat → Nat} {cells : List Cell}
  {pend : Nat → Prop} {rep rank : Nat → Nat}

/-! ## Connectivity depends on the owners only -/

theorem Adj_congr {cells cells1 : List Cell} (hl : cells1.length = cells.length)
    (hg : ∀ k, get cells1 k = get cells k) (i j : Nat) :
    Adj nb cells1 i j ↔ Adj nb cells i j := by
  unfold Adj
  rw [hl, hg i, hg j]

theorem Connected_congr {cells cells1 : List Cell} (hl : cells1.length = cells.length)
    (hg : ∀ k, get cells1 k = get cells k) (i j : Nat) :
    Connected nb cells1 i j ↔ Connected nb cells i j := by
  have : Adj nb cells1 = Adj nb cells := by
    funext a b
    exact propext (Adj_congr hl hg a b)
  unfold Connected
  rw [this]

theorem Adj.adj_symm (hinv : CellsInv v nb E C cells pend rep rank) {i j : Nat}
    (h : Adj nb cells i j) : Adj nb cells j i := by
  obtain ⟨hi, hj, hp, hg, hnb⟩ := h
  refine ⟨hj, hi, ?_, ?_, ?_⟩
  · rw [hg]; exact hp
  · exact hg.symm
  · exact hinv.sym i hi hp j hj hnb

theorem Connected.conn_symm (hinv : CellsInv v nb E C cells pend rep rank) {i j : Nat}
    (h : Connected nb cells i j) : Connected nb cells j i := by
  unfold Connected at h ⊢
  induction h with
  | refl => exact Relation.ReflTransGen.refl
  | tail _ hbc ih => exact Relation.ReflTransGen.head (Adj.adj_symm hinv hbc) ih

theorem Connected.conn_get_eq {i j : Nat} (h : Connected nb cells i j) : get cells j = get cells i := by
  unfold Connected at h
  induction h with
  | refl => rfl
  | tail _ hbc ih => rw [hbc.2.2.2.1, ih]

/-! ## Changing parent links inside a group -/

/-- Redirecting parent links to cells of the same group and of greater rank
keeps the invariant, with the same representatives. -/
theorem CellsInv.reparent (h : CellsInv v nb E C cells pend rep rank) (cells1 : List Cell)
    (hl : cells1.length = cells.length)
    (hc : ∀ j, cellAt cells1 j = { cellAt cells j with parent := (cellAt cells1 j).parent })
    (h1 : ∀ j, j < cells.length → (cellAt cells1 j).parent < cells.length)
    (h2 : ∀ j, j < cells.length → rep (cellAt cells1 j).parent = rep j)
    (h3 : ∀ j, j < cells.length → (cellAt cells1 j).parent ≠ j → rank j < rank (cellAt cells1 j).parent)
    (h4 : ∀ j, j < cells.length → (cellAt cells1 j).parent = j → rep j = j) :
    CellsInv v nb E C cells1 pend rep rank := by
  have hg : ∀ k, get cells1 k = get cells k := by
    intro k; unfold get; rw [hc k]
  have hroot : ∀ r, r < cells.length → (cellAt cells1 r).parent = r → (cellAt cells r).parent = r :=
    fun r hr hp => (h.root_iff r hr).2 (h4 r hr hp)
  have hsz : ∀ k, (cellAt cells1 k).size = (cellAt cells k).size := by intro k; rw [hc k]
  have hed : ∀ k, (cellAt cells1 k).edge = (cellAt cells k).edge := by intro k; rw [hc k]
  have hco : ∀ k, (cellAt cells1 k).corner = (cellAt cells k).corner := by intro k; rw [hc k]
  constructor
  · intro i hi; rw [hl] at hi ⊢; exact h1 i hi
  · intro i hi; rw [hl] at hi; exact h2 i hi
  · intro i hi; rw [hl] at hi; exact h3 i hi
  · intro i hi; rw [hl] at hi; exact h4 i hi
  · intro i hi; rw [hl] at hi ⊢; exact h.rank_count i hi
  · intro i hi hp j hj; rw [hl] at hi hj; rw [hg] at hp; exact h.single i hi hp j hj
  · intro i hi; rw [hl] at hi; rw [hg, hg]; exact h.piece_rep i hi
  · intro r hr hp; rw [hl] at hr ⊢; rw [hsz]; exact h.size_eq r hr (hroot r hr hp)
  · intro r hr hp k; rw [hl] at hr ⊢; rw [hed]; exact h.edge_eq r hr (hroot r hr hp) k
  · intro hv r hr hp k; rw [hl] at hr ⊢; rw [hco]; exact h.corner_eq hv r hr (hroot r hr hp) k
  · intro i hi; rw [hl] at hi; rw [Connected_congr hl hg]; exact h.conn i hi
  · intro i hi hp j hj; rw [hl] at hi hj; rw [hg] at hp; exact h.sym i hi hp j hj
  · intro i j hadj; rw [Adj_congr hl hg] at hadj; exact h.closed i j hadj

theorem CellsInv.rank_lt_rep (h : CellsInv v nb E C cells pend rep rank) (i : Nat)
    (hi : i < cells.length) (hne : rep i ≠ i) : rank i < rank (rep i) := by
  have hp : (cellAt cells i).parent ≠ i := fun he => hne (h.rep_root i hi he)
  have h1 := h.rank_par i hi hp
  have h2 := h.rank_le_rep _ (h.par_lt i hi)
  rw [h.rep_par i hi] at h2
  omega

/-- The path compression of `find_group` keeps the invariant and every
representative. -/
theorem find_group_inv (h : CellsInv v nb E C cells pend rep rank) (i : Nat)
    (hi : i < cells.length) : CellsInv v nb E C (find_group cells i).2 pend rep rank := by
  apply h.reparent _ (find_group_length cells i) (find_group_cellAt cells i)
  · intro j hj
    rw [find_group_parent h i hi]
    split
    · exact h.rep_lt i hi
    · exact h.par_lt j hj
  · intro j hj
    rw [find_group_parent h i hi]
    split
    · next he => rw [he]; exact h.rep_rep i hi
    · exact h.rep_par j hj
  · intro j hj
    rw [find_group_parent h i hi]
    split
    · next he => subst he; intro hne; exact h.rank_lt_rep j hj hne
    · exact h.rank_par j hj
  · intro j hj
    rw [find_group_parent h i hi]
    split
    · next he => subst he; exact fun hx => hx
    · exact h.rep_root j hj

end uf
end Morat

namespace Morat

section uf
variable {v : Variant} {nb : Nat → List MoveValid} {E C : Nat → Nat} {cells : List Cell}
  {pend : Nat → Prop} {rep rank : Nat → Nat}

theorem countP_merge (rep : Nat → Nat) (big small : Nat) (hne : big ≠ small) (r : Nat)
    (l : List Nat) :
    l.countP (fun j => decide ((if rep j = small then big else rep j) = r)) =
      if r = big then l.countP (fun j => decide (rep j = big)) + l.countP (fun j => decide (rep j = small))
      else if r = small then 0 else l.countP (fun j => decide (rep j = r)) := by
  induction l with
  | nil => simp
  | cons a l ih =>
    rw [List.countP_cons, List.countP_cons, List.countP_cons, List.countP_cons, ih]
    by_cases h1 : r = big
    · subst h1
      have hsr : small ≠ r := fun hx => hne hx.symm
      by_cases h2 : rep a = small
      · simp [h2, hsr, hne]
        omega
      · by_cases h3 : rep a = r
        · simp [h3, hne]
          omega
        · simp [h2, h3]
    · by_cases h2 : r = small
      · subst h2
        by_cases h3 : rep a = r
        · simp [h3, hne, h1]
        · simp [h1, h3]
      · by_cases h3 : rep a = small
        · have h4 : small ≠ r := fun hx => h2 hx.symm
          have h5 : big ≠ r := fun hx => h1 hx.symm
          simp [h1, h2, h3, h4, h5]
        · simp [h1, h2, h3]

theorem group_count_merge (rep : Nat → Nat) (n big small : Nat) (hne : big ≠ small) (r : Nat) :
    group_count (fun k => if rep k = small then big else rep k) n r =
      if r = big then group_count rep n big + group_count rep n small
      else if r = small then 0 else group_count rep n r := by
  unfold group_count
  exact countP_merge rep big small hne r _

end uf
end Morat

namespace Morat

section uf
variable {v : Variant} {nb : Nat → List MoveValid} {E C : Nat → Nat} {cells : List Cell}
  {pend : Nat → Prop} {rep rank : Nat → Nat}

/-- Owner, permanence flag and ring mark of a cell: the fields the union-find
operations never write. -/
theorem set_static (cells : List Cell) (i k : Nat) (c : Cell)
    (h : c.piece = (cellAt cells i).piece ∧ c.perm = (cellAt cells i).perm ∧
      c.mark = (cellAt cells i).mark) :
    (cellAt (cells.set i c) k).piece = (cellAt cells k).piece ∧
      (cellAt (cells.set i c) k).perm = (cellAt cells k).perm ∧
      (cellAt (cells.set i c) k).mark = (cellAt cells k).mark := by
  rw [cellAt_set]
  split
  · next hx => rw [← hx.1]; exact h
  · exact ⟨rfl, rfl, rfl⟩

theorem link_groups_length (v : Variant) (cells : List Cell) (big small : Nat) :
    (link_groups v cells big small).length = cells.length := by
  unfold link_groups
  simp

theorem link_groups_cellAt (v : Variant) (cells : List Cell) (big small : Nat)
    (hb : big < cells.length) (hs : small < cells.length) (hne : big ≠ small) (k : Nat) :
    cellAt (link_groups v cells big small) k =
      if k = big then
        { cellAt cells big with
          size := ((cellAt cells big).size + (cellAt cells small).size) % v.size_mod
          corner := if v.corners then (cellAt cells big).corner ||| (cellAt cells small).corner
            else (cellAt cells big).corner
          edge := (cellAt cells big).edge ||| (cellAt cells small).edge }
      else if k = small then { cellAt cells small with parent := big }
      else cellAt cells k := by
  unfold link_groups
  simp only
  have e3 : cellAt (cells.set small { cellAt cells small with parent := big }) big = cellAt cells big :=
    cellAt_set_ne _ _ _ _ hne.symm
  have e4 : cellAt (cells.set small { cellAt cells small with parent := big }) small =
      { cellAt cells small with parent := big } := cellAt_set_self _ _ _ hs
  rw [e3, e4]
  by_cases hk : k = big
  · subst hk
    rw [cellAt_set_self _ _ _ (by simpa using hb)]
    simp
  · rw [cellAt_set_ne _ _ _ _ (fun hx => hk hx.symm)]
    simp only [hk, if_false]
    by_cases hk2 : k = small
    · subst hk2
      rw [e4]; simp
    · rw [cellAt_set_ne _ _ _ _ (fun hx => hk2 hx.symm)]
      simp [hk2]

theorem link_groups_static (v : Variant) (cells : List Cell) (big small k : Nat) :
    (cellAt (link_groups v cells big small) k).piece = (cellAt cells k).piece ∧
      (cellAt (link_groups v cells big small) k).perm = (cellAt cells k).perm ∧
      (cellAt (link_groups v cells big small) k).mark = (cellAt cells k).mark := by
  unfold link_groups
  simp only
  have s1 := set_static cells small k { cellAt cells small with parent := big } ⟨rfl, rfl, rfl⟩
  have s2 := set_static (cells.set small { cellAt cells small with parent := big }) big k
    { cellAt (cells.set small { cellAt cells small with parent := big }) big with
      size := ((cellAt (cells.set small { cellAt cells small with parent := big }) big).size +
        (cellAt (cells.set small { cellAt cells small with parent := big }) small).size) % v.size_mod
      corner := if v.corners then
          (cellAt (cells.set small { cellAt cells small with parent := big }) big).corner |||
          (cellAt (cells.set small { cellAt cells small with parent := big }) small).corner
        else (cellAt (cells.set small { cellAt cells small with parent := big }) big).corner
      edge := (cellAt (cells.set small { cellAt cells small with parent := big }) big).edge |||
        (cellAt (cells.set small { cellAt cells small with parent := big }) small).edge }
    ⟨rfl, rfl, rfl⟩
  exact ⟨s2.1.trans s1.1, s2.2.1.trans s1.2.1, s2.2.2.trans s1.2.2⟩

/-- Linking the root of one group under the root of another group of the
same owner, connected to it, keeps the invariant; the cells of the smaller
group get the other root as representative. -/
theorem CellsInv.union (h : CellsInv v nb E C cells pend rep rank) (big small : Nat)
    (hb : big < cells.length) (hs : small < cells.length) (hne : big ≠ small)
    (hrb : rep big = big) (hrs : rep small = small)
    (hpl : (get cells big).isPlayer = true) (hpc : get cells small = get cells big)
    (hcn : Connected nb cells small big) :
    CellsInv v nb E C (link_groups v cells big small) pend
      (fun k => if rep k = small then big else rep k)
      (fun k => if k = big then max (rank big) (rank small + 1) else rank k) := by
  have hl := link_groups_length v cells big small
  have hc := link_groups_cellAt v cells big small hb hs hne
  generalize link_groups v cells big small = cells1 at hl hc
  have hpb : (cellAt cells big).parent = big := (h.root_iff big hb).2 hrb
  have hps : (cellAt cells small).parent = small := (h.root_iff small hs).2 hrs
  have hg : ∀ k, get cells1 k = get cells k := by
    intro k; unfold get; rw [hc k]
    split
    · next hx => rw [hx]
    · split
      · next hx => rw [hx]
      · rfl
  have hpar : ∀ k, (cellAt cells1 k).parent = if k = small then big else (cellAt cells k).parent := by
    intro k; rw [hc k]
    by_cases h1 : k = big
    · have : k ≠ small := fun hx => hne (h1.symm.trans hx)
      simp [h1, this, hne]
    · by_cases h2 : k = small
      · simp [h1, h2, hne.symm]
      · simp [h1, h2]
  have hgcb := group_count_merge rep cells.length big small hne
  have hcb1 : 0 < group_count rep cells.length big := by
    have := h.rank_count big hb; rw [hrb] at this; omega
  have hcs1 : rank small < group_count rep cells.length small := by
    have := h.rank_count small hs; rw [hrs] at this; exact this
  have hcb2 : rank big < group_count rep cells.length big := by
    have := h.rank_count big hb; rw [hrb] at this; exact this
  constructor
  · -- par_lt
    intro i hi; rw [hl] at hi ⊢; rw [hpar]
    split
    · exact hb
    · exact h.par_lt i hi
  · -- rep_par
    intro i hi; rw [hl] at hi; rw [hpar]
    by_cases h1 : i = small
    · subst h1; simp [hrs, hrb, hne]
    · simp only [h1, if_false]; rw [h.rep_par i hi]
  · -- rank_par
    intro i hi; rw [hl] at hi; rw [hpar]
    by_cases h1 : i = small
    · subst h1
      intro _
      simp [hne.symm]
    · simp only [h1, if_false]
      intro hp
      have h2 : i ≠ big := fun hx => hp (hx ▸ hpb)
      have h3 := h.rank_par i hi hp
      simp only [h2, if_false]
      split
      · next hx => rw [hx] at h3; omega
      · exact h3
  · -- rep_root
    intro i hi; rw [hl] at hi; rw [hpar]
    by_cases h1 : i = small
    · subst h1; simp [hne]
    · simp only [h1, if_false]
      intro hp
      have := h.rep_root i hi hp
      rw [this]; simp [h1]
  · -- rank_count
    intro i hi; rw [hl] at hi ⊢
    rw [hgcb]
    have hri := h.rank_count i hi
    by_cases h1 : i = big
    · subst h1
      simp [hrb, hne]
      omega
    · simp only [h1, if_false]
      by_cases h2 : rep i = small
      · simp only [h2, if_true]
        rw [h2] at hri; omega
      · simp only [h2, if_false]
        by_cases h3 : rep i = big
        · simp only [h3, if_true]
          rw [h3] at hri; omega
        · simp only [h3, h2, if_false]
          exact hri
  · -- single
    intro i hi hp j hj; rw [hl] at hi hj; rw [hg] at hp
    have hpi := h.piece_rep i hi
    have h1 : rep i ≠ small := by
      intro hx; rw [hx, hpc] at hpi; rw [← hpi, hpl] at hp; exact absurd hp (by simp)
    have h2 : rep i ≠ big := by
      intro hx; rw [hx] at hpi; rw [← hpi, hpl] at hp; exact absurd hp (by simp)
    simp only [h1, if_false]
    by_cases h3 : rep j = small
    · simp only [h3, if_true]
      intro hx; exact absurd hx.symm h2
    · simp only [h3, if_false]
      exact h.single i hi hp j hj
  · -- piece_rep
    intro i hi; rw [hl] at hi; rw [hg, hg]
    by_cases h1 : rep i = small
    · simp only [h1, if_true]
      have := h.piece_rep i hi
      rw [h1] at this; rw [← this, hpc]
    · simp only [h1, if_false]; exact h.piece_rep i hi
  · -- size_eq
    intro r hr hp; rw [hl] at hr ⊢; rw [hpar] at hp
    have h1 : r ≠ small := by intro hx; rw [if_pos hx] at hp; exact hne (hp.trans hx)
    rw [if_neg h1] at hp
    rw [hgcb, hc r]
    by_cases h2 : r = big
    · subst h2
      simp only [if_true]
      rw [h.size_eq r hb hpb, h.size_eq small hs hps]
      exact (Nat.add_mod _ _ _).symm
    · simp only [h2, h1, if_false]
      exact h.size_eq r hr hp
  · -- edge_eq
    intro r hr hp k; rw [hl] at hr ⊢; rw [hpar] at hp
    have h1 : r ≠ small := by intro hx; rw [if_pos hx] at hp; exact hne (hp.trans hx)
    rw [if_neg h1] at hp
    rw [hc r]
    by_cases h2 : r = big
    · subst h2
      simp only [if_true]
      rw [Nat.testBit_lor, Bool.or_eq_true, h.edge_eq r hb hpb k, h.edge_eq small hs hps k]
      constructor
      · rintro (⟨j, hj, hrj, hbit⟩ | ⟨j, hj, hrj, hbit⟩)
        · exact ⟨j, hj, by simp [hrj, hne], hbit⟩
        · exact ⟨j, hj, by simp [hrj], hbit⟩
      · rintro ⟨j, hj, hrj, hbit⟩
        by_cases h3 : rep j = small
        · exact Or.inr ⟨j, hj, h3, hbit⟩
        · rw [if_neg h3] at hrj; exact Or.inl ⟨j, hj, hrj, hbit⟩
    · simp only [h2, h1, if_false]
      rw [h.edge_eq r hr hp k]
      constructor
      · rintro ⟨j, hj, hrj, hbit⟩
        exact ⟨j, hj, by rw [hrj]; simp [h1], hbit⟩
      · rintro ⟨j, hj, hrj, hbit⟩
        by_cases h3 : rep j = small
        · rw [if_pos h3] at hrj; exact absurd hrj.symm h2
        · rw [if_neg h3] at hrj; exact ⟨j, hj, hrj, hbit⟩
  · -- corner_eq
    intro hv r hr hp k; rw [hl] at hr ⊢; rw [hpar] at hp
    have h1 : r ≠ small := by intro hx; rw [if_pos hx] at hp; exact hne (hp.trans hx)
    rw [if_neg h1] at hp
    rw [hc r]
    by_cases h2 : r = big
    · subst h2
      simp only [if_true, hv]
      rw [Nat.testBit_lor, Bool.or_eq_true, h.corner_eq hv r hb hpb k, h.corner_eq hv small hs hps k]
      constructor
      · rintro (⟨j, hj, hrj, hbit⟩ | ⟨j, hj, hrj, hbit⟩)
        · exact ⟨j, hj, by simp [hrj, hne], hbit⟩
        · exact ⟨j, hj, by simp [hrj], hbit⟩
      · rintro ⟨j, hj, hrj, hbit⟩
        by_cases h3 : rep j = small
        · exact Or.inr ⟨j, hj, h3, hbit⟩
        · rw [if_neg h3] at hrj; exact Or.inl ⟨j, hj, hrj, hbit⟩
    · simp only [h2, h1, if_false]
      rw [h.corner_eq hv r hr hp k]
      constructor
      · rintro ⟨j, hj, hrj, hbit⟩
        exact ⟨j, hj, by rw [hrj]; simp [h1], hbit⟩
      · rintro ⟨j, hj, hrj, hbit⟩
        by_cases h3 : rep j = small
        · rw [if_pos h3] at hrj; exact absurd hrj.symm h2
        · rw [if_neg h3] at hrj; exact ⟨j, hj, hrj, hbit⟩
  · -- conn
    intro i hi; rw [hl] at hi; rw [Connected_congr hl hg]
    by_cases h1 : rep i = small
    · simp only [h1, if_true]
      have := h.conn i hi
      rw [h1] at this
      exact Relation.ReflTransGen.trans this hcn
    · simp only [h1, if_false]; exact h.conn i hi
  · -- sym
    intro i hi hp j hj; rw [hl] at hi hj; rw [hg] at hp; exact h.sym i hi hp j hj
  · -- closed
    intro i j hadj hi hj; rw [Adj_congr hl hg] at hadj
    have := h.closed i j hadj hi hj
    simp only [this]

end uf
end Morat

namespace Morat

section uf
variable {v : Variant} {nb : Nat → List MoveValid} {E C : Nat → Nat} {cells : List Cell}
  {pend : Nat → Prop} {rep rank : Nat → Nat}

theorem join_groups_length (v : Variant) (cells : List Cell) (i j : Nat) :
    (join_groups v cells i j).2.length = cells.length := by
  unfold join_groups
  simp only
  split
  · simp [find_group_length]
  · split <;> simp [find_group_length, link_groups_length]

theorem find_group_static (cells : List Cell) (i k : Nat) :
    (cellAt (find_group cells i).2 k).piece = (cellAt cells k).piece ∧
      (cellAt (find_group cells i).2 k).perm = (cellAt cells k).perm ∧
      (cellAt (find_group cells i).2 k).mark = (cellAt cells k).mark := by
  rw [find_group_cellAt]
  exact ⟨rfl, rfl, rfl⟩

theorem join_groups_static (v : Variant) (cells : List Cell) (i j k : Nat) :
    (cellAt (join_groups v cells i j).2 k).piece = (cellAt cells k).piece ∧
      (cellAt (join_groups v cells i j).2 k).perm = (cellAt cells k).perm ∧
      (cellAt (join_groups v cells i j).2 k).mark = (cellAt cells k).mark := by
  have f1 := find_group_static cells i k
  have f2 := find_group_static (find_group cells i).2 j k
  have f12 : (cellAt (find_group (find_group cells i).2 j).2 k).piece = (cellAt cells k).piece ∧
      (cellAt (find_group (find_group cells i).2 j).2 k).perm = (cellAt cells k).perm ∧
      (cellAt (find_group (find_group cells i).2 j).2 k).mark = (cellAt cells k).mark :=
    ⟨f2.1.trans f1.1, f2.2.1.trans f1.2.1, f2.2.2.trans f1.2.2⟩
  unfold join_groups
  simp only
  split
  · exact f12
  · split
    · have s := link_groups_static v (find_group (find_group cells i).2 j).2
        (find_group (find_group cells i).2 j).1 (find_group cells i).1 k
      exact ⟨s.1.trans f12.1, s.2.1.trans f12.2.1, s.2.2.trans f12.2.2⟩
    · have s := link_groups_static v (find_group (find_group cells i).2 j).2
        (find_group cells i).1 (find_group (find_group cells i).2 j).1 k
      exact ⟨s.1.trans f12.1, s.2.1.trans f12.2.1, s.2.2.trans f12.2.2⟩

theorem join_groups_get (v : Variant) (cells : List Cell) (i j k : Nat) :
    get (join_groups v cells i j).2 k = get cells k :=
  (join_groups_static v cells i j k).1

theorem merge_rep_eq (rep : Nat → Nat) (a b big small : Nat) (hne : big ≠ small)
    (hbo : big = a ∨ big = b) (hso : small = a ∨ small = b) :
    (fun k => if rep k = a ∨ rep k = b then big else rep k) =
      (fun k => if rep k = small then big else rep k) := by
  funext k
  by_cases hk : rep k = small
  · rw [if_pos hk]
    rcases hso with hx | hx
    · rw [if_pos (Or.inl (hk.trans hx))]
    · rw [if_pos (Or.inr (hk.trans hx))]
  · rw [if_neg hk]
    by_cases hk2 : rep k = a ∨ rep k = b
    · rw [if_pos hk2]
      rcases hk2 with hx | hx
      · rcases hbo with hy | hy
        · rw [hy, hx]
        · rcases hso with hz | hz
          · exact absurd (hx.trans hz.symm) hk
          · exact absurd (hy.trans hz.symm) hne
      · rcases hbo with hy | hy
        · rcases hso with hz | hz
          · exact absurd (hy.trans hz.symm) hne
          · exact absurd (hx.trans hz.symm) hk
        · rw [hy, hx]
    · rw [if_neg hk2]

/-- What `join_groups` does on an array that satisfies the invariant, for two
connected cells of one player: it reports whether the representatives were
equal, leaves the owners alone and merges the two groups. -/
theorem join_groups_spec
    (h : CellsInv v nb E C cells pend rep rank) (i j : Nat)
    (hi : i < cells.length) (hj : j < cells.length)
    (hpl : (get cells i).isPlayer = true) (hcn : Connected nb cells i j) :
    (join_groups v cells i j).1 = decide (rep i = rep j) ∧
      ∃ big rank1, (big = rep i ∨ big = rep j) ∧
        CellsInv v nb E C (join_groups v cells i j).2 pend
          (fun k => if rep k = rep i ∨ rep k = rep j then big else rep k) rank1 := by
  have h1 := find_group_inv h i hi
  have e1 := find_group_fst h i hi
  have l1 := find_group_length cells i
  have hj1 : j < (find_group cells i).2.length := by rw [l1]; exact hj
  have h2 := find_group_inv h1 j hj1
  have e2 := find_group_fst h1 j hj1
  have l2 := find_group_length (find_group cells i).2 j
  have hg2 : ∀ k, get (find_group (find_group cells i).2 j).2 k = get cells k := by
    intro k; rw [find_group_get, find_group_get]
  have hl2 : (find_group (find_group cells i).2 j).2.length = cells.length := by rw [l2, l1]
  unfold join_groups
  simp only [e1, e2]
  by_cases hab : rep i = rep j
  · rw [if_pos hab]
    refine ⟨by simp [hab], rep i, rank, Or.inl rfl, ?_⟩
    have : (fun k => if rep k = rep i ∨ rep k = rep j then rep i else rep k) = rep := by
      funext k
      by_cases hk : rep k = rep i
      · simp [hk]
      · simp [hk, ← hab]
    rw [this]
    exact h2
  · rw [if_neg hab]
    generalize (find_group (find_group cells i).2 j).2 = c2 at h2 hg2 hl2
    have hri := h.rep_lt i hi
    have hrj := h.rep_lt j hj
    have hcij : Connected nb c2 (rep i) (rep j) := by
      rw [Connected_congr hl2 hg2]
      have a1 := Connected.conn_symm h (h.conn i hi)
      have a2 := h.conn j hj
      exact Relation.ReflTransGen.trans a1 (Relation.ReflTransGen.trans hcn a2)
    have hpi : get c2 (rep i) = get cells i := by rw [hg2]; exact h.piece_rep i hi
    have hpj : get c2 (rep j) = get cells i := by
      rw [hg2, h.piece_rep j hj]; exact Connected.conn_get_eq hcn
    have hli : rep i < c2.length := by rw [hl2]; exact hri
    have hlj : rep j < c2.length := by rw [hl2]; exact hrj
    have hpli : (get c2 (rep i)).isPlayer = true := by rw [hpi]; exact hpl
    by_cases hsz : (cellAt c2 (rep i)).size < (cellAt c2 (rep j)).size
    · rw [if_pos hsz]
      refine ⟨by simp [hab], rep j,
        (fun k => if k = rep j then max (rank (rep j)) (rank (rep i) + 1) else rank k), Or.inr rfl, ?_⟩
      rw [merge_rep_eq rep (rep i) (rep j) (rep j) (rep i) (fun hx => hab hx.symm)
        (Or.inr rfl) (Or.inl rfl)]
      exact h2.union (rep j) (rep i) hlj hli (fun hx => hab hx.symm) (h.rep_rep j hj)
        (h.rep_rep i hi) (by rw [hpj]; exact hpl) (by rw [hpi, hpj]) hcij
    · rw [if_neg hsz]
      refine ⟨by simp [hab], rep i,
        (fun k => if k = rep i then max (rank (rep i)) (rank (rep j) + 1) else rank k), Or.inl rfl, ?_⟩
      rw [merge_rep_eq rep (rep i) (rep j) (rep i) (rep j) hab (Or.inl rfl) (Or.inr rfl)]
      exact h2.union (rep i) (rep j) hli hlj hab (h.rep_rep i hi) (h.rep_rep j hj)
        hpli (by rw [hpi, hpj]) (Connected.conn_symm h2 hcij)

end uf
end Morat

namespace Morat

section uf
variable {v : Variant} {nb : Nat → List MoveValid} {E C : Nat → Nat}

theorem taken_congr (turn : Side) (c1 c2 : List Cell) (hg : ∀ k, get c1 k = get c2 k) :
    ∀ (l : List MoveValid) (skip : Bool),
      taken_neighbors turn c1 l skip = taken_neighbors turn c2 l skip := by
  intro l
  induction l with
  | nil => intro skip; cases skip <;> rfl
  | cons m rest ih =>
    intro skip
    cases skip
    · simp only [taken_neighbors, hg, ih]
    · simp only [taken_neighbors, ih]

theorem SameStatic.static_get {c1 c2 : List Cell} (h : SameStatic c1 c2) (k : Nat) :
    get c1 k = get c2 k := (h k).1

theorem SameStatic.static_trans {c1 c2 c3 : List Cell} (h1 : SameStatic c1 c2) (h2 : SameStatic c2 c3) :
    SameStatic c1 c3 :=
  fun k => ⟨(h1 k).1.trans (h2 k).1, (h1 k).2.1.trans (h2 k).2.1, (h1 k).2.2.trans (h2 k).2.2⟩

theorem ring_ok_tail (nb : Nat → List MoveValid) (a : MoveValid) (l : List MoveValid)
    (h : ring_ok nb (a :: l) = true) : ring_ok nb l = true := by
  cases l with
  | nil => rfl
  | cons b rest =>
    simp only [ring_ok, Bool.and_eq_true] at h
    exact h.2

theorem ring_ok_head (nb : Nat → List MoveValid) (a b : MoveValid) (l : List MoveValid)
    (h : ring_ok nb (a :: b :: l) = true) :
    a.on_board = true → b.on_board = true → IsNbr nb a.idx b.idx := by
  intro ha hb
  simp only [ring_ok, Bool.and_eq_true, Bool.or_eq_true, Bool.not_eq_true', decide_eq_true_eq] at h
  rcases h.1 with (hx | hx) | hx
  · rw [ha] at hx; exact absurd hx (by simp)
  · rw [hb] at hx; exact absurd hx (by simp)
  · exact hx

/-- The neighbour loop of `move`, started on an array that satisfies the
invariant with the joins of the new stone `p` pending: it keeps the
invariant, merges groups only, joins the group of every neighbour of `p`
owned by `turn` with the group of `p`, and touches no other group. -/
theorem join_neighbors_spec {n : Nat} (hok : NbrOK nb n) (turn : Side)
    (hturn : turn.isPlayer = true) (p : Nat) (hp : p < n) :
    ∀ (l : List MoveValid) (skip : Bool) (st : Bool × List Cell) (rep rank : Nat → Nat)
      (prev : MoveValid),
      st.2.length = n →
      CellsInv v nb E C st.2 (fun k => k = p) rep rank →
      get st.2 p = turn →
      (∀ m ∈ l, m.on_board = true → IsNbr nb p m.idx) →
      ring_ok nb l = true →
      (skip = true → prev.on_board = true ∧ get st.2 prev.idx = turn ∧ IsNbr nb p prev.idx ∧
        rep prev.idx = rep p ∧
        ∀ m ∈ l.head?, prev.on_board = true → m.on_board = true → IsNbr nb prev.idx m.idx) →
      ∃ rep1 rank1,
        (join_neighbors v turn p l skip st).2.length = n ∧
        SameStatic (join_neighbors v turn p l skip st).2 st.2 ∧
        CellsInv v nb E C (join_neighbors v turn p l skip st).2 (fun k => k = p) rep1 rank1 ∧
        (∀ a b, rep a = rep b → rep1 a = rep1 b) ∧
        (∀ m ∈ l, m.on_board = true → get st.2 m.idx = turn → rep1 m.idx = rep1 p) ∧
        (∀ k, rep1 k = rep1 p ↔
          (rep k = rep p ∨ ∃ m ∈ taken_neighbors turn st.2 l skip, rep k = rep m.idx)) ∧
        (∀ k, rep1 k ≠ rep1 p → rep1 k = rep k) := by
  intro l
  induction l with
  | nil =>
    intro skip st rep rank prev hlen hinv hgp hnb hch hsk
    refine ⟨rep, rank, ?_, ?_, ?_, ?_, ?_, ?_, ?_⟩
    · simpa [join_neighbors] using hlen
    · intro k; simp [join_neighbors]
    · simpa [join_neighbors] using hinv
    · exact fun a b h => h
    · intro m hm; exact absurd hm (List.not_mem_nil m)
    · intro k; simp [taken_neighbors]
    · exact fun k _ => rfl
  | cons m rest ih =>
    intro skip st rep rank prev hlen hinv hgp hnb hch hsk
    have hnbrest : ∀ m1 ∈ rest, m1.on_board = true → IsNbr nb p m1.idx :=
      fun m1 hm1 => hnb m1 (List.mem_cons_of_mem _ hm1)
    have hchrest : ring_ok nb rest = true := ring_ok_tail nb m rest hch
    cases skip with
    | true =>
      obtain ⟨hpo, hpg, hpn, hpr, hph⟩ := hsk rfl
      obtain ⟨rep1, rank1, r1, r2, r3, r4, r5, r6, r7⟩ :=
        ih false st rep rank prev hlen hinv hgp hnbrest hchrest (fun hx => absurd hx (by simp))
      refine ⟨rep1, rank1, ?_, ?_, ?_, r4, ?_, ?_, r7⟩
      · simpa [join_neighbors] using r1
      · simpa [join_neighbors] using r2
      · simpa [join_neighbors] using r3
      · intro m1 hm1 hob hg
        rcases List.mem_cons.1 hm1 with hx | hx
        · subst hx
          have hpm : IsNbr nb prev.idx m1.idx := hph m1 (by simp) hpo hob
          have hpl : prev.idx < n := by
            obtain ⟨q, hq, hqo, hqi⟩ := hpn
            rw [← hqi]; exact hok.idx_lt p hp q hq hqo
          have hml : m1.idx < n := by
            obtain ⟨q, hq, hqo, hqi⟩ := hnb m1 (by simp) hob
            rw [← hqi]; exact hok.idx_lt p hp q hq hqo
          have hpne : prev.idx ≠ p := by
            obtain ⟨q, hq, hqo, hqi⟩ := hpn
            rw [← hqi]; exact hok.irrefl p hp q hq hqo
          have hmne : m1.idx ≠ p := by
            obtain ⟨q, hq, hqo, hqi⟩ := hnb m1 (by simp) hob
            rw [← hqi]; exact hok.irrefl p hp q hq hqo
          have hadj : Adj nb st.2 prev.idx m1.idx :=
            ⟨by rw [hlen]; exact hpl, by rw [hlen]; exact hml, by rw [hpg]; exact hturn,
              by rw [hpg, hg], hpm⟩
          have := hinv.closed _ _ hadj hpne hmne
          exact r4 _ _ (this.symm.trans hpr)
        · exact r5 m1 hx hob hg
      · simpa [taken_neighbors] using r6
    | false =>
      by_cases hc : (m.on_board && turn == get st.2 m.idx) = true
      · have hob : m.on_board = true := by
          simp only [Bool.and_eq_true] at hc; exact hc.1
        have hgm : get st.2 m.idx = turn := by
          simp only [Bool.and_eq_true, beq_iff_eq] at hc; exact hc.2.symm
        have hpm : IsNbr nb p m.idx := hnb m (by simp) hob
        have hml : m.idx < n := by
          obtain ⟨q, hq, hqo, hqi⟩ := hpm
          rw [← hqi]; exact hok.idx_lt p hp q hq hqo
        have hadj : Adj nb st.2 p m.idx :=
          ⟨by rw [hlen]; exact hp, by rw [hlen]; exact hml, by rw [hgp]; exact hturn,
            by rw [hgp, hgm], hpm⟩
        obtain ⟨hj1, big, rankj, hbig, hinvj⟩ := join_groups_spec hinv p m.idx
          (by rw [hlen]; exact hp) (by rw [hlen]; exact hml) (by rw [hgp]; exact hturn)
          (Relation.ReflTransGen.single hadj)
        have hst : SameStatic (join_groups v st.2 p m.idx).2 st.2 :=
          fun k => join_groups_static v st.2 p m.idx k
        have hlj : (join_groups v st.2 p m.idx).2.length = n := by
          rw [join_groups_length]; exact hlen
        have hrp : rep p = rep p ∨ rep p = rep m.idx := Or.inl rfl
        have hrm : rep m.idx = rep p ∨ rep m.idx = rep m.idx := Or.inr rfl
        obtain ⟨rep1, rank1, r1, r2, r3, r4, r5, r6, r7⟩ :=
          ih true (st.1 || (join_groups v st.2 p m.idx).1, (join_groups v st.2 p m.idx).2)
            _ rankj m hlj hinvj (by rw [hst.static_get]; exact hgp) hnbrest hchrest
            (fun _ => ⟨hob, by rw [hst.static_get]; exact hgm, hpm, by simp [hrp],
              fun m1 hm1 => by
                cases rest with
                | nil => simp at hm1
                | cons a rest1 =>
                  simp at hm1; subst hm1
                  exact ring_ok_head nb m a rest1 hch⟩)
        have hjn : join_neighbors v turn p (m :: rest) false st =
            join_neighbors v turn p rest true
              (st.1 || (join_groups v st.2 p m.idx).1, (join_groups v st.2 p m.idx).2) := by
          simp only [join_neighbors, hc, if_true]
        have htk : taken_neighbors turn st.2 (m :: rest) false =
            m :: taken_neighbors turn st.2 rest true := by
          simp only [taken_neighbors, hc, if_true]
        have htk2 : taken_neighbors turn (join_groups v st.2 p m.idx).2 rest true =
            taken_neighbors turn st.2 rest true := taken_congr turn _ _ hst.static_get rest true
        have hcoarse : ∀ a b, rep a = rep b →
            (if rep a = rep p ∨ rep a = rep m.idx then big else rep a) =
            (if rep b = rep p ∨ rep b = rep m.idx then big else rep b) := by
          intro a b hab; rw [hab]
        rw [hjn, htk]
        refine ⟨rep1, rank1, r1, r2.static_trans hst, r3, fun a b hab => r4 a b (hcoarse a b hab),
          ?_, ?_, ?_⟩
        · intro m1 hm1 hob1 hg1
          rcases List.mem_cons.1 hm1 with hx | hx
          · subst hx
            apply r4
            simp
          · exact r5 m1 hx hob1 (by rw [hst.static_get]; exact hg1)
        · intro k
          rw [r6 k, htk2]
          simp only [hrp, if_true, List.mem_cons]
          constructor
          · rintro (hx | ⟨m1, hm1, hx⟩)
            · by_cases hk : rep k = rep p ∨ rep k = rep m.idx
              · rcases hk with hk | hk
                · exact Or.inl hk
                · exact Or.inr ⟨m, Or.inl rfl, hk⟩
              · rw [if_neg hk] at hx
                rcases hbig with hb | hb
                · exact absurd (hx.trans hb) (fun h => hk (Or.inl h))
                · exact absurd (hx.trans hb) (fun h => hk (Or.inr h))
            · by_cases hk : rep k = rep p ∨ rep k = rep m.idx
              · rcases hk with hk | hk
                · exact Or.inl hk
                · exact Or.inr ⟨m, Or.inl rfl, hk⟩
              · rw [if_neg hk] at hx
                by_cases hk1 : rep m1.idx = rep p ∨ rep m1.idx = rep m.idx
                · rw [if_pos hk1] at hx
                  rcases hbig with hb | hb
                  · exact absurd (hx.trans hb) (fun h => hk (Or.inl h))
                  · exact absurd (hx.trans hb) (fun h => hk (Or.inr h))
                · rw [if_neg hk1] at hx
                  exact Or.inr ⟨m1, Or.inr hm1, hx⟩
          · rintro (hx | ⟨m1, hm1 | hm1, hx⟩)
            · left; simp [hx]
            · left; subst hm1; simp [hx]
            · right; exact ⟨m1, hm1, hcoarse _ _ hx⟩
        · intro k hk
          have h1 := r7 k hk
          rw [h1]
          have h2 : ¬ (rep k = rep p ∨ rep k = rep m.idx) := by
            intro hx
            apply hk
            apply r4
            simp [hx]
          simp [h2]
      · have hcf : (m.on_board && turn == get st.2 m.idx) = false := by
          cases hx : (m.on_board && turn == get st.2 m.idx)
          · rfl
          · exact absurd hx hc
        obtain ⟨rep1, rank1, r1, r2, r3, r4, r5, r6, r7⟩ :=
          ih false st rep rank prev hlen hinv hgp hnbrest hchrest (fun hx => absurd hx (by simp))
        have hjn : join_neighbors v turn p (m :: rest) false st =
            join_neighbors v turn p rest false st := by
          simp only [join_neighbors, hcf]; rfl
        have htk : taken_neighbors turn st.2 (m :: rest) false =
            taken_neighbors turn st.2 rest false := by
          simp only [taken_neighbors, hcf]; rfl
        rw [hjn, htk]
        refine ⟨rep1, rank1, r1, r2, r3, r4, ?_, r6, r7⟩
        intro m1 hm1 hob1 hg1
        rcases List.mem_cons.1 hm1 with hx | hx
        · subst hx
          rw [hob1, hg1] at hcf
          simp at hcf
        · exact r5 m1 hx hob1 hg1

end uf
end Morat

namespace Morat

section uf
variable {v : Variant} {nb : Nat → List MoveValid} {E C : Nat → Nat} {cells : List Cell}
  {pend : Nat → Prop} {rep rank : Nat → Nat}

theorem taken_congr_on (turn : Side) (c1 c2 : List Cell) :
    ∀ (l : List MoveValid) (skip : Bool),
      (∀ m ∈ l, m.on_board = true → get c1 m.idx = get c2 m.idx) →
      taken_neighbors turn c1 l skip = taken_neighbors turn c2 l skip := by
  intro l
  induction l with
  | nil => intro skip _; cases skip <;> rfl
  | cons m rest ih =>
    intro skip hg
    have hr : ∀ m1 ∈ rest, m1.on_board = true → get c1 m1.idx = get c2 m1.idx :=
      fun m1 hm1 => hg m1 (List.mem_cons_of_mem _ hm1)
    cases skip
    · simp only [taken_neighbors]
      cases hob : m.on_board
      · simp [ih false hr]
      · rw [hg m (by simp) hob, ih true hr, ih false hr]
    · simp only [taken_neighbors, ih false hr]

theorem taken_mem (turn : Side) (c : List Cell) :
    ∀ (l : List MoveValid) (skip : Bool) (m : MoveValid), m ∈ taken_neighbors turn c l skip →
      m ∈ l ∧ m.on_board = true ∧ get c m.idx = turn := by
  intro l
  induction l with
  | nil => intro skip m hm; cases skip <;> simp [taken_neighbors] at hm
  | cons a rest ih =>
    intro skip m hm
    cases skip
    · simp only [taken_neighbors] at hm
      split at hm
      · next hc =>
        simp only [Bool.and_eq_true, beq_iff_eq] at hc
        rcases List.mem_cons.1 hm with hx | hx
        · subst hx; exact ⟨by simp, hc.1, hc.2.symm⟩
        · have := ih true m hx
          exact ⟨List.mem_cons_of_mem _ this.1, this.2⟩
      · have := ih false m hm
        exact ⟨List.mem_cons_of_mem _ this.1, this.2⟩
    · simp only [taken_neighbors] at hm
      have := ih false m hm
      exact ⟨List.mem_cons_of_mem _ this.1, this.2⟩

/-! ## Placing a stone -/

/-- Writing the owner of an empty cell keeps the invariant, with the joins of
that cell pending. -/
theorem CellsInv.place (h : CellsInv v nb E C cells (fun _ => False) rep rank) (p : Nat)
    (hp : p < cells.length) (hemp : (get cells p).isPlayer = false)
    (hsym : ∀ j, j < cells.length → IsNbr nb p j → IsNbr nb j p) (turn : Side) (q : Nat) :
    CellsInv v nb E C (cells.set p { cellAt cells p with piece := turn, perm := q })
      (fun k => k = p) rep rank := by
  have hl : (cells.set p { cellAt cells p with piece := turn, perm := q }).length = cells.length := by
    simp
  have hc : ∀ k, cellAt (cells.set p { cellAt cells p with piece := turn, perm := q }) k =
      if k = p then { cellAt cells p with piece := turn, perm := q } else cellAt cells k := by
    intro k
    rw [cellAt_set]
    by_cases hk : k = p
    · simp [hk, hp]
    · have : ¬ (p = k ∧ p < cells.length) := fun hx => hk hx.1.symm
      simp [hk, this]
  generalize cells.set p { cellAt cells p with piece := turn, perm := q } = cells1 at hl hc
  have hpar : ∀ k, (cellAt cells1 k).parent = (cellAt cells k).parent := by
    intro k; rw [hc]; split
    · next hx => rw [hx]
    · rfl
  have hsz : ∀ k, (cellAt cells1 k).size = (cellAt cells k).size := by
    intro k; rw [hc]; split
    · next hx => rw [hx]
    · rfl
  have hed : ∀ k, (cellAt cells1 k).edge = (cellAt cells k).edge := by
    intro k; rw [hc]; split
    · next hx => rw [hx]
    · rfl
  have hco : ∀ k, (cellAt cells1 k).corner = (cellAt cells k).corner := by
    intro k; rw [hc]; split
    · next hx => rw [hx]
    · rfl
  have hg : ∀ k, k ≠ p → get cells1 k = get cells k := by
    intro k hk; unfold get; rw [hc, if_neg hk]
  have hrp : rep p = p := by
    have := h.single p hp hemp (rep p) (h.rep_lt p hp) (h.rep_rep p hp)
    exact this
  have hrne : ∀ i, i < cells.length → i ≠ p → rep i ≠ p := by
    intro i hi hne hx
    exact hne (h.single p hp hemp i hi (hx.trans hrp.symm))
  have hadj : ∀ a b, Adj nb cells a b → Adj nb cells1 a b := by
    intro a b ⟨ha, hb, hpl, hgab, hn⟩
    have hap : a ≠ p := by intro hx; rw [hx, hemp] at hpl; exact absurd hpl (by simp)
    have hbp : b ≠ p := by
      intro hx; rw [← hgab, hx, hemp] at hpl; exact absurd hpl (by simp)
    exact ⟨by rw [hl]; exact ha, by rw [hl]; exact hb, by rw [hg a hap]; exact hpl,
      by rw [hg a hap, hg b hbp]; exact hgab, hn⟩
  constructor
  · intro i hi; rw [hl] at hi ⊢; rw [hpar]; exact h.par_lt i hi
  · intro i hi; rw [hl] at hi; rw [hpar]; exact h.rep_par i hi
  · intro i hi; rw [hl] at hi; rw [hpar]; exact h.rank_par i hi
  · intro i hi; rw [hl] at hi; rw [hpar]; exact h.rep_root i hi
  · intro i hi; rw [hl] at hi ⊢; exact h.rank_count i hi
  · intro i hi hpl j hj; rw [hl] at hi hj
    by_cases hip : i = p
    · subst hip; exact h.single i hi hemp j hj
    · rw [hg i hip] at hpl; exact h.single i hi hpl j hj
  · intro i hi; rw [hl] at hi
    by_cases hip : i = p
    · subst hip; rw [hrp]
    · rw [hg i hip, hg _ (hrne i hi hip)]; exact h.piece_rep i hi
  · intro r hr; rw [hl] at hr ⊢; rw [hpar, hsz]; exact h.size_eq r hr
  · intro r hr; rw [hl] at hr ⊢; rw [hpar, hed]; exact h.edge_eq r hr
  · intro hv r hr; rw [hl] at hr ⊢; rw [hpar, hco]; exact h.corner_eq hv r hr
  · intro i hi; rw [hl] at hi
    exact Relation.ReflTransGen.mono hadj (h.conn i hi)
  · intro i hi hpl j hj; rw [hl] at hi hj
    by_cases hip : i = p
    · subst hip; exact hsym j hj
    · rw [hg i hip] at hpl; exact h.sym i hi hpl j hj
  · intro i j ⟨hi, hj, hpl, hgij, hn⟩ hip hjp
    rw [hl] at hi hj
    rw [hg i hip] at hpl hgij
    rw [hg j hjp] at hgij
    exact h.closed i j ⟨hi, hj, hpl, hgij, hn⟩ (fun hx => hx) (fun hx => hx)

/-- Once the group of every neighbour owned by the side of the new stone is
the group of the stone, no join is pending. -/
theorem CellsInv.close (p : Nat)
    (h : CellsInv v nb E C cells (fun k => k = p) rep rank)
    (hown : ∀ m ∈ nb p, m.on_board = true → get cells m.idx = get cells p → rep m.idx = rep p) :
    CellsInv v nb E C cells (fun _ => False) rep rank := by
  refine { h with closed := ?_ }
  intro i j hadj _ _
  by_cases hi : i = p
  · by_cases hj : j = p
    · rw [hi, hj]
    · obtain ⟨_, _, _, hg, m, hm, hmo, hmi⟩ := hadj
      rw [hi] at hm hg ⊢
      rw [← hmi] at hg ⊢
      exact (hown m hm hmo hg).symm
  · by_cases hj : j = p
    · have hadj2 := Adj.adj_symm h hadj
      obtain ⟨_, _, _, hg, m, hm, hmo, hmi⟩ := hadj2
      rw [hj] at hm hg ⊢
      rw [← hmi] at hg ⊢
      exact hown m hm hmo hg
    · exact h.closed i j hadj hi hj

end uf
end Morat

namespace Morat

section uf
variable {v : Variant} {nb : Nat → List MoveValid} {E C : Nat → Nat} {cells : List Cell}
  {pend : Nat → Prop} {rep rank : Nat → Nat}

theorem get_set_ne (cells : List Cell) (p k : Nat) (c : Cell) (h : k ≠ p) :
    get (cells.set p c) k = get cells k := by
  unfold get
  rw [cellAt_set_ne _ _ _ _ (fun hx => h hx.symm)]

theorem get_set_self (cells : List Cell) (p : Nat) (c : Cell) (h : p < cells.length) :
    get (cells.set p c) p = c.piece := by
  unfold get
  rw [cellAt_set_self _ _ _ h]

/-- The cell-array part of a successful `move`: the owner of the empty cell
`p` is written and the neighbour loop runs.  The invariant holds again
afterwards; the group of `p` consists of `p` and the former groups of the
neighbours taken, and all other groups are as before. -/
theorem place_spec {n : Nat} (hok : NbrOK nb n) (hn : cells.length = n)
    (h : CellsInv v nb E C cells (fun _ => False) rep rank) (p : Nat) (hp : p < n)
    (hemp : (get cells p).isPlayer = false)
    (hsym : ∀ j, j < n → IsNbr nb p j → IsNbr nb j p)
    (turn : Side) (hturn : turn.isPlayer = true) (permanent : Bool) :
    ∃ rep1 rank1,
      (place_stone v (nb p) cells turn p permanent).2.length = n ∧
      (∀ k, get (place_stone v (nb p) cells turn p permanent).2 k =
        if k = p then turn else get cells k) ∧
      CellsInv v nb E C (place_stone v (nb p) cells turn p permanent).2
        (fun _ => False) rep1 rank1 ∧
      (∀ a b, rep a = rep b → rep1 a = rep1 b) ∧
      (∀ k, k < n → (rep1 k = rep1 p ↔
        (k = p ∨ ∃ m ∈ taken_neighbors turn cells (nb p) false, rep k = rep m.idx))) ∧
      (∀ k, rep1 k ≠ rep1 p → rep1 k = rep k) := by
  have hpl : p < cells.length := by rw [hn]; exact hp
  unfold place_stone
  generalize (if permanent = true then 1 else 0) = q
  have h1 := h.place p hpl hemp (by rw [hn]; exact hsym) turn q
  have hl1 : (cells.set p { cellAt cells p with piece := turn, perm := q }).length = n := by
    simpa using hn
  have hgp : get (cells.set p { cellAt cells p with piece := turn, perm := q }) p = turn :=
    get_set_self _ _ _ hpl
  have hgo : ∀ m ∈ nb p, m.on_board = true →
      get (cells.set p { cellAt cells p with piece := turn, perm := q }) m.idx = get cells m.idx :=
    fun m hm ho => get_set_ne _ _ _ _ (hok.irrefl p hp m hm ho)
  have htk := taken_congr_on turn _ _ (nb p) false hgo
  obtain ⟨rep1, rank1, r1, r2, r3, r4, r5, r6, r7⟩ :=
    join_neighbors_spec (v := v) (E := E) (C := C) hok turn hturn p hp (nb p) false
      (false, cells.set p { cellAt cells p with piece := turn, perm := q }) rep rank default
      hl1 h1 hgp (fun m hm ho => ⟨m, hm, ho, rfl⟩) (hok.ring p hp)
      (fun hx => absurd hx (by simp))
  refine ⟨rep1, rank1, r1, ?_, ?_, r4, ?_, r7⟩
  · intro k
    rw [r2.static_get]
    by_cases hk : k = p
    · rw [if_pos hk, hk]; exact hgp
    · rw [if_neg hk]; exact get_set_ne _ _ _ _ hk
  · apply CellsInv.close p r3
    intro m hm ho hg
    rw [r2.static_get, r2.static_get, hgp] at hg
    exact r5 m hm ho hg
  · intro k hk
    rw [r6 k, htk]
    constructor
    · rintro (hx | hx)
      · exact Or.inl (h.single p hpl hemp k (by rw [hn]; exact hk) hx)
      · exact Or.inr hx
    · rintro (hx | hx)
      · exact Or.inl (by rw [hx])
      · exact Or.inr hx

/-! ## The cleared array -/

theorem group_count_id (n i : Nat) (hi : i < n) : group_count (fun k => k) n i = 1 := by
  unfold group_count
  have h1 : (List.range n).countP (fun j => decide (j = i)) = (List.range n).count i := by
    rw [List.count]
    congr 1
  rw [h1]
  exact List.count_eq_one_of_mem (List.nodup_range n) (List.mem_range.2 hi)

/-- An array in which every cell is an unowned group of its own satisfies the
invariant. -/
theorem CellsInv.init (hmod : 1 < v.size_mod)
    (hc : ∀ i, i < cells.length → (cellAt cells i).parent = i ∧ (cellAt cells i).size = 1 ∧
      (get cells i).isPlayer = false ∧ (cellAt cells i).edge = E i ∧ (cellAt cells i).corner = C i) :
    CellsInv v nb E C cells (fun _ => False) (fun k => k) (fun _ => 0) := by
  constructor
  · intro i hi; rw [(hc i hi).1]; exact hi
  · intro i hi; exact (hc i hi).1
  · intro i hi hne; exact absurd (hc i hi).1 hne
  · intro i _ _; rfl
  · intro i hi; rw [group_count_id _ _ hi]; exact Nat.zero_lt_one
  · intro i _ _ j _ hj; exact hj
  · intro i _; rfl
  · intro r hr _; rw [group_count_id _ _ hr, (hc r hr).2.1, Nat.mod_eq_of_lt hmod]
  · intro r hr _ k
    rw [(hc r hr).2.2.2.1]
    constructor
    · intro hb; exact ⟨r, hr, rfl, hb⟩
    · rintro ⟨j, _, hj, hb⟩; rw [← hj]; exact hb
  · intro _ r hr _ k
    rw [(hc r hr).2.2.2.2]
    constructor
    · intro hb; exact ⟨r, hr, rfl, hb⟩
    · rintro ⟨j, _, hj, hb⟩; rw [← hj]; exact hb
  · intro i _; exact Relation.ReflTransGen.refl
  · intro i hi hpl
    rw [(hc i hi).2.2.1] at hpl
    exact absurd hpl (by simp)
  · intro i j ⟨hi, _, hpl, _, _⟩ _ _
    rw [(hc i hi).2.2.1] at hpl
    exact absurd hpl (by simp)

end uf
end Morat

namespace Morat

theorem cellAt_map_range (f : Nat → Cell) (n i : Nat) (hi : i < n) :
    cellAt ((List.range n).map f) i = f i := by
  unfold cellAt
  simp [List.getD_eq_getElem?_getD, hi]

theorem Side.isPlayer_opp (s : Side) (h : s.isPlayer = true) : s.opp.isPlayer = true := by
  cases s <;> simp_all [Side.isPlayer, Side.opp]

theorem Side.opp_opp (s : Side) : s.opp.opp = s := by
  cases s <;> rfl

namespace Y

theorem y_valid_size_bounds (s : Int) (h : valid_size s = true) : 4 ≤ s ∧ s ≤ 25 := by
  unfold valid_size min_size max_size at h
  simpa using h

theorem y_variant_mod : 1 < variant.size_mod := by decide

theorem y_clear_cells_inv (G : Grid) (s : Int) (n : Nat) :
    CellsInv variant (G.neighbors_small s) (edge0 G s) (corner0 G s)
      ((List.range n).map (clear_cell G s)) (fun _ => False) (fun k => k) (fun _ => 0) := by
  apply CellsInv.init y_variant_mod
  intro i hi
  have hi' : i < n := by simpa using hi
  unfold get
  rw [cellAt_map_range _ _ _ hi']
  refine ⟨rfl, rfl, ?_, rfl, rfl⟩
  unfold clear_cell
  simp only
  split <;> rfl

theorem y_clear_inv (G : Grid) (s : Int) (b : Board) (hs : b.size_ = s) (hm : b.sizem1_ = s - 1)
    (hp : b.to_play_ = .NONE ∨ b.first_move.isPlayer = true) :
    BoardInv G s (b.clear G) := by
  unfold Board.clear
  constructor
  · exact hs
  · exact hm
  · simp [Board.vec_size, hs]
  · exact ⟨_, _, by simpa [hs] using y_clear_cells_inv G s (b.vec_size.toNat)⟩
  · simp only
    split
    · rfl
    · next hx =>
      rcases hp with h | h
      · exact absurd h hx
      · exact h
  · simp only
    split
    · rfl
    · next hx =>
      rcases hp with h | h
      · exact absurd h hx
      · exact h
  · simp [zobrist_clear]

theorem y_create_inv (G : Grid) (s : Int) (h : valid_size s = true) :
    BoardInv G s (Board.size G Board.blank s).2 := by
  unfold Board.size
  simp only [h, Bool.not_true, Bool.false_eq_true, if_false]
  exact y_clear_inv G s _ rfl rfl (Or.inl rfl)

theorem y_toggle_inv (G : Grid) (s : Int) (b : Board) (h : BoardInv G s b) :
    BoardInv G s b.toggle_to_play := by
  unfold Board.toggle_to_play
  split
  · split
    · exact { h with to_play := rfl, first := rfl }
    · split
      · exact { h with to_play := rfl, first := rfl }
      · exact h
  · exact h

/-- What a legal move is, in terms of its cell index. -/
theorem y_legal_facts (G : Grid) (s : Int) (hs : valid_size s = true) (hG : GridOK G s)
    (b : Board) (h : BoardInv G s b) (m : Move) (hv : b.valid_move_xy G m = true) :
    b.outcome_ = .UNKNOWN ∧ (b.move_valid m).on_board = true ∧
      (b.move_valid m).idx < b.cells_.length ∧ ((b.move_valid m).idx : Int) = m.y * s + m.x ∧
      get b.cells_ (b.move_valid m).idx = .NONE ∧ b.valid_move (b.move_valid m) = true ∧
      (∀ j, j < (s * s).toNat → IsNbr (G.neighbors_small s) (b.move_valid m).idx j →
        IsNbr (G.neighbors_small s) j (b.move_valid m).idx) := by
  unfold Board.valid_move_xy at hv
  simp only [Bool.and_eq_true, decide_eq_true_eq] at hv
  obtain ⟨⟨ho, hb⟩, hf⟩ := hv
  rw [h.size_eq] at hb
  obtain ⟨hx0, hxs, hy0, hys⟩ := hG.shape m.x m.y hb
  have hsb := y_valid_size_bounds s hs
  have hxy : b.xy m.x m.y = m.y * s + m.x := by unfold Board.xy; rw [h.size_eq]
  have hnn : 0 ≤ m.y * s + m.x := by
    have : 0 ≤ m.y * s := Int.mul_nonneg hy0 (by omega)
    omega
  have hlt : m.y * s + m.x < s * s := by
    have : (m.y + 1) * s ≤ s * s := Int.mul_le_mul_of_nonneg_right (by omega) (by omega)
    have h2 : (m.y + 1) * s = m.y * s + s := by ring
    omega
  have hidx : (b.move_valid m).idx = (m.y * s + m.x).toNat := by
    unfold MoveValid.idx Board.move_valid; simp only; rw [hxy]
  have hout : b.outcome_ = .UNKNOWN := by
    cases hx : b.outcome_ <;> rw [hx] at ho <;> simp [Outcome.to_i] at ho
  have hob : (b.move_valid m).on_board = true := by
    unfold MoveValid.on_board Board.move_valid; simp only; rw [hxy]
    simp; omega
  have hget : get b.cells_ (b.move_valid m).idx = .NONE := by
    unfold Board.valid_move_fast Board.get at hf
    rw [hidx, ← hxy]
    simpa using hf
  refine ⟨hout, hob, ?_, ?_, hget, ?_, ?_⟩
  · rw [h.len, hidx]; omega
  · rw [hidx]; omega
  · unfold Board.valid_move Board.valid_move_fast Board.get
    rw [hob, hget, hout]
    simp [Outcome.to_i]
  · rw [hidx]; exact hG.symm m.x m.y hb

end Y
end Morat

namespace Morat
namespace Y

/-- The result of `move_body` on a valid move, field by field. -/
theorem y_move_body_valid (G : Grid) (b : Board) (pos : MoveValid) (permanent : Bool)
    (hv : b.valid_move pos = true) :
    b.move_body G pos permanent =
      (true,
        { b with
          last_move_ := pos.toMove
          num_moves_ := b.num_moves_ + 1
          cells_ := (find_group (place_stone variant (G.neighbors_small b.size_ pos.idx)
            b.cells_ b.to_play_ pos.idx permanent).2 pos.idx).2
          hash := Board.update_hash G { b with last_move_ := pos.toMove, num_moves_ := b.num_moves_ + 1 }
            pos b.to_play_
          outcome_ :=
            if (cellAt (find_group (place_stone variant (G.neighbors_small b.size_ pos.idx)
                b.cells_ b.to_play_ pos.idx permanent).2 pos.idx).2
              (find_group (place_stone variant (G.neighbors_small b.size_ pos.idx)
                b.cells_ b.to_play_ pos.idx permanent).2 pos.idx).1).numedges = 3
            then Outcome.ofSide b.to_play_ else b.outcome_
          to_play_ := b.to_play_.opp }) := by
  unfold Board.move_body
  simp [hv]

theorem y_move_xy_legal (G : Grid) (s : Int) (hs : valid_size s = true) (hG : GridOK G s)
    (b : Board) (h : BoardInv G s b) (m : Move) (hv : b.valid_move_xy G m = true)
    (permanent : Bool) :
    b.move_xy G m permanent = some (b.move_body G (b.move_valid m) permanent) := by
  have hf := y_legal_facts G s hs hG b h m hv
  unfold Board.move_xy Board.move
  rw [hf.1]
  rfl

theorem y_update_hash_length (G : Grid) (b : Board) (pos : MoveValid) (side : Side) :
    (b.update_hash G pos side).length = b.hash.length := by
  unfold Board.update_hash
  simp only
  split <;> simp [zobrist_update]

theorem y_move_inv (G : Grid) (s : Int) (hs : valid_size s = true) (hG : GridOK G s)
    (b : Board) (h : BoardInv G s b) (m : Move) (hv : b.valid_move_xy G m = true)
    (permanent : Bool) : BoardInv G s (b.move_body G (b.move_valid m) permanent).2 := by
  obtain ⟨ho, hob, hlt, hidx, hget, hvm, hsym⟩ := y_legal_facts G s hs hG b h m hv
  rw [y_move_body_valid G b _ permanent hvm]
  obtain ⟨rep, rank, hc⟩ := h.cells
  rw [h.len] at hlt
  obtain ⟨rep1, rank1, r1, r2, r3, r4, r5, r6⟩ :=
    place_spec hG.nbr h.len hc (b.move_valid m).idx hlt (by rw [hget]; rfl) hsym b.to_play_
      h.to_play permanent
  rw [h.size_eq]
  constructor
  · rfl
  · exact h.sizem1_eq
  · simp only; rw [find_group_length]; exact r1
  · exact ⟨rep1, rank1, find_group_inv r3 _ (by rw [r1]; exact hlt)⟩
  · exact Side.isPlayer_opp _ h.to_play
  · exact h.first
  · simp only; rw [y_update_hash_length]; exact h.hash_len

/-- Every reachable board satisfies the invariant. -/
theorem y_reachable_inv (G : Grid) (s : Int) (hs : valid_size s = true) (hG : GridOK G s)
    (b : Board) (hb : Reachable G s b) : BoardInv G s b := by
  induction hb with
  | create h => exact y_create_inv G s h
  | clear b _ ih => exact y_clear_inv G s b ih.size_eq ih.sizem1_eq (Or.inr ih.first)
  | toggle b _ ih => exact y_toggle_inv G s b ih
  | move b m permanent r b1 _ hv hm ih =>
    rw [y_move_xy_legal G s hs hG b ih m hv permanent] at hm
    have := y_move_inv G s hs hG b ih m hv permanent
    simp only [Option.some.injEq] at hm
    rw [hm] at this
    exact this

end Y
end Morat

namespace Morat

section uf
variable {v : Variant} {nb : Nat → List MoveValid} {E C : Nat → Nat} {cells : List Cell}
  {pend : Nat → Prop} {rep rank : Nat → Nat}

/-- Connected cells have the same representative. -/
theorem CellsInv.rep_of_connected (h : CellsInv v nb E C cells (fun _ => False) rep rank)
    {a c : Nat} (hc : Connected nb cells a c) : rep a = rep c := by
  unfold Connected at hc
  induction hc with
  | refl => rfl
  | tail _ hbc ih => exact ih.trans (h.closed _ _ hbc (fun hx => hx) (fun hx => hx))

/-- The partition `find_group` computes is the partition into connected
components of cells of one owner. -/
theorem find_group_iff_connected {n : Nat} (hn : cells.length = n)
    (h : CellsInv v nb E C cells (fun _ => False) rep rank) (a c : Nat) (ha : a < n) (hc : c < n) :
    (find_group cells a).1 = (find_group cells c).1 ↔ Connected nb cells a c := by
  rw [find_group_fst h a (by rw [hn]; exact ha), find_group_fst h c (by rw [hn]; exact hc)]
  constructor
  · intro he
    have h1 := h.conn a (by rw [hn]; exact ha)
    have h2 := Connected.conn_symm h (h.conn c (by rw [hn]; exact hc))
    rw [he] at h1
    exact Relation.ReflTransGen.trans h1 h2
  · exact h.rep_of_connected

theorem group_cells_length (h : CellsInv v nb E C cells pend rep rank) (r : Nat) :
    (group_cells cells r).length = group_count rep cells.length r := by
  unfold group_cells group_count
  rw [← List.countP_eq_length_filter]
  apply List.countP_congr
  intro j hj
  rw [find_group_fst h j (List.mem_range.1 hj)]

theorem testBit_foldr_or (mask : Nat → Nat) (p : Nat → Prop) [DecidablePred p] (k : Nat) :
    ∀ l : List Nat,
      (l.foldr (fun j acc => if p j then mask j ||| acc else acc) 0).testBit k = true ↔
        ∃ j ∈ l, p j ∧ (mask j).testBit k = true := by
  intro l
  induction l with
  | nil => simp
  | cons a l ih =>
    simp only [List.foldr_cons, List.mem_cons]
    by_cases hp : p a
    · rw [if_pos hp, Nat.testBit_lor, Bool.or_eq_true, ih]
      constructor
      · rintro (hx | ⟨j, hj, hx⟩)
        · exact ⟨a, Or.inl rfl, hp, hx⟩
        · exact ⟨j, Or.inr hj, hx⟩
      · rintro ⟨j, hj | hj, hx⟩
        · left; rw [← hj]; exact hx.2
        · right; exact ⟨j, hj, hx⟩
    · rw [if_neg hp, ih]
      constructor
      · rintro ⟨j, hj, hx⟩; exact ⟨j, Or.inr hj, hx⟩
      · rintro ⟨j, hj | hj, hx⟩
        · rw [hj] at hx; exact absurd hx.1 hp
        · exact ⟨j, hj, hx⟩

theorem testBit_group_mask (mask rep : Nat → Nat) (n r k : Nat) :
    (group_mask mask rep n r).testBit k = true ↔
      ∃ j, j < n ∧ rep j = r ∧ (mask j).testBit k = true := by
  unfold group_mask
  rw [testBit_foldr_or mask (fun j => rep j = r) k]
  constructor
  · rintro ⟨j, hj, hx⟩; exact ⟨j, List.mem_range.1 hj, hx⟩
  · rintro ⟨j, hj, hx⟩; exact ⟨j, List.mem_range.2 hj, hx⟩

theorem eq_of_testBit_iff (a b : Nat) (h : ∀ k, a.testBit k = true ↔ b.testBit k = true) :
    a = b := by
  apply Nat.eq_of_testBit_eq
  intro k
  have := h k
  cases ha : a.testBit k <;> cases hb : b.testBit k <;> simp_all

/-- The edge mask of a representative is the OR of the initial edge masks of
the cells whose group it is. -/
theorem edge_eq_group_mask (h : CellsInv v nb E C cells pend rep rank) (r : Nat)
    (hr : r < cells.length) (hroot : (cellAt cells r).parent = r) :
    (cellAt cells r).edge =
      group_mask E (fun j => (find_group cells j).1) cells.length r := by
  apply eq_of_testBit_iff
  intro k
  rw [h.edge_eq r hr hroot k, testBit_group_mask]
  constructor
  · rintro ⟨j, hj, hx⟩; exact ⟨j, hj, by rw [find_group_fst h j hj]; exact hx.1, hx.2⟩
  · rintro ⟨j, hj, hx⟩; exact ⟨j, hj, by rw [← find_group_fst h j hj]; exact hx.1, hx.2⟩

theorem corner_eq_group_mask (h : CellsInv v nb E C cells pend rep rank) (hv : v.corners = true)
    (r : Nat) (hr : r < cells.length) (hroot : (cellAt cells r).parent = r) :
    (cellAt cells r).corner =
      group_mask C (fun j => (find_group cells j).1) cells.length r := by
  apply eq_of_testBit_iff
  intro k
  rw [h.corner_eq hv r hr hroot k, testBit_group_mask]
  constructor
  · rintro ⟨j, hj, hx⟩; exact ⟨j, hj, by rw [find_group_fst h j hj]; exact hx.1, hx.2⟩
  · rintro ⟨j, hj, hx⟩; exact ⟨j, hj, by rw [← find_group_fst h j hj]; exact hx.1, hx.2⟩

theorem find_group_root (h : CellsInv v nb E C cells pend rep rank) (c : Nat)
    (hc : c < cells.length) :
    (cellAt cells (find_group cells c).1).parent = (find_group cells c).1 ∧
      (find_group cells c).1 < cells.length := by
  rw [find_group_fst h c hc]
  exact ⟨h.par_rep c hc, h.rep_lt c hc⟩

end uf
end Morat

namespace Morat

theorem countP_update (f g : Nat → Bool) (p : Nat) (hfg : ∀ k, k ≠ p → g k = f k) :
    ∀ l : List Nat, l.Nodup → p ∈ l →
      l.countP g + (if f p then 1 else 0) = l.countP f + (if g p then 1 else 0) := by
  intro l
  induction l with
  | nil => intro _ hp; exact absurd hp (List.not_mem_nil p)
  | cons a l ih =>
    intro hnd hp
    rw [List.nodup_cons] at hnd
    rw [List.countP_cons, List.countP_cons]
    by_cases ha : a = p
    · subst ha
      have : l.countP g = l.countP f := by
        apply List.countP_congr
        intro x hx
        have hxa : x ≠ a := fun h => hnd.1 (h ▸ hx)
        rw [hfg x hxa]
      rw [this]
      omega
    · have hp' : p ∈ l := by
        rcases List.mem_cons.1 hp with h | h
        · exact absurd h.symm ha
        · exact h
      have := ih hnd.2 hp'
      rw [hfg a ha]
      omega

theorem countP_disjoint_le (f g : Nat → Bool) (hd : ∀ k, f k = true → g k = false) :
    ∀ l : List Nat, l.countP f + l.countP g ≤ l.length := by
  intro l
  induction l with
  | nil => simp
  | cons a l ih =>
    rw [List.countP_cons, List.countP_cons, List.length_cons]
    cases hf : f a
    · cases hg : g a <;> simp <;> omega
    · rw [hd a hf]; simp; omega

namespace Havannah

theorem h_valid_size_bounds (s : Int) (h : valid_size s = true) : 3 ≤ s ∧ s ≤ 10 := by
  unfold valid_size min_size max_size at h
  simpa using h

theorem h_variant_mod : 1 < variant.size_mod := by decide

theorem h_stones_congr (c1 c2 : List Cell) (hl : c1.length = c2.length)
    (hg : ∀ k, get c1 k = get c2 k) (side : Side) : stones c1 side = stones c2 side := by
  unfold stones
  rw [hl]
  apply List.countP_congr
  intro x _
  rw [hg x]

/-- Placing a stone of `turn` on an empty cell adds one to the stones of
`turn` and leaves the other counts alone. -/
theorem h_stones_place (c1 c2 : List Cell) (hl : c1.length = c2.length) (p : Nat)
    (hp : p < c2.length) (turn : Side)
    (hg : ∀ k, get c1 k = if k = p then turn else get c2 k) (hemp : get c2 p = .NONE)
    (side : Side) (hs : side.isPlayer = true) :
    stones c1 side = stones c2 side + (if side = turn then 1 else 0) := by
  unfold stones
  rw [hl]
  have h := countP_update (fun j => decide (get c2 j = side)) (fun j => decide (get c1 j = side)) p
    (by intro k hk; simp only; rw [hg k, if_neg hk]) (List.range c2.length) (List.nodup_range _)
    (List.mem_range.2 hp)
  simp only [hemp, hg p, if_true] at h
  have hne : ¬ (Side.NONE = side) := by
    intro hx; rw [← hx] at hs; simp [Side.isPlayer] at hs
  simp only [decide_eq_true_eq, hne, if_false, Nat.add_zero] at h
  rw [h]
  by_cases hx : side = turn
  · simp [hx]
  · have : ¬ turn = side := fun h => hx h.symm
    simp [hx, this]

theorem h_stones_le (cells : List Cell) :
    stones cells .P1 + stones cells .P2 ≤ cells.length := by
  unfold stones
  have := countP_disjoint_le (fun j => decide (get cells j = .P1))
    (fun j => decide (get cells j = .P2))
    (by intro k hk; simp only [decide_eq_true_eq] at hk; simp [hk]) (List.range cells.length)
  simpa using this

theorem h_clear_cells_inv (G : Grid) (d : Int) (n : Nat) :
    CellsInv variant (G.neighbors_small d) (edge0 G d) (corner0 G d)
      ((List.range n).map (clear_cell G d)) (fun _ => False) (fun k => k) (fun _ => 0) := by
  apply CellsInv.init h_variant_mod
  intro i hi
  have hi' : i < n := by simpa using hi
  unfold get
  rw [cellAt_map_range _ _ _ hi']
  refine ⟨rfl, rfl, ?_, rfl, rfl⟩
  unfold clear_cell
  simp only
  split <;> rfl

theorem h_stones_clear (G : Grid) (d : Int) (n : Nat) (side : Side) (hs : side.isPlayer = true) :
    stones ((List.range n).map (clear_cell G d)) side = 0 := by
  unfold stones
  rw [List.countP_eq_zero]
  intro j hj
  have hj' : j < n := by simpa using hj
  unfold get
  rw [cellAt_map_range _ _ _ hj']
  unfold clear_cell
  simp only
  split <;> cases side <;> simp_all [Side.isPlayer]

theorem h_clear_inv (G : Grid) (s : Int) (b : Board) (hs : b.size_ = s * 2 - 1)
    (hm : b.size_r_m1_ = s - 1) : BoardInv G s (b.clear G) := by
  unfold Board.clear
  constructor
  · exact hs
  · exact hm
  · simp [Board.vec_size, hs]
  · exact ⟨_, _, by simpa [hs] using h_clear_cells_inv G (s * 2 - 1) (b.vec_size.toNat)⟩
  · rfl
  · simp [zobrist_clear]
  · simp only
    rw [h_stones_clear G _ _ .P1 rfl, h_stones_clear G _ _ .P2 rfl]
    simp

theorem h_create_inv (G : Grid) (s : Int) (h : valid_size s = true) :
    BoardInv G s (Board.size G Board.blank s).2 := by
  unfold Board.size
  simp only [h, Bool.not_true, Bool.false_eq_true, if_false]
  exact h_clear_inv G s _ rfl rfl

/-- What a legal move is, in terms of its cell index. -/
theorem h_legal_facts (G : Grid) (s : Int) (hs : valid_size s = true) (hG : GridOK G (s * 2 - 1))
    (b : Board) (h : BoardInv G s b) (m : Move) (hv : b.valid_move_xy G m = true) :
    b.outcome_ = .UNKNOWN ∧ (b.move_valid m).on_board = true ∧
      (b.move_valid m).idx < b.cells_.length ∧
      ((b.move_valid m).idx : Int) = m.y * (s * 2 - 1) + m.x ∧
      get b.cells_ (b.move_valid m).idx = .NONE ∧ b.valid_move (b.move_valid m) = true ∧
      (∀ j, j < ((s * 2 - 1) * (s * 2 - 1)).toNat →
        IsNbr (G.neighbors_small (s * 2 - 1)) (b.move_valid m).idx j →
        IsNbr (G.neighbors_small (s * 2 - 1)) j (b.move_valid m).idx) := by
  unfold Board.valid_move_xy at hv
  simp only [Bool.and_eq_true, decide_eq_true_eq] at hv
  obtain ⟨⟨ho, hb⟩, hf⟩ := hv
  rw [h.size_eq] at hb
  obtain ⟨hx0, hxs, hy0, hys⟩ := hG.shape m.x m.y hb
  have hsb := h_valid_size_bounds s hs
  have hlen := h.len
  have hsize := h.size_eq
  have hsymm := hG.symm m.x m.y hb
  generalize s * 2 - 1 = d at hxs hys hlen hsize hsymm ⊢
  have hd0 : 0 < d := by omega
  have hxy : b.xy m.x m.y = m.y * d + m.x := by unfold Board.xy; rw [hsize]
  have hnn : 0 ≤ m.y * d + m.x := by
    have : 0 ≤ m.y * d := Int.mul_nonneg hy0 (by omega)
    omega
  have hlt : m.y * d + m.x < d * d := by
    have : (m.y + 1) * d ≤ d * d := Int.mul_le_mul_of_nonneg_right (by omega) (by omega)
    have h2 : (m.y + 1) * d = m.y * d + d := by ring
    omega
  have hidx : (b.move_valid m).idx = (m.y * d + m.x).toNat := by
    unfold MoveValid.idx Board.move_valid; simp only; rw [hxy]
  have hout : b.outcome_ = .UNKNOWN := by
    cases hx : b.outcome_ <;> rw [hx] at ho <;> simp [Outcome.to_i] at ho
  have hob : (b.move_valid m).on_board = true := by
    unfold MoveValid.on_board Board.move_valid; simp only; rw [hxy]
    simp; omega
  have hget : get b.cells_ (b.move_valid m).idx = .NONE := by
    unfold Board.valid_move_fast Board.get at hf
    rw [hidx, ← hxy]
    simpa using hf
  refine ⟨hout, hob, ?_, ?_, hget, ?_, ?_⟩
  · rw [hlen, hidx]; omega
  · rw [hidx]; omega
  · unfold Board.valid_move Board.valid_move_fast Board.get
    rw [hob, hget, hout]
    simp [Outcome.to_i]
  · rw [hidx]; exact hsymm

end Havannah
end Morat

namespace Morat
namespace Havannah

/-- The result of `move_body` on a valid move, field by field. -/
theorem h_move_body_valid (G : Grid) (b : Board) (pos : MoveValid) (checkwin permanent : Bool)
    (hv : b.valid_move pos = true) :
    b.move_body G pos checkwin permanent =
      (true,
        { b with
          last_move_ := pos.toMove
          num_moves_ := b.num_moves_ + 1
          cells_ := (if checkwin then
              find_group (place_stone variant (G.neighbors_small b.size_ pos.idx)
                b.cells_ b.to_play_ pos.idx permanent).2 pos.idx
            else (pos.idx, (place_stone variant (G.neighbors_small b.size_ pos.idx)
                b.cells_ b.to_play_ pos.idx permanent).2)).2
          hash := Board.update_hash G { b with last_move_ := pos.toMove, num_moves_ := b.num_moves_ + 1 }
            pos b.to_play_
          outcome_ := (if checkwin then
              Board.check_win G { b with last_move_ := pos.toMove, num_moves_ := b.num_moves_ + 1 }
                (find_group (place_stone variant (G.neighbors_small b.size_ pos.idx)
                  b.cells_ b.to_play_ pos.idx permanent).2 pos.idx).2 pos
                (cellAt (find_group (place_stone variant (G.neighbors_small b.size_ pos.idx)
                    b.cells_ b.to_play_ pos.idx permanent).2 pos.idx).2
                  (find_group (place_stone variant (G.neighbors_small b.size_ pos.idx)
                    b.cells_ b.to_play_ pos.idx permanent).2 pos.idx).1)
                (place_stone variant (G.neighbors_small b.size_ pos.idx)
                  b.cells_ b.to_play_ pos.idx permanent).1
            else (b.outcome_, b.win_type_)).1
          win_type_ := (if checkwin then
              Board.check_win G { b with last_move_ := pos.toMove, num_moves_ := b.num_moves_ + 1 }
                (find_group (place_stone variant (G.neighbors_small b.size_ pos.idx)
                  b.cells_ b.to_play_ pos.idx permanent).2 pos.idx).2 pos
                (cellAt (find_group (place_stone variant (G.neighbors_small b.size_ pos.idx)
                    b.cells_ b.to_play_ pos.idx permanent).2 pos.idx).2
                  (find_group (place_stone variant (G.neighbors_small b.size_ pos.idx)
                    b.cells_ b.to_play_ pos.idx permanent).2 pos.idx).1)
                (place_stone variant (G.neighbors_small b.size_ pos.idx)
                  b.cells_ b.to_play_ pos.idx permanent).1
            else (b.outcome_, b.win_type_)).2
          to_play_ := b.to_play_.opp }) := by
  unfold Board.move_body
  cases checkwin <;> simp [hv]

theorem h_move_xy_legal (G : Grid) (s : Int) (hs : valid_size s = true) (hG : GridOK G (s * 2 - 1))
    (b : Board) (h : BoardInv G s b) (m : Move) (hv : b.valid_move_xy G m = true)
    (checkwin permanent : Bool) :
    b.move_xy G m checkwin permanent =
      some (b.move_body G (b.move_valid m) checkwin permanent) := by
  have hf := h_legal_facts G s hs hG b h m hv
  unfold Board.move_xy Board.move
  rw [hf.1]
  rfl

theorem h_update_hash_length (G : Grid) (b : Board) (pos : MoveValid) (side : Side) :
    (b.update_hash G pos side).length = b.hash.length := by
  unfold Board.update_hash
  simp only
  split <;> simp [zobrist_update]

theorem h_move_inv (G : Grid) (s : Int) (hs : valid_size s = true) (hG : GridOK G (s * 2 - 1))
    (b : Board) (h : BoardInv G s b) (m : Move) (hv : b.valid_move_xy G m = true)
    (checkwin permanent : Bool) :
    BoardInv G s (b.move_body G (b.move_valid m) checkwin permanent).2 := by
  obtain ⟨ho, hob, hlt, hidx, hget, hvm, hsym⟩ := h_legal_facts G s hs hG b h m hv
  rw [h_move_body_valid G b _ checkwin permanent hvm]
  obtain ⟨rep, rank, hc⟩ := h.cells
  have hlt0 := hlt
  rw [h.len] at hlt
  obtain ⟨rep1, rank1, r1, r2, r3, r4, r5, r6⟩ :=
    place_spec hG.nbr h.len hc (b.move_valid m).idx hlt (by rw [hget]; rfl) hsym b.to_play_
      h.to_play permanent
  rw [h.size_eq]
  have hcl : (if checkwin then
        find_group (place_stone variant (G.neighbors_small (s * 2 - 1) (b.move_valid m).idx)
          b.cells_ b.to_play_ (b.move_valid m).idx permanent).2 (b.move_valid m).idx
      else ((b.move_valid m).idx,
        (place_stone variant (G.neighbors_small (s * 2 - 1) (b.move_valid m).idx)
          b.cells_ b.to_play_ (b.move_valid m).idx permanent).2)).2.length
      = ((s * 2 - 1) * (s * 2 - 1)).toNat := by
    cases checkwin
    · exact r1
    · simp only [if_true]; rw [find_group_length]; exact r1
  have hcg : ∀ k, get (if checkwin then
        find_group (place_stone variant (G.neighbors_small (s * 2 - 1) (b.move_valid m).idx)
          b.cells_ b.to_play_ (b.move_valid m).idx permanent).2 (b.move_valid m).idx
      else ((b.move_valid m).idx,
        (place_stone variant (G.neighbors_small (s * 2 - 1) (b.move_valid m).idx)
          b.cells_ b.to_play_ (b.move_valid m).idx permanent).2)).2 k
      = if k = (b.move_valid m).idx then b.to_play_ else get b.cells_ k := by
    intro k
    cases checkwin
    · exact r2 k
    · simp only [if_true]; rw [find_group_get]; exact r2 k
  constructor
  · rfl
  · exact h.size_r_m1_eq
  · exact hcl
  · cases checkwin
    · exact ⟨rep1, rank1, r3⟩
    · exact ⟨rep1, rank1, find_group_inv r3 _ (by rw [r1]; exact hlt)⟩
  · exact Side.isPlayer_opp _ h.to_play
  · simp only; rw [h_update_hash_length]; exact h.hash_len
  · simp only
    rw [h_stones_place _ b.cells_ (hcl.trans h.len.symm) _ hlt0 b.to_play_ hcg hget .P1 rfl,
      h_stones_place _ b.cells_ (hcl.trans h.len.symm) _ hlt0 b.to_play_ hcg hget .P2 rfl]
    have hbal := h.balance
    have htp := h.to_play
    cases hx : b.to_play_ <;> rw [hx] at hbal htp <;> simp_all [Side.isPlayer, Side.opp]

/-- Every reachable board satisfies the invariant. -/
theorem h_reachable_inv (G : Grid) (s : Int) (hs : valid_size s = true) (hG : GridOK G (s * 2 - 1))
    (b : Board) (hb : Reachable G s b) : BoardInv G s b := by
  induction hb with
  | create h => exact h_create_inv G s h
  | clear b _ ih => exact h_clear_inv G s b ih.size_eq ih.size_r_m1_eq
  | rings b c p _ ih => exact { ih with }
  | move b m checkwin permanent r b1 _ hv hm ih =>
    rw [h_move_xy_legal G s hs hG b ih m hv checkwin permanent] at hm
    have := h_move_inv G s hs hG b ih m hv checkwin permanent
    simp only [Option.some.injEq] at hm
    rw [hm] at this
    exact this

end Havannah
end Morat

namespace Morat

/-! ## The concrete grids satisfy the assumptions -/

set_option maxRecDepth 100000 in
theorem Y.y_triGrid_nbr : NbrOK (Y.triGrid.neighbors_small 4) 16 :=
  { idx_lt := by decide
    irrefl := by decide
    ring := by decide }

set_option maxRecDepth 100000 in
theorem Y.y_triGrid_ok : Y.GridOK Y.triGrid 4 :=
  { nbr := Y.y_triGrid_nbr
    shape := by
      intro x y h
      simp only [Y.triGrid, Y.tri_on_board, Bool.and_eq_true, decide_eq_true_eq] at h
      omega
    symm := by
      intro x y h
      have hb : 0 ≤ x ∧ x < 4 ∧ 0 ≤ y ∧ y < 4 := by
        simp only [Y.triGrid, Y.tri_on_board, Bool.and_eq_true, decide_eq_true_eq] at h
        omega
      obtain ⟨h1, h2, h3, h4⟩ := hb
      revert h
      interval_cases x <;> interval_cases y <;> decide }

set_option maxRecDepth 100000 in
theorem Havannah.h_hexGrid_nbr : NbrOK (Havannah.hexGrid.neighbors_small 5) 25 :=
  { idx_lt := by decide
    irrefl := by decide
    ring := by decide }

set_option maxRecDepth 100000 in
theorem Havannah.h_hexGrid_ok : Havannah.GridOK Havannah.hexGrid (3 * 2 - 1) :=
  { nbr := Havannah.h_hexGrid_nbr
    shape := by
      intro x y h
      simp only [Havannah.hexGrid, Havannah.hex_on_board, Bool.and_eq_true, decide_eq_true_eq] at h
      omega
    symm := by
      intro x y h
      have hb : 0 ≤ x ∧ x < 5 ∧ 0 ≤ y ∧ y < 5 := by
        simp only [Havannah.hexGrid, Havannah.hex_on_board, Bool.and_eq_true,
          decide_eq_true_eq] at h
        omega
      obtain ⟨h1, h2, h3, h4⟩ := hb
      revert h
      interval_cases x <;> interval_cases y <;> decide }

/-! ## Played boards are reachable -/

theorem Y.y_play_reachable (G : Y.Grid) (s : Int) :
    ∀ (ms : List Move) (b b1 : Y.Board), Y.Reachable G s b → Y.Board.play G b ms = some b1 →
      Y.Reachable G s b1 := by
  intro ms
  induction ms with
  | nil =>
    intro b b1 hb hp
    simp only [Y.Board.play, Option.some.injEq] at hp
    rw [← hp]; exact hb
  | cons m ms ih =>
    intro b b1 hb hp
    simp only [Y.Board.play] at hp
    split at hp
    · next hv =>
      split at hp
      · next r b2 hm => exact ih b2 b1 (Y.Reachable.move b m true r b2 hb hv hm) hp
      · exact absurd hp (by simp)
    · exact absurd hp (by simp)

theorem Havannah.h_play_reachable (G : Havannah.Grid) (s : Int) :
    ∀ (ms : List Move) (b b1 : Havannah.Board), Havannah.Reachable G s b →
      Havannah.Board.play G b ms = some b1 → Havannah.Reachable G s b1 := by
  intro ms
  induction ms with
  | nil =>
    intro b b1 hb hp
    simp only [Havannah.Board.play, Option.some.injEq] at hp
    rw [← hp]; exact hb
  | cons m ms ih =>
    intro b b1 hb hp
    simp only [Havannah.Board.play] at hp
    split at hp
    · next hv =>
      split at hp
      · next r b2 hm => exact ih b2 b1 (Havannah.Reachable.move b m true true r b2 hb hv hm) hp
      · exact absurd hp (by simp)
    · exact absurd hp (by simp)

set_option maxRecDepth 100000 in
/-- The boards of the sample Y game are reachable. -/
theorem Y.y_after_reachable (k : Nat) (hk : k ≤ 7) : Y.Reachable Y.triGrid 4 (Y.after k) := by
  have h0 : Y.Reachable Y.triGrid 4 Y.board4 := Y.Reachable.create (by decide)
  have : ∀ k, k ≤ 7 → Y.Board.play Y.triGrid Y.board4 (Y.game7.take k) = some (Y.after k) := by
    decide
  exact Y.y_play_reachable Y.triGrid 4 _ _ _ h0 (this k hk)

set_option maxRecDepth 100000 in
/-- The boards of the sample Havannah game are reachable. -/
theorem Havannah.h_after_reachable (k : Nat) (hk : k ≤ 5) :
    Havannah.Reachable Havannah.hexGrid 3 (Havannah.after k) := by
  have h0 : Havannah.Reachable Havannah.hexGrid 3 Havannah.board3 :=
    Havannah.Reachable.create (by decide)
  have : ∀ k, k ≤ 5 →
      Havannah.Board.play Havannah.hexGrid Havannah.board3 (Havannah.game5.take k) =
        some (Havannah.after k) := by
    decide
  exact Havannah.h_play_reachable Havannah.hexGrid 3 _ _ _ h0 (this k hk)

end Morat

namespace Morat

/-! ## Frame properties of the neighbour loop -/

theorem join_neighbors_static (v : Variant) (turn : Side) (p : Nat) :
    ∀ (l : List MoveValid) (skip : Bool) (st : Bool × List Cell),
      SameStatic (join_neighbors v turn p l skip st).2 st.2 ∧
        (join_neighbors v turn p l skip st).2.length = st.2.length := by
  intro l
  induction l with
  | nil => intro skip st; exact ⟨fun k => ⟨rfl, rfl, rfl⟩, rfl⟩
  | cons m rest ih =>
    intro skip st
    cases skip with
    | true => simpa [join_neighbors] using ih false st
    | false =>
      simp only [join_neighbors]
      split
      · have h1 := ih true (st.1 || (join_groups v st.2 p m.idx).1, (join_groups v st.2 p m.idx).2)
        exact ⟨h1.1.static_trans (fun k => join_groups_static v st.2 p m.idx k),
          h1.2.trans (join_groups_length v st.2 p m.idx)⟩
      · exact ih false st

theorem place_stone_get (v : Variant) (nbrs : List MoveValid) (cells : List Cell) (turn : Side)
    (p : Nat) (permanent : Bool) (hp : p < cells.length) (k : Nat) :
    get (place_stone v nbrs cells turn p permanent).2 k = if k = p then turn else get cells k := by
  unfold place_stone
  rw [(join_neighbors_static v turn p nbrs false _).1.static_get]
  by_cases hk : k = p
  · rw [if_pos hk, hk]; exact get_set_self _ _ _ hp
  · rw [if_neg hk]; exact get_set_ne _ _ _ _ hk

theorem place_stone_length (v : Variant) (nbrs : List MoveValid) (cells : List Cell) (turn : Side)
    (p : Nat) (permanent : Bool) :
    (place_stone v nbrs cells turn p permanent).2.length = cells.length := by
  unfold place_stone
  rw [(join_neighbors_static v turn p nbrs false _).2]
  simp

theorem solved_false_iff (o : Outcome) : o.solved = false ↔ o.to_i < Outcome.DRAW.to_i := by
  cases o <;> simp [Outcome.solved, Outcome.to_i]

/-! ## C3 and C4: refused and accepted moves -/

/-- C3, counterexample.  On the board of the sample Y game after its seventh
move the first player has won, and a further call of `move` does not return
`false`: the opening assertion `assert(!outcome_.solved())` fails. -/
theorem C3_counterexample :
    (Y.after 7).outcome_ = .P1 ∧
      Y.Board.move Y.triGrid (Y.after 7) ((Y.after 7).move_valid ⟨2, 0⟩) true = none := by
  decide

/-- C3, as amended.  On a board whose outcome is undecided, `move` returns
`false` and leaves the whole board as it is when the target is off the board
(its index is `-1`) or is not an empty cell (occupied, or a cell of the array
outside the shape).  On a board whose outcome is decided the opening
assertion fails; the rest of the body, which is all that runs when
assertions are compiled out, returns `false` and leaves the board as it is.
Both boards. -/
theorem C3_move_refuses :
    (∀ (G : Y.Grid) (b : Y.Board) (pos : MoveValid) (permanent : Bool),
      (b.outcome_.solved = false → (pos.on_board = false ∨ b.get pos.idx ≠ .NONE) →
        b.move G pos permanent = some (false, b)) ∧
      (b.outcome_.solved = true →
        b.move G pos permanent = none ∧ b.move_body G pos permanent = (false, b))) ∧
    (∀ (G : Havannah.Grid) (b : Havannah.Board) (pos : MoveValid) (checkwin permanent : Bool),
      (b.outcome_.solved = false → (pos.on_board = false ∨ b.get pos.idx ≠ .NONE) →
        b.move G pos checkwin permanent = some (false, b)) ∧
      (b.outcome_.solved = true →
        b.move G pos checkwin permanent = none ∧
          b.move_body G pos checkwin permanent = (false, b))) := by
  constructor
  · intro G b pos permanent
    constructor
    · intro hs hbad
      have hv : b.valid_move pos = false := by
        unfold Y.Board.valid_move Y.Board.valid_move_fast
        rcases hbad with h | h
        · simp [h]
        · simp [h]
      simp [Y.Board.move, Y.Board.move_body, hs, hv]
    · intro hs
      have hv : b.valid_move pos = false := by
        unfold Y.Board.valid_move
        have : ¬ b.outcome_.to_i < Outcome.DRAW.to_i := by
          intro hx
          rw [← solved_false_iff] at hx
          rw [hs] at hx
          exact absurd hx (by simp)
        simp [this]
      simp [Y.Board.move, Y.Board.move_body, hs, hv]
  · intro G b pos checkwin permanent
    constructor
    · intro hs hbad
      have hv : b.valid_move pos = false := by
        unfold Havannah.Board.valid_move Havannah.Board.valid_move_fast
        rcases hbad with h | h
        · simp [h]
        · simp [h]
      simp [Havannah.Board.move, Havannah.Board.move_body, hs, hv]
    · intro hs
      have hv : b.valid_move pos = false := by
        unfold Havannah.Board.valid_move
        have : ¬ b.outcome_.to_i < Outcome.DRAW.to_i := by
          intro hx
          rw [← solved_false_iff] at hx
          rw [hs] at hx
          exact absurd hx (by simp)
        simp [this]
      simp [Havannah.Board.move, Havannah.Board.move_body, hs, hv]

set_option maxRecDepth 100000 in
/-- C3, witness: an occupied target on the undecided boards after one move,
and any target on the decided boards at the end of the sample games. -/
theorem C3_move_refuses_witness :
    ((Y.after 1).outcome_.solved = false ∧ (Y.after 1).get (MoveValid.mk 0 0 0).idx ≠ .NONE ∧
      (Y.after 1).move Y.triGrid (MoveValid.mk 0 0 0) true = some (false, Y.after 1)) ∧
    ((Y.after 7).outcome_.solved = true ∧
      (Y.after 7).move Y.triGrid (MoveValid.mk 2 0 2) true = none ∧
      (Y.after 7).move_body Y.triGrid (MoveValid.mk 2 0 2) true = (false, Y.after 7)) ∧
    ((Havannah.after 1).outcome_.solved = false ∧
      (Havannah.after 1).get (MoveValid.mk 0 0 0).idx ≠ .NONE ∧
      (Havannah.after 1).move Havannah.hexGrid (MoveValid.mk 0 0 0) true true =
        some (false, Havannah.after 1)) ∧
    ((Havannah.after 5).outcome_.solved = true ∧
      (Havannah.after 5).move Havannah.hexGrid (MoveValid.mk 4 4 24) true true = none ∧
      (Havannah.after 5).move_body Havannah.hexGrid (MoveValid.mk 4 4 24) true true =
        (false, Havannah.after 5)) :=
  ⟨⟨by decide, by decide,
      (C3_move_refuses.1 Y.triGrid (Y.after 1) (MoveValid.mk 0 0 0) true).1 (by decide)
        (Or.inr (by decide))⟩,
    ⟨by decide,
      (C3_move_refuses.1 Y.triGrid (Y.after 7) (MoveValid.mk 2 0 2) true).2 (by decide)⟩,
    ⟨by decide, by decide,
      (C3_move_refuses.2 Havannah.hexGrid (Havannah.after 1) (MoveValid.mk 0 0 0) true true).1
        (by decide) (Or.inr (by decide))⟩,
    ⟨by decide,
      (C3_move_refuses.2 Havannah.hexGrid (Havannah.after 5) (MoveValid.mk 4 4 24) true true).2
        (by decide)⟩⟩

/-- C4.  On a board whose outcome is undecided, `move` on an empty cell of the
array returns `true`; afterwards that cell is owned by the side that was to
move, every other cell has the owner it had, `moves_made` is one more, the
last move is the move made, and the side to move is the opposite side,
whatever the new outcome.  Both boards. -/
theorem C4_move_places_stone :
    (∀ (G : Y.Grid) (b : Y.Board) (pos : MoveValid) (permanent : Bool),
      b.outcome_.solved = false → pos.on_board = true → pos.idx < b.cells_.length →
      b.get pos.idx = .NONE →
      ∃ b1, b.move G pos permanent = some (true, b1) ∧ b1.get pos.idx = b.to_play_ ∧
        (∀ k, k ≠ pos.idx → b1.get k = b.get k) ∧ b1.moves_made = b.moves_made + 1 ∧
        b1.last_move_ = pos.toMove ∧ b1.to_play = b.to_play.opp) ∧
    (∀ (G : Havannah.Grid) (b : Havannah.Board) (pos : MoveValid) (checkwin permanent : Bool),
      b.outcome_.solved = false → pos.on_board = true → pos.idx < b.cells_.length →
      b.get pos.idx = .NONE →
      ∃ b1, b.move G pos checkwin permanent = some (true, b1) ∧ b1.get pos.idx = b.to_play_ ∧
        (∀ k, k ≠ pos.idx → b1.get k = b.get k) ∧ b1.moves_made = b.moves_made + 1 ∧
        b1.last_move_ = pos.toMove ∧ b1.to_play = b.to_play.opp) := by
  constructor
  · intro G b pos permanent hs hob hlt hemp
    have hv : b.valid_move pos = true := by
      unfold Y.Board.valid_move Y.Board.valid_move_fast
      rw [hob, hemp]
      simpa using (solved_false_iff _).1 hs
    refine ⟨(b.move_body G pos permanent).2, ?_, ?_, ?_, ?_, ?_, ?_⟩
    · rw [Y.Board.move, hs, Y.y_move_body_valid G b pos permanent hv]; rfl
    · rw [Y.y_move_body_valid G b pos permanent hv]
      show get (find_group _ _).2 pos.idx = b.to_play_
      rw [find_group_get, place_stone_get _ _ _ _ _ _ hlt]
      simp
    · intro k hk
      rw [Y.y_move_body_valid G b pos permanent hv]
      show get (find_group _ _).2 k = get b.cells_ k
      rw [find_group_get, place_stone_get _ _ _ _ _ _ hlt, if_neg hk]
    · rw [Y.y_move_body_valid G b pos permanent hv]; rfl
    · rw [Y.y_move_body_valid G b pos permanent hv]
    · rw [Y.y_move_body_valid G b pos permanent hv]; rfl
  · intro G b pos checkwin permanent hs hob hlt hemp
    have hv : b.valid_move pos = true := by
      unfold Havannah.Board.valid_move Havannah.Board.valid_move_fast
      rw [hob, hemp]
      simpa using (solved_false_iff _).1 hs
    have hg : ∀ k, (b.move_body G pos checkwin permanent).2.get k =
        if k = pos.idx then b.to_play_ else b.get k := by
      intro k
      rw [Havannah.h_move_body_valid G b pos checkwin permanent hv]
      unfold Havannah.Board.get
      cases checkwin
      · simp only [Bool.false_eq_true, if_false]
        exact place_stone_get _ _ _ _ _ _ hlt k
      · simp only [if_true]
        rw [find_group_get]
        exact place_stone_get _ _ _ _ _ _ hlt k
    refine ⟨(b.move_body G pos checkwin permanent).2, ?_, ?_, ?_, ?_, ?_, ?_⟩
    · rw [Havannah.Board.move, hs, Havannah.h_move_body_valid G b pos checkwin permanent hv]; rfl
    · rw [hg]; simp
    · intro k hk
      rw [hg, if_neg hk]
    · rw [Havannah.h_move_body_valid G b pos checkwin permanent hv]; rfl
    · rw [Havannah.h_move_body_valid G b pos checkwin permanent hv]
    · rw [Havannah.h_move_body_valid G b pos checkwin permanent hv]; rfl

set_option maxRecDepth 100000 in
/-- C4, witness: the second move of the sample games. -/
theorem C4_move_places_stone_witness :
    ((Y.after 1).outcome_.solved = false ∧ (MoveValid.mk 3 0 3).on_board = true ∧
      (MoveValid.mk 3 0 3).idx < (Y.after 1).cells_.length ∧
      (Y.after 1).get (MoveValid.mk 3 0 3).idx = .NONE ∧
      ∃ b1, (Y.after 1).move Y.triGrid (MoveValid.mk 3 0 3) true = some (true, b1) ∧
        b1.get (MoveValid.mk 3 0 3).idx = (Y.after 1).to_play_ ∧
        (∀ k, k ≠ (MoveValid.mk 3 0 3).idx → b1.get k = (Y.after 1).get k) ∧
        b1.moves_made = (Y.after 1).moves_made + 1 ∧
        b1.last_move_ = (MoveValid.mk 3 0 3).toMove ∧ b1.to_play = (Y.after 1).to_play.opp) ∧
    ((Havannah.after 1).outcome_.solved = false ∧ (MoveValid.mk 2 2 12).on_board = true ∧
      (MoveValid.mk 2 2 12).idx < (Havannah.after 1).cells_.length ∧
      (Havannah.after 1).get (MoveValid.mk 2 2 12).idx = .NONE ∧
      ∃ b1, (Havannah.after 1).move Havannah.hexGrid (MoveValid.mk 2 2 12) true true =
          some (true, b1) ∧
        b1.get (MoveValid.mk 2 2 12).idx = (Havannah.after 1).to_play_ ∧
        (∀ k, k ≠ (MoveValid.mk 2 2 12).idx → b1.get k = (Havannah.after 1).get k) ∧
        b1.moves_made = (Havannah.after 1).moves_made + 1 ∧
        b1.last_move_ = (MoveValid.mk 2 2 12).toMove ∧
        b1.to_play = (Havannah.after 1).to_play.opp) :=
  ⟨⟨by decide, by decide, by decide, by decide,
      C4_move_places_stone.1 Y.triGrid (Y.after 1) (MoveValid.mk 3 0 3) true
        (by decide) (by decide) (by decide) (by decide)⟩,
    ⟨by decide, by decide, by decide, by decide,
      C4_move_places_stone.2 Havannah.hexGrid (Havannah.after 1) (MoveValid.mk 2 2 12) true true
        (by decide) (by decide) (by decide) (by decide)⟩⟩

end Morat

namespace Morat

/-! ## C5 and C6: the union-find partition and the data of the representatives -/

section uf
variable {v : Variant} {nb : Nat → List MoveValid} {E C : Nat → Nat} {cells : List Cell}
  {pend : Nat → Prop} {rep rank : Nat → Nat}

/-- Two calls of `find_group` in a row, the second on the array the first has
compressed, agree exactly on connected cells. -/
theorem find_group_seq_iff {n : Nat} (hn : cells.length = n)
    (h : CellsInv v nb E C cells (fun _ => False) rep rank) (a c : Nat) (ha : a < n) (hc : c < n) :
    ((find_group cells a).1 = (find_group (find_group cells a).2 c).1 ↔
      (get cells a = get cells c ∧ Connected nb cells a c)) := by
  have hal : a < cells.length := by rw [hn]; exact ha
  have hcl : c < cells.length := by rw [hn]; exact hc
  have h1 := find_group_inv h a hal
  rw [find_group_fst h1 c (by rw [find_group_length]; exact hcl), ← find_group_fst h c hcl,
    find_group_iff_connected hn h a c ha hc]
  constructor
  · intro hx; exact ⟨(Connected.conn_get_eq hx).symm, hx⟩
  · intro hx; exact hx.2

/-- The size field of a representative, given that the group is smaller than
the range of the field. -/
theorem size_eq_group_cells (h : CellsInv v nb E C cells pend rep rank) (c : Nat)
    (hc : c < cells.length) (hlt : group_count rep cells.length (rep c) < v.size_mod) :
    (cellAt cells (find_group cells c).1).size = (group_cells cells (find_group cells c).1).length := by
  rw [find_group_fst h c hc, group_cells_length h,
    h.size_eq _ (h.rep_lt c hc) (h.par_rep c hc), Nat.mod_eq_of_lt hlt]

theorem group_count_le_stones (h : CellsInv v nb E C cells pend rep rank) (c : Nat)
    (hc : c < cells.length) :
    group_count rep cells.length (rep c) ≤
      (List.range cells.length).countP (fun j => decide (get cells j = get cells c)) := by
  unfold group_count
  apply List.countP_mono_left
  intro j hj hx
  simp only [decide_eq_true_eq] at hx ⊢
  have hjl := List.mem_range.1 hj
  rw [← h.piece_rep j hjl, hx, h.piece_rep c hc]

theorem group_count_single (h : CellsInv v nb E C cells pend rep rank) (c : Nat)
    (hc : c < cells.length) (hemp : (get cells c).isPlayer = false) :
    group_count rep cells.length (rep c) ≤ 1 := by
  have h1 : group_count rep cells.length (rep c) ≤ group_count (fun k => k) cells.length c := by
    unfold group_count
    apply List.countP_mono_left
    intro j hj hx
    simp only [decide_eq_true_eq] at hx ⊢
    exact h.single c hc hemp j (List.mem_range.1 hj) hx
  rw [group_count_id _ _ hc] at h1
  exact h1

end uf

/-- C5.  On every reachable board of both variants, for two occupied cells `a`
and `c`: `find_group(a) == find_group(c)` exactly when the two cells have the
same owner and are joined by a path of adjacent (`neighbors_small`) cells of
that owner.  The second call runs on the array the first has compressed. -/
theorem C5_groups_are_components :
    (∀ (G : Y.Grid) (s : Int) (b : Y.Board), Y.valid_size s = true → Y.GridOK G s →
      Y.Reachable G s b → ∀ a c, a < b.cells_.length → c < b.cells_.length →
      (b.get a).isPlayer = true → (b.get c).isPlayer = true →
      ((find_group b.cells_ a).1 = (find_group (find_group b.cells_ a).2 c).1 ↔
        (b.get a = b.get c ∧ Connected (G.neighbors_small s) b.cells_ a c))) ∧
    (∀ (G : Havannah.Grid) (s : Int) (b : Havannah.Board), Havannah.valid_size s = true →
      Havannah.GridOK G (s * 2 - 1) → Havannah.Reachable G s b →
      ∀ a c, a < b.cells_.length → c < b.cells_.length →
      (b.get a).isPlayer = true → (b.get c).isPlayer = true →
      ((find_group b.cells_ a).1 = (find_group (find_group b.cells_ a).2 c).1 ↔
        (b.get a = b.get c ∧ Connected (G.neighbors_small (s * 2 - 1)) b.cells_ a c))) := by
  constructor
  · intro G s b hs hG hb a c ha hc _ _
    have hinv := Y.y_reachable_inv G s hs hG b hb
    obtain ⟨rep, rank, hci⟩ := hinv.cells
    exact find_group_seq_iff rfl hci a c ha hc
  · intro G s b hs hG hb a c ha hc _ _
    have hinv := Havannah.h_reachable_inv G s hs hG b hb
    obtain ⟨rep, rank, hci⟩ := hinv.cells
    exact find_group_seq_iff rfl hci a c ha hc

set_option maxRecDepth 100000 in
/-- C5, witness: the stones `(0,0)` and `(1,0)` of the first player at the end
of the two sample games. -/
theorem C5_groups_are_components_witness :
    ((find_group (Y.after 7).cells_ 0).1 = (find_group (find_group (Y.after 7).cells_ 0).2 1).1 ↔
      ((Y.after 7).get 0 = (Y.after 7).get 1 ∧
        Connected (Y.triGrid.neighbors_small 4) (Y.after 7).cells_ 0 1)) ∧
    ((find_group (Havannah.after 5).cells_ 0).1 =
        (find_group (find_group (Havannah.after 5).cells_ 0).2 1).1 ↔
      ((Havannah.after 5).get 0 = (Havannah.after 5).get 1 ∧
        Connected (Havannah.hexGrid.neighbors_small (3 * 2 - 1)) (Havannah.after 5).cells_ 0 1)) :=
  ⟨C5_groups_are_components.1 Y.triGrid 4 (Y.after 7) (by decide) Y.y_triGrid_ok
      (Y.y_after_reachable 7 (by decide)) 0 1 (by decide) (by decide) (by decide) (by decide),
    C5_groups_are_components.2 Havannah.hexGrid 3 (Havannah.after 5) (by decide)
      Havannah.h_hexGrid_ok (Havannah.h_after_reachable 5 (by decide)) 0 1 (by decide)
      (by decide) (by decide) (by decide)⟩

/-- C6.  On every reachable board of both variants every cell `c` of the array
satisfies `parent[find_group(c)] == find_group(c)`, and the representative
`r = find_group(c)` carries the data of its group: `r.size` is the number of
cells whose group is `r` (the exact number, so the field has not wrapped
around), `r.edge` is the bitwise OR of the edge masks these cells were
cleared with, and on the Havannah board `r.corner` is the bitwise OR of
their corner masks. -/
theorem C6_representative_data :
    (∀ (G : Y.Grid) (s : Int) (b : Y.Board), Y.valid_size s = true → Y.GridOK G s →
      Y.Reachable G s b → ∀ c, c < b.cells_.length →
      (cellAt b.cells_ (find_group b.cells_ c).1).parent = (find_group b.cells_ c).1 ∧
      (cellAt b.cells_ (find_group b.cells_ c).1).size =
        (group_cells b.cells_ (find_group b.cells_ c).1).length ∧
      (cellAt b.cells_ (find_group b.cells_ c).1).edge =
        group_mask (Y.edge0 G s) (fun j => (find_group b.cells_ j).1) b.cells_.length
          (find_group b.cells_ c).1) ∧
    (∀ (G : Havannah.Grid) (s : Int) (b : Havannah.Board), Havannah.valid_size s = true →
      Havannah.GridOK G (s * 2 - 1) → Havannah.Reachable G s b → ∀ c, c < b.cells_.length →
      (cellAt b.cells_ (find_group b.cells_ c).1).parent = (find_group b.cells_ c).1 ∧
      (cellAt b.cells_ (find_group b.cells_ c).1).size =
        (group_cells b.cells_ (find_group b.cells_ c).1).length ∧
      (cellAt b.cells_ (find_group b.cells_ c).1).edge =
        group_mask (Havannah.edge0 G (s * 2 - 1)) (fun j => (find_group b.cells_ j).1)
          b.cells_.length (find_group b.cells_ c).1 ∧
      (cellAt b.cells_ (find_group b.cells_ c).1).corner =
        group_mask (Havannah.corner0 G (s * 2 - 1)) (fun j => (find_group b.cells_ j).1)
          b.cells_.length (find_group b.cells_ c).1) := by
  constructor
  · intro G s b hs hG hb c hc
    have hinv := Y.y_reachable_inv G s hs hG b hb
    obtain ⟨rep, rank, hci⟩ := hinv.cells
    have hr := find_group_root hci c hc
    refine ⟨hr.1, ?_, edge_eq_group_mask hci _ hr.2 hr.1⟩
    apply size_eq_group_cells hci c hc
    have h1 := group_count_le rep b.cells_.length (rep c)
    have h2 := hinv.len
    have hsb := Y.y_valid_size_bounds s hs
    have h3 : s * s ≤ 625 := by nlinarith
    have h4 : Y.variant.size_mod = 65536 := rfl
    omega
  · intro G s b hs hG hb c hc
    have hinv := Havannah.h_reachable_inv G s hs hG b hb
    obtain ⟨rep, rank, hci⟩ := hinv.cells
    have hr := find_group_root hci c hc
    refine ⟨hr.1, ?_, edge_eq_group_mask hci _ hr.2 hr.1,
      corner_eq_group_mask hci rfl _ hr.2 hr.1⟩
    apply size_eq_group_cells hci c hc
    have h4 : Havannah.variant.size_mod = 256 := rfl
    rw [h4]
    by_cases hp : (get b.cells_ c).isPlayer = true
    · have h1 := group_count_le_stones hci c hc
      have h2 := hinv.len
      have hsb := Havannah.h_valid_size_bounds s hs
      have h3 : (s * 2 - 1) * (s * 2 - 1) ≤ 361 := by nlinarith
      have h5 := Havannah.h_stones_le b.cells_
      have h6 := hinv.balance
      have h7 : (if b.to_play_ = Side.P2 then 1 else 0) ≤ 1 := by split <;> omega
      have h8 : (List.range b.cells_.length).countP (fun j => decide (get b.cells_ j = get b.cells_ c))
          ≤ Havannah.stones b.cells_ .P1 ∨
          (List.range b.cells_.length).countP (fun j => decide (get b.cells_ j = get b.cells_ c))
          ≤ Havannah.stones b.cells_ .P2 := by
        unfold Havannah.stones
        cases hx : get b.cells_ c <;> rw [hx] at hp <;> simp [Side.isPlayer] at hp
        · left; exact le_refl _
        · right; exact le_refl _
      omega
    · have hp' : (get b.cells_ c).isPlayer = false := by
        cases hx : (get b.cells_ c).isPlayer
        · rfl
        · exact absurd hx hp
      have := group_count_single hci c hc hp'
      omega

set_option maxRecDepth 100000 in
/-- C6, witness: the group of the stone `(1,1)` at the end of the sample Y game
and the group of the stone `(1,0)` at the end of the sample Havannah game. -/
theorem C6_representative_data_witness :
    ((cellAt (Y.after 7).cells_ (find_group (Y.after 7).cells_ 5).1).parent =
        (find_group (Y.after 7).cells_ 5).1 ∧
      (cellAt (Y.after 7).cells_ (find_group (Y.after 7).cells_ 5).1).size =
        (group_cells (Y.after 7).cells_ (find_group (Y.after 7).cells_ 5).1).length ∧
      (cellAt (Y.after 7).cells_ (find_group (Y.after 7).cells_ 5).1).edge =
        group_mask (Y.edge0 Y.triGrid 4) (fun j => (find_group (Y.after 7).cells_ j).1)
          (Y.after 7).cells_.length (find_group (Y.after 7).cells_ 5).1) ∧
    ((cellAt (Havannah.after 5).cells_ (find_group (Havannah.after 5).cells_ 1).1).parent =
        (find_group (Havannah.after 5).cells_ 1).1 ∧
      (cellAt (Havannah.after 5).cells_ (find_group (Havannah.after 5).cells_ 1).1).size =
        (group_cells (Havannah.after 5).cells_ (find_group (Havannah.after 5).cells_ 1).1).length ∧
      (cellAt (Havannah.after 5).cells_ (find_group (Havannah.after 5).cells_ 1).1).edge =
        group_mask (Havannah.edge0 Havannah.hexGrid (3 * 2 - 1))
          (fun j => (find_group (Havannah.after 5).cells_ j).1)
          (Havannah.after 5).cells_.length (find_group (Havannah.after 5).cells_ 1).1 ∧
      (cellAt (Havannah.after 5).cells_ (find_group (Havannah.after 5).cells_ 1).1).corner =
        group_mask (Havannah.corner0 Havannah.hexGrid (3 * 2 - 1))
          (fun j => (find_group (Havannah.after 5).cells_ j).1)
          (Havannah.after 5).cells_.length (find_group (Havannah.after 5).cells_ 1).1) :=
  ⟨C6_representative_data.1 Y.triGrid 4 (Y.after 7) (by decide) Y.y_triGrid_ok
      (Y.y_after_reachable 7 (by decide)) 5 (by decide),
    C6_representative_data.2 Havannah.hexGrid 3 (Havannah.after 5) (by decide)
      Havannah.h_hexGrid_ok (Havannah.h_after_reachable 5 (by decide)) 1 (by decide)⟩

end Morat

namespace Morat

/-! ## The terminal test of `move` -/

section uf
variable {v : Variant} {nb : Nat → List MoveValid} {E C : Nat → Nat} {cells : List Cell}
  {pend : Nat → Prop} {rep rank : Nat → Nat}

/-- A second `find_group` on the compressed array returns the same
representative. -/
theorem find_group_again (h : CellsInv v nb E C cells pend rep rank) (i : Nat)
    (hi : i < cells.length) :
    (find_group (find_group cells i).2 i).1 = (find_group cells i).1 := by
  rw [find_group_fst (find_group_inv h i hi) i (by rw [find_group_length]; exact hi),
    find_group_fst h i hi]

end uf

theorem ofSide_ne_unknown (s : Side) (h : s.isPlayer = true) :
    Outcome.ofSide s ≠ .UNKNOWN ∧ Outcome.ofSide s ≠ .DRAW := by
  cases s <;> simp_all [Side.isPlayer, Outcome.ofSide]

end Morat

namespace Morat

/-- C10.  Havannah board: a legal move by the side `s` to move on a reachable
board, made with `checkwin = true`, evaluates the terminal conditions on the
representative `g` of the new stone in the order edges, corners, ring, draw:
with three or more edges the outcome is the win of `s` with `win_type` 0,
whatever the corners; else with two or more corners it is the win of `s`
with `win_type` 1; else if the ring condition holds it is the win of `s`
with `win_type` 2; else if `moves_made == num_cells` it is `DRAW`; else it
stays `UNKNOWN`. -/
theorem C10_havannah_terminal_order :
    ∀ (G : Havannah.Grid) (s : Int) (b : Havannah.Board), Havannah.valid_size s = true →
      Havannah.GridOK G (s * 2 - 1) → Havannah.Reachable G s b →
      ∀ (m : Move) (permanent : Bool), b.valid_move_xy G m = true →
      ∃ b1, b.move_xy G m true permanent = some (true, b1) ∧
        (3 ≤ (b1.rep_cell (b.move_valid m)).numedges →
          b1.outcome_ = Outcome.ofSide b.to_play_ ∧ b1.win_type_ = 0) ∧
        ((b1.rep_cell (b.move_valid m)).numedges < 3 →
          2 ≤ (b1.rep_cell (b.move_valid m)).numcorners →
          b1.outcome_ = Outcome.ofSide b.to_play_ ∧ b1.win_type_ = 1) ∧
        ((b1.rep_cell (b.move_valid m)).numedges < 3 →
          (b1.rep_cell (b.move_valid m)).numcorners < 2 →
          Havannah.Board.ring_condition G b b1 (b.move_valid m) permanent = true →
          b1.outcome_ = Outcome.ofSide b.to_play_ ∧ b1.win_type_ = 2) ∧
        ((b1.rep_cell (b.move_valid m)).numedges < 3 →
          (b1.rep_cell (b.move_valid m)).numcorners < 2 →
          Havannah.Board.ring_condition G b b1 (b.move_valid m) permanent = false →
          b1.moves_made = b1.num_cells → b1.outcome_ = .DRAW) ∧
        ((b1.rep_cell (b.move_valid m)).numedges < 3 →
          (b1.rep_cell (b.move_valid m)).numcorners < 2 →
          Havannah.Board.ring_condition G b b1 (b.move_valid m) permanent = false →
          b1.moves_made ≠ b1.num_cells → b1.outcome_ = .UNKNOWN) := by
  intro G s b hs hG hb m permanent hv
  have hinv := Havannah.h_reachable_inv G s hs hG b hb
  obtain ⟨ho, hob, hlt, hidx, hget, hvm, hsym⟩ := Havannah.h_legal_facts G s hs hG b hinv m hv
  obtain ⟨rep, rank, hc⟩ := hinv.cells
  have hltn : (b.move_valid m).idx < ((s * 2 - 1) * (s * 2 - 1)).toNat := by
    rw [← hinv.len]; exact hlt
  obtain ⟨rep2, rank2, r1, r2, r3, r4, r5, r6⟩ :=
    place_spec hG.nbr hinv.len hc (b.move_valid m).idx hltn (by rw [hget]; rfl) hsym b.to_play_
      hinv.to_play permanent
  have hag := find_group_again r3 (b.move_valid m).idx (by rw [r1]; exact hltn)
  rw [← hinv.size_eq] at hag
  refine ⟨(b.move_body G (b.move_valid m) true permanent).2, ?_, ?_⟩
  · rw [Havannah.h_move_xy_legal G s hs hG b hinv m hv true permanent,
      Havannah.h_move_body_valid G b _ true permanent hvm]
  unfold Havannah.Board.ring_condition Havannah.Board.rep_cell Havannah.Board.moves_made
    Havannah.Board.num_cells
  rw [Havannah.h_move_body_valid G b _ true permanent hvm]
  simp only [if_true]
  rw [hag]
  unfold Havannah.Board.check_win
  simp only [ge_iff_le, ho]
  refine ⟨?_, ?_, ?_, ?_, ?_⟩
  · intro h1
    rw [if_pos h1]; exact ⟨rfl, rfl⟩
  · intro h1 h2
    rw [if_neg (by omega), if_pos h2]; exact ⟨rfl, rfl⟩
  · intro h1 h2 h3
    rw [if_neg (by omega), if_neg (by omega), if_pos h3]; exact ⟨rfl, rfl⟩
  · intro h1 h2 h3 h4
    rw [if_neg (by omega), if_neg (by omega), if_neg (by rw [h3]; simp), if_pos h4]
  · intro h1 h2 h3 h4
    rw [if_neg (by omega), if_neg (by omega), if_neg (by rw [h3]; simp), if_neg h4]

set_option maxRecDepth 100000 in
/-- C10, witness: the fifth move of the sample Havannah game, which joins the
corners `(0,0)` and `(2,0)`. -/
theorem C10_havannah_terminal_order_witness :
    (Havannah.after 4).valid_move_xy Havannah.hexGrid ⟨2, 0⟩ = true ∧
    ∃ b1, (Havannah.after 4).move_xy Havannah.hexGrid ⟨2, 0⟩ true true = some (true, b1) ∧
        (3 ≤ (b1.rep_cell ((Havannah.after 4).move_valid ⟨2, 0⟩)).numedges →
          b1.outcome_ = Outcome.ofSide (Havannah.after 4).to_play_ ∧ b1.win_type_ = 0) ∧
        ((b1.rep_cell ((Havannah.after 4).move_valid ⟨2, 0⟩)).numedges < 3 →
          2 ≤ (b1.rep_cell ((Havannah.after 4).move_valid ⟨2, 0⟩)).numcorners →
          b1.outcome_ = Outcome.ofSide (Havannah.after 4).to_play_ ∧ b1.win_type_ = 1) ∧
        ((b1.rep_cell ((Havannah.after 4).move_valid ⟨2, 0⟩)).numedges < 3 →
          (b1.rep_cell ((Havannah.after 4).move_valid ⟨2, 0⟩)).numcorners < 2 →
          Havannah.Board.ring_condition Havannah.hexGrid (Havannah.after 4) b1
            ((Havannah.after 4).move_valid ⟨2, 0⟩) true = true →
          b1.outcome_ = Outcome.ofSide (Havannah.after 4).to_play_ ∧ b1.win_type_ = 2) ∧
        ((b1.rep_cell ((Havannah.after 4).move_valid ⟨2, 0⟩)).numedges < 3 →
          (b1.rep_cell ((Havannah.after 4).move_valid ⟨2, 0⟩)).numcorners < 2 →
          Havannah.Board.ring_condition Havannah.hexGrid (Havannah.after 4) b1
            ((Havannah.after 4).move_valid ⟨2, 0⟩) true = false →
          b1.moves_made = b1.num_cells → b1.outcome_ = .DRAW) ∧
        ((b1.rep_cell ((Havannah.after 4).move_valid ⟨2, 0⟩)).numedges < 3 →
          (b1.rep_cell ((Havannah.after 4).move_valid ⟨2, 0⟩)).numcorners < 2 →
          Havannah.Board.ring_condition Havannah.hexGrid (Havannah.after 4) b1
            ((Havannah.after 4).move_valid ⟨2, 0⟩) true = false →
          b1.moves_made ≠ b1.num_cells → b1.outcome_ = .UNKNOWN) :=
  ⟨by decide,
    C10_havannah_terminal_order Havannah.hexGrid 3 (Havannah.after 4) (by decide)
      Havannah.h_hexGrid_ok (Havannah.h_after_reachable 4 (by decide)) ⟨2, 0⟩ true (by decide)⟩

end Morat

namespace Morat

/-! ## The neighbour loop of `test_outcome` -/

section uf
variable {v : Variant} {nb : Nat → List MoveValid} {E C : Nat → Nat}
  {pend : Nat → Prop} {rep rank : Nat → Nat}

/-- Arrays that differ in parent links only. -/
theorem find_group_data (cells : List Cell) (i k : Nat) :
    (cellAt (find_group cells i).2 k).size = (cellAt cells k).size ∧
      (cellAt (find_group cells i).2 k).edge = (cellAt cells k).edge ∧
      (cellAt (find_group cells i).2 k).corner = (cellAt cells k).corner := by
  rw [find_group_cellAt]
  exact ⟨rfl, rfl, rfl⟩

/-- The neighbour loop of `test_outcome` keeps the invariant and every
representative, changes parent links only, and ORs into the edge (and
corner) mask of `testcell` the masks of the representatives of the
neighbours taken, which it counts. -/
theorem test_neighbors_spec (turn : Side) :
    ∀ (l : List MoveValid) (skip : Bool) (st : (Cell × Nat) × List Cell),
      CellsInv v nb E C st.2 pend rep rank →
      (∀ m ∈ l, m.on_board = true → m.idx < st.2.length) →
      CellsInv v nb E C (test_neighbors v turn l skip st).2 pend rep rank ∧
      (test_neighbors v turn l skip st).2.length = st.2.length ∧
      (∀ k, cellAt (test_neighbors v turn l skip st).2 k =
        { cellAt st.2 k with parent := (cellAt (test_neighbors v turn l skip st).2 k).parent }) ∧
      (∀ bit, (test_neighbors v turn l skip st).1.1.edge.testBit bit = true ↔
        (st.1.1.edge.testBit bit = true ∨ ∃ m ∈ taken_neighbors turn st.2 l skip,
          (cellAt st.2 (rep m.idx)).edge.testBit bit = true)) ∧
      (v.corners = true → ∀ bit,
        ((test_neighbors v turn l skip st).1.1.corner.testBit bit = true ↔
          (st.1.1.corner.testBit bit = true ∨ ∃ m ∈ taken_neighbors turn st.2 l skip,
            (cellAt st.2 (rep m.idx)).corner.testBit bit = true))) ∧
      (test_neighbors v turn l skip st).1.2 = st.1.2 + (taken_neighbors turn st.2 l skip).length := by
  intro l
  induction l with
  | nil =>
    intro skip st hinv _
    refine ⟨hinv, rfl, fun k => rfl, ?_, ?_, ?_⟩
    · intro bit; simp [test_neighbors, taken_neighbors]
    · intro _ bit; simp [test_neighbors, taken_neighbors]
    · simp [test_neighbors, taken_neighbors]
  | cons m rest ih =>
    intro skip st hinv hidx
    have hidxr : ∀ m1 ∈ rest, m1.on_board = true → m1.idx < st.2.length :=
      fun m1 hm1 => hidx m1 (List.mem_cons_of_mem _ hm1)
    cases skip with
    | true =>
      have := ih false st hinv hidxr
      simpa [test_neighbors, taken_neighbors] using this
    | false =>
      by_cases hc : (m.on_board && turn == get st.2 m.idx) = true
      · have hob : m.on_board = true := by
          simp only [Bool.and_eq_true] at hc; exact hc.1
        have hml := hidx m (by simp) hob
        have hf := find_group_fst hinv m.idx hml
        have hinv1 := find_group_inv hinv m.idx hml
        have hl1 := find_group_length st.2 m.idx
        have hrl := hinv.rep_lt m.idx hml
        have hd := find_group_data st.2 m.idx
        have hg1 : ∀ k, get (find_group st.2 m.idx).2 k = get st.2 k := find_group_get st.2 m.idx
        obtain ⟨tc1, htc1⟩ : ∃ tc1 : Cell, tc1 =
            { st.1.1 with
              corner := if v.corners then
                  st.1.1.corner ||| (cellAt (find_group st.2 m.idx).2 (find_group st.2 m.idx).1).corner
                else st.1.1.corner
              edge := st.1.1.edge ||| (cellAt (find_group st.2 m.idx).2 (find_group st.2 m.idx).1).edge
              size := (st.1.1.size +
                (cellAt (find_group st.2 m.idx).2 (find_group st.2 m.idx).1).size) % v.size_mod } :=
          ⟨_, rfl⟩
        have hstep : test_neighbors v turn (m :: rest) false st =
            test_neighbors v turn rest true ((tc1, st.1.2 + 1), (find_group st.2 m.idx).2) := by
          rw [htc1]
          simp only [test_neighbors, hc, if_true]
        have he1 : tc1.edge = st.1.1.edge ||| (cellAt st.2 (rep m.idx)).edge := by
          rw [htc1]; simp only; rw [hf, (hd (rep m.idx)).2.1]
        have hc1 : v.corners = true →
            tc1.corner = st.1.1.corner ||| (cellAt st.2 (rep m.idx)).corner := by
          intro hv
          rw [htc1]; simp only [hv, if_true]; rw [hf, (hd (rep m.idx)).2.2]
        have htk : taken_neighbors turn st.2 (m :: rest) false =
            m :: taken_neighbors turn st.2 rest true := by
          simp only [taken_neighbors, hc, if_true]
        have htk2 : taken_neighbors turn (find_group st.2 m.idx).2 rest true =
            taken_neighbors turn st.2 rest true := taken_congr turn _ _ hg1 rest true
        obtain ⟨a1, a2, a3, a4, a5, a6⟩ :=
          ih true ((tc1, st.1.2 + 1), (find_group st.2 m.idx).2) hinv1 (by
            intro m1 hm1 ho1; rw [hl1]; exact hidxr m1 hm1 ho1)
        rw [hstep, htk]
        refine ⟨a1, a2.trans hl1, ?_, ?_, ?_, ?_⟩
        · intro k
          rw [a3 k, find_group_cellAt st.2 m.idx k]
        · intro bit
          rw [a4 bit, htk2, he1, Nat.testBit_lor, Bool.or_eq_true]
          simp only [List.mem_cons]
          constructor
          · rintro ((hx | hx) | ⟨m1, hm1, hx⟩)
            · exact Or.inl hx
            · exact Or.inr ⟨m, Or.inl rfl, hx⟩
            · rw [(hd (rep m1.idx)).2.1] at hx
              exact Or.inr ⟨m1, Or.inr hm1, hx⟩
          · rintro (hx | ⟨m1, hm1 | hm1, hx⟩)
            · exact Or.inl (Or.inl hx)
            · rw [hm1] at hx; exact Or.inl (Or.inr hx)
            · right; refine ⟨m1, hm1, ?_⟩
              rw [(hd (rep m1.idx)).2.1]; exact hx
        · intro hv bit
          rw [a5 hv bit, htk2, hc1 hv, Nat.testBit_lor, Bool.or_eq_true]
          simp only [List.mem_cons]
          constructor
          · rintro ((hx | hx) | ⟨m1, hm1, hx⟩)
            · exact Or.inl hx
            · exact Or.inr ⟨m, Or.inl rfl, hx⟩
            · rw [(hd (rep m1.idx)).2.2] at hx
              exact Or.inr ⟨m1, Or.inr hm1, hx⟩
          · rintro (hx | ⟨m1, hm1 | hm1, hx⟩)
            · exact Or.inl (Or.inl hx)
            · rw [hm1] at hx; exact Or.inl (Or.inr hx)
            · right; refine ⟨m1, hm1, ?_⟩
              rw [(hd (rep m1.idx)).2.2]; exact hx
        · rw [a6, htk2]; simp only [List.length_cons]; omega
      · have hcf : (m.on_board && turn == get st.2 m.idx) = false := by
          cases hx : (m.on_board && turn == get st.2 m.idx)
          · rfl
          · exact absurd hx hc
        have hstep : test_neighbors v turn (m :: rest) false st =
            test_neighbors v turn rest false st := by
          simp only [test_neighbors, hcf]; rfl
        have htk : taken_neighbors turn st.2 (m :: rest) false =
            taken_neighbors turn st.2 rest false := by
          simp only [taken_neighbors, hcf]; rfl
        rw [hstep, htk]
        exact ih false st hinv hidxr

end uf
end Morat

namespace Morat

section uf
variable {v : Variant} {nb : Nat → List MoveValid} {E C : Nat → Nat} {cells : List Cell}
  {rep rank : Nat → Nat}

/-- The hypothetical join of `test_outcome` against the real join of `move`.
For an empty cell `p` of an array that satisfies the invariant, the
representative of `p` after `place_stone` has the edge mask (and corner mask)
that the loop of `test_outcome` accumulates in `testcell`; the loop changes
parent links only and keeps every representative; if no neighbour is taken
the masks are those of `p` alone. -/
theorem test_vs_move {n : Nat} (hok : NbrOK nb n) (hn : cells.length = n)
    (h : CellsInv v nb E C cells (fun _ => False) rep rank) (p : Nat) (hp : p < n)
    (hemp : (get cells p).isPlayer = false)
    (hsym : ∀ j, j < n → IsNbr nb p j → IsNbr nb j p)
    (turn : Side) (hturn : turn.isPlayer = true) (permanent : Bool) :
    (cellAt (find_group (place_stone v (nb p) cells turn p permanent).2 p).2
        (find_group (place_stone v (nb p) cells turn p permanent).2 p).1).edge =
      (test_neighbors v turn (nb p) false
        ((cellAt (find_group cells p).2 (find_group cells p).1, 0), (find_group cells p).2)).1.1.edge ∧
    (v.corners = true →
      (cellAt (find_group (place_stone v (nb p) cells turn p permanent).2 p).2
          (find_group (place_stone v (nb p) cells turn p permanent).2 p).1).corner =
        (test_neighbors v turn (nb p) false
          ((cellAt (find_group cells p).2 (find_group cells p).1, 0),
            (find_group cells p).2)).1.1.corner) ∧
    (test_neighbors v turn (nb p) false
        ((cellAt (find_group cells p).2 (find_group cells p).1, 0), (find_group cells p).2)).1.2 =
      (taken_neighbors turn cells (nb p) false).length ∧
    (taken_neighbors turn cells (nb p) false = [] →
      (cellAt (find_group (place_stone v (nb p) cells turn p permanent).2 p).2
        (find_group (place_stone v (nb p) cells turn p permanent).2 p).1).edge = E p ∧
      (v.corners = true →
        (cellAt (find_group (place_stone v (nb p) cells turn p permanent).2 p).2
          (find_group (place_stone v (nb p) cells turn p permanent).2 p).1).corner = C p)) ∧
    CellsInv v nb E C (test_neighbors v turn (nb p) false
        ((cellAt (find_group cells p).2 (find_group cells p).1, 0), (find_group cells p).2)).2
      (fun _ => False) rep rank ∧
    (test_neighbors v turn (nb p) false
        ((cellAt (find_group cells p).2 (find_group cells p).1, 0),
          (find_group cells p).2)).2.length = n ∧
    (∀ k, cellAt (test_neighbors v turn (nb p) false
        ((cellAt (find_group cells p).2 (find_group cells p).1, 0), (find_group cells p).2)).2 k =
      { cellAt cells k with
        parent := (cellAt (test_neighbors v turn (nb p) false
          ((cellAt (find_group cells p).2 (find_group cells p).1, 0),
            (find_group cells p).2)).2 k).parent }) := by
  have hpl : p < cells.length := by rw [hn]; exact hp
  -- the real join
  obtain ⟨rep1, rank1, r1, r2, r3, r4, r5, r6⟩ :=
    place_spec hok hn h p hp hemp hsym turn hturn permanent
  have hpJ : p < (place_stone v (nb p) cells turn p permanent).2.length := by rw [r1]; exact hp
  have hF1 := find_group_fst r3 p hpJ
  have hFd := find_group_data (place_stone v (nb p) cells turn p permanent).2 p
  have hroot1 := r3.par_rep p hpJ
  have hrl1 := r3.rep_lt p hpJ
  -- the hypothetical join
  have hrp : rep p = p := h.single p hpl hemp (rep p) (h.rep_lt p hpl) (h.rep_rep p hpl)
  have hF0 := find_group_fst h p hpl
  have hinv0 := find_group_inv h p hpl
  have hl0 := find_group_length cells p
  have hd0 := find_group_data cells p
  have hg0 : ∀ k, get (find_group cells p).2 k = get cells k := find_group_get cells p
  obtain ⟨t1, t2, t3, t4, t5, t6⟩ :=
    test_neighbors_spec turn (nb p) false
      ((cellAt (find_group cells p).2 (find_group cells p).1, 0), (find_group cells p).2) hinv0
      (by intro m hm ho; simp only; rw [hl0, hn]; exact hok.idx_lt p hp m hm ho)
  simp only at t1 t2 t3 t4 t5 t6
  have htk : taken_neighbors turn (find_group cells p).2 (nb p) false =
      taken_neighbors turn cells (nb p) false := taken_congr turn _ _ hg0 (nb p) false
  rw [htk] at t4 t5 t6
  have hF0p : (find_group cells p).1 = p := hF0.trans hrp
  rw [hF0p] at t1 t2 t3 t4 t5 t6 ⊢
  have hroot0 : (cellAt cells p).parent = p := (h.root_iff p hpl).2 hrp
  have hmem : ∀ m ∈ taken_neighbors turn cells (nb p) false, m.idx < cells.length := by
    intro m hm
    have := taken_mem turn cells (nb p) false m hm
    rw [hn]; exact hok.idx_lt p hp m this.1 this.2.1
  -- bits of the real mask
  have hbitE : ∀ bit,
      (cellAt (place_stone v (nb p) cells turn p permanent).2 (rep1 p)).edge.testBit bit = true ↔
        ((E p).testBit bit = true ∨ ∃ m ∈ taken_neighbors turn cells (nb p) false,
          (cellAt cells (rep m.idx)).edge.testBit bit = true) := by
    intro bit
    rw [r3.edge_eq (rep1 p) hrl1 hroot1 bit, r1]
    constructor
    · rintro ⟨j, hj, hrj, hb⟩
      rcases (r5 j hj).1 hrj with hx | ⟨m, hm, hx⟩
      · left; rw [← hx]; exact hb
      · right
        refine ⟨m, hm, ?_⟩
        rw [h.edge_eq _ (h.rep_lt _ (hmem m hm)) (h.par_rep _ (hmem m hm)) bit]
        exact ⟨j, by rw [hn]; exact hj, hx, hb⟩
    · rintro (hb | ⟨m, hm, hb⟩)
      · exact ⟨p, hp, rfl, hb⟩
      · rw [h.edge_eq _ (h.rep_lt _ (hmem m hm)) (h.par_rep _ (hmem m hm)) bit] at hb
        obtain ⟨j, hj, hrj, hb⟩ := hb
        rw [hn] at hj
        exact ⟨j, hj, (r5 j hj).2 (Or.inr ⟨m, hm, hrj⟩), hb⟩
  have hbitC : v.corners = true → ∀ bit,
      ((cellAt (place_stone v (nb p) cells turn p permanent).2 (rep1 p)).corner.testBit bit = true ↔
        ((C p).testBit bit = true ∨ ∃ m ∈ taken_neighbors turn cells (nb p) false,
          (cellAt cells (rep m.idx)).corner.testBit bit = true)) := by
    intro hv bit
    rw [r3.corner_eq hv (rep1 p) hrl1 hroot1 bit, r1]
    constructor
    · rintro ⟨j, hj, hrj, hb⟩
      rcases (r5 j hj).1 hrj with hx | ⟨m, hm, hx⟩
      · left; rw [← hx]; exact hb
      · right
        refine ⟨m, hm, ?_⟩
        rw [h.corner_eq hv _ (h.rep_lt _ (hmem m hm)) (h.par_rep _ (hmem m hm)) bit]
        exact ⟨j, by rw [hn]; exact hj, hx, hb⟩
    · rintro (hb | ⟨m, hm, hb⟩)
      · exact ⟨p, hp, rfl, hb⟩
      · rw [h.corner_eq hv _ (h.rep_lt _ (hmem m hm)) (h.par_rep _ (hmem m hm)) bit] at hb
        obtain ⟨j, hj, hrj, hb⟩ := hb
        rw [hn] at hj
        exact ⟨j, hj, (r5 j hj).2 (Or.inr ⟨m, hm, hrj⟩), hb⟩
  -- bits of the masks of the empty cell
  have hE0 : ∀ bit, (cellAt (find_group cells p).2 p).edge.testBit bit = true ↔
      (E p).testBit bit = true := by
    intro bit
    rw [(hd0 p).2.1, h.edge_eq p hpl hroot0 bit]
    constructor
    · rintro ⟨j, hj, hrj, hb⟩
      have : j = p := h.single p hpl hemp j hj (hrj.trans hrp.symm)
      rw [← this]; exact hb
    · intro hb; exact ⟨p, hpl, hrp, hb⟩
  have hC0 : v.corners = true → ∀ bit,
      ((cellAt (find_group cells p).2 p).corner.testBit bit = true ↔
        (C p).testBit bit = true) := by
    intro hv bit
    rw [(hd0 p).2.2, h.corner_eq hv p hpl hroot0 bit]
    constructor
    · rintro ⟨j, hj, hrj, hb⟩
      have : j = p := h.single p hpl hemp j hj (hrj.trans hrp.symm)
      rw [← this]; exact hb
    · intro hb; exact ⟨p, hpl, hrp, hb⟩
  rw [hF1, (hFd (rep1 p)).2.1, (hFd (rep1 p)).2.2]
  refine ⟨?_, ?_, ?_, ?_, ?_, ?_, ?_⟩
  · apply eq_of_testBit_iff
    intro bit
    rw [hbitE bit, t4 bit, hE0 bit]
    constructor
    · rintro (hx | ⟨m, hm, hx⟩)
      · exact Or.inl hx
      · right; refine ⟨m, hm, ?_⟩; rw [(hd0 _).2.1]; exact hx
    · rintro (hx | ⟨m, hm, hx⟩)
      · exact Or.inl hx
      · right; refine ⟨m, hm, ?_⟩; rw [(hd0 _).2.1] at hx; exact hx
  · intro hv
    apply eq_of_testBit_iff
    intro bit
    rw [hbitC hv bit, t5 hv bit, hC0 hv bit]
    constructor
    · rintro (hx | ⟨m, hm, hx⟩)
      · exact Or.inl hx
      · right; refine ⟨m, hm, ?_⟩; rw [(hd0 _).2.2]; exact hx
    · rintro (hx | ⟨m, hm, hx⟩)
      · exact Or.inl hx
      · right; refine ⟨m, hm, ?_⟩; rw [(hd0 _).2.2] at hx; exact hx
  · rw [t6]; simp
  · intro hnil
    rw [hnil] at hbitE hbitC
    constructor
    · apply eq_of_testBit_iff
      intro bit; rw [hbitE bit]; simp
    · intro hv
      apply eq_of_testBit_iff
      intro bit; rw [hbitC hv bit]; simp
  · exact t1
  · rw [t2, hl0, hn]
  · intro k
    rw [t3 k, find_group_cellAt cells p k]

end uf
end Morat

namespace Morat

theorem taken_nil (turn : Side) (cells : List Cell) (l : List MoveValid) (skip : Bool)
    (h : ∀ m ∈ l, m.on_board = true → get cells m.idx ≠ turn) :
    taken_neighbors turn cells l skip = [] := by
  rw [List.eq_nil_iff_forall_not_mem]
  intro m hm
  have := taken_mem turn cells l skip m hm
  exact h m this.1 this.2.1 this.2.2

/-- C1.  Y board.  Let `b` be a reachable board, `m` a legal move on it (the
outcome is undecided and `m` is an empty cell of the shape) and `side` one of
the two players.  Then `test_outcome(m, side)`, computed before the
placement, is the outcome that `move(m)` sets when `side` is the side to
move: the win of `side` or `UNKNOWN`.  The call changes nothing but parent
links of the cell array (the path compression of `find_group`), and after it
`find_group` returns for every cell what it returned before.  Assumed of the
two library functions involved: `test_local` answers `false` only when no
neighbour of the cell is owned by `side`, and no single cell lies on all
three edges. -/
theorem C1_y_test_outcome_matches_move :
    ∀ (G : Y.Grid) (s : Int) (b : Y.Board), Y.valid_size s = true → Y.GridOK G s →
      (∀ cells pos turn, G.test_local s cells pos turn = false →
        ∀ m ∈ G.neighbors_small s pos.idx, m.on_board = true → get cells m.idx ≠ turn) →
      (∀ i, BitsSetTable256 (Y.edge0 G s i) ≠ 3) →
      Y.Reachable G s b → ∀ (m : Move) (side : Side) (permanent : Bool),
      b.valid_move_xy G m = true → side.isPlayer = true →
      ∃ b1, Y.Board.move_xy G { b with to_play_ := side } m permanent = some (true, b1) ∧
        (b.test_outcome_xy G m side).1 = b1.outcome_ ∧
        ((b.test_outcome_xy G m side).1 = Outcome.ofSide side ∨
          (b.test_outcome_xy G m side).1 = .UNKNOWN) ∧
        { (b.test_outcome_xy G m side).2 with cells_ := b.cells_ } = b ∧
        (b.test_outcome_xy G m side).2.cells_.length = b.cells_.length ∧
        (∀ k, cellAt (b.test_outcome_xy G m side).2.cells_ k =
          { cellAt b.cells_ k with
            parent := (cellAt (b.test_outcome_xy G m side).2.cells_ k).parent }) ∧
        (∀ k, k < b.cells_.length →
          (find_group (b.test_outcome_xy G m side).2.cells_ k).1 = (find_group b.cells_ k).1) := by
  intro G s b hs hG hloc hcell hb m side permanent hv hside
  have hinv0 := Y.y_reachable_inv G s hs hG b hb
  have hsz := hinv0.size_eq
  subst hsz
  have hinv : Y.BoardInv G b.size_ { b with to_play_ := side } := { hinv0 with to_play := hside }
  have hv' : Y.Board.valid_move_xy G { b with to_play_ := side } m = true := hv
  obtain ⟨ho, hob, hlt, hidx, hget, hvm, hsym⟩ :=
    Y.y_legal_facts G b.size_ hs hG { b with to_play_ := side } hinv m hv'
  have hpos : Y.Board.move_valid { b with to_play_ := side } m = b.move_valid m := rfl
  rw [hpos] at hob hlt hidx hget hvm hsym
  have hcells_eq : (Y.Board.mk b.size_ b.sizem1_ b.num_cells_ b.num_moves_ b.last_move_ side
      b.first_move b.outcome_ b.cells_ b.hash).cells_ = b.cells_ := rfl
  simp only at hlt hget ho
  obtain ⟨rep, rank, hc⟩ := hinv0.cells
  have hltn : (b.move_valid m).idx < (b.size_ * b.size_).toNat := by rw [← hinv0.len]; exact hlt
  obtain ⟨e1, -, e3, e4, e5, e6, e7⟩ :=
    test_vs_move hG.nbr hinv0.len hc (b.move_valid m).idx hltn (by rw [hget]; rfl) hsym side
      hside permanent
  have hout : (Y.Board.move_body G { b with to_play_ := side } (b.move_valid m) permanent).2.outcome_ =
      if (cellAt (find_group (place_stone Y.variant (G.neighbors_small b.size_ (b.move_valid m).idx)
          b.cells_ side (b.move_valid m).idx permanent).2 (b.move_valid m).idx).2
        (find_group (place_stone Y.variant (G.neighbors_small b.size_ (b.move_valid m).idx)
          b.cells_ side (b.move_valid m).idx permanent).2 (b.move_valid m).idx).1).numedges = 3
      then Outcome.ofSide side else .UNKNOWN := by
    rw [Y.y_move_body_valid G _ _ permanent hvm]
    simp only [ho]
  refine ⟨(Y.Board.move_body G { b with to_play_ := side } (b.move_valid m) permanent).2, ?_, ?_⟩
  · rw [Y.y_move_xy_legal G b.size_ hs hG _ hinv m hv' permanent]
    have h1 : (Y.Board.move_body G { b with to_play_ := side } (b.move_valid m) permanent).1 =
        true := by
      rw [Y.y_move_body_valid G _ _ permanent hvm]
    exact congrArg some (Prod.ext h1 rfl)
  rw [hout]
  unfold Y.Board.test_outcome_xy Y.Board.test_outcome
  unfold Cell.numedges at *
  rw [e1]
  by_cases hl : G.test_local b.size_ b.cells_ (b.move_valid m) side = true
  · simp only [hl, if_true]
    have hfind : ∀ k, k < b.cells_.length →
        (find_group (test_neighbors Y.variant side (G.neighbors_small b.size_ (b.move_valid m).idx) false
          ((cellAt (find_group b.cells_ (b.move_valid m).idx).2
            (find_group b.cells_ (b.move_valid m).idx).1, 0),
            (find_group b.cells_ (b.move_valid m).idx).2)).2 k).1 = (find_group b.cells_ k).1 := by
      intro k hk
      rw [find_group_fst e5 k (by rw [e6, ← hinv0.len]; exact hk), find_group_fst hc k hk]
    split
    · exact ⟨rfl, Or.inl rfl, rfl, by rw [e6, hinv0.len], e7, hfind⟩
    · exact ⟨rfl, Or.inr rfl, rfl, by rw [e6, hinv0.len], e7, hfind⟩
  · have hl' : G.test_local b.size_ b.cells_ (b.move_valid m) side = false := by
      cases hx : G.test_local b.size_ b.cells_ (b.move_valid m) side
      · rfl
      · exact absurd hx hl
    have hnil := taken_nil side b.cells_ (G.neighbors_small b.size_ (b.move_valid m).idx) false
      (hloc b.cells_ (b.move_valid m) side hl')
    have hE := (e4 hnil).1
    rw [e1] at hE
    rw [hE]
    simp only [hl', Bool.false_eq_true, if_false, hcell (b.move_valid m).idx]
    exact ⟨trivial, Or.inr trivial, trivial, trivial, fun k => trivial, fun k _ => trivial⟩

theorem any_neighbor_sound (nb : Int → Nat → List MoveValid) (s : Int) (cells : List Cell)
    (pos : MoveValid) (turn : Side) (h : any_neighbor nb s cells pos turn = false) :
    ∀ m ∈ nb s pos.idx, m.on_board = true → get cells m.idx ≠ turn := by
  intro m hm ho hg
  unfold any_neighbor at h
  rw [List.any_eq_false] at h
  have := h m hm
  rw [ho, hg] at this
  simp at this

theorem Y.tri_edges_single (i : Nat) : BitsSetTable256 (Y.edge0 Y.triGrid 4 i) ≠ 3 := by
  simp only [Y.edge0, Y.clear_cell, Y.triGrid, Y.tri_edges]
  split_ifs <;> first | decide | omega

set_option maxRecDepth 100000 in
/-- C1, witness: on the board of the sample game after six moves the move
`(1,2)` wins for the first player, who is to move. -/
theorem C1_y_test_outcome_matches_move_witness :
    (Y.after 6).valid_move_xy Y.triGrid ⟨1, 2⟩ = true ∧
    (∃ b1, Y.Board.move_xy Y.triGrid { Y.after 6 with to_play_ := .P1 } ⟨1, 2⟩ true =
        some (true, b1) ∧
      ((Y.after 6).test_outcome_xy Y.triGrid ⟨1, 2⟩ .P1).1 = b1.outcome_ ∧
      (((Y.after 6).test_outcome_xy Y.triGrid ⟨1, 2⟩ .P1).1 = Outcome.ofSide .P1 ∨
        ((Y.after 6).test_outcome_xy Y.triGrid ⟨1, 2⟩ .P1).1 = .UNKNOWN) ∧
      { ((Y.after 6).test_outcome_xy Y.triGrid ⟨1, 2⟩ .P1).2 with cells_ := (Y.after 6).cells_ } =
        Y.after 6 ∧
      ((Y.after 6).test_outcome_xy Y.triGrid ⟨1, 2⟩ .P1).2.cells_.length =
        (Y.after 6).cells_.length ∧
      (∀ k, cellAt ((Y.after 6).test_outcome_xy Y.triGrid ⟨1, 2⟩ .P1).2.cells_ k =
        { cellAt (Y.after 6).cells_ k with
          parent := (cellAt ((Y.after 6).test_outcome_xy Y.triGrid ⟨1, 2⟩ .P1).2.cells_ k).parent }) ∧
      (∀ k, k < (Y.after 6).cells_.length →
        (find_group ((Y.after 6).test_outcome_xy Y.triGrid ⟨1, 2⟩ .P1).2.cells_ k).1 =
          (find_group (Y.after 6).cells_ k).1)) ∧
    ((Y.after 6).test_outcome_xy Y.triGrid ⟨1, 2⟩ .P1).1 = .P1 :=
  ⟨by decide,
    C1_y_test_outcome_matches_move Y.triGrid 4 (Y.after 6) (by decide) Y.y_triGrid_ok
      (fun cells pos turn h => any_neighbor_sound _ 4 cells pos turn h) Y.tri_edges_single
      (Y.y_after_reachable 6 (by decide)) ⟨1, 2⟩ .P1 true (by decide) (by decide),
    by decide⟩

end Morat

namespace Morat

/-! ## Zobrist slots -/

theorem foldl_min_le (l : List Nat) : ∀ a : Nat, l.foldl min a ≤ a ∧ ∀ x ∈ l, l.foldl min a ≤ x := by
  induction l with
  | nil => intro a; simp
  | cons b l ih =>
    intro a
    have h := ih (min a b)
    simp only [List.foldl_cons, List.mem_cons]
    refine ⟨le_trans h.1 (min_le_left a b), ?_⟩
    rintro x (hx | hx)
    · rw [hx]; exact le_trans h.1 (min_le_right a b)
    · exact h.2 x hx

theorem foldl_min_mem (l : List Nat) : ∀ a : Nat, l.foldl min a = a ∨ l.foldl min a ∈ l := by
  induction l with
  | nil => intro a; simp
  | cons b l ih =>
    intro a
    simp only [List.foldl_cons, List.mem_cons]
    rcases ih (min a b) with h | h
    · rw [h]
      rcases min_choice a b with h1 | h1
      · left; exact h1
      · right; left; exact h1
    · right; right; exact h

theorem zobrist_get_le (l : List Nat) (x : Nat) (hx : x ∈ l) : zobrist_get l ≤ x := by
  cases l with
  | nil => exact absurd hx (List.not_mem_nil x)
  | cons a l =>
    simp only [zobrist_get]
    rcases List.mem_cons.1 hx with h | h
    · rw [h]; exact (foldl_min_le l a).1
    · exact (foldl_min_le l a).2 x h

theorem zobrist_get_mem (l : List Nat) (hl : l ≠ []) : zobrist_get l ∈ l := by
  cases l with
  | nil => exact absurd rfl hl
  | cons a l =>
    simp only [zobrist_get, List.mem_cons]
    exact foldl_min_mem l a

/-- The canonical hash depends on the set of slot values only. -/
theorem zobrist_get_congr (l1 l2 : List Nat) (hl : l1 ≠ []) (h : ∀ x, x ∈ l1 ↔ x ∈ l2) :
    zobrist_get l1 = zobrist_get l2 := by
  have hl2 : l2 ≠ [] := by
    intro he
    have := (h _).1 (zobrist_get_mem l1 hl)
    rw [he] at this
    exact absurd this (List.not_mem_nil _)
  apply le_antisymm
  · exact zobrist_get_le l1 _ ((h _).2 (zobrist_get_mem l2 hl2))
  · exact zobrist_get_le l2 _ ((h _).1 (zobrist_get_mem l1 hl))

theorem zobrist_slot_update (strings : Int → Nat) (h : List Nat) (i j : Nat) (key : Int) :
    zobrist_slot (zobrist_update strings h i key) j =
      if i = j ∧ i < h.length then zobrist_slot h j ^^^ strings key else zobrist_slot h j := by
  unfold zobrist_update zobrist_test zobrist_slot
  by_cases hij : i = j
  · subst hij
    by_cases hl : i < h.length
    · simp [hl, List.getD_eq_getElem?_getD]
    · have : h.length ≤ i := Nat.le_of_not_lt hl
      simp [hl, List.getD_eq_getElem?_getD, List.getElem?_eq_none, this]
  · simp [hij, List.getD_eq_getElem?_getD, List.getElem?_set_ne hij]

theorem zobrist_update_length (strings : Int → Nat) (h : List Nat) (i : Nat) (key : Int) :
    (zobrist_update strings h i key).length = h.length := by
  simp [zobrist_update]

/-! ## The stone hash -/

theorem foldr_xor_update (g g1 : Nat → Nat) (p v : Nat) (hne : ∀ k, k ≠ p → g1 k = g k)
    (hp : g1 p = g p ^^^ v) :
    ∀ l : List Nat, l.Nodup → p ∈ l →
      l.foldr (fun i acc => g1 i ^^^ acc) 0 = l.foldr (fun i acc => g i ^^^ acc) 0 ^^^ v := by
  intro l
  induction l with
  | nil => intro _ h; exact absurd h (List.not_mem_nil p)
  | cons a l ih =>
    intro hnd hmem
    rw [List.nodup_cons] at hnd
    simp only [List.foldr_cons]
    by_cases ha : a = p
    · subst ha
      have hsame : l.foldr (fun i acc => g1 i ^^^ acc) 0 = l.foldr (fun i acc => g i ^^^ acc) 0 := by
        apply List.foldr_ext
        intro x hx acc
        have : x ≠ a := fun h => hnd.1 (h ▸ hx)
        rw [hne x this]
      rw [hsame, hp]
      rw [Nat.xor_assoc, Nat.xor_assoc, Nat.xor_comm v]
    · have hp' : p ∈ l := by
        rcases List.mem_cons.1 hmem with h | h
        · exact absurd h.symm ha
        · exact h
      rw [ih hnd.2 hp', hne a ha, Nat.xor_assoc]

theorem foldr_xor_zero (g : Nat → Nat) (l : List Nat) (h : ∀ x ∈ l, g x = 0) :
    l.foldr (fun i acc => g i ^^^ acc) 0 = 0 := by
  induction l with
  | nil => rfl
  | cons a l ih =>
    simp only [List.foldr_cons]
    rw [ih (fun x hx => h x (List.mem_cons_of_mem _ hx)), h a (by simp)]
    rfl

/-- Placing a stone of `turn` on the empty cell `p` changes the stone hash by
the key of the stone. -/
theorem stone_hash_place (strings : Int → Nat) (c1 c2 : List Cell) (hl : c1.length = c2.length)
    (p : Nat) (hp : p < c2.length) (turn : Side) (hturn : turn.isPlayer = true)
    (hg : ∀ k, get c1 k = if k = p then turn else get c2 k) (hemp : get c2 p = .NONE) :
    stone_hash strings c1 = stone_hash strings c2 ^^^ strings (3 * (p : Int) + turn.to_i) := by
  unfold stone_hash
  rw [hl]
  apply foldr_xor_update
    (fun i => if (get c2 i).isPlayer then strings (3 * (i : Int) + (get c2 i).to_i) else 0)
    (fun i => if (get c1 i).isPlayer then strings (3 * (i : Int) + (get c1 i).to_i) else 0)
    p _ _ _ _ (List.nodup_range _) (List.mem_range.2 hp)
  · intro k hk
    simp only
    rw [hg k, if_neg hk]
  · simp only
    rw [hg p, if_pos rfl, hemp, hturn]
    simp [Side.isPlayer]

theorem stone_hash_empty (strings : Int → Nat) (cells : List Cell)
    (h : ∀ i, i < cells.length → (get cells i).isPlayer = false) : stone_hash strings cells = 0 := by
  unfold stone_hash
  apply foldr_xor_zero
    (fun i => if (get cells i).isPlayer then strings (3 * (i : Int) + (get cells i).to_i) else 0)
  intro x hx
  show (if (get cells x).isPlayer then strings (3 * (x : Int) + (get cells x).to_i) else 0) = 0
  rw [h x (List.mem_range.1 hx)]
  simp

end Morat

namespace Morat

/-! ## What `update_hash` does to each slot -/

theorem Y.y_update_hash_slot (G : Y.Grid) (b : Y.Board) (pos : MoveValid) (side : Side)
    (hlen : b.hash.length = 6) (j : Nat) (hj : j < 6) :
    zobrist_slot (b.update_hash G pos side) j =
      if b.num_moves_ > unique_depth then
        (if j = 0 then zobrist_slot b.hash j ^^^ G.strings (3 * pos.xy + side.to_i)
          else zobrist_slot b.hash j)
      else
        zobrist_slot b.hash j ^^^
          G.strings (3 * b.xy (Y.sym b.sizem1_ j pos.toMove).x (Y.sym b.sizem1_ j pos.toMove).y
            + side.to_i) := by
  unfold Y.Board.update_hash
  by_cases hn : b.num_moves_ > unique_depth
  · simp only [hn, if_true]
    rw [zobrist_slot_update]
    by_cases h0 : j = 0
    · subst h0; simp [hlen]
    · have : ¬ (0 = j ∧ 0 < b.hash.length) := fun hx => h0 hx.1.symm
      simp [h0, this]
  · simp only [hn, if_false]
    interval_cases j <;>
      simp [zobrist_slot_update, zobrist_update_length, hlen, Y.sym, MoveValid.toMove]

theorem Havannah.h_update_hash_slot (G : Havannah.Grid) (b : Havannah.Board) (pos : MoveValid)
    (side : Side) (hlen : b.hash.length = 12) (j : Nat) (hj : j < 12) :
    zobrist_slot (b.update_hash G pos side) j =
      if b.num_moves_ > unique_depth then
        (if j = 0 then zobrist_slot b.hash j ^^^ G.strings (3 * pos.xy + side.to_i)
          else zobrist_slot b.hash j)
      else
        zobrist_slot b.hash j ^^^
          G.strings (3 * b.xy (Havannah.sym b.size_r_m1_ j pos.toMove).x
            (Havannah.sym b.size_r_m1_ j pos.toMove).y + side.to_i) := by
  unfold Havannah.Board.update_hash
  by_cases hn : b.num_moves_ > unique_depth
  · simp only [hn, if_true]
    rw [zobrist_slot_update]
    by_cases h0 : j = 0
    · subst h0; simp [hlen]
    · have : ¬ (0 = j ∧ 0 < b.hash.length) := fun hx => h0 hx.1.symm
      simp [h0, this]
  · simp only [hn, if_false]
    interval_cases j <;>
      simp [zobrist_slot_update, zobrist_update_length, hlen, Havannah.sym, MoveValid.toMove,
        Havannah.Board.xyc]

end Morat

namespace Morat

/-! ## C8: slot 0 and the two regimes of `gethash` -/

theorem stone_hash_congr (strings : Int → Nat) (c1 c2 : List Cell) (hl : c1.length = c2.length)
    (hg : ∀ k, get c1 k = get c2 k) : stone_hash strings c1 = stone_hash strings c2 := by
  unfold stone_hash
  rw [hl]
  apply List.foldr_ext
  intro x _ acc
  rw [hg x]

theorem Y.y_clear_not_player (G : Y.Grid) (s : Int) (n i : Nat) (hi : i < n) :
    (get ((List.range n).map (Y.clear_cell G s)) i).isPlayer = false := by
  unfold get
  rw [cellAt_map_range _ _ _ hi]
  unfold Y.clear_cell
  simp only
  split <;> rfl

theorem Havannah.h_clear_not_player (G : Havannah.Grid) (s : Int) (n i : Nat) (hi : i < n) :
    (get ((List.range n).map (Havannah.clear_cell G s)) i).isPlayer = false := by
  unfold get
  rw [cellAt_map_range _ _ _ hi]
  unfold Havannah.clear_cell
  simp only
  split <;> rfl

theorem zobrist_slot_clear (num i : Nat) : zobrist_slot (zobrist_clear num) i = 0 := by
  unfold zobrist_slot zobrist_clear
  by_cases h : i < num
  · simp [List.getD_eq_getElem?_getD, h]
  · simp [List.getD_eq_getElem?_getD, h]

theorem Y.y_clear_slot0 (G : Y.Grid) (b : Y.Board) :
    zobrist_slot (b.clear G).hash 0 = stone_hash G.strings (b.clear G).cells_ := by
  unfold Y.Board.clear
  simp only
  rw [zobrist_slot_clear, stone_hash_empty]
  intro i hi
  exact Y.y_clear_not_player G _ _ i (by simpa using hi)

theorem Havannah.h_clear_slot0 (G : Havannah.Grid) (b : Havannah.Board) :
    zobrist_slot (b.clear G).hash 0 = stone_hash G.strings (b.clear G).cells_ := by
  unfold Havannah.Board.clear
  simp only
  rw [zobrist_slot_clear, stone_hash_empty]
  intro i hi
  exact Havannah.h_clear_not_player G _ _ i (by simpa using hi)

/-- The effect of a legal Y move on the hash slots and on the stone hash. -/
theorem Y.y_move_hash (G : Y.Grid) (s : Int) (hs : Y.valid_size s = true) (hG : Y.GridOK G s)
    (b : Y.Board) (h : Y.BoardInv G s b) (m : Move) (hv : b.valid_move_xy G m = true)
    (permanent : Bool) :
    zobrist_slot (b.move_body G (b.move_valid m) permanent).2.hash 0 =
      zobrist_slot b.hash 0 ^^^ G.strings (3 * b.xy m.x m.y + b.to_play_.to_i) ∧
    ((b.move_body G (b.move_valid m) permanent).2.num_moves_ > unique_depth → ∀ i, 0 < i →
      zobrist_slot (b.move_body G (b.move_valid m) permanent).2.hash i = zobrist_slot b.hash i) ∧
    stone_hash G.strings (b.move_body G (b.move_valid m) permanent).2.cells_ =
      stone_hash G.strings b.cells_ ^^^ G.strings (3 * b.xy m.x m.y + b.to_play_.to_i) := by
  obtain ⟨ho, hob, hlt, hidx, hget, hvm, hsym⟩ := Y.y_legal_facts G s hs hG b h m hv
  rw [Y.y_move_body_valid G b _ permanent hvm]
  simp only
  refine ⟨?_, ?_, ?_⟩
  · refine (Y.y_update_hash_slot G _ _ _ ?_ 0 (by omega)).trans ?_
    · exact h.hash_len
    simp only [if_true]
    split
    · rfl
    · rfl
  · intro hn i hi
    unfold Y.Board.update_hash
    simp only [hn, if_true]
    rw [zobrist_slot_update]
    have : ¬ (0 = i ∧ 0 < b.hash.length) := fun hx => by omega
    simp [this]
  · have hxy : b.xy m.x m.y = ((b.move_valid m).idx : Int) := by
      rw [hidx]; unfold Y.Board.xy; rw [h.size_eq]
    rw [hxy]
    apply stone_hash_place G.strings _ _ _ _ hlt b.to_play_ h.to_play _ hget
    · rw [find_group_length, place_stone_length]
    · intro k
      rw [find_group_get, place_stone_get _ _ _ _ _ _ hlt]

/-- On every reachable Y board slot 0 is the stone hash. -/
theorem Y.y_slot0_inv (G : Y.Grid) (s : Int) (hs : Y.valid_size s = true) (hG : Y.GridOK G s)
    (b : Y.Board) (hb : Y.Reachable G s b) :
    zobrist_slot b.hash 0 = stone_hash G.strings b.cells_ := by
  induction hb with
  | create h =>
    unfold Y.Board.size
    simp only [h, Bool.not_true, Bool.false_eq_true, if_false]
    exact Y.y_clear_slot0 G _
  | clear b _ _ => exact Y.y_clear_slot0 G b
  | toggle b _ ih =>
    unfold Y.Board.toggle_to_play
    split
    · split
      · exact ih
      · split
        · exact ih
        · exact ih
    · exact ih
  | move b m permanent r b1 hb0 hv hm ih =>
    have hinv := Y.y_reachable_inv G s hs hG b hb0
    rw [Y.y_move_xy_legal G s hs hG b hinv m hv permanent] at hm
    simp only [Option.some.injEq] at hm
    have h1 := Y.y_move_hash G s hs hG b hinv m hv permanent
    rw [hm] at h1
    simp only at h1
    rw [h1.1, h1.2.2, ih]

/-- The effect of a legal Havannah move on the hash slots and on the stone
hash. -/
theorem Havannah.h_move_hash (G : Havannah.Grid) (s : Int) (hs : Havannah.valid_size s = true)
    (hG : Havannah.GridOK G (s * 2 - 1)) (b : Havannah.Board) (h : Havannah.BoardInv G s b)
    (m : Move) (hv : b.valid_move_xy G m = true) (checkwin permanent : Bool) :
    zobrist_slot (b.move_body G (b.move_valid m) checkwin permanent).2.hash 0 =
      zobrist_slot b.hash 0 ^^^ G.strings (3 * b.xy m.x m.y + b.to_play_.to_i) ∧
    ((b.move_body G (b.move_valid m) checkwin permanent).2.num_moves_ > unique_depth →
      ∀ i, 0 < i →
      zobrist_slot (b.move_body G (b.move_valid m) checkwin permanent).2.hash i =
        zobrist_slot b.hash i) ∧
    stone_hash G.strings (b.move_body G (b.move_valid m) checkwin permanent).2.cells_ =
      stone_hash G.strings b.cells_ ^^^ G.strings (3 * b.xy m.x m.y + b.to_play_.to_i) := by
  obtain ⟨ho, hob, hlt, hidx, hget, hvm, hsym⟩ := Havannah.h_legal_facts G s hs hG b h m hv
  rw [Havannah.h_move_body_valid G b _ checkwin permanent hvm]
  simp only
  refine ⟨?_, ?_, ?_⟩
  · refine (Havannah.h_update_hash_slot G _ _ _ ?_ 0 (by omega)).trans ?_
    · exact h.hash_len
    simp only [if_true]
    split
    · rfl
    · simp only [Havannah.sym, MoveValid.toMove, Havannah.Board.move_valid]
      rw [Int.sub_add_cancel, Int.sub_add_cancel]
      rfl
  · intro hn i hi
    unfold Havannah.Board.update_hash
    simp only [hn, if_true]
    rw [zobrist_slot_update]
    have : ¬ (0 = i ∧ 0 < b.hash.length) := fun hx => by omega
    simp [this]
  · have hxy : b.xy m.x m.y = ((b.move_valid m).idx : Int) := by
      rw [hidx]; unfold Havannah.Board.xy; rw [h.size_eq]
    rw [hxy]
    apply stone_hash_place G.strings _ _ _ _ hlt b.to_play_ h.to_play _ hget
    · cases checkwin
      · simp only [Bool.false_eq_true, if_false]; rw [place_stone_length]
      · simp only [if_true]; rw [find_group_length, place_stone_length]
    · intro k
      cases checkwin
      · simp only [Bool.false_eq_true, if_false]; rw [place_stone_get _ _ _ _ _ _ hlt]
      · simp only [if_true]; rw [find_group_get, place_stone_get _ _ _ _ _ _ hlt]

/-- On every reachable Havannah board slot 0 is the stone hash. -/
theorem Havannah.h_slot0_inv (G : Havannah.Grid) (s : Int) (hs : Havannah.valid_size s = true)
    (hG : Havannah.GridOK G (s * 2 - 1)) (b : Havannah.Board) (hb : Havannah.Reachable G s b) :
    zobrist_slot b.hash 0 = stone_hash G.strings b.cells_ := by
  induction hb with
  | create h =>
    unfold Havannah.Board.size
    simp only [h, Bool.not_true, Bool.false_eq_true, if_false]
    exact Havannah.h_clear_slot0 G _
  | clear b _ _ => exact Havannah.h_clear_slot0 G b
  | rings b c p _ ih => exact ih
  | move b m checkwin permanent r b1 hb0 hv hm ih =>
    have hinv := Havannah.h_reachable_inv G s hs hG b hb0
    rw [Havannah.h_move_xy_legal G s hs hG b hinv m hv checkwin permanent] at hm
    simp only [Option.some.injEq] at hm
    have h1 := Havannah.h_move_hash G s hs hG b hinv m hv checkwin permanent
    rw [hm] at h1
    simp only at h1
    rw [h1.1, h1.2.2, ih]

end Morat

namespace Morat

/-- C8.  On every reachable board of both variants: `gethash()` is slot 0 once
`moves_made() > unique_depth` and the minimum of the slots (a slot value that
is at most every slot value) while `moves_made() <= unique_depth`; slot 0 is
the exclusive or of the keys `3 * xy + side` of all stones on the board; and
every legal `move(m)` succeeds, raises the move count by one, combines the
untransformed key `3 * xy(m) + to_play` into slot 0, and, when it is placement
number 6 or later, leaves every other slot as it was. -/
theorem C8_hash_slot_zero :
    (∀ (G : Y.Grid) (s : Int) (b : Y.Board), Y.valid_size s = true → Y.GridOK G s →
      Y.Reachable G s b →
      (b.moves_made > unique_depth → b.gethash = zobrist_slot b.hash 0) ∧
      (b.moves_made ≤ unique_depth →
        b.gethash ∈ b.hash ∧ ∀ i, i < 6 → b.gethash ≤ zobrist_slot b.hash i) ∧
      zobrist_slot b.hash 0 = stone_hash G.strings b.cells_ ∧
      ∀ (m : Move) (permanent : Bool), b.valid_move_xy G m = true →
        ∃ b1, b.move_xy G m permanent = some (true, b1) ∧
          b1.moves_made = b.moves_made + 1 ∧
          zobrist_slot b1.hash 0 =
            zobrist_slot b.hash 0 ^^^ G.strings (3 * b.xy m.x m.y + b.to_play_.to_i) ∧
          (b1.moves_made > unique_depth → ∀ i, 0 < i →
            zobrist_slot b1.hash i = zobrist_slot b.hash i)) ∧
    (∀ (G : Havannah.Grid) (s : Int) (b : Havannah.Board), Havannah.valid_size s = true →
      Havannah.GridOK G (s * 2 - 1) → Havannah.Reachable G s b →
      (b.moves_made > unique_depth → b.gethash = zobrist_slot b.hash 0) ∧
      (b.moves_made ≤ unique_depth →
        b.gethash ∈ b.hash ∧ ∀ i, i < 12 → b.gethash ≤ zobrist_slot b.hash i) ∧
      zobrist_slot b.hash 0 = stone_hash G.strings b.cells_ ∧
      ∀ (m : Move) (checkwin permanent : Bool), b.valid_move_xy G m = true →
        ∃ b1, b.move_xy G m checkwin permanent = some (true, b1) ∧
          b1.moves_made = b.moves_made + 1 ∧
          zobrist_slot b1.hash 0 =
            zobrist_slot b.hash 0 ^^^ G.strings (3 * b.xy m.x m.y + b.to_play_.to_i) ∧
          (b1.moves_made > unique_depth → ∀ i, 0 < i →
            zobrist_slot b1.hash i = zobrist_slot b.hash i)) := by
  constructor
  · intro G s b hs hG hb
    have hinv := Y.y_reachable_inv G s hs hG b hb
    have hne : b.hash ≠ [] := by
      intro he
      have := hinv.hash_len
      rw [he] at this
      exact absurd this (by decide)
    refine ⟨?_, ?_, Y.y_slot0_inv G s hs hG b hb, ?_⟩
    · intro hn
      unfold Y.Board.moves_made at hn
      unfold Y.Board.gethash
      rw [if_pos hn]
    · intro hn
      unfold Y.Board.moves_made at hn
      have hg : b.gethash = zobrist_get b.hash := by
        unfold Y.Board.gethash
        rw [if_neg (not_lt.2 hn)]
      rw [hg]
      refine ⟨zobrist_get_mem _ hne, ?_⟩
      intro i hi
      apply zobrist_get_le
      unfold zobrist_slot
      have hi2 : i < b.hash.length := by rw [hinv.hash_len]; exact hi
      rw [List.getD_eq_getElem _ _ hi2]
      exact List.getElem_mem hi2
    · intro m permanent hv
      have hm := Y.y_move_xy_legal G s hs hG b hinv m hv permanent
      have hf := Y.y_legal_facts G s hs hG b hinv m hv
      have hh := Y.y_move_hash G s hs hG b hinv m hv permanent
      have hb1 := Y.y_move_body_valid G b (b.move_valid m) permanent hf.2.2.2.2.2.1
      refine ⟨(b.move_body G (b.move_valid m) permanent).2, ?_, ?_, hh.1, hh.2.1⟩
      · rw [hm]
        apply congrArg some
        apply Prod.ext
        · rw [hb1]
        · rfl
      · rw [hb1]
        rfl
  · intro G s b hs hG hb
    have hinv := Havannah.h_reachable_inv G s hs hG b hb
    have hne : b.hash ≠ [] := by
      intro he
      have := hinv.hash_len
      rw [he] at this
      exact absurd this (by decide)
    refine ⟨?_, ?_, Havannah.h_slot0_inv G s hs hG b hb, ?_⟩
    · intro hn
      unfold Havannah.Board.moves_made at hn
      unfold Havannah.Board.gethash
      rw [if_pos hn]
    · intro hn
      unfold Havannah.Board.moves_made at hn
      have hg : b.gethash = zobrist_get b.hash := by
        unfold Havannah.Board.gethash
        rw [if_neg (not_lt.2 hn)]
      rw [hg]
      refine ⟨zobrist_get_mem _ hne, ?_⟩
      intro i hi
      apply zobrist_get_le
      unfold zobrist_slot
      have hi2 : i < b.hash.length := by rw [hinv.hash_len]; exact hi
      rw [List.getD_eq_getElem _ _ hi2]
      exact List.getElem_mem hi2
    · intro m checkwin permanent hv
      have hm := Havannah.h_move_xy_legal G s hs hG b hinv m hv checkwin permanent
      have hf := Havannah.h_legal_facts G s hs hG b hinv m hv
      have hh := Havannah.h_move_hash G s hs hG b hinv m hv checkwin permanent
      have hb1 := Havannah.h_move_body_valid G b (b.move_valid m) checkwin permanent
        hf.2.2.2.2.2.1
      refine ⟨(b.move_body G (b.move_valid m) checkwin permanent).2, ?_, ?_, hh.1, hh.2.1⟩
      · rw [hm]
        apply congrArg some
        apply Prod.ext
        · rw [hb1]
        · rfl
      · rw [hb1]
        rfl

set_option maxRecDepth 100000 in
/-- C8, witness: the boards before the last move of the two sample games; the
Y board has six stones, so its hash is slot 0 alone, the Havannah board four,
and the last move of each game is legal there. -/
theorem C8_hash_slot_zero_witness :
    ((Y.after 6).gethash = stone_hash Y.triGrid.strings (Y.after 6).cells_ ∧
      ∃ b1, (Y.after 6).move_xy Y.triGrid ⟨1, 2⟩ true = some (true, b1) ∧
        b1.moves_made = 7 ∧
        zobrist_slot b1.hash 0 =
          zobrist_slot (Y.after 6).hash 0 ^^^ Y.triGrid.strings (3 * 9 + 1)) ∧
    (zobrist_slot (Havannah.after 4).hash 0 =
        stone_hash Havannah.hexGrid.strings (Havannah.after 4).cells_ ∧
      ∃ b1, (Havannah.after 4).move_xy Havannah.hexGrid ⟨2, 0⟩ true true = some (true, b1) ∧
        b1.moves_made = 5 ∧
        zobrist_slot b1.hash 0 =
          zobrist_slot (Havannah.after 4).hash 0 ^^^ Havannah.hexGrid.strings (3 * 2 + 1)) :=
  have hy := C8_hash_slot_zero.1 Y.triGrid 4 (Y.after 6) (by decide) Y.y_triGrid_ok
    (Y.y_after_reachable 6 (by decide))
  have hh := C8_hash_slot_zero.2 Havannah.hexGrid 3 (Havannah.after 4) (by decide)
    Havannah.h_hexGrid_ok (Havannah.h_after_reachable 4 (by decide))
  ⟨⟨(hy.1 (by decide)).trans hy.2.2.1,
      (hy.2.2.2 ⟨1, 2⟩ true (by decide)).imp fun _ h => ⟨h.1, h.2.1, h.2.2.1⟩⟩,
    ⟨hh.2.2.1,
      (hh.2.2.2 ⟨2, 0⟩ true true (by decide)).imp fun _ h => ⟨h.1, h.2.1, h.2.2.1⟩⟩⟩

end Morat

namespace Morat

/-! ## C7: the symmetry slots -/

theorem Y.y_sym_comp (s1 : Int) (m : Move) (k j : Nat) (hk : k < 6) (hj : j < 6) :
    Y.sym s1 j (Y.sym s1 k m) = Y.sym s1 (Y.sym_slot k j) m := by
  interval_cases k <;> interval_cases j <;>
    simp [Y.sym, Y.sym_slot, Y.sym_table] <;> ring_nf

theorem Y.y_sym_slot_lt : ∀ k, k < 6 → ∀ j, j < 6 → Y.sym_slot k j < 6 := by decide

theorem Y.y_sym_slot_surj : ∀ k, k < 6 → ∀ i, i < 6 → ∃ j, j < 6 ∧ Y.sym_slot k j = i := by
  decide

theorem Havannah.h_sym_comp (s1 : Int) (m : Move) (k j : Nat) (hk : k < 12) (hj : j < 12) :
    Havannah.sym s1 j (Havannah.sym s1 k m) = Havannah.sym s1 (Havannah.sym_slot k j) m := by
  interval_cases k <;> interval_cases j <;>
    simp [Havannah.sym, Havannah.sym_slot, Havannah.sym_table]

theorem Havannah.h_sym_slot_lt : ∀ k, k < 12 → ∀ j, j < 12 → Havannah.sym_slot k j < 12 := by
  decide

theorem Havannah.h_sym_slot_surj :
    ∀ k, k < 12 → ∀ i, i < 12 → ∃ j, j < 12 ∧ Havannah.sym_slot k j = i := by
  decide

/-- Two slot lists of the same length whose slots are a permutation of each
other have the same minimum. -/
theorem zobrist_get_perm (n : Nat) (hn : 0 < n) (l1 l2 : List Nat) (h1 : l1.length = n)
    (h2 : l2.length = n) (σ : Nat → Nat) (hlt : ∀ j, j < n → σ j < n)
    (hsurj : ∀ i, i < n → ∃ j, j < n ∧ σ j = i)
    (hR : ∀ j, j < n → zobrist_slot l2 j = zobrist_slot l1 (σ j)) :
    zobrist_get l1 = zobrist_get l2 := by
  have hslot : ∀ (l : List Nat) (i : Nat) (hi : i < l.length), zobrist_slot l i = l[i] := by
    intro l i hi
    unfold zobrist_slot
    exact List.getD_eq_getElem _ _ hi
  apply zobrist_get_congr
  · intro he
    rw [he] at h1
    simp at h1
    omega
  · intro x
    constructor
    · intro hx
      obtain ⟨i, hi, hxi⟩ := List.getElem_of_mem hx
      obtain ⟨j, hj, hji⟩ := hsurj i (h1 ▸ hi)
      have := hR j hj
      rw [hji, hslot l1 i hi, hxi, hslot l2 j (h2 ▸ hj)] at this
      rw [← this]
      exact List.getElem_mem _
    · intro hx
      obtain ⟨j, hj, hxj⟩ := List.getElem_of_mem hx
      have := hR j (h2 ▸ hj)
      rw [hslot l2 j hj, hxj, hslot l1 (σ j) (h1 ▸ hlt j (h2 ▸ hj))] at this
      rw [this]
      exact List.getElem_mem _

end Morat

namespace Morat

/-- One legal Y move and its image under map `k`, played on two boards whose
slots are related by `sym_slot k`, keep the slots related, as long as the move
is one of the first `unique_depth`. -/
theorem Y.y_sym_step (G : Y.Grid) (s : Int) (hs : Y.valid_size s = true) (hG : Y.GridOK G s)
    (k : Nat) (hk : k < 6) (b1 b2 : Y.Board) (h1 : Y.BoardInv G s b1) (h2 : Y.BoardInv G s b2)
    (hn : b2.num_moves_ = b1.num_moves_) (ht : b2.to_play_ = b1.to_play_)
    (hlow : b1.num_moves_ < unique_depth)
    (hR : ∀ j, j < 6 → zobrist_slot b2.hash j = zobrist_slot b1.hash (Y.sym_slot k j))
    (m : Move) (hv1 : b1.valid_move_xy G m = true)
    (hv2 : b2.valid_move_xy G (Y.sym (s - 1) k m) = true) (p : Bool) :
    (b2.move_body G (b2.move_valid (Y.sym (s - 1) k m)) p).2.num_moves_ =
        (b1.move_body G (b1.move_valid m) p).2.num_moves_ ∧
      (b1.move_body G (b1.move_valid m) p).2.num_moves_ = b1.num_moves_ + 1 ∧
      (b2.move_body G (b2.move_valid (Y.sym (s - 1) k m)) p).2.to_play_ =
        (b1.move_body G (b1.move_valid m) p).2.to_play_ ∧
      ∀ j, j < 6 →
        zobrist_slot (b2.move_body G (b2.move_valid (Y.sym (s - 1) k m)) p).2.hash j =
          zobrist_slot (b1.move_body G (b1.move_valid m) p).2.hash (Y.sym_slot k j) := by
  have hf1 := Y.y_legal_facts G s hs hG b1 h1 m hv1
  have hf2 := Y.y_legal_facts G s hs hG b2 h2 _ hv2
  rw [Y.y_move_body_valid G b1 _ p hf1.2.2.2.2.2.1, Y.y_move_body_valid G b2 _ p hf2.2.2.2.2.2.1]
  simp only
  refine ⟨by rw [hn], trivial, by rw [ht], ?_⟩
  intro j hj
  have hσ := Y.y_sym_slot_lt k hk j hj
  refine (Y.y_update_hash_slot G _ _ _ ?_ j hj).trans ?_
  · exact h2.hash_len
  refine Eq.trans ?_ (Y.y_update_hash_slot G _ _ _ ?_ (Y.sym_slot k j) hσ).symm
  · have hl1 : ¬ (b1.num_moves_ + 1 > unique_depth) := by
      unfold unique_depth at hlow ⊢; omega
    have hl2 : ¬ (b2.num_moves_ + 1 > unique_depth) := by rw [hn]; exact hl1
    simp only
    rw [if_neg hl1, if_neg hl2, hR j hj, ht]
    have e1 : (b2.move_valid (Y.sym (s - 1) k m)).toMove = Y.sym (s - 1) k m := rfl
    have e2 : (b1.move_valid m).toMove = m := rfl
    rw [e1, e2, h1.sizem1_eq, h2.sizem1_eq, Y.y_sym_comp (s - 1) m k j hk hj]
    unfold Y.Board.xy
    simp only
    rw [h1.size_eq, h2.size_eq]
  · exact h1.hash_len

/-- Playing a sequence of legal Y moves and its image under map `k` from two
boards with related slots. -/
theorem Y.y_sym_play (G : Y.Grid) (s : Int) (hs : Y.valid_size s = true) (hG : Y.GridOK G s)
    (k : Nat) (hk : k < 6) :
    ∀ (ms : List Move) (b1 b2 c1 c2 : Y.Board), Y.Reachable G s b1 → Y.Reachable G s b2 →
      b2.num_moves_ = b1.num_moves_ → b2.to_play_ = b1.to_play_ →
      b1.num_moves_ + ms.length ≤ unique_depth →
      (∀ j, j < 6 → zobrist_slot b2.hash j = zobrist_slot b1.hash (Y.sym_slot k j)) →
      Y.Board.play G b1 ms = some c1 → Y.Board.play G b2 (ms.map (Y.sym (s - 1) k)) = some c2 →
      c1.num_moves_ ≤ unique_depth ∧ c2.num_moves_ = c1.num_moves_ ∧
        ∀ j, j < 6 → zobrist_slot c2.hash j = zobrist_slot c1.hash (Y.sym_slot k j) := by
  intro ms
  induction ms with
  | nil =>
    intro b1 b2 c1 c2 _ _ hn _ hlow hR hp1 hp2
    simp only [Y.Board.play, List.map_nil, Option.some.injEq] at hp1 hp2
    subst hp1; subst hp2
    simp only [List.length_nil, Nat.cast_zero, add_zero] at hlow
    exact ⟨hlow, hn, hR⟩
  | cons m ms ih =>
    intro b1 b2 c1 c2 hb1 hb2 hn ht hlow hR hp1 hp2
    simp only [List.map_cons, Y.Board.play] at hp1 hp2
    have hv1 : b1.valid_move_xy G m = true := by
      by_contra hx
      rw [if_neg hx] at hp1
      exact absurd hp1 (by simp)
    have hv2 : b2.valid_move_xy G (Y.sym (s - 1) k m) = true := by
      by_contra hx
      rw [if_neg hx] at hp2
      exact absurd hp2 (by simp)
    have hi1 := Y.y_reachable_inv G s hs hG b1 hb1
    have hi2 := Y.y_reachable_inv G s hs hG b2 hb2
    have hm1 := Y.y_move_xy_legal G s hs hG b1 hi1 m hv1 true
    have hm2 := Y.y_move_xy_legal G s hs hG b2 hi2 _ hv2 true
    rw [if_pos hv1, hm1] at hp1
    rw [if_pos hv2, hm2] at hp2
    simp only at hp1 hp2
    simp only [List.length_cons, Nat.cast_add, Nat.cast_one] at hlow
    have hlt : b1.num_moves_ < unique_depth := by
      have : (0 : Int) ≤ (ms.length : Int) := Int.ofNat_nonneg _
      omega
    obtain ⟨s1, s2, s3, s4⟩ := Y.y_sym_step G s hs hG k hk b1 b2 hi1 hi2 hn ht hlt hR m hv1 hv2 true
    have hr1 : Y.Reachable G s (b1.move_body G (b1.move_valid m) true).2 :=
      Y.Reachable.move b1 m true _ _ hb1 hv1 hm1
    have hr2 : Y.Reachable G s (b2.move_body G (b2.move_valid (Y.sym (s - 1) k m)) true).2 :=
      Y.Reachable.move b2 _ true _ _ hb2 hv2 hm2
    apply ih _ _ c1 c2 hr1 hr2 s1 s3 _ s4 hp1 hp2
    rw [s2]
    omega

end Morat

namespace Morat

/-- One legal Havannah move and its image under map `k`, played on two boards
whose slots are related by `sym_slot k`, keep the slots related, as long as
the move is one of the first `unique_depth`. -/
theorem Havannah.h_sym_step (G : Havannah.Grid) (s : Int) (hs : Havannah.valid_size s = true)
    (hG : Havannah.GridOK G (s * 2 - 1)) (k : Nat) (hk : k < 12) (b1 b2 : Havannah.Board)
    (h1 : Havannah.BoardInv G s b1) (h2 : Havannah.BoardInv G s b2)
    (hn : b2.num_moves_ = b1.num_moves_) (ht : b2.to_play_ = b1.to_play_)
    (hlow : b1.num_moves_ < unique_depth)
    (hR : ∀ j, j < 12 → zobrist_slot b2.hash j = zobrist_slot b1.hash (Havannah.sym_slot k j))
    (m : Move) (hv1 : b1.valid_move_xy G m = true)
    (hv2 : b2.valid_move_xy G (Havannah.sym (s - 1) k m) = true) (cw p : Bool) :
    (b2.move_body G (b2.move_valid (Havannah.sym (s - 1) k m)) cw p).2.num_moves_ =
        (b1.move_body G (b1.move_valid m) cw p).2.num_moves_ ∧
      (b1.move_body G (b1.move_valid m) cw p).2.num_moves_ = b1.num_moves_ + 1 ∧
      (b2.move_body G (b2.move_valid (Havannah.sym (s - 1) k m)) cw p).2.to_play_ =
        (b1.move_body G (b1.move_valid m) cw p).2.to_play_ ∧
      ∀ j, j < 12 →
        zobrist_slot (b2.move_body G (b2.move_valid (Havannah.sym (s - 1) k m)) cw p).2.hash j =
          zobrist_slot (b1.move_body G (b1.move_valid m) cw p).2.hash
            (Havannah.sym_slot k j) := by
  have hf1 := Havannah.h_legal_facts G s hs hG b1 h1 m hv1
  have hf2 := Havannah.h_legal_facts G s hs hG b2 h2 _ hv2
  rw [Havannah.h_move_body_valid G b1 _ cw p hf1.2.2.2.2.2.1,
    Havannah.h_move_body_valid G b2 _ cw p hf2.2.2.2.2.2.1]
  simp only
  refine ⟨by rw [hn], trivial, by rw [ht], ?_⟩
  intro j hj
  have hσ := Havannah.h_sym_slot_lt k hk j hj
  refine (Havannah.h_update_hash_slot G _ _ _ ?_ j hj).trans ?_
  · exact h2.hash_len
  refine Eq.trans ?_ (Havannah.h_update_hash_slot G _ _ _ ?_ (Havannah.sym_slot k j) hσ).symm
  · have hl1 : ¬ (b1.num_moves_ + 1 > unique_depth) := by
      unfold unique_depth at hlow ⊢; omega
    have hl2 : ¬ (b2.num_moves_ + 1 > unique_depth) := by rw [hn]; exact hl1
    simp only
    rw [if_neg hl1, if_neg hl2, hR j hj, ht]
    have e1 : (b2.move_valid (Havannah.sym (s - 1) k m)).toMove = Havannah.sym (s - 1) k m := rfl
    have e2 : (b1.move_valid m).toMove = m := rfl
    rw [e1, e2, h1.size_r_m1_eq, h2.size_r_m1_eq, Havannah.h_sym_comp (s - 1) m k j hk hj]
    unfold Havannah.Board.xy
    simp only
    rw [h1.size_eq, h2.size_eq]
  · exact h1.hash_len

/-- Playing a sequence of legal Havannah moves and its image under map `k`
from two boards with related slots. -/
theorem Havannah.h_sym_play (G : Havannah.Grid) (s : Int) (hs : Havannah.valid_size s = true)
    (hG : Havannah.GridOK G (s * 2 - 1)) (k : Nat) (hk : k < 12) :
    ∀ (ms : List Move) (b1 b2 c1 c2 : Havannah.Board), Havannah.Reachable G s b1 →
      Havannah.Reachable G s b2 →
      b2.num_moves_ = b1.num_moves_ → b2.to_play_ = b1.to_play_ →
      b1.num_moves_ + ms.length ≤ unique_depth →
      (∀ j, j < 12 → zobrist_slot b2.hash j = zobrist_slot b1.hash (Havannah.sym_slot k j)) →
      Havannah.Board.play G b1 ms = some c1 →
      Havannah.Board.play G b2 (ms.map (Havannah.sym (s - 1) k)) = some c2 →
      c1.num_moves_ ≤ unique_depth ∧ c2.num_moves_ = c1.num_moves_ ∧
        ∀ j, j < 12 → zobrist_slot c2.hash j = zobrist_slot c1.hash (Havannah.sym_slot k j) := by
  intro ms
  induction ms with
  | nil =>
    intro b1 b2 c1 c2 _ _ hn _ hlow hR hp1 hp2
    simp only [Havannah.Board.play, List.map_nil, Option.some.injEq] at hp1 hp2
    subst hp1; subst hp2
    simp only [List.length_nil, Nat.cast_zero, add_zero] at hlow
    exact ⟨hlow, hn, hR⟩
  | cons m ms ih =>
    intro b1 b2 c1 c2 hb1 hb2 hn ht hlow hR hp1 hp2
    simp only [List.map_cons, Havannah.Board.play] at hp1 hp2
    have hv1 : b1.valid_move_xy G m = true := by
      by_contra hx
      rw [if_neg hx] at hp1
      exact absurd hp1 (by simp)
    have hv2 : b2.valid_move_xy G (Havannah.sym (s - 1) k m) = true := by
      by_contra hx
      rw [if_neg hx] at hp2
      exact absurd hp2 (by simp)
    have hi1 := Havannah.h_reachable_inv G s hs hG b1 hb1
    have hi2 := Havannah.h_reachable_inv G s hs hG b2 hb2
    have hm1 := Havannah.h_move_xy_legal G s hs hG b1 hi1 m hv1 true true
    have hm2 := Havannah.h_move_xy_legal G s hs hG b2 hi2 _ hv2 true true
    rw [if_pos hv1, hm1] at hp1
    rw [if_pos hv2, hm2] at hp2
    simp only at hp1 hp2
    simp only [List.length_cons, Nat.cast_add, Nat.cast_one] at hlow
    have hlt : b1.num_moves_ < unique_depth := by
      have : (0 : Int) ≤ (ms.length : Int) := Int.ofNat_nonneg _
      omega
    obtain ⟨s1, s2, s3, s4⟩ :=
      Havannah.h_sym_step G s hs hG k hk b1 b2 hi1 hi2 hn ht hlt hR m hv1 hv2 true true
    have hr1 : Havannah.Reachable G s (b1.move_body G (b1.move_valid m) true true).2 :=
      Havannah.Reachable.move b1 m true true _ _ hb1 hv1 hm1
    have hr2 : Havannah.Reachable G s
        (b2.move_body G (b2.move_valid (Havannah.sym (s - 1) k m)) true true).2 :=
      Havannah.Reachable.move b2 _ true true _ _ hb2 hv2 hm2
    apply ih _ _ c1 c2 hr1 hr2 s1 s3 _ s4 hp1 hp2
    rw [s2]
    omega

end Morat

namespace Morat

/-- C7.  For both variants, every coordinate map `k` of `update_hash` (6 on
the Y board, 12 on the Havannah board) and every sequence `ms` of at most
`unique_depth` (5) moves: if `ms` and its image under map `k` can both be
played move by move (each move legal when it is made) from the same cleared
board, the two final boards have equal `gethash()`.  The reason is stated
with it: map `j` after map `k` is map `sym_slot k j`, so slot `j` of the
second board holds the value of slot `sym_slot k j` of the first, and the
minimum over the slots is the same. -/
theorem C7_hash_symmetry :
    (∀ (G : Y.Grid) (s : Int) (c : Y.Board) (k : Nat) (ms : List Move) (b1 b2 : Y.Board),
      Y.valid_size s = true → Y.GridOK G s → Y.Reachable G s c → k < 6 →
      ms.length ≤ 5 →
      Y.Board.play G (c.clear G) ms = some b1 →
      Y.Board.play G (c.clear G) (ms.map (Y.sym (s - 1) k)) = some b2 →
      b1.gethash = b2.gethash ∧
      (∀ j, j < 6 → zobrist_slot b2.hash j = zobrist_slot b1.hash (Y.sym_slot k j)) ∧
      (∀ (m : Move) j, j < 6 →
        Y.sym (s - 1) j (Y.sym (s - 1) k m) = Y.sym (s - 1) (Y.sym_slot k j) m)) ∧
    (∀ (G : Havannah.Grid) (s : Int) (c : Havannah.Board) (k : Nat) (ms : List Move)
      (b1 b2 : Havannah.Board),
      Havannah.valid_size s = true → Havannah.GridOK G (s * 2 - 1) → Havannah.Reachable G s c →
      k < 12 → ms.length ≤ 5 →
      Havannah.Board.play G (c.clear G) ms = some b1 →
      Havannah.Board.play G (c.clear G) (ms.map (Havannah.sym (s - 1) k)) = some b2 →
      b1.gethash = b2.gethash ∧
      (∀ j, j < 12 → zobrist_slot b2.hash j = zobrist_slot b1.hash (Havannah.sym_slot k j)) ∧
      (∀ (m : Move) j, j < 12 →
        Havannah.sym (s - 1) j (Havannah.sym (s - 1) k m) =
          Havannah.sym (s - 1) (Havannah.sym_slot k j) m)) := by
  constructor
  · intro G s c k ms b1 b2 hs hG hc hk hlen hp1 hp2
    have hr := Y.Reachable.clear c hc
    have h0 : (c.clear G).num_moves_ = 0 := rfl
    have hh : (c.clear G).hash = zobrist_clear 6 := rfl
    have hlow : (c.clear G).num_moves_ + (ms.length : Int) ≤ unique_depth := by
      rw [h0]; unfold unique_depth; omega
    obtain ⟨r1, r2, r3⟩ := Y.y_sym_play G s hs hG k hk ms _ _ b1 b2 hr hr rfl rfl hlow
      (by intro j _; rw [hh, zobrist_slot_clear, zobrist_slot_clear]) hp1 hp2
    have hi1 := Y.y_reachable_inv G s hs hG b1 (Y.y_play_reachable G s ms _ b1 hr hp1)
    have hi2 := Y.y_reachable_inv G s hs hG b2 (Y.y_play_reachable G s _ _ b2 hr hp2)
    refine ⟨?_, r3, fun m j hj => Y.y_sym_comp (s - 1) m k j hk hj⟩
    unfold Y.Board.gethash
    rw [if_neg (not_lt.2 r1), if_neg (not_lt.2 (r2 ▸ r1))]
    exact zobrist_get_perm 6 (by decide) _ _ hi1.hash_len hi2.hash_len (Y.sym_slot k)
      (Y.y_sym_slot_lt k hk) (Y.y_sym_slot_surj k hk) r3
  · intro G s c k ms b1 b2 hs hG hc hk hlen hp1 hp2
    have hr := Havannah.Reachable.clear c hc
    have h0 : (c.clear G).num_moves_ = 0 := rfl
    have hh : (c.clear G).hash = zobrist_clear 12 := rfl
    have hlow : (c.clear G).num_moves_ + (ms.length : Int) ≤ unique_depth := by
      rw [h0]; unfold unique_depth; omega
    obtain ⟨r1, r2, r3⟩ := Havannah.h_sym_play G s hs hG k hk ms _ _ b1 b2 hr hr rfl rfl hlow
      (by intro j _; rw [hh, zobrist_slot_clear, zobrist_slot_clear]) hp1 hp2
    have hi1 := Havannah.h_reachable_inv G s hs hG b1
      (Havannah.h_play_reachable G s ms _ b1 hr hp1)
    have hi2 := Havannah.h_reachable_inv G s hs hG b2
      (Havannah.h_play_reachable G s _ _ b2 hr hp2)
    refine ⟨?_, r3, fun m j hj => Havannah.h_sym_comp (s - 1) m k j hk hj⟩
    unfold Havannah.Board.gethash
    rw [if_neg (not_lt.2 r1), if_neg (not_lt.2 (r2 ▸ r1))]
    exact zobrist_get_perm 12 (by decide) _ _ hi1.hash_len hi2.hash_len (Havannah.sym_slot k)
      (Havannah.h_sym_slot_lt k hk) (Havannah.h_sym_slot_surj k hk) r3

set_option maxRecDepth 100000 in
/-- C7, witness: four moves on the Y board of side 4 and their images under
map 2, `(x, y) -> (z, x)`; four moves on the Havannah board of radius 3 and
their images under map 1, `(x, y) -> (y, z)` about the centre. -/
theorem C7_hash_symmetry_witness :
    ((Y.Board.play Y.triGrid (Y.board4.clear Y.triGrid)
          [⟨0, 0⟩, ⟨3, 0⟩, ⟨1, 0⟩, ⟨2, 1⟩]).getD Y.board4).gethash =
        ((Y.Board.play Y.triGrid (Y.board4.clear Y.triGrid)
          [⟨3, 0⟩, ⟨0, 3⟩, ⟨2, 1⟩, ⟨0, 2⟩]).getD Y.board4).gethash ∧
    ((Havannah.Board.play Havannah.hexGrid (Havannah.board3.clear Havannah.hexGrid)
          [⟨0, 0⟩, ⟨2, 2⟩, ⟨1, 0⟩, ⟨3, 3⟩]).getD Havannah.board3).gethash =
        ((Havannah.Board.play Havannah.hexGrid (Havannah.board3.clear Havannah.hexGrid)
          [⟨0, 2⟩, ⟨2, 2⟩, ⟨0, 1⟩, ⟨3, 2⟩]).getD Havannah.board3).gethash :=
  ⟨(C7_hash_symmetry.1 Y.triGrid 4 Y.board4 2 [⟨0, 0⟩, ⟨3, 0⟩, ⟨1, 0⟩, ⟨2, 1⟩]
      ((Y.Board.play Y.triGrid (Y.board4.clear Y.triGrid)
        [⟨0, 0⟩, ⟨3, 0⟩, ⟨1, 0⟩, ⟨2, 1⟩]).getD Y.board4)
      ((Y.Board.play Y.triGrid (Y.board4.clear Y.triGrid)
        [⟨3, 0⟩, ⟨0, 3⟩, ⟨2, 1⟩, ⟨0, 2⟩]).getD Y.board4)
      (by decide) Y.y_triGrid_ok (Y.Reachable.create (by decide)) (by decide) (by decide)
      (by decide)
      (by
        rw [show List.map (Y.sym (4 - 1) 2) [⟨0, 0⟩, ⟨3, 0⟩, ⟨1, 0⟩, ⟨2, 1⟩] =
          [⟨3, 0⟩, ⟨0, 3⟩, ⟨2, 1⟩, ⟨0, 2⟩] from by decide]
        decide)).1,
    (C7_hash_symmetry.2 Havannah.hexGrid 3 Havannah.board3 1
      [⟨0, 0⟩, ⟨2, 2⟩, ⟨1, 0⟩, ⟨3, 3⟩]
      ((Havannah.Board.play Havannah.hexGrid (Havannah.board3.clear Havannah.hexGrid)
        [⟨0, 0⟩, ⟨2, 2⟩, ⟨1, 0⟩, ⟨3, 3⟩]).getD Havannah.board3)
      ((Havannah.Board.play Havannah.hexGrid (Havannah.board3.clear Havannah.hexGrid)
        [⟨0, 2⟩, ⟨2, 2⟩, ⟨0, 1⟩, ⟨3, 2⟩]).getD Havannah.board3)
      (by decide) Havannah.h_hexGrid_ok (Havannah.Reachable.create (by decide)) (by decide)
      (by decide) (by decide)
      (by
        rw [show List.map (Havannah.sym (3 - 1) 1) [⟨0, 0⟩, ⟨2, 2⟩, ⟨1, 0⟩, ⟨3, 3⟩] =
          [⟨0, 2⟩, ⟨2, 2⟩, ⟨0, 1⟩, ⟨3, 2⟩] from by decide]
        decide)).1⟩

end Morat

namespace Morat
namespace Y

/-! ## The history: replaying and undoing -/

theorem y_clear_idem (G : Grid) (b : Board)
    (hp : b.to_play_ = .NONE ∨ b.first_move.isPlayer = true) :
    (b.clear G).clear G = b.clear G := by
  unfold Board.clear Board.vec_size
  rcases hp with hp | hp
  · simp [hp]
  · by_cases hn : b.to_play_ = .NONE
    · simp [hn]
    · have hf : b.first_move ≠ .NONE := by
        intro he; rw [he] at hp; exact absurd hp (by decide)
      simp [hn, hf]

theorem y_clear_after_move (G : Grid) (b : Board) (hp : b.to_play_.isPlayer = true)
    (pos : MoveValid) (permanent : Bool) :
    (b.move_body G pos permanent).2.clear G = b.clear G := by
  have h1 : b.to_play_ ≠ .NONE := by
    intro he; rw [he] at hp; exact absurd hp (by decide)
  have h2 : b.to_play_.opp ≠ .NONE := by
    intro he
    have := Side.isPlayer_opp b.to_play_
    rw [he] at this
    rw [hp] at this
    exact absurd this (by decide)
  by_cases hv : b.valid_move pos = true
  · rw [y_move_body_valid G b pos permanent hv]
    unfold Board.clear Board.vec_size
    simp [h1, h2]
  · unfold Board.move_body
    simp [hv]

theorem y_valid_ne_none (G : Grid) (s : Int) (hG : GridOK G s) (b : Board) (hs : b.size_ = s)
    (m : Move) (hv : b.valid_move_xy G m = true) : m ≠ M_NONE := by
  unfold Board.valid_move_xy at hv
  simp only [Bool.and_eq_true, decide_eq_true_eq] at hv
  have := hG.shape m.x m.y (hs ▸ hv.1.2)
  intro he
  rw [he] at this
  unfold M_NONE at this
  simp at this

theorem y_move_last (G : Grid) (b : Board) (pos : MoveValid) (permanent : Bool)
    (hv : b.valid_move pos = true) :
    (b.move_body G pos permanent).2.last_move_ = pos.toMove ∧
      (b.move_body G pos permanent).2.to_play_ = b.to_play_.opp ∧
      (b.move_body G pos permanent).2.first_move = b.first_move := by
  rw [y_move_body_valid G b pos permanent hv]
  exact ⟨rfl, rfl, rfl⟩

end Y
end Morat

namespace Morat
namespace Y

/-- One step of a strict replay, seen from the board it starts on. -/
theorem strict_step (G : Grid) (s : Int) (hs : valid_size s = true) (hG : GridOK G s)
    (b : Board) (hb : Reachable G s b) (m : Move) (hv : b.valid_move_xy G m = true) :
    b.move_xy G m true = some (b.move_body G (b.move_valid m) true) ∧
      (b.move_body G (b.move_valid m) true).1 = true ∧
      Reachable G s (b.move_body G (b.move_valid m) true).2 ∧
      (b.move_body G (b.move_valid m) true).2.clear G = b.clear G ∧
      (b.move_body G (b.move_valid m) true).2.last_move_ ≠ M_NONE := by
  have hinv := y_reachable_inv G s hs hG b hb
  have hm := y_move_xy_legal G s hs hG b hinv m hv true
  have hf := y_legal_facts G s hs hG b hinv m hv
  refine ⟨hm, ?_, Reachable.move b m true _ _ hb hv hm, y_clear_after_move G b hinv.to_play _ _, ?_⟩
  · rw [y_move_body_valid G b _ true hf.2.2.2.2.2.1]
  · rw [(y_move_last G b _ true hf.2.2.2.2.2.1).1]
    exact y_valid_ne_none G s hG b hinv.size_eq m hv

theorem strict_replay_spec (G : Grid) (s : Int) (hs : valid_size s = true) (hG : GridOK G s) :
    ∀ (ms : List Move) (ps : List Side) (c b : Board), Reachable G s c →
      History.strict_replay G ms ps c = some b →
      ms.length = ps.length ∧ Reachable G s b ∧ b.clear G = c.clear G ∧
        History.replay G ms ps c = some b ∧ (ms ≠ [] → b.last_move_ ≠ M_NONE) := by
  intro ms
  induction ms with
  | nil =>
    intro ps c b hc h
    cases ps with
    | nil =>
      simp only [History.strict_replay, Option.some.injEq] at h
      subst h
      exact ⟨rfl, hc, rfl, rfl, fun hx => absurd rfl hx⟩
    | cons p ps => simp [History.strict_replay] at h
  | cons m ms ih =>
    intro ps c b hc h
    cases ps with
    | nil => simp [History.strict_replay] at h
    | cons p ps =>
      simp only [History.strict_replay] at h
      by_cases hpv : p = c.to_play ∧ c.valid_move_xy G m = true
      · rw [if_pos hpv] at h
        obtain ⟨e1, e2, e3, e4, e5⟩ := strict_step G s hs hG c hc m hpv.2
        rw [e1] at h
        simp only at h
        obtain ⟨i1, i2, i3, i4, i5⟩ := ih ps _ b e3 h
        refine ⟨by simp [i1], i2, i3.trans e4, ?_, ?_⟩
        · simp only [History.replay]
          rw [if_neg (by simp [hpv.1]), e1]
          exact i4
        · intro _
          cases ms with
          | nil =>
            cases ps with
            | nil =>
              simp only [History.strict_replay, Option.some.injEq] at h
              rw [← h]; exact e5
            | cons q qs => simp [History.strict_replay] at h
          | cons m2 ms2 => exact i5 (by simp)
      · rw [if_neg hpv] at h
        exact absurd h (by simp)

theorem strict_replay_snoc (G : Grid) :
    ∀ (ms : List Move) (ps : List Side) (c b : Board) (m : Move),
      History.strict_replay G ms ps c = some b → b.valid_move_xy G m = true →
      ∀ r, b.move_xy G m true = some r →
      History.strict_replay G (ms ++ [m]) (ps ++ [b.to_play]) c = some r.2 := by
  intro ms
  induction ms with
  | nil =>
    intro ps c b m h hv r hr
    cases ps with
    | nil =>
      simp only [History.strict_replay, Option.some.injEq] at h
      subst h
      simp [History.strict_replay, hv, hr]
    | cons p ps => simp [History.strict_replay] at h
  | cons m1 ms ih =>
    intro ps c b m h hv r hr
    cases ps with
    | nil => simp [History.strict_replay] at h
    | cons p ps =>
      simp only [History.strict_replay] at h
      simp only [List.cons_append, History.strict_replay]
      by_cases hpv : p = c.to_play ∧ c.valid_move_xy G m1 = true
      · rw [if_pos hpv] at h ⊢
        cases hc : c.move_xy G m1 true with
        | none => rw [hc] at h; exact absurd h (by simp)
        | some r1 =>
          rw [hc] at h
          simp only at h ⊢
          exact ih ps _ b m h hv r hr
      · rw [if_neg hpv] at h
        exact absurd h (by simp)

theorem strict_replay_init (G : Grid) :
    ∀ (ms : List Move) (ps : List Side) (c b : Board) (m : Move) (p : Side),
      History.strict_replay G (ms ++ [m]) (ps ++ [p]) c = some b →
      ∃ b0, History.strict_replay G ms ps c = some b0 ∧ p = b0.to_play ∧
        b0.valid_move_xy G m = true ∧ ∃ r, b0.move_xy G m true = some r ∧ r.2 = b := by
  intro ms
  induction ms with
  | nil =>
    intro ps c b m p h
    cases ps with
    | nil =>
      simp only [List.nil_append, History.strict_replay] at h
      by_cases hpv : p = c.to_play ∧ c.valid_move_xy G m = true
      · rw [if_pos hpv] at h
        cases hc : c.move_xy G m true with
        | none => rw [hc] at h; exact absurd h (by simp)
        | some r =>
          rw [hc] at h
          simp only [History.strict_replay, Option.some.injEq] at h
          exact ⟨c, rfl, hpv.1, hpv.2, r, hc, h⟩
      · rw [if_neg hpv] at h
        exact absurd h (by simp)
    | cons q qs =>
      simp only [List.nil_append, List.cons_append, History.strict_replay] at h
      by_cases hpv : q = c.to_play ∧ c.valid_move_xy G m = true
      · rw [if_pos hpv] at h
        cases hc : c.move_xy G m true with
        | none => rw [hc] at h; exact absurd h (by simp)
        | some r =>
          rw [hc] at h
          cases qs <;> simp [History.strict_replay] at h
      · rw [if_neg hpv] at h
        exact absurd h (by simp)
  | cons m1 ms ih =>
    intro ps c b m p h
    cases ps with
    | nil =>
      simp only [List.nil_append, List.cons_append, History.strict_replay] at h
      by_cases hpv : p = c.to_play ∧ c.valid_move_xy G m1 = true
      · rw [if_pos hpv] at h
        cases hc : c.move_xy G m1 true with
        | none => rw [hc] at h; exact absurd h (by simp)
        | some r =>
          rw [hc] at h
          cases ms <;> simp [History.strict_replay] at h
      · rw [if_neg hpv] at h
        exact absurd h (by simp)
    | cons q qs =>
      simp only [List.cons_append, History.strict_replay] at h ⊢
      by_cases hpv : q = c.to_play ∧ c.valid_move_xy G m1 = true
      · rw [if_pos hpv] at h ⊢
        cases hc : c.move_xy G m1 true with
        | none => rw [hc] at h; exact absurd h (by simp)
        | some r =>
          rw [hc] at h
          simp only at h ⊢
          exact ih qs _ b m p h
      · rw [if_neg hpv] at h
        exact absurd h (by simp)

end Y
end Morat

namespace Morat
namespace Y

theorem y_toggle_cleared (G : Grid) (b : Board) (hb : b.clear G = b) :
    b.toggle_to_play.clear G = b.toggle_to_play := by
  obtain ⟨sz, sm, nc, nm, lm, tp, fm, oc, cs, hh⟩ := b
  simp only [Board.clear, Board.vec_size, Board.mk.injEq, true_and] at hb
  obtain ⟨h1, h2, h3, h4, h5, h6, h7⟩ := hb
  unfold Board.toggle_to_play
  simp only
  rw [if_pos h2.symm]
  by_cases f2 : fm = .P2
  · rw [if_pos f2]
    simp only [Board.clear, Board.vec_size, Board.mk.injEq, true_and]
    exact ⟨h1, h2, by simp, by simp, h5, h6, h7⟩
  · rw [if_neg f2]
    by_cases f1 : fm = .P1
    · rw [if_pos f1]
      simp only [Board.clear, Board.vec_size, Board.mk.injEq, true_and]
      exact ⟨h1, h2, by simp, by simp, h5, h6, h7⟩
    · rw [if_neg f1]
      simp only [Board.clear, Board.vec_size, Board.mk.injEq, true_and]
      exact ⟨h1, h2, h3, h4, h5, h6, h7⟩

theorem y_toggle_moved (b : Board) (hl : b.last_move_ ≠ M_NONE) : b.toggle_to_play = b := by
  unfold Board.toggle_to_play
  rw [if_neg hl]

/-- Every history the interface produces holds the board that replaying its
moves gives. -/
theorem built_consistent (G : Grid) (s : Int) (hs : valid_size s = true) (hG : GridOK G s)
    (h : History) (hb : History.Built G s h) : History.Consistent G s h := by
  induction hb with
  | create hv =>
    refine ⟨Reachable.create hv, ?_⟩
    have : ((Board.size G Board.blank s).2).clear G = (Board.size G Board.blank s).2 := by
      unfold Board.size
      simp only [hv, Bool.not_true, Bool.false_eq_true, if_false]
      exact y_clear_idem G _ (Or.inl rfl)
    simp only [this, History.strict_replay]
  | init c hc =>
    refine ⟨Reachable.clear c hc, ?_⟩
    have := y_clear_idem G c (Or.inr (y_reachable_inv G s hs hG c hc).first)
    simp only [this, History.strict_replay]
  | clear h _ ih =>
    refine ⟨Reachable.clear _ ih.1, ?_⟩
    have := y_clear_idem G h.board (Or.inr (y_reachable_inv G s hs hG _ ih.1).first)
    simp only [History.clear, this, History.strict_replay]
  | toggle h _ ih =>
    obtain ⟨i1, i2⟩ := ih
    refine ⟨Reachable.toggle _ i1, ?_⟩
    obtain ⟨e1, e2, e3, e4, e5⟩ := strict_replay_spec G s hs hG _ _ _ _ (Reachable.clear _ i1) i2
    unfold History.toggle_to_play
    simp only
    cases hh : h.hist with
    | nil =>
      rw [hh] at e1 i2
      have hp : h.players = [] := List.length_eq_zero.1 e1.symm
      rw [hp] at i2
      simp only [History.strict_replay, Option.some.injEq] at i2
      rw [hp, y_toggle_cleared G _ i2]
      simp only [History.strict_replay]
    | cons m ms =>
      have hl := e5 (by rw [hh]; simp)
      rw [y_toggle_moved _ hl, ← hh]
      exact i2
  | move h m r h1 _ hm ih =>
    obtain ⟨i1, i2⟩ := ih
    unfold History.move at hm
    by_cases hv : h.board.valid_move_xy G m = true
    · rw [if_pos hv] at hm
      obtain ⟨e1, e2, e3, e4, e5⟩ := strict_step G s hs hG _ i1 m hv
      rw [e1] at hm
      simp only [Option.some.injEq, Prod.mk.injEq] at hm
      rw [← hm.2]
      refine ⟨e3, ?_⟩
      simp only
      rw [e4]
      exact strict_replay_snoc G _ _ _ _ m i2 hv _ e1
    · rw [if_neg hv] at hm
      simp only [Option.some.injEq, Prod.mk.injEq] at hm
      rw [← hm.2]
      exact ⟨i1, i2⟩
  | undo h r h1 _ hu ih =>
    obtain ⟨i1, i2⟩ := ih
    unfold History.undo at hu
    by_cases hl : h.hist.length ≤ 0
    · rw [if_pos hl] at hu
      simp only [Option.some.injEq, Prod.mk.injEq] at hu
      rw [← hu.2]
      exact ⟨i1, i2⟩
    · rw [if_neg hl] at hu
      have hr := Reachable.clear (G := G) _ i1
      obtain ⟨e1, -, -, -, -⟩ := strict_replay_spec G s hs hG _ _ _ _ hr i2
      have hne : h.hist ≠ [] := by
        intro he; rw [he] at hl; simp at hl
      have hnp : h.players ≠ [] := by
        intro he; rw [he] at e1; simp at e1; exact hne e1
      have i3 := i2
      rw [← List.dropLast_append_getLast hne, ← List.dropLast_append_getLast hnp] at i3
      obtain ⟨b0, s1, -, -, r1, s4, s5⟩ := strict_replay_init G _ _ _ _ _ _ i3
      obtain ⟨-, f2, f3, f4, -⟩ := strict_replay_spec G s hs hG _ _ _ _ hr s1
      rw [f4] at hu
      simp only [Option.some.injEq, Prod.mk.injEq] at hu
      rw [← hu.2]
      refine ⟨f2, ?_⟩
      simp only
      rw [f3, y_clear_idem G _ (Or.inr (y_reachable_inv G s hs hG _ i1).first)]
      exact s1

/-- The two vectors of a history have the same length. -/
theorem built_lengths (G : Grid) (s : Int) (h : History) (hb : History.Built G s h) :
    h.hist.length = h.players.length := by
  induction hb with
  | create _ => rfl
  | init c _ => rfl
  | clear h _ _ => rfl
  | toggle h _ ih => exact ih
  | move h m r h1 _ hm ih =>
    unfold History.move at hm
    split at hm
    · split at hm
      · exact absurd hm (by simp)
      · simp only [Option.some.injEq, Prod.mk.injEq] at hm
        rw [← hm.2]
        simp [ih]
    · simp only [Option.some.injEq, Prod.mk.injEq] at hm
      rw [← hm.2]; exact ih
  | undo h r h1 _ hu ih =>
    unfold History.undo at hu
    split at hu
    · simp only [Option.some.injEq, Prod.mk.injEq] at hu
      rw [← hu.2]; exact ih
    · split at hu
      · exact absurd hu (by simp)
      · simp only [Option.some.injEq, Prod.mk.injEq] at hu
        rw [← hu.2]
        simp [ih]

end Y
end Morat

namespace Morat
namespace Y

theorem built_play (G : Grid) (s : Int) :
    ∀ (ms : List Move) (h : History), History.Built G s h → History.Built G s (History.play G h ms) := by
  intro ms
  induction ms with
  | nil => intro h hb; exact hb
  | cons m ms ih =>
    intro h hb
    simp only [History.play]
    cases hm : h.move G m with
    | none => exact hb
    | some r => exact ih r.2 (History.Built.move h m r.1 r.2 hb hm)

theorem hist_sample_built : History.Built triGrid 4 hist_sample :=
  built_play triGrid 4 _ _ (History.Built.toggle _ (History.Built.create (by decide)))

theorem history_move_total (G : Grid) (h : History) (m : Move) :
    (h.board.valid_move_xy G m = true →
      h.move G m = some (true, ⟨h.hist ++ [m], h.players ++ [h.board.to_play],
        (h.board.move_body G (h.board.move_valid m) true).2⟩)) ∧
    (h.board.valid_move_xy G m = false → h.move G m = some (false, h)) := by
  constructor
  · intro hv
    have ho : h.board.outcome_.solved = false := by
      unfold Board.valid_move_xy at hv
      simp only [Bool.and_eq_true, decide_eq_true_eq] at hv
      unfold Outcome.solved
      simp only [decide_eq_false_iff_not, not_le]
      exact hv.1.1
    unfold History.move Board.move_xy Board.move
    rw [if_pos hv, ho]
    rfl
  · intro hv
    unfold History.move
    rw [hv]
    rfl

/-- C13.  Y board.  For every history `h` that the interface of `History`
produces (constructed on a fresh or cleared board, then any sequence of
`clear`, `toggle_to_play`, `move` and `undo`) and every move `m` with
`h.move(m) == true`, the call `undo()` that follows returns `true` and leaves
the history `h` itself: the same move list and recorded players and the same
board, so the same cell owners, side to move, outcome, `moves_made()`,
`gethash()` and legal moves. -/
theorem C13_move_then_undo :
    ∀ (G : Grid) (s : Int) (h : History), valid_size s = true → GridOK G s →
      History.Built G s h → ∀ (m : Move) (h1 : History), h.move G m = some (true, h1) →
      ∃ h2, h1.undo G = some (true, h2) ∧ h2 = h ∧ h2.hist = h.hist ∧
        (∀ i, h2.board.get i = h.board.get i) ∧ h2.board.to_play = h.board.to_play ∧
        h2.board.outcome = h.board.outcome ∧ h2.board.moves_made = h.board.moves_made ∧
        h2.board.gethash = h.board.gethash ∧
        (∀ m2, h2.board.valid_move_xy G m2 = h.board.valid_move_xy G m2) := by
  intro G s h hs hG hb m h1 hm
  obtain ⟨i1, i2⟩ := built_consistent G s hs hG h hb
  have hv : h.board.valid_move_xy G m = true := by
    by_contra hx
    have := (history_move_total G h m).2 (by simpa using hx)
    rw [this] at hm
    simp at hm
  have hm2 := (history_move_total G h m).1 hv
  rw [hm2] at hm
  simp only [Option.some.injEq, Prod.mk.injEq, true_and] at hm
  obtain ⟨-, -, e3, e4, -⟩ := strict_step G s hs hG _ i1 m hv
  obtain ⟨-, -, -, f4, -⟩ := strict_replay_spec G s hs hG _ _ _ _ (Reachable.clear _ i1) i2
  refine ⟨h, ?_, rfl, rfl, fun _ => rfl, rfl, rfl, rfl, rfl, fun _ => rfl⟩
  rw [← hm]
  unfold History.undo
  simp only [List.length_append, List.length_singleton, List.dropLast_concat]
  rw [if_neg (by omega), e4, f4]

set_option maxRecDepth 100000 in
/-- C13, witness: the sample history, in which the second player started, the
move `(1,0)` and its undo. -/
theorem C13_move_then_undo_witness :
    hist_sample.move triGrid ⟨1, 0⟩ = some (true, History.play triGrid hist_sample [⟨1, 0⟩]) ∧
    ∃ h2, (History.play triGrid hist_sample [⟨1, 0⟩]).undo triGrid = some (true, h2) ∧
      h2 = hist_sample ∧ h2.hist = hist_sample.hist ∧
      (∀ i, h2.board.get i = hist_sample.board.get i) ∧
      h2.board.to_play = hist_sample.board.to_play ∧
      h2.board.outcome = hist_sample.board.outcome ∧
      h2.board.moves_made = hist_sample.board.moves_made ∧
      h2.board.gethash = hist_sample.board.gethash ∧
      (∀ m2, h2.board.valid_move_xy triGrid m2 = hist_sample.board.valid_move_xy triGrid m2) :=
  ⟨by decide,
    C13_move_then_undo triGrid 4 hist_sample (by decide) y_triGrid_ok hist_sample_built ⟨1, 0⟩
      (History.play triGrid hist_sample [⟨1, 0⟩]) (by decide)⟩

end Y
end Morat

namespace Morat

/-- C12.  `valid_size(s)` holds exactly when the integer read from `s` lies
in `[min_size, max_size]`, 4..25 on the Y board and 3..10 on the Havannah
board.  `Board::size(s)` returns `false` and leaves the board as it is
exactly when the size is outside the range; inside it returns `true` and
leaves an empty board of that size: no move made, no last move, outcome
unknown, hash slots cleared, every cell cleared and none owned by a player.
`gtp_boardsize` with one argument out of range answers with a failure and
changes neither the history nor anything else; with one argument in range it
succeeds and installs an empty history on a fresh board of that size. -/
theorem C12_board_size :
    (∀ (G : Y.Grid) (b : Y.Board) (s : Int),
      (Y.valid_size s = true ↔ 4 ≤ s ∧ s ≤ 25) ∧
      (((Y.Board.size G b s).1 = false ∧ (Y.Board.size G b s).2 = b) ↔ ¬ (4 ≤ s ∧ s ≤ 25)) ∧
      (4 ≤ s ∧ s ≤ 25 →
        (Y.Board.size G b s).1 = true ∧ (Y.Board.size G b s).2.size_ = s ∧
        (Y.Board.size G b s).2.num_moves_ = 0 ∧ (Y.Board.size G b s).2.last_move_ = M_NONE ∧
        (Y.Board.size G b s).2.outcome_ = .UNKNOWN ∧
        (Y.Board.size G b s).2.hash = zobrist_clear 6 ∧
        (Y.Board.size G b s).2.cells_ = (List.range (s * s).toNat).map (Y.clear_cell G s) ∧
        ∀ i, i < (s * s).toNat → ((Y.Board.size G b s).2.get i).isPlayer = false)) ∧
    (∀ (G : Havannah.Grid) (b : Havannah.Board) (s : Int),
      (Havannah.valid_size s = true ↔ 3 ≤ s ∧ s ≤ 10) ∧
      (((Havannah.Board.size G b s).1 = false ∧ (Havannah.Board.size G b s).2 = b) ↔
        ¬ (3 ≤ s ∧ s ≤ 10)) ∧
      (3 ≤ s ∧ s ≤ 10 →
        (Havannah.Board.size G b s).1 = true ∧ (Havannah.Board.size G b s).2.size_r_ = s ∧
        (Havannah.Board.size G b s).2.size_ = s * 2 - 1 ∧
        (Havannah.Board.size G b s).2.num_moves_ = 0 ∧
        (Havannah.Board.size G b s).2.last_move_ = M_NONE ∧
        (Havannah.Board.size G b s).2.outcome_ = .UNKNOWN ∧
        (Havannah.Board.size G b s).2.hash = zobrist_clear 12 ∧
        (Havannah.Board.size G b s).2.cells_ =
          (List.range ((s * 2 - 1) * (s * 2 - 1)).toNat).map (Havannah.clear_cell G (s * 2 - 1)) ∧
        ∀ i, i < ((s * 2 - 1) * (s * 2 - 1)).toNat →
          ((Havannah.Board.size G b s).2.get i).isPlayer = false)) ∧
    (∀ (α : Type) (G : Y.Grid) (from_str : String → Int) (set_board : Y.History → α → α)
      (new_game : α → α) (g : Y.GTP α) (arg : String),
      (¬ (4 ≤ from_str arg ∧ from_str arg ≤ 25) →
        ∃ r, Y.GTP.gtp_boardsize G from_str set_board new_game g [arg] = some (r, g) ∧
          r.success = false) ∧
      (4 ≤ from_str arg ∧ from_str arg ≤ 25 →
        ∃ r g1, Y.GTP.gtp_boardsize G from_str set_board new_game g [arg] = some (r, g1) ∧
          r.success = true ∧
          g1.hist = ⟨[], [], (Y.Board.size G Y.Board.blank (from_str arg)).2⟩)) := by
  have hy : ∀ s : Int, Y.valid_size s = true ↔ 4 ≤ s ∧ s ≤ 25 := by
    intro s
    unfold Y.valid_size Y.min_size Y.max_size
    simp
  have hh : ∀ s : Int, Havannah.valid_size s = true ↔ 3 ≤ s ∧ s ≤ 10 := by
    intro s
    unfold Havannah.valid_size Havannah.min_size Havannah.max_size
    simp
  refine ⟨?_, ?_, ?_⟩
  · intro G b s
    refine ⟨hy s, ?_, ?_⟩
    · constructor
      · intro h hr
        have hv := (hy s).2 hr
        unfold Y.Board.size at h
        simp [hv] at h
      · intro hr
        have hv : Y.valid_size s = false := by
          rw [← Bool.not_eq_true]; exact fun hx => hr ((hy s).1 hx)
        unfold Y.Board.size
        simp [hv]
    · intro hr
      have hv := (hy s).2 hr
      have he : Y.Board.size G b s = (true, Y.Board.clear G
          { b with size_ := s, sizem1_ := s - 1, num_cells_ := s * s - s * (s - 1) / 2 }) := by
        unfold Y.Board.size
        simp [hv]
      rw [he]
      refine ⟨rfl, rfl, rfl, rfl, rfl, rfl, rfl, ?_⟩
      intro i hi
      exact Y.y_clear_not_player G s _ i hi
  · intro G b s
    refine ⟨hh s, ?_, ?_⟩
    · constructor
      · intro h hr
        have hv := (hh s).2 hr
        unfold Havannah.Board.size at h
        simp [hv] at h
      · intro hr
        have hv : Havannah.valid_size s = false := by
          rw [← Bool.not_eq_true]; exact fun hx => hr ((hh s).1 hx)
        unfold Havannah.Board.size
        simp [hv]
    · intro hr
      have hv := (hh s).2 hr
      have he : Havannah.Board.size G b s = (true, Havannah.Board.clear G
          { b with
            size_r_ := s, size_r_m1_ := s - 1, size_ := s * 2 - 1
            num_cells_ := (s * 2 - 1) * (s * 2 - 1) - s * (s - 1) }) := by
        unfold Havannah.Board.size
        simp [hv]
      rw [he]
      refine ⟨rfl, rfl, rfl, rfl, rfl, rfl, rfl, rfl, ?_⟩
      intro i hi
      exact Havannah.h_clear_not_player G (s * 2 - 1) _ i hi
  · intro α G from_str set_board new_game g arg
    constructor
    · intro hr
      have hv : Y.valid_size (from_str arg) = false := by
        rw [← Bool.not_eq_true]; exact fun hx => hr ((hy _).1 hx)
      have e : Y.GTP.gtp_boardsize G from_str set_board new_game g [arg] =
          some (⟨false, "Size " ++ arg ++ " is out of range."⟩, g) := by
        unfold Y.GTP.gtp_boardsize
        simp only [List.length_singleton, ne_eq, not_true_eq_false, if_false, List.headD_cons, hv,
          Bool.not_false, if_true]
      exact ⟨_, e, rfl⟩
    · intro hr
      have hv := (hy _).2 hr
      have hc : Y.Board.create G (from_str arg) =
          some (Y.Board.size G Y.Board.blank (from_str arg)).2 := by
        unfold Y.Board.create
        have : (Y.Board.size G Y.Board.blank (from_str arg)).1 = true := by
          unfold Y.Board.size
          simp [hv]
        rw [if_pos this]
      have e : Y.GTP.gtp_boardsize G from_str set_board new_game g [arg] =
          some (⟨true, ""⟩, ⟨⟨[], [], (Y.Board.size G Y.Board.blank (from_str arg)).2⟩,
            new_game (set_board ⟨[], [], (Y.Board.size G Y.Board.blank (from_str arg)).2⟩
              g.rest)⟩) := by
        unfold Y.GTP.gtp_boardsize
        simp only [List.length_singleton, ne_eq, not_true_eq_false, if_false, List.headD_cons, hv,
          Bool.not_true, Bool.false_eq_true, hc]
      exact ⟨_, _, e, rfl, rfl⟩

set_option maxRecDepth 100000 in
/-- C12, witness: size 26 is refused and size 4 accepted by the Y board, size
11 refused and size 3 accepted by the Havannah board, and `boardsize 26`
fails on the sample history while `boardsize 4` starts a new game. -/
theorem C12_board_size_witness :
    (Y.Board.size Y.triGrid (Y.after 3) 26 = (false, Y.after 3) ∧
      (Y.Board.size Y.triGrid (Y.after 3) 4).2.cells_ =
        (List.range 16).map (Y.clear_cell Y.triGrid 4)) ∧
    (Havannah.Board.size Havannah.hexGrid (Havannah.after 3) 11 = (false, Havannah.after 3) ∧
      (Havannah.Board.size Havannah.hexGrid (Havannah.after 3) 3).2.cells_ =
        (List.range 25).map (Havannah.clear_cell Havannah.hexGrid 5)) ∧
    ((∃ r, Y.GTP.gtp_boardsize Y.triGrid Y.sample_from_str (fun _ u => u) (fun u => u)
        Y.gtp_sample ["26"] = some (r, Y.gtp_sample) ∧ r.success = false) ∧
      ∃ r g1, Y.GTP.gtp_boardsize Y.triGrid Y.sample_from_str (fun _ u => u) (fun u => u)
        Y.gtp_sample ["4"] = some (r, g1) ∧ r.success = true ∧
        g1.hist = ⟨[], [], Y.board4⟩) :=
  have hy := C12_board_size.1 Y.triGrid (Y.after 3)
  have hh := C12_board_size.2.1 Havannah.hexGrid (Havannah.after 3)
  have hg := C12_board_size.2.2 Unit Y.triGrid Y.sample_from_str (fun _ u => u) (fun u => u)
    Y.gtp_sample
  ⟨⟨Prod.ext ((hy 26).2.1.2 (by decide)).1 ((hy 26).2.1.2 (by decide)).2,
      ((hy 4).2.2 (by decide)).2.2.2.2.2.2.1⟩,
    ⟨Prod.ext ((hh 11).2.1.2 (by decide)).1 ((hh 11).2.1.2 (by decide)).2,
      ((hh 3).2.2 (by decide)).2.2.2.2.2.2.2.1⟩,
    ⟨(hg "26").1 (by decide), (hg "4").2 (by decide)⟩⟩

end Morat

namespace Morat
namespace Y

/-- C14.  `History::move(m)` returns `true` exactly when
`board.valid_move(m)` held before the call; then it appends `m` and the side
to move to the two vectors, and when it returns `false` it leaves the move
list, the recorded players and the board as they were.  `History::undo()`
returns `false` exactly when the history is empty, and then changes nothing.
On every history that the interface produces the two vectors have the same
length, and `undo()` on a non-empty one returns `true` and drops the last
entry of both. -/
theorem C14_history_failures :
    (∀ (G : Grid) (h : History) (m : Move),
      ((∃ h1, h.move G m = some (true, h1)) ↔ h.board.valid_move_xy G m = true) ∧
      (h.board.valid_move_xy G m = true → ∃ h1, h.move G m = some (true, h1) ∧
        h1.hist = h.hist ++ [m] ∧ h1.players = h.players ++ [h.board.to_play]) ∧
      (h.board.valid_move_xy G m = false → h.move G m = some (false, h))) ∧
    (∀ (G : Grid) (h : History),
      (h.hist = [] → h.undo G = some (false, h)) ∧
      (∀ h1, h.undo G = some (false, h1) → h.hist = [] ∧ h1 = h)) ∧
    (∀ (G : Grid) (s : Int) (h : History), valid_size s = true → GridOK G s →
      History.Built G s h →
      h.hist.length = h.players.length ∧
      (h.hist ≠ [] → ∃ h1, h.undo G = some (true, h1) ∧ h1.hist = h.hist.dropLast ∧
        h1.players = h.players.dropLast)) := by
  refine ⟨?_, ?_, ?_⟩
  · intro G h m
    have ht := history_move_total G h m
    refine ⟨⟨?_, fun hv => ⟨_, ht.1 hv⟩⟩, fun hv => ⟨_, ht.1 hv, rfl, rfl⟩, ht.2⟩
    rintro ⟨h1, hm⟩
    by_contra hx
    rw [ht.2 (by simpa using hx)] at hm
    simp at hm
  · intro G h
    constructor
    · intro he
      unfold History.undo
      rw [he]
      rfl
    · intro h1 hu
      unfold History.undo at hu
      split at hu
      · rename_i hl
        simp only [Option.some.injEq, Prod.mk.injEq, true_and] at hu
        exact ⟨List.length_eq_zero.1 (Nat.le_zero.1 hl), hu.symm⟩
      · split at hu
        · exact absurd hu (by simp)
        · simp at hu
  · intro G s h hs hG hb
    refine ⟨built_lengths G s h hb, ?_⟩
    intro hne
    obtain ⟨i1, i2⟩ := built_consistent G s hs hG h hb
    have hr := Reachable.clear (G := G) _ i1
    obtain ⟨e1, -, -, -, -⟩ := strict_replay_spec G s hs hG _ _ _ _ hr i2
    have hnp : h.players ≠ [] := by
      intro he; rw [he] at e1; simp at e1; exact hne e1
    have i3 := i2
    rw [← List.dropLast_append_getLast hne, ← List.dropLast_append_getLast hnp] at i3
    obtain ⟨b0, s1, -, -, -, -, -⟩ := strict_replay_init G _ _ _ _ _ _ i3
    obtain ⟨-, -, -, f4, -⟩ := strict_replay_spec G s hs hG _ _ _ _ hr s1
    refine ⟨⟨h.hist.dropLast, h.players.dropLast, b0⟩, ?_, rfl, rfl⟩
    unfold History.undo
    rw [if_neg (by
      intro hl
      exact hne (List.length_eq_zero.1 (Nat.le_zero.1 hl))), f4]

set_option maxRecDepth 100000 in
/-- C14, witness: on the sample history the move `(1,0)` is accepted and the
move `(0,0)`, an occupied cell, is refused; `undo()` on the sample history
returns `true`, and on the empty history it returns `false`. -/
theorem C14_history_failures_witness :
    (∃ h1, hist_sample.move triGrid ⟨1, 0⟩ = some (true, h1) ∧
      h1.hist = hist_sample.hist ++ [⟨1, 0⟩] ∧
      h1.players = hist_sample.players ++ [hist_sample.board.to_play]) ∧
    hist_sample.move triGrid ⟨0, 0⟩ = some (false, hist_sample) ∧
    History.undo triGrid ⟨[], [], board4⟩ = some (false, ⟨[], [], board4⟩) ∧
    (hist_sample.hist.length = hist_sample.players.length ∧
      ∃ h1, hist_sample.undo triGrid = some (true, h1) ∧
        h1.hist = hist_sample.hist.dropLast ∧ h1.players = hist_sample.players.dropLast) :=
  ⟨(C14_history_failures.1 triGrid hist_sample ⟨1, 0⟩).2.1 (by decide),
    (C14_history_failures.1 triGrid hist_sample ⟨0, 0⟩).2.2 (by decide),
    (C14_history_failures.2.1 triGrid ⟨[], [], board4⟩).1 rfl,
    (C14_history_failures.2.2 triGrid 4 hist_sample (by decide) y_triGrid_ok
      hist_sample_built).1,
    (C14_history_failures.2.2 triGrid 4 hist_sample (by decide) y_triGrid_ok
      hist_sample_built).2 (by decide)⟩

end Y
end Morat

namespace Morat
namespace Y

/-! ## `return_move` -/

/-- The loop of `return_move` either keeps the pair it started with, when no
child has a larger value, or ends on the first child of the largest value. -/
theorem return_scan_spec (a : AgentMCTS) (sc : Scoring) (node : Node) (to_play : Side) :
    ∀ (l : List Node) (st : ℚ × Option Node),
      (a.return_scan sc node to_play l st = st ∧ ∀ x ∈ l, a.child_val sc node to_play x ≤ st.1) ∨
      (∃ pre c post, l = pre ++ c :: post ∧
        a.return_scan sc node to_play l st = (a.child_val sc node to_play c, some c) ∧
        st.1 < a.child_val sc node to_play c ∧
        (∀ x ∈ pre, a.child_val sc node to_play x < a.child_val sc node to_play c) ∧
        (∀ x ∈ post, a.child_val sc node to_play x ≤ a.child_val sc node to_play c)) := by
  intro l
  induction l with
  | nil => intro st; exact Or.inl ⟨rfl, fun x hx => absurd hx (List.not_mem_nil x)⟩
  | cons c rest ih =>
    intro st
    simp only [AgentMCTS.return_scan]
    by_cases hlt : st.1 < a.child_val sc node to_play c
    · rw [if_pos hlt]
      rcases ih (a.child_val sc node to_play c, some c) with ⟨h1, h2⟩ | ⟨pre, d, post, h1, h2, h3, h4, h5⟩
      · refine Or.inr ⟨[], c, rest, rfl, h1, hlt, fun x hx => absurd hx (List.not_mem_nil x), h2⟩
      · refine Or.inr ⟨c :: pre, d, post, by rw [h1]; rfl, h2, lt_trans hlt h3, ?_, h5⟩
        intro x hx
        rcases List.mem_cons.1 hx with rfl | hx
        · exact h3
        · exact h4 x hx
    · rw [if_neg hlt]
      rcases ih st with ⟨h1, h2⟩ | ⟨pre, d, post, h1, h2, h3, h4, h5⟩
      · refine Or.inl ⟨h1, ?_⟩
        intro x hx
        rcases List.mem_cons.1 hx with rfl | hx
        · exact not_lt.1 hlt
        · exact h2 x hx
      · refine Or.inr ⟨c :: pre, d, post, by rw [h1]; rfl, h2, h3, ?_, h5⟩
        intro x hx
        rcases List.mem_cons.1 hx with rfl | hx
        · exact lt_of_le_of_lt (not_lt.1 hlt) h3
        · exact h4 x hx

/-- The values of proven children and, for the two counting modes, of the
others are above the start value of the loop. -/
theorem child_val_floor (a : AgentMCTS) (sc : Scoring) (node : Node) (to_play : Side) (c : Node)
    (h : a.msrave = -1 ∨ a.msrave = -2 ∨
      (c.outcome.to_i < Outcome.DRAW.to_i →
        -1000000000000 < sc.value c.exp c.rave c.know a.msrave - sc.explore node.exp.num c.exp.num))
    (hn : c.exp.num < 400000000000) :
    -1000000000000 < a.child_val sc node to_play c := by
  have h0 : (0 : ℚ) ≤ (c.exp.num : ℚ) := Nat.cast_nonneg _
  have h1 : (0 : ℚ) ≤ (c.exp.sum : ℚ) := Nat.cast_nonneg _
  have h2 : (c.exp.num : ℚ) < 400000000000 := by exact_mod_cast hn
  unfold AgentMCTS.child_val
  split
  · split
    · linarith
    · split <;> linarith
  · rename_i hp
    split
    · linarith
    · rename_i h3
      split
      · linarith
      · rename_i h4
        rcases h with h | h | h
        · exact absurd h h3
        · exact absurd h h4
        · exact h (not_le.1 hp)

/-- `return_move` on a node that is not proven and has children, all of them
with a value above the start value: the move of the first child of the
largest value. -/
theorem return_move_unproven (a : AgentMCTS) (sc : Scoring) (node : Node) (to_play : Side)
    (hu : node.outcome.to_i < Outcome.DRAW.to_i) (hc : node.children ≠ [])
    (hv : ∀ c ∈ node.children, -1000000000000 < a.child_val sc node to_play c) :
    ∃ pre c post, node.children = pre ++ c :: post ∧
      a.return_move sc node to_play = some c.move ∧
      (∀ x ∈ pre, a.child_val sc node to_play x < a.child_val sc node to_play c) ∧
      (∀ x ∈ post, a.child_val sc node to_play x ≤ a.child_val sc node to_play c) := by
  have he : node.children.isEmpty = false := by
    cases hh : node.children with
    | nil => exact absurd hh hc
    | cons x xs => rfl
  unfold AgentMCTS.return_move
  rw [if_neg (not_le.2 hu), he]
  simp only [Bool.false_eq_true, if_false]
  rcases return_scan_spec a sc node to_play node.children (-1000000000000, none) with
    ⟨-, h2⟩ | ⟨pre, c, post, h1, h2, -, h4, h5⟩
  · exfalso
    cases hh : node.children with
    | nil => exact hc hh
    | cons x xs =>
      have hx : x ∈ node.children := by rw [hh]; exact List.mem_cons_self x xs
      exact absurd (hv x hx) (not_lt.2 (h2 x hx))
  · refine ⟨pre, c, post, h1, ?_, h4, h5⟩
    rw [h2]

end Y
end Morat

namespace Morat
namespace Y

/-- C16.  `return_move` on a node whose outcome is a draw or a win returns the
`bestmove` of the node, whatever its children array holds, the empty one
included.  On a node that is not proven and has at least one child it returns
the move of a child of that node, the first one whose value is the largest
(here for children with fewer than `4 * 10^11` playouts, and either one of
the two counting modes `msrave == -1`, `msrave == -2` or values of the
unproven children above the start value `-10^12` of the loop). -/
theorem C16_return_move_source :
    ∀ (a : AgentMCTS) (sc : Scoring) (node : Node) (to_play : Side),
      (Outcome.DRAW.to_i ≤ node.outcome.to_i → ∀ ch : List Node,
        a.return_move sc (node.with_children ch) to_play = some node.bestmove) ∧
      (node.outcome.to_i < Outcome.DRAW.to_i → node.children ≠ [] →
        (∀ c ∈ node.children, c.exp.num < 400000000000) →
        (a.msrave = -1 ∨ a.msrave = -2 ∨
          ∀ c ∈ node.children, c.outcome.to_i < Outcome.DRAW.to_i →
            -1000000000000 <
              sc.value c.exp c.rave c.know a.msrave - sc.explore node.exp.num c.exp.num) →
        ∃ pre c post, node.children = pre ++ c :: post ∧
          a.return_move sc node to_play = some c.move ∧
          (∀ x ∈ pre, a.child_val sc node to_play x < a.child_val sc node to_play c) ∧
          (∀ x ∈ post, a.child_val sc node to_play x ≤ a.child_val sc node to_play c)) := by
  intro a sc node to_play
  constructor
  · intro hp ch
    obtain ⟨m, e, r, k, o, d, b, c⟩ := node
    unfold AgentMCTS.return_move
    simp only [Node.with_children, Node.outcome, Node.bestmove] at hp ⊢
    rw [if_pos hp]
  · intro hu hc hn hv
    apply return_move_unproven a sc node to_play hu hc
    intro c hcm
    apply child_val_floor a sc node to_play c _ (hn c hcm)
    rcases hv with h | h | h
    · exact Or.inl h
    · exact Or.inr (Or.inl h)
    · exact Or.inr (Or.inr (h c hcm))

/-- C16, witness: the proven sample node answers with its best move `(1,1)`,
also when it is given the children of another node; the unproven sample node
answers with the move `(2,0)` of its third child. -/
theorem C16_return_move_source_witness :
    (∀ ch : List Node,
      agent_sample.return_move sc_zero (node_proven.with_children ch) .P1 = some ⟨1, 1⟩) ∧
    ∃ pre c post, node_sample.children = pre ++ c :: post ∧
      agent_sample.return_move sc_zero node_sample .P1 = some c.move ∧
      (∀ x ∈ pre, agent_sample.child_val sc_zero node_sample .P1 x <
        agent_sample.child_val sc_zero node_sample .P1 c) ∧
      (∀ x ∈ post, agent_sample.child_val sc_zero node_sample .P1 x ≤
        agent_sample.child_val sc_zero node_sample .P1 c) :=
  ⟨(C16_return_move_source agent_sample sc_zero node_proven .P1).1 (by decide),
    (C16_return_move_source agent_sample sc_zero node_sample .P1).2 (by decide)
      (by simp [node_sample, Node.children]) (by decide) (Or.inr (Or.inl rfl))⟩

end Y
end Morat

namespace Morat
namespace Y

/-- The value of a child lies in the band of its class. -/
theorem child_val_band (a : AgentMCTS) (sc : Scoring) (node : Node) (to_play : Side) (c : Node)
    (hu : c.outcome.to_i < Outcome.DRAW.to_i →
      0 ≤ a.child_val sc node to_play c ∧ a.child_val sc node to_play c < 400000000000) :
    (AgentMCTS.child_rank to_play c = 3 ∧
        a.child_val sc node to_play c = 800000000000 - (c.exp.num : ℚ)) ∨
      (AgentMCTS.child_rank to_play c = 2 ∧ 0 ≤ a.child_val sc node to_play c ∧
        a.child_val sc node to_play c < 400000000000) ∨
      (AgentMCTS.child_rank to_play c = 1 ∧
        a.child_val sc node to_play c = -400000000000 + (c.exp.num : ℚ)) ∨
      (AgentMCTS.child_rank to_play c = 0 ∧
        a.child_val sc node to_play c = -800000000000 + (c.exp.num : ℚ)) := by
  by_cases hp : Outcome.DRAW.to_i ≤ c.outcome.to_i
  · by_cases hs : c.outcome.is_side to_play = true
    · left
      unfold AgentMCTS.child_rank AgentMCTS.child_val
      rw [if_pos hp, if_pos hs, if_pos hp, if_pos hs]
      exact ⟨rfl, rfl⟩
    · by_cases hd : c.outcome = .DRAW
      · right; right; left
        unfold AgentMCTS.child_rank AgentMCTS.child_val
        rw [if_pos hp, if_neg hs, if_pos hd, if_pos hp, if_neg hs, if_pos hd]
        exact ⟨rfl, rfl⟩
      · right; right; right
        unfold AgentMCTS.child_rank AgentMCTS.child_val
        rw [if_pos hp, if_neg hs, if_neg hd, if_pos hp, if_neg hs, if_neg hd]
        exact ⟨rfl, rfl⟩
  · right; left
    refine ⟨?_, hu (not_le.1 hp)⟩
    unfold AgentMCTS.child_rank
    rw [if_neg hp]

/-- A child of no larger value is of no higher class, and within a class the
value orders the playout counts. -/
theorem child_val_order (a : AgentMCTS) (sc : Scoring) (node : Node) (to_play : Side)
    (x c : Node) (hx : x.exp.num < 400000000000) (hc : c.exp.num < 400000000000)
    (hxu : x.outcome.to_i < Outcome.DRAW.to_i →
      0 ≤ a.child_val sc node to_play x ∧ a.child_val sc node to_play x < 400000000000)
    (hcu : c.outcome.to_i < Outcome.DRAW.to_i →
      0 ≤ a.child_val sc node to_play c ∧ a.child_val sc node to_play c < 400000000000) :
    (a.child_val sc node to_play x ≤ a.child_val sc node to_play c →
      AgentMCTS.child_rank to_play x ≤ AgentMCTS.child_rank to_play c ∧
      (AgentMCTS.child_rank to_play x = AgentMCTS.child_rank to_play c →
        (AgentMCTS.child_rank to_play c = 3 → c.exp.num ≤ x.exp.num) ∧
        (AgentMCTS.child_rank to_play c ≤ 1 → x.exp.num ≤ c.exp.num))) ∧
    (a.child_val sc node to_play x < a.child_val sc node to_play c →
      AgentMCTS.child_rank to_play x = AgentMCTS.child_rank to_play c →
        (AgentMCTS.child_rank to_play c = 3 → c.exp.num < x.exp.num) ∧
        (AgentMCTS.child_rank to_play c ≤ 1 → x.exp.num < c.exp.num)) := by
  have bx := child_val_band a sc node to_play x hxu
  have bc := child_val_band a sc node to_play c hcu
  have h0x : (0 : ℚ) ≤ (x.exp.num : ℚ) := Nat.cast_nonneg _
  have h0c : (0 : ℚ) ≤ (c.exp.num : ℚ) := Nat.cast_nonneg _
  have h1x : (x.exp.num : ℚ) < 400000000000 := by exact_mod_cast hx
  have h1c : (c.exp.num : ℚ) < 400000000000 := by exact_mod_cast hc
  have cast_le : ∀ p q : Nat, (p : ℚ) ≤ (q : ℚ) → p ≤ q := fun p q h => by exact_mod_cast h
  have cast_lt : ∀ p q : Nat, (p : ℚ) < (q : ℚ) → p < q := fun p q h => by exact_mod_cast h
  constructor
  · intro hle
    rcases bx with ⟨rx, vx⟩ | ⟨rx, vx1, vx2⟩ | ⟨rx, vx⟩ | ⟨rx, vx⟩ <;>
      rcases bc with ⟨rc, vc⟩ | ⟨rc, vc1, vc2⟩ | ⟨rc, vc⟩ | ⟨rc, vc⟩ <;>
      rw [rx, rc] <;>
      first
        | (exfalso; linarith)
        | (refine ⟨by omega, fun _ => ⟨fun _ => ?_, fun _ => ?_⟩⟩ <;>
            first
              | omega
              | (apply cast_le; linarith))
  · intro hlt
    rcases bx with ⟨rx, vx⟩ | ⟨rx, vx1, vx2⟩ | ⟨rx, vx⟩ | ⟨rx, vx⟩ <;>
      rcases bc with ⟨rc, vc⟩ | ⟨rc, vc1, vc2⟩ | ⟨rc, vc⟩ | ⟨rc, vc⟩ <;>
      rw [rx, rc] <;>
      first
        | (intro h; exact absurd h (by omega))
        | (refine fun _ => ⟨fun _ => ?_, fun _ => ?_⟩ <;>
            first
              | omega
              | (apply cast_lt; linarith))

/-- C15, counterexample.  The unproven sample node has a child proven a draw,
a child proven as a loss of the side to move and an unproven child without a
single win that would stand out; `return_move` answers with the unproven
child `(2,0)`, not with the child proven a draw. -/
theorem C15_counterexample :
    node_sample.outcome = .UNKNOWN ∧
    node_sample.children.map (fun c => (c.move, c.outcome)) =
      [(⟨0, 0⟩, .DRAW), (⟨1, 0⟩, .P2), (⟨2, 0⟩, .UNKNOWN)] ∧
    agent_sample.return_move sc_zero node_sample .P1 = some ⟨2, 0⟩ := by
  refine ⟨rfl, rfl, ?_⟩
  simp [AgentMCTS.return_move, AgentMCTS.return_scan, AgentMCTS.child_val, node_sample, leaf,
    Node.children, Node.outcome, Node.exp, Node.move, Outcome.to_i, Outcome.is_side, Side.to_i,
    agent_sample, ExpPair.num, ExpPair.sum]
  norm_num

/-- C15, as the code orders the classes.  `return_move` on a node that is not
proven and has children, all with fewer than `4 * 10^11` playouts and the
unproven ones with a value in `[0, 4 * 10^11)`, answers with the move of a
child of the highest class present, where a child proven as a win of the side
to move is above a child that is not proven, which is above a child proven a
draw, which is above a child proven as a loss of the side to move: no child
is of a higher class than the one chosen; the chosen child is proven as a win
when some child is, and otherwise it is not proven when some child is not,
and otherwise it is proven a draw when some child is. -/
theorem C15_return_move_order :
    ∀ (a : AgentMCTS) (sc : Scoring) (node : Node) (to_play : Side),
      node.outcome.to_i < Outcome.DRAW.to_i → node.children ≠ [] →
      (∀ c ∈ node.children, c.exp.num < 400000000000 ∧
        (c.outcome.to_i < Outcome.DRAW.to_i →
          0 ≤ a.child_val sc node to_play c ∧ a.child_val sc node to_play c < 400000000000)) →
      ∃ c, c ∈ node.children ∧ a.return_move sc node to_play = some c.move ∧
        (∀ x ∈ node.children,
          AgentMCTS.child_rank to_play x ≤ AgentMCTS.child_rank to_play c) ∧
        ((∃ x ∈ node.children, x.outcome.is_side to_play = true) →
          c.outcome.is_side to_play = true) ∧
        ((∀ x ∈ node.children, x.outcome.is_side to_play = false) →
          (∃ x ∈ node.children, x.outcome.to_i < Outcome.DRAW.to_i) →
          c.outcome.to_i < Outcome.DRAW.to_i) ∧
        ((∀ x ∈ node.children,
            x.outcome.is_side to_play = false ∧ Outcome.DRAW.to_i ≤ x.outcome.to_i) →
          (∃ x ∈ node.children, x.outcome = .DRAW) → c.outcome = .DRAW) := by
  intro a sc node to_play hu hne hb
  have hfloor : ∀ c ∈ node.children, -1000000000000 < a.child_val sc node to_play c := by
    intro c hc
    rcases child_val_band a sc node to_play c (hb c hc).2 with
      ⟨-, v⟩ | ⟨-, v1, v2⟩ | ⟨-, v⟩ | ⟨-, v⟩
    · have : (c.exp.num : ℚ) < 400000000000 := by exact_mod_cast (hb c hc).1
      rw [v]; linarith
    · linarith
    · have : (0 : ℚ) ≤ (c.exp.num : ℚ) := Nat.cast_nonneg _
      rw [v]; linarith
    · have : (0 : ℚ) ≤ (c.exp.num : ℚ) := Nat.cast_nonneg _
      rw [v]; linarith
  obtain ⟨pre, c, post, h1, h2, h3, h4⟩ := return_move_unproven a sc node to_play hu hne hfloor
  have hcm : c ∈ node.children := by rw [h1]; simp
  have hrank : ∀ x ∈ node.children,
      AgentMCTS.child_rank to_play x ≤ AgentMCTS.child_rank to_play c := by
    intro x hx
    have hle : a.child_val sc node to_play x ≤ a.child_val sc node to_play c := by
      rw [h1] at hx
      rcases List.mem_append.1 hx with hx | hx
      · exact le_of_lt (h3 x hx)
      · rcases List.mem_cons.1 hx with rfl | hx
        · exact le_refl _
        · exact h4 x hx
    exact ((child_val_order a sc node to_play x c (hb x hx).1 (hb c hcm).1 (hb x hx).2
      (hb c hcm).2).1 hle).1
  have hr3 : ∀ x : Node, AgentMCTS.child_rank to_play x = 3 ↔
      x.outcome.is_side to_play = true ∧ Outcome.DRAW.to_i ≤ x.outcome.to_i := by
    intro x
    unfold AgentMCTS.child_rank
    by_cases hp : Outcome.DRAW.to_i ≤ x.outcome.to_i
    · rw [if_pos hp]
      by_cases hs : x.outcome.is_side to_play = true
      · rw [if_pos hs]; simp [hs, hp]
      · rw [if_neg hs]
        split <;> simp [hs]
    · rw [if_neg hp]; simp [hp]
  have hr2 : ∀ x : Node, AgentMCTS.child_rank to_play x = 2 ↔
      x.outcome.to_i < Outcome.DRAW.to_i := by
    intro x
    unfold AgentMCTS.child_rank
    by_cases hp : Outcome.DRAW.to_i ≤ x.outcome.to_i
    · rw [if_pos hp]
      have : ¬ x.outcome.to_i < Outcome.DRAW.to_i := not_lt.2 hp
      split
      · simp [this]
      · split <;> simp [this]
    · rw [if_neg hp]; simp [not_le.1 hp]
  have hr1 : ∀ x : Node, x.outcome.is_side to_play = false → Outcome.DRAW.to_i ≤ x.outcome.to_i →
      (AgentMCTS.child_rank to_play x = 1 ↔ x.outcome = .DRAW) ∧
      AgentMCTS.child_rank to_play x ≤ 1 := by
    intro x hs hp
    unfold AgentMCTS.child_rank
    rw [if_pos hp, hs]
    simp only [Bool.false_eq_true, if_false]
    by_cases hd : x.outcome = .DRAW
    · rw [if_pos hd]; simp [hd]
    · rw [if_neg hd]; simp [hd]
  have hside : ∀ x : Node, x.outcome.is_side to_play = true → Outcome.DRAW.to_i ≤ x.outcome.to_i := by
    intro x hx
    cases ho : x.outcome <;> cases to_play <;> rw [ho] at hx <;>
      simp_all [Outcome.is_side, Outcome.to_i, Side.to_i]
  refine ⟨c, hcm, h2, hrank, ?_, ?_, ?_⟩
  · rintro ⟨x, hx, hxs⟩
    have h3x := (hr3 x).2 ⟨hxs, hside x hxs⟩
    have hle := hrank x hx
    have hc3 : AgentMCTS.child_rank to_play c = 3 := by
      have : AgentMCTS.child_rank to_play c ≤ 3 := by
        unfold AgentMCTS.child_rank
        split
        · split
          · exact le_refl _
          · split <;> omega
        · omega
      omega
    exact ((hr3 c).1 hc3).1
  · rintro hall ⟨x, hx, hxu⟩
    have h2x := (hr2 x).2 hxu
    have hle := hrank x hx
    have hc : AgentMCTS.child_rank to_play c ≠ 3 := by
      intro h3c
      have := ((hr3 c).1 h3c).1
      rw [hall c hcm] at this
      exact Bool.noConfusion this
    have hcle : AgentMCTS.child_rank to_play c ≤ 3 := by
      unfold AgentMCTS.child_rank
      split
      · split
        · exact le_refl _
        · split <;> omega
      · omega
    exact (hr2 c).1 (by omega)
  · rintro hall ⟨x, hx, hxd⟩
    obtain ⟨e1, -⟩ := hr1 x (hall x hx).1 (hall x hx).2
    obtain ⟨f1, f2⟩ := hr1 c (hall c hcm).1 (hall c hcm).2
    have hle := hrank x hx
    rw [e1.2 hxd] at hle
    exact f1.1 (by omega)

end Y
end Morat

namespace Morat
namespace Y

/-- C15, witness: the unproven sample node, whose third child, the only one
that is not proven, is of the highest class present. -/
theorem C15_return_move_order_witness :
    node_sample.outcome.to_i < Outcome.DRAW.to_i ∧
    ∃ c, c ∈ node_sample.children ∧
      agent_sample.return_move sc_zero node_sample .P1 = some c.move ∧
      (∀ x ∈ node_sample.children,
        AgentMCTS.child_rank .P1 x ≤ AgentMCTS.child_rank .P1 c) ∧
      ((∃ x ∈ node_sample.children, x.outcome.is_side .P1 = true) →
        c.outcome.is_side .P1 = true) ∧
      ((∀ x ∈ node_sample.children, x.outcome.is_side .P1 = false) →
        (∃ x ∈ node_sample.children, x.outcome.to_i < Outcome.DRAW.to_i) →
        c.outcome.to_i < Outcome.DRAW.to_i) ∧
      ((∀ x ∈ node_sample.children,
          x.outcome.is_side .P1 = false ∧ Outcome.DRAW.to_i ≤ x.outcome.to_i) →
        (∃ x ∈ node_sample.children, x.outcome = .DRAW) → c.outcome = .DRAW) :=
  ⟨by decide,
    C15_return_move_order agent_sample sc_zero node_sample .P1 (by decide)
      (by simp [node_sample, Node.children])
      (by
        simp [AgentMCTS.child_val, node_sample, leaf, Node.children, Node.outcome, Node.exp,
          Outcome.to_i, agent_sample, ExpPair.num, ExpPair.sum]
        norm_num)⟩

end Y
end Morat

namespace Morat
namespace Y

/-! ## `AgentMCTS::move` -/

theorem size_list_append (l1 l2 : List Node) :
    Node.size_list (l1 ++ l2) = Node.size_list l1 + Node.size_list l2 := by
  induction l1 with
  | nil => simp [Node.size_list]
  | cons c cs ih =>
    show Node.size_list (c :: (cs ++ l2)) = Node.size_list (c :: cs) + Node.size_list l2
    simp only [Node.size_list, ih]
    omega

theorem size_with_children (n : Node) (ch : List Node) :
    (n.with_children ch).size = Node.size_list ch := by
  cases n; simp [Node.with_children, Node.size]

theorem size_eq_children (n : Node) : n.size = Node.size_list n.children := by
  cases n; simp [Node.children, Node.size]

theorem size_with_move (n : Node) (m : Move) : (n.with_move m).size = n.size := by
  cases n; simp [Node.with_move, Node.size]

theorem size_with_exp (n : Node) (e : ExpPair) : (n.with_exp e).size = n.size := by
  cases n; simp [Node.with_exp, Node.size]

/-- The loop of `move` with a matching child: the first one is taken, and the
array keeps it without its children. -/
theorem take_child_found (fresh : Node) (m : Move) (pre : List Node) (c : Node)
    (post : List Node) (hpre : ∀ x ∈ pre, x.move ≠ m) (hc : c.move = m) :
    AgentMCTS.take_child fresh m (pre ++ c :: post) = (c, pre ++ c.with_children [] :: post) := by
  induction pre with
  | nil => simp [AgentMCTS.take_child, hc]
  | cons x xs ih =>
    have hx : x.move ≠ m := hpre x (List.mem_cons_self x xs)
    have := ih (fun y hy => hpre y (List.mem_cons_of_mem x hy))
    show AgentMCTS.take_child fresh m (x :: (xs ++ c :: post)) = _
    simp only [AgentMCTS.take_child, if_neg hx, this]
    rfl

/-- The loop of `move` without a matching child. -/
theorem take_child_none (fresh : Node) (m : Move) (l : List Node) (h : ∀ x ∈ l, x.move ≠ m) :
    AgentMCTS.take_child fresh m l = (fresh, l) := by
  induction l with
  | nil => rfl
  | cons x xs ih =>
    have hx : x.move ≠ m := h x (List.mem_cons_self x xs)
    have := ih (fun y hy => h y (List.mem_cons_of_mem x hy))
    simp only [AgentMCTS.take_child, if_neg hx, this]

end Y
end Morat

namespace Morat
namespace Y

/-- `move` with tree reuse and a child of the root that matches the move. -/
theorem move_reuse (G : Grid) (fresh : Node) (a : AgentMCTS) (m : Move) (pre : List Node)
    (c : Node) (post : List Node) (hk : a.keeptree = true)
    (hch : a.root.children = pre ++ c :: post) (hpre : ∀ x ∈ pre, x.move ≠ m) (hc : c.move = m)
    (hn : a.nodes = a.root.size) (rb : Bool × Board)
    (hrb : a.rootboard.move_xy G m true = some rb) :
    a.move G fresh m =
      some { a with root := a.new_root c rb.2, nodes := c.size, rootboard := rb.2 } := by
  have hlen : decide ((pre ++ c :: post).length > 0) = true := by simp
  have ht := take_child_found fresh m pre c post hpre hc
  have hd : a.nodes - ((a.root.with_children (pre ++ c.with_children [] :: post)).dealloc).1 =
      c.size := by
    unfold Node.dealloc
    simp only
    rw [size_with_children, hn, size_eq_children, hch, size_list_append, size_list_append]
    simp only [Node.size_list, size_with_children]
    omega
  unfold AgentMCTS.move
  simp only [hk, hlen, Bool.and_self, if_true, hch, ht, hd, ne_eq, not_true_eq_false, if_false, hrb]

/-- `move` with tree reuse when no child of the root matches the move. -/
theorem move_no_match (G : Grid) (fresh : Node) (a : AgentMCTS) (m : Move)
    (hf : fresh.children = []) (hk : a.keeptree = true) (hne : a.root.children ≠ [])
    (hall : ∀ x ∈ a.root.children, x.move ≠ m) (hn : a.nodes = a.root.size) (rb : Bool × Board)
    (hrb : a.rootboard.move_xy G m true = some rb) :
    a.move G fresh m =
      some { a with root := a.new_root fresh rb.2, nodes := 0, rootboard := rb.2 } := by
  have hlen : decide (a.root.children.length > 0) = true := by
    simp only [gt_iff_lt, decide_eq_true_eq]
    exact List.length_pos.2 hne
  have ht := take_child_none fresh m a.root.children hall
  have hd : a.nodes - ((a.root.with_children a.root.children).dealloc).1 = 0 := by
    unfold Node.dealloc
    simp only
    rw [size_with_children, hn, size_eq_children]
    omega
  have hs : fresh.size = 0 := by rw [size_eq_children, hf]; rfl
  unfold AgentMCTS.move
  simp only [hk, hlen, Bool.and_self, if_true, ht, hd, hs, ne_eq, not_true_eq_false, if_false, hrb]

/-- `move` without tree reuse. -/
theorem move_fresh (G : Grid) (fresh : Node) (a : AgentMCTS) (m : Move)
    (hf : fresh.children = []) (hk : a.keeptree = false ∨ a.root.children = [])
    (hn : a.nodes = a.root.size) (rb : Bool × Board)
    (hrb : a.rootboard.move_xy G m true = some rb) :
    a.move G fresh m =
      some { a with root := a.new_root (fresh.with_move m) rb.2, nodes := 0, rootboard := rb.2 } := by
  have hcond : (a.keeptree && decide (a.root.children.length > 0)) = false := by
    rcases hk with hk | hk
    · rw [hk]; rfl
    · rw [hk]; simp
  have hd : a.nodes - (a.root.dealloc).1 = 0 := by
    unfold Node.dealloc
    simp only
    rw [hn]
    omega
  have hs : (fresh.with_move m).size = 0 := by
    rw [size_with_move, size_eq_children, hf]; rfl
  unfold AgentMCTS.move
  simp only [hcond, Bool.false_eq_true, if_false, hd, hs, ne_eq, not_true_eq_false, hrb]

theorem new_root_fields (a : AgentMCTS) (r : Node) (rb : Board) :
    (a.new_root r rb).move = r.move ∧
      (a.new_root r rb).exp = r.exp.addwins (a.visitexpand + 1) ∧
      (a.new_root r rb).rave = r.rave ∧ (a.new_root r rb).know = r.know ∧
      (a.new_root r rb).children = r.children ∧ (a.new_root r rb).bestmove = r.bestmove ∧
      (a.new_root r rb).proofdepth = r.proofdepth ∧
      (a.new_root r rb).outcome =
        (if rb.outcome.to_i < Outcome.DRAW.to_i then .UNKNOWN else r.outcome) := by
  obtain ⟨m, e, rv, k, o, d, b, c⟩ := r
  unfold AgentMCTS.new_root
  split <;>
    simp [Node.with_exp, Node.with_outcome, Node.move, Node.exp, Node.rave, Node.know,
      Node.children, Node.bestmove, Node.proofdepth, Node.outcome]

end Y
end Morat

namespace Morat
namespace Y

set_option maxRecDepth 100000 in
/-- C17, counterexample.  The sample agent keeps its tree, and the third child
of its root has the move `(2,0)` and the statistics of 3 wins in 5 playouts;
after `move((2,0))` the root has that move, but the statistics of 5 wins in 7
playouts: `root.exp.addwins(visitexpand+1)` has added two won playouts. -/
theorem C17_counterexample :
    agent_sample.keeptree = true ∧
    agent_sample.root.children.map (fun c => (c.move, c.exp)) =
      [(⟨0, 0⟩, ⟨0, 10⟩), (⟨1, 0⟩, ⟨0, 7⟩), (⟨2, 0⟩, ⟨6, 5⟩)] ∧
    (agent_sample.move triGrid Node.fresh ⟨2, 0⟩).map (fun a => (a.root.move, a.root.exp)) =
      some (⟨2, 0⟩, ⟨10, 7⟩) := by
  decide

/-- C17.  When `keeptree` is set and `c` is the first child of the root with
`c.move == m` (with the node counter equal to the size of the tree and
`rootboard.move(m)` passing its assertion), `AgentMCTS::move(m)` leaves a
root with the move `m` of `c`, the RAVE statistics, the knowledge, the best
move and the proof depth of `c` and the children array of `c`, that is its
whole subtree as it was.  The direct statistics are those of `c` with
`visitexpand + 1` won playouts added, and the outcome is that of `c` unless
the board is undecided after the move, in which case it is reset to
`UNKNOWN`.  The node counter drops to the size of the subtree of `c`: the
children array of the old root and every subtree of a sibling have been
freed. -/
theorem C17_tree_reuse :
    ∀ (G : Grid) (fresh : Node) (a : AgentMCTS) (m : Move) (pre : List Node) (c : Node)
      (post : List Node) (rb : Bool × Board),
      a.keeptree = true → a.root.children = pre ++ c :: post → (∀ x ∈ pre, x.move ≠ m) →
      c.move = m → a.nodes = a.root.size → a.rootboard.move_xy G m true = some rb →
      ∃ a1, a.move G fresh m = some a1 ∧
        a1.root.move = m ∧ a1.root.exp = c.exp.addwins (a.visitexpand + 1) ∧
        a1.root.rave = c.rave ∧ a1.root.know = c.know ∧ a1.root.children = c.children ∧
        a1.root.bestmove = c.bestmove ∧ a1.root.proofdepth = c.proofdepth ∧
        a1.root.outcome =
          (if rb.2.outcome.to_i < Outcome.DRAW.to_i then .UNKNOWN else c.outcome) ∧
        a1.rootboard = rb.2 ∧ a1.nodes = c.size ∧ a1.nodes = a1.root.size ∧
        a.nodes = a1.nodes + (Node.size_list pre + 1 + Node.size_list post) := by
  intro G fresh a m pre c post rb hk hch hpre hc hn hrb
  obtain ⟨f1, f2, f3, f4, f5, f6, f7, f8⟩ := new_root_fields a c rb.2
  refine ⟨_, move_reuse G fresh a m pre c post hk hch hpre hc hn rb hrb, ?_⟩
  simp only
  refine ⟨f1.trans hc, f2, f3, f4, f5, f6, f7, f8, trivial, trivial, ?_, ?_⟩
  · rw [size_eq_children (a.new_root c rb.2), f5, ← size_eq_children]
  · rw [hn, size_eq_children, hch, size_list_append]
    simp only [Node.size_list]
    omega

set_option maxRecDepth 100000 in
/-- C17, witness: the sample agent on the tree `node_deep` and the move
`(0,0)` of the first child of its root. -/
theorem C17_tree_reuse_witness :
    ∃ a1, agent_deep.move triGrid Node.fresh ⟨0, 0⟩ = some a1 ∧
      a1.root.move = ⟨0, 0⟩ ∧ a1.root.exp = ⟨24, 12⟩ ∧
      a1.root.rave = ⟨0, 0⟩ ∧ a1.root.know = 0 ∧
      a1.root.children = [leaf ⟨1, 0⟩ 2 1 .P1] ∧
      a1.root.bestmove = ⟨1, 0⟩ ∧ a1.root.proofdepth = 2 ∧
      a1.root.outcome = .UNKNOWN ∧
      a1.rootboard = (board4.move_body triGrid (board4.move_valid ⟨0, 0⟩) true).2 ∧
      a1.nodes = 1 ∧ a1.nodes = a1.root.size ∧ agent_deep.nodes = a1.nodes + (0 + 1 + 2) :=
  C17_tree_reuse triGrid Node.fresh agent_deep ⟨0, 0⟩ []
    (.mk ⟨0, 0⟩ ⟨20, 10⟩ ⟨0, 0⟩ 0 .P1 2 ⟨1, 0⟩ [leaf ⟨1, 0⟩ 2 1 .P1])
    [.mk ⟨1, 0⟩ ⟨0, 200000⟩ ⟨0, 0⟩ 0 .UNKNOWN 0 M_UNKNOWN [leaf ⟨0, 0⟩ 0 1 .UNKNOWN]]
    (board4.move_body triGrid (board4.move_valid ⟨0, 0⟩) true)
    rfl rfl (fun x hx => absurd hx (List.not_mem_nil x)) rfl (by decide) (by decide)

end Y
end Morat

namespace Morat
namespace Y

set_option maxRecDepth 100000 in
/-- C18, the code at the failing input.  The sample agent keeps its tree and
its root has the children `(0,0)`, `(1,0)`, `(2,0)`.  After `move((1,1))` the
root is a node without children whose move is that of a default-constructed
node, not `(1,1)`: the loop found no child, `root = child` copied the default
node, and the keeptree branch has no statement `root.move = m`.  Whatever the
default node is, `move((1,1))` and `move((0,1))` leave the same root move.
The same call with `keeptree` switched off runs the other branch, which sets
the move of the root to `(1,1)`. -/
theorem C18_root_move_lost :
    agent_sample.keeptree = true ∧
    agent_sample.root.children.map Node.move = [⟨0, 0⟩, ⟨1, 0⟩, ⟨2, 0⟩] ∧
    board4.valid_move_xy triGrid ⟨1, 1⟩ = true ∧
    (agent_sample.move triGrid Node.fresh ⟨1, 1⟩).map
      (fun a => (a.root.move, a.root.children.length)) = some (M_UNKNOWN, 0) ∧
    M_UNKNOWN ≠ (⟨1, 1⟩ : Move) ∧
    (AgentMCTS.move triGrid Node.fresh { agent_sample with keeptree := false } ⟨1, 1⟩).map
      (fun a => (a.root.move, a.root.children.length)) = some (⟨1, 1⟩, 0) ∧
    ∀ fresh : Node, fresh.children = [] →
      (agent_sample.move triGrid fresh ⟨1, 1⟩).map (fun a => a.root.move) = some fresh.move ∧
      (agent_sample.move triGrid fresh ⟨0, 1⟩).map (fun a => a.root.move) = some fresh.move := by
  refine ⟨rfl, rfl, by decide, by decide, by decide, by decide, ?_⟩
  intro fresh hf
  have hne : agent_sample.root.children ≠ [] := by
    simp [agent_sample, node_sample, Node.children]
  constructor
  · rw [move_no_match triGrid fresh agent_sample ⟨1, 1⟩ hf rfl hne (by decide) (by decide)
      (board4.move_body triGrid (board4.move_valid ⟨1, 1⟩) true) (by decide)]
    simp only [Option.map_some', (new_root_fields _ _ _).1]
  · rw [move_no_match triGrid fresh agent_sample ⟨0, 1⟩ hf rfl hne (by decide) (by decide)
      (board4.move_body triGrid (board4.move_valid ⟨0, 1⟩) true) (by decide)]
    simp only [Option.map_some', (new_root_fields _ _ _).1]

end Y
end Morat

namespace Morat
namespace Y

/-! ## `garbage_collect` -/

/-- What the loop of `garbage_collect` leaves of one child. -/
theorem gc_children_map (a : AgentMCTS) (o : Outcome) (to_play : Side) (l : List Node) :
    (a.gc_children o l to_play).1 =
      l.map (fun child =>
        if child.children.length = 0 then child
        else if a.gc_keep o to_play child then (a.garbage_collect child to_play.opp).1
        else child.with_children []) ∧
    (a.gc_children o l to_play).2 =
      (l.map (fun child =>
        if child.children.length = 0 then 0
        else if a.gc_keep o to_play child then (a.garbage_collect child to_play.opp).2
        else child.size)).sum := by
  induction l with
  | nil => simp [AgentMCTS.gc_children]
  | cons c cs ih =>
    simp only [AgentMCTS.gc_children, List.map_cons, List.sum_cons]
    by_cases h0 : c.children.length = 0
    · simp only [h0, if_true, ih.1, ih.2, zero_add, and_self]
    · simp only [h0, if_false]
      by_cases hk : a.gc_keep o to_play c = true
      · simp only [hk, if_true, ih.1, ih.2, and_self]
      · simp only [hk, Bool.false_eq_true, if_false, ih.1, ih.2, Node.dealloc, and_self]

theorem garbage_collect_node (a : AgentMCTS) (n : Node) (to_play : Side) :
    (a.garbage_collect n to_play).1 =
        n.with_children (a.gc_children n.outcome n.children to_play).1 ∧
      (a.garbage_collect n to_play).2 = (a.gc_children n.outcome n.children to_play).2 := by
  obtain ⟨m, e, rv, k, o, d, b, c⟩ := n
  simp [AgentMCTS.garbage_collect, Node.with_children, Node.outcome, Node.children]

theorem with_children_fields (n : Node) (ch : List Node) :
    (n.with_children ch).move = n.move ∧ (n.with_children ch).exp = n.exp ∧
      (n.with_children ch).rave = n.rave ∧ (n.with_children ch).know = n.know ∧
      (n.with_children ch).outcome = n.outcome ∧
      (n.with_children ch).proofdepth = n.proofdepth ∧
      (n.with_children ch).bestmove = n.bestmove ∧ (n.with_children ch).children = ch := by
  obtain ⟨m, e, rv, k, o, d, b, c⟩ := n
  simp [Node.with_children, Node.move, Node.exp, Node.rave, Node.know, Node.outcome,
    Node.proofdepth, Node.bestmove, Node.children]

/-- The condition of `garbage_collect`, spelled out. -/
theorem gc_keep_iff (a : AgentMCTS) (o : Outcome) (to_play : Side) (child : Node) :
    a.gc_keep o to_play child = true ↔
      (o.solved = true ∧ child.exp.num > a.gcsolved ∧
        (o.is_side to_play = false ∨ child.outcome.is_side to_play = true)) ∨
      (o.solved = false ∧
        child.exp.num > (if child.outcome.solved = true then a.gcsolved else a.gclimit)) := by
  unfold AgentMCTS.gc_keep
  cases o.solved <;> cases o.is_side to_play <;> cases child.outcome.is_side to_play <;>
    cases child.outcome.solved <;> simp

end Y
end Morat

namespace Morat
namespace Y

set_option maxRecDepth 100000 in
/-- C19, counterexample.  The node `node_deep` is proven as the win of the
first player.  Its child `(1,0)` has children, is not proven and has 200000
playouts, more than `gcsolved = 100000`.  Collected for the first player to
move, for whom the proof of the parent is a win and so not a loss, the child
loses its subtree.  Collected for the second player to move, for whom the
proof of the parent is a loss, the child, which is not proven as a win of
that player, keeps its subtree. -/
theorem C19_counterexample :
    node_deep.outcome = .P1 ∧ agent_deep.gcsolved = 100000 ∧
    node_deep.children.map (fun c => (c.move, c.outcome, c.exp.num, c.children.length)) =
      [(⟨0, 0⟩, .P1, 10, 1), (⟨1, 0⟩, .UNKNOWN, 200000, 1)] ∧
    (agent_deep.garbage_collect node_deep .P1).1.children.map
      (fun c => (c.move, c.children.length)) = [(⟨0, 0⟩, 0), (⟨1, 0⟩, 0)] ∧
    (agent_deep.garbage_collect node_deep .P2).1.children.map
      (fun c => (c.move, c.children.length)) = [(⟨0, 0⟩, 0), (⟨1, 0⟩, 1)] := by
  decide

/-- C19.  `garbage_collect(node, to_play)` leaves the fields of `node` and
the length of its children array as they are and treats every child as
follows: a child without children is left alone; a child with children is
recursed into (with the other side) when
`(node.outcome.solved() && child.exp.num() > gcsolved && (node.outcome != to_play || child.outcome == to_play)) || (!node.outcome.solved() && child.exp.num() > (child.outcome.solved() ? gcsolved : gclimit))`,
so for a proven parent when the child has more than `gcsolved` playouts and
the proof of the parent is not the win of `to_play` or the child is proven as
that win; and otherwise the child loses its whole subtree and keeps its own
fields.  The count of freed nodes is the sum over the children. -/
theorem C19_gc_policy :
    ∀ (a : AgentMCTS) (node : Node) (to_play : Side),
      (a.garbage_collect node to_play).1.children =
        node.children.map (fun child =>
          if child.children.length = 0 then child
          else if a.gc_keep node.outcome to_play child then
            (a.garbage_collect child to_play.opp).1
          else child.with_children []) ∧
      (a.garbage_collect node to_play).2 =
        (node.children.map (fun child =>
          if child.children.length = 0 then 0
          else if a.gc_keep node.outcome to_play child then
            (a.garbage_collect child to_play.opp).2
          else child.size)).sum ∧
      (a.garbage_collect node to_play).1.move = node.move ∧
      (a.garbage_collect node to_play).1.exp = node.exp ∧
      (a.garbage_collect node to_play).1.outcome = node.outcome ∧
      (a.garbage_collect node to_play).1.bestmove = node.bestmove ∧
      ∀ child : Node,
        (a.gc_keep node.outcome to_play child = true ↔
          (node.outcome.solved = true ∧ child.exp.num > a.gcsolved ∧
            (node.outcome.is_side to_play = false ∨ child.outcome.is_side to_play = true)) ∨
          (node.outcome.solved = false ∧
            child.exp.num >
              (if child.outcome.solved = true then a.gcsolved else a.gclimit))) := by
  intro a node to_play
  obtain ⟨g1, g2⟩ := garbage_collect_node a node to_play
  obtain ⟨c1, c2⟩ := gc_children_map a node.outcome to_play node.children
  obtain ⟨f1, f2, -, -, f5, -, f7, f8⟩ :=
    with_children_fields node (a.gc_children node.outcome node.children to_play).1
  rw [g1, g2]
  exact ⟨f8.trans c1, c2, f1, f2, f5, f7, fun child => gc_keep_iff a node.outcome to_play child⟩

set_option maxRecDepth 100000 in
/-- C19, witness: the collection of `node_deep` for the second player to
move, which recurses into the child `(1,0)` and frees the subtree of the
child `(0,0)`, one node. -/
theorem C19_gc_policy_witness :
    (agent_deep.garbage_collect node_deep .P2).1.children =
      node_deep.children.map (fun child =>
        if child.children.length = 0 then child
        else if agent_deep.gc_keep node_deep.outcome .P2 child then
          (agent_deep.garbage_collect child Side.P2.opp).1
        else child.with_children []) ∧
    (agent_deep.garbage_collect node_deep .P2).2 = 1 :=
  ⟨(C19_gc_policy agent_deep node_deep .P2).1,
    (C19_gc_policy agent_deep node_deep .P2).2.1.trans (by decide)⟩

end Y
end Morat

namespace Morat
namespace Y

/-- What the loop of `garbage_collect` makes of a child: the child, the child
collected, or the child without its children; its own fields stay. -/
theorem gc_child_fields (a : AgentMCTS) (o : Outcome) (to_play : Side) (child : Node) :
    ((if child.children.length = 0 then child
        else if a.gc_keep o to_play child then (a.garbage_collect child to_play.opp).1
        else child.with_children []) : Node).with_children [] = child.with_children [] := by
  have hw : ∀ (n : Node) (ch : List Node), (n.with_children ch).with_children [] =
      n.with_children [] := by
    intro n ch; cases n; rfl
  split
  · rfl
  · split
    · rw [(garbage_collect_node a child to_play.opp).1, hw]
    · rw [hw]

/-- The value of a child in `return_move` reads the fields of the child and of
the node, not their children. -/
theorem child_val_congr (a a1 : AgentMCTS) (hms : a1.msrave = a.msrave) (sc : Scoring)
    (node node1 : Node) (to_play : Side)
    (c c1 : Node) (hn : node1.with_children [] = node.with_children [])
    (hc : c1.with_children [] = c.with_children []) :
    a1.child_val sc node1 to_play c1 = a.child_val sc node to_play c ∧ c1.move = c.move := by
  obtain ⟨m, e, rv, k, o, d, b, ch⟩ := node
  obtain ⟨m1, e1, rv1, k1, o1, d1, b1, ch1⟩ := node1
  obtain ⟨m2, e2, rv2, k2, o2, d2, b2, ch2⟩ := c
  obtain ⟨m3, e3, rv3, k3, o3, d3, b3, ch3⟩ := c1
  simp only [Node.with_children, Node.mk.injEq, and_true] at hn hc
  obtain ⟨h1, h2, h3, h4, h5, h6, h7⟩ := hn
  obtain ⟨g1, g2, g3, g4, g5, g6, g7⟩ := hc
  subst h1 h2 h3 h4 h5 h6 h7 g1 g2 g3 g4 g5 g6 g7
  refine ⟨?_, rfl⟩
  unfold AgentMCTS.child_val
  rw [hms]
  rfl

theorem return_scan_congr (a a1 : AgentMCTS) (hms : a1.msrave = a.msrave) (sc : Scoring)
    (node node1 : Node) (to_play : Side) (f : Node → Node) (hn : node1.with_children [] = node.with_children [])
    (hf : ∀ c, (f c).with_children [] = c.with_children []) :
    ∀ (l : List Node) (st st1 : ℚ × Option Node), st1.1 = st.1 →
      st1.2.map Node.move = st.2.map Node.move →
      (a1.return_scan sc node1 to_play (l.map f) st1).1 = (a.return_scan sc node to_play l st).1 ∧
      (a1.return_scan sc node1 to_play (l.map f) st1).2.map Node.move =
        (a.return_scan sc node to_play l st).2.map Node.move := by
  intro l
  induction l with
  | nil => intro st st1 h1 h2; exact ⟨h1, h2⟩
  | cons c cs ih =>
    intro st st1 h1 h2
    obtain ⟨e1, e2⟩ := child_val_congr a a1 hms sc node node1 to_play c (f c) hn (hf c)
    simp only [List.map_cons, AgentMCTS.return_scan, e1, h1]
    split
    · exact ih _ _ rfl (by simp [e2])
    · exact ih _ _ h1 h2

/-- `return_move` answers the same on a node whose children have been
replaced by nodes with the same fields. -/
theorem return_move_congr (a a1 : AgentMCTS) (hms : a1.msrave = a.msrave) (sc : Scoring)
    (node : Node) (to_play : Side)
    (f : Node → Node) (hf : ∀ c, (f c).with_children [] = c.with_children []) :
    a1.return_move sc (node.with_children (node.children.map f)) to_play =
      a.return_move sc node to_play := by
  have hn : (node.with_children (node.children.map f)).with_children [] =
      node.with_children [] := by cases node; rfl
  obtain ⟨f1, f2, -, -, f5, -, f7, f8⟩ := with_children_fields node (node.children.map f)
  unfold AgentMCTS.return_move
  rw [f5, f7, f8]
  have he : (node.children.map f).isEmpty = node.children.isEmpty := by
    cases node.children <;> rfl
  rw [he]
  obtain ⟨-, s2⟩ := return_scan_congr a a1 hms sc node _ to_play f hn hf node.children
    (-1000000000000, none) (-1000000000000, none) rfl rfl
  split
  · rfl
  · split
    · rfl
    · cases h1 : (a.return_scan sc node to_play node.children (-1000000000000, none)).2 <;>
        cases h2 : (a1.return_scan sc (node.with_children (node.children.map f)) to_play
          (node.children.map f) (-1000000000000, none)).2 <;>
        rw [h1, h2] at s2 <;> simp_all

/-- `return_move` answers the same before and after `garbage_collect`. -/
theorem return_move_gc (a : AgentMCTS) (sc : Scoring) (node : Node) (tp to_play : Side) :
    a.return_move sc (a.garbage_collect node tp).1 to_play = a.return_move sc node to_play := by
  rw [(garbage_collect_node a node tp).1, (gc_children_map a node.outcome tp node.children).1]
  exact return_move_congr a a rfl sc node to_play _ (gc_child_fields a node.outcome tp)

end Y
end Morat

namespace Morat
namespace Y

theorem size_lt_of_mem (x : Node) (l : List Node) (h : x ∈ l) : x.size < Node.size_list l := by
  induction l with
  | nil => exact absurd h (List.not_mem_nil x)
  | cons y ys ih =>
    simp only [Node.size_list]
    rcases List.mem_cons.1 h with rfl | h
    · omega
    · have := ih h
      omega

theorem pv_node_leaf (a : AgentMCTS) (sc : Scoring) (x : Node) (t : Side) (moves : List Move) :
    a.pv_node sc (x.with_children []) t moves = some [] := by
  cases x
  simp [Node.with_children, AgentMCTS.pv_node]

theorem move_of_fields (x y : Node) (h : x.with_children [] = y.with_children []) :
    x.move = y.move := by
  cases x; cases y
  simp only [Node.with_children, Node.mk.injEq] at h
  exact h.1

/-- The walk of `get_pv` after `garbage_collect` is a prefix of the walk
before. -/
theorem pv_node_gc (a g a1 : AgentMCTS) (hms : a1.msrave = a.msrave) (sc : Scoring) :
    ∀ (k : Nat) (n : Node), n.size ≤ k → ∀ (tp t : Side) (moves l : List Move),
      a.pv_node sc n t moves = some l →
      ∃ l1, a1.pv_node sc (g.garbage_collect n tp).1 t moves = some l1 ∧ List.IsPrefix l1 l := by
  intro k
  induction k with
  | zero =>
    intro n hn tp t moves l hl
    obtain ⟨m, e, r, w, o, d, b, c⟩ := n
    simp only [Node.size] at hn
    have hc : c = [] := by
      cases c with
      | nil => rfl
      | cons x xs => simp [Node.size_list] at hn
    subst hc
    simp only [AgentMCTS.garbage_collect, AgentMCTS.gc_children, AgentMCTS.pv_node,
      List.isEmpty_nil, if_true, Option.some.injEq] at hl ⊢
    exact ⟨[], rfl, List.nil_prefix⟩
  | succ k ih =>
    intro n hn tp t moves l hl
    obtain ⟨m, e, r, w, o, d, b, c⟩ := n
    simp only [Node.size] at hn
    have hg : (g.garbage_collect (.mk m e r w o d b c) tp).1 =
        .mk m e r w o d b (c.map (fun child =>
          if child.children.length = 0 then child
          else if g.gc_keep o tp child then (g.garbage_collect child tp.opp).1
          else child.with_children [])) := by
      simp only [AgentMCTS.garbage_collect, (gc_children_map g o tp c).1]
    rw [hg]
    generalize hf : (fun child : Node =>
          if child.children.length = 0 then child
          else if g.gc_keep o tp child then (g.garbage_collect child tp.opp).1
          else child.with_children []) = f at *
    have hff : ∀ x, (f x).with_children [] = x.with_children [] := by
      intro x; rw [← hf]; exact gc_child_fields g o tp x
    have hfind : ∀ (mv : Move) (xs : List Node), (∀ x ∈ xs, x.size ≤ k) →
        ∀ (t1 : Side) (mvs r1 : List Move), a.pv_find sc mv xs t1 mvs = some r1 →
        ∃ r2, a1.pv_find sc mv (xs.map f) t1 mvs = some r2 ∧ List.IsPrefix r2 r1 := by
      intro mv xs
      induction xs with
      | nil =>
        intro _ t1 mvs r1 h1
        simp only [AgentMCTS.pv_find, Option.some.injEq] at h1
        subst h1
        exact ⟨[], rfl, List.nil_prefix⟩
      | cons x xs ihx =>
        intro hs t1 mvs r1 h1
        simp only [List.map_cons, AgentMCTS.pv_find, move_of_fields _ _ (hff x)] at h1 ⊢
        by_cases hm : x.move = mv
        · rw [if_pos hm] at h1 ⊢
          rw [← hf]
          simp only
          split
          · rename_i h0
            have hx : x = x.with_children [] := by
              obtain ⟨m0, e0, r0, w0, o0, d0, b0, c0⟩ := x
              simp only [Node.children] at h0
              simp only [Node.with_children, List.length_eq_zero.1 h0]
            refine ⟨[], ?_, List.nil_prefix⟩
            rw [hx]
            exact pv_node_leaf a1 sc x t1 mvs
          · split
            · exact ih x (hs x (List.mem_cons_self x xs)) tp.opp t1 mvs r1 h1
            · exact ⟨[], pv_node_leaf a1 sc x t1 mvs, List.nil_prefix⟩
        · rw [if_neg hm] at h1 ⊢
          exact ihx (fun y hy => hs y (List.mem_cons_of_mem x hy)) t1 mvs r1 h1
    have hsz : ∀ x ∈ c, x.size ≤ k := by
      intro x hx
      have := size_lt_of_mem x c hx
      omega
    have hret : a1.return_move sc (.mk m e r w o d b (c.map f)) t =
        a.return_move sc (.mk m e r w o d b c) t :=
      return_move_congr a a1 hms sc (.mk m e r w o d b c) t f hff
    have hemp : (c.map f).isEmpty = c.isEmpty := by cases c <;> rfl
    simp only [AgentMCTS.pv_node, hemp, hret] at hl ⊢
    by_cases he : c.isEmpty = true
    · rw [if_pos he] at hl ⊢
      exact ⟨l, hl, List.prefix_refl l⟩
    · rw [if_neg he] at hl ⊢
      have key : ∀ (mo : Option Move) (tl : List Move),
          mo.bind (fun mv => (a.pv_find sc mv c t.opp tl).map (fun pv => mv :: pv)) = some l →
          ∃ l1, mo.bind (fun mv => (a1.pv_find sc mv (c.map f) t.opp tl).map
            (fun pv => mv :: pv)) = some l1 ∧ List.IsPrefix l1 l := by
        intro mo tl hmo
        cases mo with
        | none => exact absurd hmo (by simp)
        | some mv =>
          simp only [Option.some_bind, Option.map_eq_some'] at hmo ⊢
          obtain ⟨r1, h1, h2⟩ := hmo
          obtain ⟨r2, h3, h4⟩ := hfind mv c hsz t.opp tl r1 h1
          refine ⟨mv :: r2, ⟨r2, h3, rfl⟩, ?_⟩
          rw [← h2]
          exact (List.prefix_cons_inj mv).2 h4
      cases moves with
      | nil =>
        cases hr : a.return_move sc (.mk m e r w o d b c) t with
        | none =>
          simp only [hr] at hl
          exact absurd hl (by simp)
        | some mv =>
          simp only [hr] at hl ⊢
          exact key (some mv) _ hl
      | cons mv tl => exact key (some mv) tl hl

end Y
end Morat

namespace Morat
namespace Y

theorem pv_node_nonempty (a : AgentMCTS) (sc : Scoring) (n : Node) (t : Side)
    (moves l : List Move) (h : a.pv_node sc n t moves = some l) : l = [] ↔ n.children = [] := by
  obtain ⟨m, e, r, w, o, d, b, c⟩ := n
  simp only [AgentMCTS.pv_node, Node.children] at h ⊢
  cases c with
  | nil =>
    simp only [List.isEmpty_nil, if_true, Option.some.injEq] at h
    exact ⟨fun _ => rfl, fun _ => h.symm⟩
  | cons x xs =>
    simp only [List.isEmpty_cons, Bool.false_eq_true, if_false] at h
    constructor
    · intro hl
      subst hl
      split at h
      · exact absurd h (by simp)
      · simp at h
    · intro hx; exact absurd hx (by simp)

theorem gc_children_nil (a : AgentMCTS) (n : Node) (tp : Side) :
    (a.garbage_collect n tp).1.children = [] ↔ n.children = [] := by
  rw [(garbage_collect_node a n tp).1, (with_children_fields n _).2.2.2.2.2.2.2,
    (gc_children_map a n.outcome tp n.children).1]
  exact List.map_eq_nil_iff

set_option maxRecDepth 100000 in
/-- C20, counterexample.  The node `node_deep` is proven as the win of the
first player, who is to move, and its child `(0,0)` is proven with the same
outcome and has a child; it has 10 playouts.  After the collection the child
`(0,0)` has no children left, and the principal variation from the root,
`(0,0) (1,0)` before, stops after `(0,0)`. -/
theorem C20_counterexample :
    node_deep.outcome = .P1 ∧ agent_deep.rootboard.to_play = .P1 ∧
    node_deep.children.map (fun c => (c.move, c.outcome, c.exp.num, c.children.length)) =
      [(⟨0, 0⟩, .P1, 10, 1), (⟨1, 0⟩, .UNKNOWN, 200000, 1)] ∧
    (agent_deep.garbage_collect node_deep .P1).1.children.map
      (fun c => (c.move, c.outcome, c.children.length)) =
      [(⟨0, 0⟩, .P1, 0), (⟨1, 0⟩, .UNKNOWN, 0)] ∧
    agent_deep.get_pv sc_zero [] = some [⟨0, 0⟩, ⟨1, 0⟩] ∧
    AgentMCTS.get_pv { agent_deep with root := (agent_deep.garbage_collect node_deep .P1).1 }
      sc_zero [] = some [⟨0, 0⟩] := by
  decide

/-- C20.  `garbage_collect(node, to_play)` on a node proven as the win of
`to_play` treats a child that is proven with that outcome and has children by
its playout count: with more than `gcsolved` playouts the child is recursed
into, otherwise its whole subtree is freed.  What every collection keeps:
`return_move` answers the same at the collected node as before, for either
side, and the principal variation of `get_pv` after the collection of the
root is a prefix of the one before. -/
theorem C20_gc_proof_path :
    ∀ (a : AgentMCTS) (sc : Scoring) (node : Node) (to_play : Side),
      (node.outcome.solved = true → node.outcome.is_side to_play = true →
        ∀ (pre : List Node) (child : Node) (post : List Node),
          node.children = pre ++ child :: post →
          child.outcome.is_side to_play = true → child.children ≠ [] →
          ∃ pre1 post1, pre1.length = pre.length ∧
            (a.garbage_collect node to_play).1.children =
              pre1 ++ (if child.exp.num > a.gcsolved then
                (a.garbage_collect child to_play.opp).1 else child.with_children []) :: post1) ∧
      (∀ t : Side,
        a.return_move sc (a.garbage_collect node to_play).1 t = a.return_move sc node t) ∧
      (∀ (t : Side) (moves l : List Move), a.pv_node sc node t moves = some l →
        ∃ l1, a.pv_node sc (a.garbage_collect node to_play).1 t moves = some l1 ∧
          List.IsPrefix l1 l) ∧
      (∀ (moves l : List Move), node = a.root → a.get_pv sc moves = some l →
        ∃ l1, AgentMCTS.get_pv { a with root := (a.garbage_collect node to_play).1 } sc moves =
            some l1 ∧ List.IsPrefix l1 l) := by
  intro a sc node to_play
  refine ⟨?_, fun t => return_move_gc a sc node to_play t,
    fun t moves l hl => pv_node_gc a a a rfl sc node.size node (le_refl _) to_play t moves l hl, ?_⟩
  · intro hs hw pre child post hch hcw hcc
    rw [(garbage_collect_node a node to_play).1, (with_children_fields node _).2.2.2.2.2.2.2,
      (gc_children_map a node.outcome to_play node.children).1, hch, List.map_append,
      List.map_cons]
    have h0 : ¬ child.children.length = 0 := fun h => hcc (List.length_eq_zero.1 h)
    have hk : a.gc_keep node.outcome to_play child = decide (child.exp.num > a.gcsolved) := by
      unfold AgentMCTS.gc_keep
      rw [hs, hw, hcw]
      simp
    have hchild : (if child.children.length = 0 then child
        else if a.gc_keep node.outcome to_play child then (a.garbage_collect child to_play.opp).1
        else child.with_children []) =
        (if child.exp.num > a.gcsolved then (a.garbage_collect child to_play.opp).1
          else child.with_children []) := by
      simp only [h0, if_false, hk, decide_eq_true_eq]
    rw [hchild]
    exact ⟨_, _, List.length_map _ _, rfl⟩
  · intro moves l hr hl
    subst hr
    unfold AgentMCTS.get_pv at hl ⊢
    simp only [Option.map_eq_some'] at hl ⊢
    obtain ⟨r, h1, h2⟩ := hl
    obtain ⟨r1, h3, h4⟩ := pv_node_gc a a { a with root := (a.garbage_collect a.root to_play).1 }
      rfl sc a.root.size a.root (le_refl _) to_play a.rootboard.to_play moves r h1
    have e1 := pv_node_nonempty a sc _ _ _ _ h1
    have e2 := pv_node_nonempty _ sc _ _ _ _ h3
    have e3 := gc_children_nil a a.root to_play
    refine ⟨_, ⟨r1, h3, rfl⟩, ?_⟩
    rw [← h2]
    by_cases hr : r = []
    · have hr1 : r1 = [] := e2.2 (e3.2 (e1.1 hr))
      rw [hr, hr1]
    · have hr1 : r1 ≠ [] := fun h => hr (e1.2 (e3.1 (e2.1 h)))
      rw [if_neg (by simpa [List.length_eq_zero] using hr1),
        if_neg (by simpa [List.length_eq_zero] using hr)]
      exact h4

set_option maxRecDepth 100000 in
/-- C20, witness: on `node_proof` the winning child `(0,0)` with its 150000
playouts is recursed into and keeps its child; on `node_deep` the principal
variation `(0,0) (1,0)` shortens to its prefix `(0,0)`. -/
theorem C20_gc_proof_path_witness :
    (∃ pre1 post1, pre1.length = 0 ∧
      (agent_deep.garbage_collect node_proof .P1).1.children =
        pre1 ++ (agent_deep.garbage_collect
          (.mk ⟨0, 0⟩ ⟨300000, 150000⟩ ⟨0, 0⟩ 0 .P1 2 ⟨1, 0⟩ [leaf ⟨1, 0⟩ 2 1 .P1])
          Side.P1.opp).1 :: post1) ∧
    ∃ l1, AgentMCTS.get_pv { agent_deep with root := (agent_deep.garbage_collect node_deep .P1).1 }
        sc_zero [] = some l1 ∧ List.IsPrefix l1 [⟨0, 0⟩, ⟨1, 0⟩] :=
  ⟨(C20_gc_proof_path agent_deep sc_zero node_proof .P1).1 (by decide) (by decide) []
      (.mk ⟨0, 0⟩ ⟨300000, 150000⟩ ⟨0, 0⟩ 0 .P1 2 ⟨1, 0⟩ [leaf ⟨1, 0⟩ 2 1 .P1]) [] rfl (by decide)
      (by simp [Node.children]),
    (C20_gc_proof_path agent_deep sc_zero node_deep .P1).2.2.2 [] [⟨0, 0⟩, ⟨1, 0⟩] rfl
      (by decide)⟩

end Y
end Morat

namespace Morat

set_option maxRecDepth 100000 in
/-- C11, counterexample.  On the board after `game10`, with rings checked and a
ring detector that always fires, the first player moves to `(3,2)`.  Before the
move the neighbours `(2,1)` (cell 7) and `(3,3)` (cell 18) lie in two distinct
groups; the move joins them into one group of 6 cells, which touches one
corner and no edge.  No win is awarded: the flag `alreadyjoined` is false, so
the detector is not asked. -/
theorem C11_counterexample :
    Havannah.Board.play Havannah.hexGrid Havannah.board3 Havannah.game10 =
      some Havannah.ring_board ∧
    Havannah.ring_board.check_rings = true ∧ Havannah.ring_board.to_play_ = .P1 ∧
    (find_group Havannah.ring_board.cells_ 7).1 ≠ (find_group Havannah.ring_board.cells_ 18).1 ∧
    ∃ b1, Havannah.ring_board.move_xy Havannah.hexGridRing ⟨3, 2⟩ true true = some (true, b1) ∧
      (find_group b1.cells_ 7).1 = (find_group b1.cells_ 18).1 ∧
      (find_group b1.cells_ 7).1 = (find_group b1.cells_ 13).1 ∧
      (b1.rep_cell (Havannah.ring_board.move_valid ⟨3, 2⟩)).size = 6 ∧
      (b1.rep_cell (Havannah.ring_board.move_valid ⟨3, 2⟩)).numedges = 0 ∧
      (b1.rep_cell (Havannah.ring_board.move_valid ⟨3, 2⟩)).numcorners = 1 ∧
      (place_stone Havannah.variant
        (Havannah.hexGridRing.neighbors_small 5 13) Havannah.ring_board.cells_ .P1 13 true).1 =
        false ∧
      b1.outcome_ = .UNKNOWN :=
  ⟨by decide, by decide, by decide, by decide,
    (Havannah.ring_board.move_body Havannah.hexGridRing
      (Havannah.ring_board.move_valid ⟨3, 2⟩) true true).2,
    by decide, by decide, by decide, by decide, by decide, by decide, by decide, by decide⟩

end Morat

namespace Morat

theorem has_pair_imp (R R1 : Nat → Nat → Prop) (h : ∀ a b, R a b → R1 a b) :
    ∀ l : List MoveValid, has_pair R l → has_pair R1 l := by
  intro l
  induction l with
  | nil => intro hx; exact hx
  | cons x xs ih =>
    intro hx
    simp only [has_pair] at hx ⊢
    rcases hx with ⟨y, hy, hr⟩ | hx
    · exact Or.inl ⟨y, hy, h _ _ hr⟩
    · exact Or.inr (ih hx)

theorem has_pair_split (R : Nat → Nat → Prop) (P : Nat → Prop) :
    ∀ l : List MoveValid, has_pair (fun a b => R a b ∨ (P a ∧ P b)) l →
      has_pair R l ∨ ∃ x ∈ l, P x.idx := by
  intro l
  induction l with
  | nil => intro hx; exact absurd hx (by simp [has_pair])
  | cons x xs ih =>
    intro hx
    simp only [has_pair] at hx ⊢
    rcases hx with ⟨y, hy, hr | hr⟩ | hx
    · exact Or.inl (Or.inl ⟨y, hy, hr⟩)
    · exact Or.inr ⟨x, List.mem_cons_self x xs, hr.1⟩
    · rcases ih hx with h1 | ⟨z, hz, hp⟩
      · exact Or.inl (Or.inr h1)
      · exact Or.inr ⟨z, List.mem_cons_of_mem x hz, hp⟩

theorem has_pair_congr_on (R R1 : Nat → Nat → Prop) :
    ∀ l : List MoveValid, (∀ a ∈ l, ∀ b ∈ l, (R a.idx b.idx ↔ R1 a.idx b.idx)) →
      (has_pair R l ↔ has_pair R1 l) := by
  intro l
  induction l with
  | nil => intro _; rfl
  | cons x xs ih =>
    intro h
    simp only [has_pair]
    have h1 := ih (fun a ha b hb => h a (List.mem_cons_of_mem x ha) b (List.mem_cons_of_mem x hb))
    rw [h1]
    constructor
    · rintro (⟨y, hy, hr⟩ | hx)
      · exact Or.inl ⟨y, hy, (h x (List.mem_cons_self x xs) y (List.mem_cons_of_mem x hy)).1 hr⟩
      · exact Or.inr hx
    · rintro (⟨y, hy, hr⟩ | hx)
      · exact Or.inl ⟨y, hy, (h x (List.mem_cons_self x xs) y (List.mem_cons_of_mem x hy)).2 hr⟩
      · exact Or.inr hx

section uf
variable {v : Variant} {nb : Nat → List MoveValid} {E C : Nat → Nat}

/-- The flag `alreadyjoined` of the neighbour loop of `move`: it is set when a
neighbour taken lies in the group of the new stone already, that is in the
group of a neighbour taken before. -/
theorem join_flag_spec {n : Nat} (hok : NbrOK nb n) (turn : Side)
    (hturn : turn.isPlayer = true) (p : Nat) (hp : p < n) :
    ∀ (l : List MoveValid) (skip : Bool) (st : Bool × List Cell) (rep rank : Nat → Nat)
      (prev : MoveValid),
      st.2.length = n →
      CellsInv v nb E C st.2 (fun k => k = p) rep rank →
      get st.2 p = turn →
      (∀ m ∈ l, m.on_board = true → IsNbr nb p m.idx) →
      ring_ok nb l = true →
      (skip = true → prev.on_board = true ∧ get st.2 prev.idx = turn ∧ IsNbr nb p prev.idx ∧
        rep prev.idx = rep p ∧
        ∀ m ∈ l.head?, prev.on_board = true → m.on_board = true → IsNbr nb prev.idx m.idx) →
      ((join_neighbors v turn p l skip st).1 = true ↔
        (st.1 = true ∨ (∃ m ∈ taken_neighbors turn st.2 l skip, rep m.idx = rep p) ∨
          has_pair (fun a b => rep a = rep b) (taken_neighbors turn st.2 l skip))) := by
  intro l
  induction l with
  | nil =>
    intro skip st rep rank prev hlen hinv hgp hnb hch hsk
    cases skip <;> simp [join_neighbors, taken_neighbors, has_pair]
  | cons m rest ih =>
    intro skip st rep rank prev hlen hinv hgp hnb hch hsk
    have hnbrest : ∀ m1 ∈ rest, m1.on_board = true → IsNbr nb p m1.idx :=
      fun m1 hm1 => hnb m1 (List.mem_cons_of_mem _ hm1)
    have hchrest : ring_ok nb rest = true := ring_ok_tail nb m rest hch
    cases skip with
    | true =>
      have := ih false st rep rank prev hlen hinv hgp hnbrest hchrest
        (fun hx => absurd hx (by simp))
      simpa [join_neighbors, taken_neighbors] using this
    | false =>
      by_cases hc : (m.on_board && turn == get st.2 m.idx) = true
      · have hob : m.on_board = true := by
          simp only [Bool.and_eq_true] at hc; exact hc.1
        have hgm : get st.2 m.idx = turn := by
          simp only [Bool.and_eq_true, beq_iff_eq] at hc; exact hc.2.symm
        have hpm : IsNbr nb p m.idx := hnb m (by simp) hob
        have hml : m.idx < n := by
          obtain ⟨q, hq, hqo, hqi⟩ := hpm
          rw [← hqi]; exact hok.idx_lt p hp q hq hqo
        have hadj : Adj nb st.2 p m.idx :=
          ⟨by rw [hlen]; exact hp, by rw [hlen]; exact hml, by rw [hgp]; exact hturn,
            by rw [hgp, hgm], hpm⟩
        obtain ⟨hj1, big, rankj, hbig, hinvj⟩ := join_groups_spec hinv p m.idx
          (by rw [hlen]; exact hp) (by rw [hlen]; exact hml) (by rw [hgp]; exact hturn)
          (Relation.ReflTransGen.single hadj)
        have hst : SameStatic (join_groups v st.2 p m.idx).2 st.2 :=
          fun k => join_groups_static v st.2 p m.idx k
        have hlj : (join_groups v st.2 p m.idx).2.length = n := by
          rw [join_groups_length]; exact hlen
        have hrp : rep p = rep p ∨ rep p = rep m.idx := Or.inl rfl
        have hih := ih true (st.1 || (join_groups v st.2 p m.idx).1, (join_groups v st.2 p m.idx).2)
            _ rankj m hlj hinvj (by rw [hst.static_get]; exact hgp) hnbrest hchrest
            (fun _ => ⟨hob, by rw [hst.static_get]; exact hgm, hpm, by simp [hrp],
              fun m1 hm1 => by
                cases rest with
                | nil => simp at hm1
                | cons a rest1 =>
                  simp at hm1; subst hm1
                  exact ring_ok_head nb m a rest1 hch⟩)
        have hjn : join_neighbors v turn p (m :: rest) false st =
            join_neighbors v turn p rest true
              (st.1 || (join_groups v st.2 p m.idx).1, (join_groups v st.2 p m.idx).2) := by
          simp only [join_neighbors, hc, if_true]
        have htk : taken_neighbors turn st.2 (m :: rest) false =
            m :: taken_neighbors turn st.2 rest true := by
          simp only [taken_neighbors, hc, if_true]
        have htk2 : taken_neighbors turn (join_groups v st.2 p m.idx).2 rest true =
            taken_neighbors turn st.2 rest true := taken_congr turn _ _ hst.static_get rest true
        -- the representatives after the join
        have hrep : ∀ a b : Nat,
            ((if rep a = rep p ∨ rep a = rep m.idx then big else rep a) =
              (if rep b = rep p ∨ rep b = rep m.idx then big else rep b)) ↔
            (rep a = rep b ∨ ((rep a = rep p ∨ rep a = rep m.idx) ∧
              (rep b = rep p ∨ rep b = rep m.idx))) := by
          intro a b
          by_cases ha : rep a = rep p ∨ rep a = rep m.idx
          · by_cases hb : rep b = rep p ∨ rep b = rep m.idx
            · simp [ha, hb]
            · rw [if_pos ha, if_neg hb]
              constructor
              · intro hx
                rcases hbig with h1 | h1
                · exact absurd (hx.symm.trans h1) (fun h => hb (Or.inl h))
                · exact absurd (hx.symm.trans h1) (fun h => hb (Or.inr h))
              · rintro (hx | ⟨-, hx⟩)
                · exact absurd (hx ▸ ha) hb
                · exact absurd hx hb
          · rw [if_neg ha]
            by_cases hb : rep b = rep p ∨ rep b = rep m.idx
            · rw [if_pos hb]
              constructor
              · intro hx
                rcases hbig with h1 | h1
                · exact absurd (hx.trans h1) (fun h => ha (Or.inl h))
                · exact absurd (hx.trans h1) (fun h => ha (Or.inr h))
              · rintro (hx | ⟨hx, -⟩)
                · exact absurd (hx ▸ hb) ha
                · exact absurd hx ha
            · rw [if_neg hb]
              constructor
              · exact fun hx => Or.inl hx
              · rintro (hx | ⟨hx, -⟩)
                · exact hx
                · exact absurd hx ha
        have hrepp : ∀ a : Nat,
            ((if rep a = rep p ∨ rep a = rep m.idx then big else rep a) =
              (if True ∨ rep p = rep m.idx then big else rep p)) ↔
            (rep a = rep p ∨ rep a = rep m.idx) := by
          intro a
          have h1 := hrep a p
          simp only [eq_self_iff_true] at h1
          rw [h1]
          constructor
          · rintro (hx | ⟨hx, -⟩)
            · exact Or.inl hx
            · exact hx
          · exact fun hx => Or.inr ⟨hx, Or.inl trivial⟩
        rw [hjn, htk, hih, htk2]
        simp only [Bool.or_eq_true, hj1, decide_eq_true_eq, List.mem_cons, has_pair]
        constructor
        · rintro ((h1 | h1) | ⟨x, hx, h1⟩ | h1)
          · exact Or.inl h1
          · exact Or.inr (Or.inl ⟨m, Or.inl rfl, h1.symm⟩)
          · rcases (hrepp x.idx).1 h1 with h2 | h2
            · exact Or.inr (Or.inl ⟨x, Or.inr hx, h2⟩)
            · exact Or.inr (Or.inr (Or.inl ⟨x, hx, h2.symm⟩))
          · rcases has_pair_split (fun a b => rep a = rep b)
              (fun a => rep a = rep p ∨ rep a = rep m.idx) _
              (has_pair_imp _ _ (fun a b hab => (hrep a b).1 hab) _ h1) with h2 | ⟨x, hx, h2 | h2⟩
            · exact Or.inr (Or.inr (Or.inr h2))
            · exact Or.inr (Or.inl ⟨x, Or.inr hx, h2⟩)
            · exact Or.inr (Or.inr (Or.inl ⟨x, hx, h2.symm⟩))
        · rintro (h1 | ⟨x, hx | hx, h1⟩ | ⟨y, hy, h1⟩ | h1)
          · exact Or.inl (Or.inl h1)
          · subst hx; exact Or.inl (Or.inr h1.symm)
          · exact Or.inr (Or.inl ⟨x, hx, (hrepp x.idx).2 (Or.inl h1)⟩)
          · exact Or.inr (Or.inl ⟨y, hy, (hrepp y.idx).2 (Or.inr h1.symm)⟩)
          · exact Or.inr (Or.inr (has_pair_imp _ _ (fun a b hab => (hrep a b).2 (Or.inl hab)) _ h1))
      · have hcf : (m.on_board && turn == get st.2 m.idx) = false := by
          cases hx : (m.on_board && turn == get st.2 m.idx)
          · rfl
          · exact absurd hx hc
        have := ih false st rep rank prev hlen hinv hgp hnbrest hchrest
          (fun hx => absurd hx (by simp))
        have hjn : join_neighbors v turn p (m :: rest) false st =
            join_neighbors v turn p rest false st := by
          simp only [join_neighbors, hcf]; rfl
        have htk : taken_neighbors turn st.2 (m :: rest) false =
            taken_neighbors turn st.2 rest false := by
          simp only [taken_neighbors, hcf]; rfl
        rw [hjn, htk]
        exact this

end uf
end Morat

namespace Morat

section uf
variable {v : Variant} {nb : Nat → List MoveValid} {E C : Nat → Nat} {cells : List Cell}
  {rep rank : Nat → Nat}

/-- The flag `alreadyjoined` that `move` computes: the new stone at `p`
touches one group of the board through two of the neighbours that the loop
takes. -/
theorem place_flag {n : Nat} (hok : NbrOK nb n) (hn : cells.length = n)
    (h : CellsInv v nb E C cells (fun _ => False) rep rank) (p : Nat) (hp : p < n)
    (hemp : (get cells p).isPlayer = false)
    (hsym : ∀ j, j < n → IsNbr nb p j → IsNbr nb j p)
    (turn : Side) (hturn : turn.isPlayer = true) (permanent : Bool) :
    (place_stone v (nb p) cells turn p permanent).1 = true ↔
      has_pair (Connected nb cells) (taken_neighbors turn cells (nb p) false) := by
  have hpl : p < cells.length := by rw [hn]; exact hp
  unfold place_stone
  generalize (if permanent = true then 1 else 0) = q
  have h1 := h.place p hpl hemp (by rw [hn]; exact hsym) turn q
  have hl1 : (cells.set p { cellAt cells p with piece := turn, perm := q }).length = n := by
    simpa using hn
  have hgp : get (cells.set p { cellAt cells p with piece := turn, perm := q }) p = turn :=
    get_set_self _ _ _ hpl
  have hgo : ∀ m ∈ nb p, m.on_board = true →
      get (cells.set p { cellAt cells p with piece := turn, perm := q }) m.idx = get cells m.idx :=
    fun m hm ho => get_set_ne _ _ _ _ (hok.irrefl p hp m hm ho)
  have htk := taken_congr_on turn _ _ (nb p) false hgo
  have hf := join_flag_spec (v := v) (E := E) (C := C) hok turn hturn p hp (nb p) false
      (false, cells.set p { cellAt cells p with piece := turn, perm := q }) rep rank default
      hl1 h1 hgp (fun m hm ho => ⟨m, hm, ho, rfl⟩) (hok.ring p hp)
      (fun hx => absurd hx (by simp))
  rw [hf, htk]
  simp only [Bool.false_eq_true, false_or]
  have hmem : ∀ m ∈ taken_neighbors turn cells (nb p) false, m.idx < n ∧ m.idx ≠ p := by
    intro m hm
    obtain ⟨hm1, hm2, -⟩ := taken_mem turn cells (nb p) false m hm
    exact ⟨hok.idx_lt p hp m hm1 hm2, hok.irrefl p hp m hm1 hm2⟩
  have hcon := has_pair_congr_on (fun a b => rep a = rep b) (Connected nb cells)
    (taken_neighbors turn cells (nb p) false) (by
      intro a ha b hb
      have := find_group_iff_connected hn h a.idx b.idx (hmem a ha).1 (hmem b hb).1
      rw [find_group_fst h a.idx (by rw [hn]; exact (hmem a ha).1),
        find_group_fst h b.idx (by rw [hn]; exact (hmem b hb).1)] at this
      exact this)
  rw [← hcon]
  constructor
  · rintro (⟨m, hm, hr⟩ | hx)
    · exact absurd (h.single p hpl hemp m.idx (by rw [hn]; exact (hmem m hm).1) hr) (hmem m hm).2
    · exact hx
  · exact fun hx => Or.inr hx

end uf

namespace Havannah

/-- Outside the guard of the ring check the answer of the detector is not
used. -/
theorem check_win_indep (G : Grid) (df : Int → List Cell → Int → MoveValid → Side → Bool)
    (b : Board) (cells : List Cell) (pos : MoveValid) (g : Cell) (aj : Bool)
    (h : ¬ (g.numedges < 3 ∧ g.numcorners < 2 ∧ b.check_rings = true ∧ aj = true ∧ 6 ≤ g.size)) :
    Board.check_win { G with checkring_df := df } b cells pos g aj =
      Board.check_win G b cells pos g aj := by
  unfold Board.check_win
  by_cases h1 : g.numedges ≥ 3
  · rw [if_pos h1, if_pos h1]
  · rw [if_neg h1, if_neg h1]
    by_cases h2 : g.numcorners ≥ 2
    · rw [if_pos h2, if_pos h2]
    · rw [if_neg h2, if_neg h2]
      have h3 : (b.check_rings && aj && decide (g.size ≥ 6)) = false := by
        cases hc : b.check_rings
        · rfl
        · cases ha : aj
          · rfl
          · by_cases h6 : 6 ≤ g.size
            · exact absurd ⟨by omega, by omega, hc, ha, h6⟩ h
            · simp [h6]
      simp only [h3, Bool.false_and]

end Havannah
end Morat

namespace Morat

/-- C11.  Havannah board, a legal move `m` of the side to move on a reachable
board, made with `checkwin = true`; `g` is the representative of the group of
the new stone after the joins and `alreadyjoined` the flag of the neighbour
loop.  When `g` has fewer than 3 edges and fewer than 2 corners, `check_rings`
is set, `alreadyjoined` is set and `g.size >= 6`, the answer of
`checkring_df` decides: `true` makes the outcome the win of the mover with
`win_type` 2, `false` leaves no win.  When one of these five conditions
fails, the move gives the same board whatever detector is put in the place of
`checkring_df`: it is not asked.  And `alreadyjoined` is set exactly when some
`join_groups` call found the neighbour in the group of the new stone already,
that is when two of the neighbours the loop takes lie in one group of the
board before the move. -/
theorem C11_ring_check_guard :
    ∀ (G : Havannah.Grid) (s : Int) (b : Havannah.Board), Havannah.valid_size s = true →
      Havannah.GridOK G (s * 2 - 1) → Havannah.Reachable G s b →
      ∀ (m : Move) (permanent : Bool), b.valid_move_xy G m = true →
      ∃ b1, b.move_xy G m true permanent = some (true, b1) ∧
        (((b1.rep_cell (b.move_valid m)).numedges < 3 ∧
            (b1.rep_cell (b.move_valid m)).numcorners < 2 ∧ b.check_rings = true ∧
            (place_stone Havannah.variant (G.neighbors_small b.size_ (b.move_valid m).idx)
              b.cells_ b.to_play_ (b.move_valid m).idx permanent).1 = true ∧
            6 ≤ (b1.rep_cell (b.move_valid m)).size) →
          (G.checkring_df b.size_ b1.cells_ b.perm_rings (b.move_valid m) b.to_play_ = true →
            b1.outcome_ = Outcome.ofSide b.to_play_ ∧ b1.win_type_ = 2) ∧
          (G.checkring_df b.size_ b1.cells_ b.perm_rings (b.move_valid m) b.to_play_ = false →
            b1.outcome_ ≠ Outcome.ofSide b.to_play_ ∧ b1.win_type_ = b.win_type_)) ∧
        (¬ ((b1.rep_cell (b.move_valid m)).numedges < 3 ∧
            (b1.rep_cell (b.move_valid m)).numcorners < 2 ∧ b.check_rings = true ∧
            (place_stone Havannah.variant (G.neighbors_small b.size_ (b.move_valid m).idx)
              b.cells_ b.to_play_ (b.move_valid m).idx permanent).1 = true ∧
            6 ≤ (b1.rep_cell (b.move_valid m)).size) →
          ∀ df, Havannah.Board.move_xy { G with checkring_df := df } b m true permanent =
            some (true, b1)) ∧
        ((place_stone Havannah.variant (G.neighbors_small b.size_ (b.move_valid m).idx)
            b.cells_ b.to_play_ (b.move_valid m).idx permanent).1 = true ↔
          has_pair (Connected (G.neighbors_small b.size_) b.cells_)
            (taken_neighbors b.to_play_ b.cells_
              (G.neighbors_small b.size_ (b.move_valid m).idx) false)) := by
  intro G s b hs hG hb m permanent hv
  have hinv := Havannah.h_reachable_inv G s hs hG b hb
  obtain ⟨ho, hob, hlt, hidx, hget, hvm, hsym⟩ := Havannah.h_legal_facts G s hs hG b hinv m hv
  obtain ⟨rep, rank, hc⟩ := hinv.cells
  have hltn : (b.move_valid m).idx < ((s * 2 - 1) * (s * 2 - 1)).toNat := by
    rw [← hinv.len]; exact hlt
  obtain ⟨rep2, rank2, r1, r2, r3, r4, r5, r6⟩ :=
    place_spec hG.nbr hinv.len hc (b.move_valid m).idx hltn (by rw [hget]; rfl) hsym b.to_play_
      hinv.to_play permanent
  have hfl := place_flag hG.nbr hinv.len hc (b.move_valid m).idx hltn (by rw [hget]; rfl) hsym
    b.to_play_ hinv.to_play permanent
  have hag := find_group_again r3 (b.move_valid m).idx (by rw [r1]; exact hltn)
  rw [← hinv.size_eq] at hag hfl
  have hsolved : b.outcome_.solved = false := by rw [ho]; rfl
  have hne1 : Outcome.DRAW ≠ Outcome.ofSide b.to_play_ := by
    have := hinv.to_play
    cases h : b.to_play_ <;> simp_all [Outcome.ofSide, Side.isPlayer]
  have hne2 : Outcome.UNKNOWN ≠ Outcome.ofSide b.to_play_ := by
    have := hinv.to_play
    cases h : b.to_play_ <;> simp_all [Outcome.ofSide, Side.isPlayer]
  refine ⟨(b.move_body G (b.move_valid m) true permanent).2, ?_, ?_, ?_, hfl⟩
  · rw [Havannah.h_move_xy_legal G s hs hG b hinv m hv true permanent,
      Havannah.h_move_body_valid G b _ true permanent hvm]
  · unfold Havannah.Board.rep_cell
    rw [Havannah.h_move_body_valid G b _ true permanent hvm]
    simp only [if_true]
    rw [hag]
    unfold Havannah.Board.check_win
    simp only [ge_iff_le, ho]
    rintro ⟨h1, h2, h3, h4, h5⟩
    constructor
    · intro h6
      rw [if_neg (by omega), if_neg (by omega), if_pos (by simp [h3, h4, h5, h6])]
      exact ⟨rfl, rfl⟩
    · intro h6
      rw [if_neg (by omega), if_neg (by omega), if_neg (by simp [h6])]
      split
      · exact ⟨hne1, rfl⟩
      · exact ⟨hne2, rfl⟩
  · intro hng df
    unfold Havannah.Board.move_xy Havannah.Board.move
    rw [hsolved]
    simp only [Bool.false_eq_true, if_false]
    rw [Havannah.h_move_body_valid _ b _ true permanent hvm,
      Havannah.h_move_body_valid G b _ true permanent hvm]
    simp only [if_true]
    unfold Havannah.Board.rep_cell at hng
    rw [Havannah.h_move_body_valid G b _ true permanent hvm] at hng
    simp only [if_true] at hng
    rw [hag] at hng
    rw [Havannah.check_win_indep G df _ _ _ _ _ ?_]
    · rfl
    · exact hng

set_option maxRecDepth 100000 in
/-- C11, witness: the move `(3,2)` of the counterexample, where the flag is
not set and any detector gives the same board, and the fifth move of the
sample game. -/
theorem C11_ring_check_guard_witness :
    (∃ b1, Havannah.ring_board.move_xy Havannah.hexGrid ⟨3, 2⟩ true true = some (true, b1) ∧
      (∀ df, Havannah.Board.move_xy { Havannah.hexGrid with checkring_df := df }
        Havannah.ring_board ⟨3, 2⟩ true true = some (true, b1)) ∧
      ¬ has_pair (Connected (Havannah.hexGrid.neighbors_small 5) Havannah.ring_board.cells_)
        (taken_neighbors .P1 Havannah.ring_board.cells_
          (Havannah.hexGrid.neighbors_small 5 13) false)) :=
  (C11_ring_check_guard Havannah.hexGrid 3 Havannah.ring_board (by decide) Havannah.h_hexGrid_ok
    (Havannah.h_play_reachable Havannah.hexGrid 3 Havannah.game10 Havannah.board3 _
      (Havannah.Reachable.create (by decide)) (by decide)) ⟨3, 2⟩ true (by decide)).imp
    fun b1 h => ⟨h.1,
      h.2.2.1 (fun hg => absurd (h.2.2.2.1 hg.2.2.2.1) (by
        rw [← h.2.2.2]
        decide)),
      fun hp => absurd (h.2.2.2.2 hp) (by decide)⟩

end Morat

namespace Morat
namespace Y

/-! ## The node counter -/

/-- What `garbage_collect` frees is what the tree loses. -/
theorem gc_size (a : AgentMCTS) :
    ∀ (k : Nat) (n : Node), n.size ≤ k → ∀ tp : Side,
      (a.garbage_collect n tp).1.size + (a.garbage_collect n tp).2 = n.size := by
  intro k
  induction k using Nat.strong_induction_on with
  | _ k ih =>
    intro n hk tp
    have hl : ∀ (l : List Node) (o : Outcome) (t : Side), Node.size_list l ≤ n.size →
        Node.size_list (a.gc_children o l t).1 + (a.gc_children o l t).2 = Node.size_list l := by
      intro l
      induction l with
      | nil => intro o t _; simp [AgentMCTS.gc_children, Node.size_list]
      | cons c cs ihl =>
        intro o t hsz
        simp only [Node.size_list] at hsz
        have h1 := ihl o t (by omega)
        simp only [AgentMCTS.gc_children]
        by_cases h0 : c.children.length = 0
        · simp only [h0, if_true, Node.size_list]
          omega
        · simp only [h0, if_false]
          by_cases hkp : a.gc_keep o t c = true
          · simp only [hkp, if_true, Node.size_list]
            have h2 := ih c.size (by omega) c (le_refl _) t.opp
            omega
          · simp only [hkp, Bool.false_eq_true, if_false, Node.size_list, Node.dealloc]
            rw [size_with_children]
            simp only [Node.size_list]
            omega
    rw [(garbage_collect_node a n tp).1, (garbage_collect_node a n tp).2, size_with_children]
    rw [size_eq_children n]
    exact hl n.children n.outcome tp (by rw [size_eq_children n])

/-- Replacing a subtree changes the size of the tree by the difference of the
sizes of the two subtrees. -/
theorem subst_size (new : Node) :
    ∀ (path : List Nat) (root n : Node), root.get_at path = some n →
      (root.subst path new).size + n.size = root.size + new.size := by
  intro path
  induction path with
  | nil =>
    intro root n h
    obtain ⟨m, e, r, k, o, d, b, c⟩ := root
    simp only [Node.get_at, Option.some.injEq] at h
    simp only [Node.subst]
    rw [← h]; omega
  | cons i rest ih =>
    intro root n h
    obtain ⟨m, e, r, k, o, d, b, c⟩ := root
    simp only [Node.get_at] at h
    simp only [Node.subst, Node.size]
    have hl : ∀ (l : List Node) (j : Nat), Node.get_list l j rest = some n →
        Node.size_list (Node.subst_list l j rest new) + n.size =
          Node.size_list l + new.size := by
      intro l
      induction l with
      | nil => intro j hj; simp [Node.get_list] at hj
      | cons x xs ihl =>
        intro j hj
        cases j with
        | zero =>
          simp only [Node.get_list] at hj
          simp only [Node.subst_list, Node.size_list]
          have := ih x n hj
          omega
        | succ j =>
          simp only [Node.get_list] at hj
          simp only [Node.subst_list, Node.size_list]
          have := ihl j hj
          omega
    exact hl c i h

theorem size_fresh_of (fresh : Node) (hf : fresh.children = []) : fresh.size = 0 := by
  rw [size_eq_children, hf]; rfl

theorem size_new_root (a : AgentMCTS) (r : Node) (rb : Board) :
    (a.new_root r rb).size = r.size := by
  rw [size_eq_children, (new_root_fields a r rb).2.2.2.2.1, ← size_eq_children]

theorem size_map_of_move (moves : List Move) :
    Node.size_list (moves.map Node.of_move) = moves.length := by
  induction moves with
  | nil => rfl
  | cons m ms ih =>
    simp only [List.map_cons, Node.size_list, ih, List.length_cons]
    have : (Node.of_move m).size = 0 := rfl
    omega

/-- The first child with move `m`, or none of the children has that move. -/
theorem first_child_split (m : Move) (l : List Node) :
    (∀ x ∈ l, x.move ≠ m) ∨
      ∃ pre c post, l = pre ++ c :: post ∧ (∀ x ∈ pre, x.move ≠ m) ∧ c.move = m := by
  induction l with
  | nil => exact Or.inl (fun x hx => absurd hx (List.not_mem_nil x))
  | cons y ys ih =>
    by_cases hy : y.move = m
    · exact Or.inr ⟨[], y, ys, rfl, fun x hx => absurd hx (List.not_mem_nil x), hy⟩
    · rcases ih with h | ⟨pre, c, post, h1, h2, h3⟩
      · left
        intro x hx
        rcases List.mem_cons.1 hx with rfl | hx
        · exact hy
        · exact h x hx
      · right
        refine ⟨y :: pre, c, post, by rw [h1]; rfl, ?_, h3⟩
        intro x hx
        rcases List.mem_cons.1 hx with rfl | hx
        · exact hy
        · exact h2 x hx

/-- `AgentMCTS::move` keeps the counter equal to the size of the tree. -/
theorem move_counter (G : Grid) (fresh : Node) (hf : fresh.children = []) (a : AgentMCTS)
    (hn : a.nodes = a.root.size) (m : Move) (rb : Bool × Board)
    (hrb : a.rootboard.move_xy G m true = some rb) :
    ∃ a1, a.move G fresh m = some a1 ∧ a1.nodes = a1.root.size ∧
      a1.root.size ≤ a.root.size := by
  by_cases hk : a.keeptree = false ∨ a.root.children = []
  · refine ⟨_, move_fresh G fresh a m hf hk hn rb hrb, ?_, ?_⟩
    · simp only
      rw [size_new_root, size_with_move, size_fresh_of fresh hf]
    · simp only
      rw [size_new_root, size_with_move, size_fresh_of fresh hf]
      exact Nat.zero_le _
  · have hk1 : a.keeptree = true := by
      cases hh : a.keeptree
      · exact absurd (Or.inl hh) hk
      · rfl
    have hne : a.root.children ≠ [] := fun hh => hk (Or.inr hh)
    rcases first_child_split m a.root.children with hall | ⟨pre, c, post, h1, h2, h3⟩
    · refine ⟨_, move_no_match G fresh a m hf hk1 hne hall hn rb hrb, ?_, ?_⟩
      · simp only
        rw [size_new_root, size_fresh_of fresh hf]
      · simp only
        rw [size_new_root, size_fresh_of fresh hf]
        exact Nat.zero_le _
    · refine ⟨_, move_reuse G fresh a m pre c post hk1 h1 h2 h3 hn rb hrb, ?_, ?_⟩
      · simp only
        rw [size_new_root]
      · simp only
        rw [size_new_root, size_eq_children a.root, h1, size_list_append]
        simp only [Node.size_list]
        omega

end Y
end Morat

namespace Morat
namespace Y

/-- C21.  The counter `nodes` equals `root.size()` after the constructor of
`AgentMCTS`, and from a state in which it does, `set_board`, `move`,
`garbage_collect` and `create_children_simple` lead to a state in which it
does again, each changing the counter by the number of nodes it frees or
allocates: `set_board` frees the whole tree and leaves a childless root and
the counter `0`; `move` succeeds whenever `rootboard.move` does and lowers
the counter by the difference of the tree sizes; `garbage_collect` on any
node of the tree frees what that subtree loses; `create_children_simple` on
any node of the tree adds as many nodes as it allocates children,
`board.moves_avail()`.  `fresh` is the value of `Node()`, a node without
children. -/
theorem C21_node_count :
    ∀ (G : Grid) (fresh : Node), fresh.children = [] →
      (∀ b : Board, (AgentMCTS.create fresh b).nodes = (AgentMCTS.create fresh b).root.size) ∧
      ∀ a : AgentMCTS, a.nodes = a.root.size →
        (∀ board : Board,
          (a.set_board fresh board).nodes = (a.set_board fresh board).root.size ∧
          (a.set_board fresh board).nodes + a.root.dealloc.1 = a.nodes ∧
          (a.set_board fresh board).nodes = 0 ∧
          (a.set_board fresh board).root.children = []) ∧
        (∀ (m : Move) (rb : Bool × Board), a.rootboard.move_xy G m true = some rb →
          ∃ a1, a.move G fresh m = some a1 ∧ a1.nodes = a1.root.size ∧
            a1.nodes + (a.root.size - a1.root.size) = a.nodes) ∧
        (∀ (path : List Nat) (n : Node) (tp : Side), a.root.get_at path = some n →
          (a.garbage_collect n tp).1.size + (a.garbage_collect n tp).2 = n.size ∧
          (a.garbage_collect n tp).2 ≤ a.nodes ∧
          (a.root.subst path (a.garbage_collect n tp).1).size =
            a.nodes - (a.garbage_collect n tp).2) ∧
        (∀ (path : List Nat) (n : Node) (moves : List Move) (board : Board) (r : Node × Nat),
          a.root.get_at path = some n →
          AgentMCTS.create_children_simple moves board n = some r →
          r.2 = r.1.children.length ∧ (r.2 : Int) = board.moves_avail ∧
          r.1.size = n.size + r.2 ∧ (a.root.subst path r.1).size = a.nodes + r.2) := by
  intro G fresh hf
  refine ⟨fun b => (size_fresh_of fresh hf).symm, ?_⟩
  intro a hn
  have hfs := size_fresh_of fresh hf
  refine ⟨?_, ?_, ?_, ?_⟩
  · intro board
    have h1 : (a.set_board fresh board).nodes = 0 := by
      simp only [AgentMCTS.set_board, Node.dealloc, hn, Nat.sub_self]
    have h2 : (a.set_board fresh board).root.size = 0 := by
      simp only [AgentMCTS.set_board]
      rw [size_with_exp, hfs]
    have h3 : (a.set_board fresh board).root.children = [] := by
      have : Node.size_list (a.set_board fresh board).root.children = 0 := by
        rw [← size_eq_children]; exact h2
      cases hc : (a.set_board fresh board).root.children with
      | nil => rfl
      | cons x xs => rw [hc] at this; simp only [Node.size_list] at this; omega
    refine ⟨h1.trans h2.symm, ?_, h1, h3⟩
    rw [h1]
    simp only [Node.dealloc, hn, Nat.zero_add]
  · intro m rb hrb
    obtain ⟨a1, h1, h2, h3⟩ := move_counter G fresh hf a hn m rb hrb
    refine ⟨a1, h1, h2, ?_⟩
    rw [h2, hn]
    omega
  · intro path n tp hp
    have h1 := gc_size a n.size n (le_refl _) tp
    have h2 := subst_size (a.garbage_collect n tp).1 path a.root n hp
    have h3 := subst_size (n.with_children []) path a.root n hp
    rw [size_with_children] at h3
    simp only [Node.size_list] at h3
    refine ⟨h1, ?_, ?_⟩
    · rw [hn]; omega
    · rw [hn]; omega
  · intro path n moves board r hp hr
    unfold AgentMCTS.create_children_simple at hr
    by_cases hc : (!n.children.isEmpty) = true
    · rw [if_pos hc] at hr; exact absurd hr (by simp)
    · rw [if_neg hc] at hr
      by_cases hm : (moves.length : Int) ≠ board.moves_avail
      · rw [if_pos hm] at hr; exact absurd hr (by simp)
      · rw [if_neg hm] at hr
        simp only [Option.some.injEq] at hr
        have hce : n.children = [] := by
          cases hh : n.children with
          | nil => rfl
          | cons x xs => rw [hh] at hc; simp at hc
        have hn0 : n.size = 0 := by rw [size_eq_children, hce]; rfl
        have hsz : (n.with_children (moves.map Node.of_move)).size = moves.length := by
          rw [size_with_children, size_map_of_move]
        have h2 := subst_size (n.with_children (moves.map Node.of_move)) path a.root n hp
        rw [← hr]
        simp only
        refine ⟨?_, ?_, ?_, ?_⟩
        · rw [(with_children_fields n _).2.2.2.2.2.2.2, List.length_map]
        · exact not_not.1 hm
        · rw [hsz, hn0, Nat.zero_add]
        · rw [hn]; omega

set_option maxRecDepth 100000 in
/-- C21, witness: the sample agent, whose tree has three nodes.  `set_board`
and the move `(2,0)` leave a single root, `garbage_collect` at the root frees
nothing of the three leaves, and `create_children_simple` on the first leaf
with the ten cells of the empty board adds ten nodes. -/
theorem C21_node_count_witness :
    Node.fresh.children = [] ∧ agent_sample.nodes = agent_sample.root.size ∧
    board4.move_xy triGrid ⟨2, 0⟩ true =
      some (board4.move_body triGrid (board4.move_valid ⟨2, 0⟩) true) ∧
    agent_sample.root.get_at [] = some node_sample ∧
    agent_sample.root.get_at [0] = some (leaf ⟨0, 0⟩ 0 10 .DRAW) ∧
    AgentMCTS.create_children_simple
        cells4
        board4 (leaf ⟨0, 0⟩ 0 10 .DRAW) =
      some ((leaf ⟨0, 0⟩ 0 10 .DRAW).with_children
        (cells4.map Node.of_move), 10) ∧
    ((agent_sample.set_board Node.fresh board4).nodes =
        (agent_sample.set_board Node.fresh board4).root.size ∧
      (agent_sample.set_board Node.fresh board4).nodes + agent_sample.root.dealloc.1 =
        agent_sample.nodes ∧
      (agent_sample.set_board Node.fresh board4).nodes = 0 ∧
      (agent_sample.set_board Node.fresh board4).root.children = []) ∧
    (∃ a1, agent_sample.move triGrid Node.fresh ⟨2, 0⟩ = some a1 ∧ a1.nodes = a1.root.size ∧
      a1.nodes + (agent_sample.root.size - a1.root.size) = agent_sample.nodes) ∧
    ((agent_sample.garbage_collect node_sample .P1).1.size +
        (agent_sample.garbage_collect node_sample .P1).2 = node_sample.size ∧
      (agent_sample.garbage_collect node_sample .P1).2 ≤ agent_sample.nodes ∧
      (agent_sample.root.subst [] (agent_sample.garbage_collect node_sample .P1).1).size =
        agent_sample.nodes - (agent_sample.garbage_collect node_sample .P1).2) ∧
    ((10 : Nat) = ((leaf ⟨0, 0⟩ 0 10 .DRAW).with_children
        (cells4.map Node.of_move)).children.length ∧
      ((10 : Nat) : Int) = board4.moves_avail ∧
      ((leaf ⟨0, 0⟩ 0 10 .DRAW).with_children
        (cells4.map Node.of_move)).size = (leaf ⟨0, 0⟩ 0 10 .DRAW).size + 10 ∧
      (agent_sample.root.subst [0] ((leaf ⟨0, 0⟩ 0 10 .DRAW).with_children
        (cells4.map Node.of_move))).size = agent_sample.nodes + 10) :=
  ⟨rfl, by decide, by decide, rfl, rfl, rfl,
    ((C21_node_count triGrid Node.fresh rfl).2 agent_sample (by decide)).1 board4,
    ((C21_node_count triGrid Node.fresh rfl).2 agent_sample (by decide)).2.1 ⟨2, 0⟩
      (board4.move_body triGrid (board4.move_valid ⟨2, 0⟩) true) (by decide),
    ((C21_node_count triGrid Node.fresh rfl).2 agent_sample (by decide)).2.2.1 [] node_sample .P1
      rfl,
    ((C21_node_count triGrid Node.fresh rfl).2 agent_sample (by decide)).2.2.2 [0]
      (leaf ⟨0, 0⟩ 0 10 .DRAW)
      cells4 board4
      ((leaf ⟨0, 0⟩ 0 10 .DRAW).with_children
        (cells4.map Node.of_move), 10) rfl rfl⟩

end Y
end Morat

namespace Morat

/-! ## `find_group` on an arbitrary parent forest -/

theorem follow_add (cells : List Cell) : ∀ (a b i : Nat),
    follow cells (a + b) i = follow cells b (follow cells a i) := by
  intro a
  induction a with
  | zero => intro b i; simp [follow]
  | succ a ih =>
    intro b i
    rw [Nat.succ_add]
    simp only [follow]
    exact ih b _

theorem follow_succ (cells : List Cell) (k i : Nat) :
    follow cells (k + 1) i = (cellAt cells (follow cells k i)).parent := by
  rw [follow_add cells k 1 i]
  rfl

theorem follow_root (cells : List Cell) (r : Nat) (hr : (cellAt cells r).parent = r) :
    ∀ k, follow cells k r = r := by
  intro k
  induction k with
  | zero => rfl
  | succ k ih => simp only [follow, hr, ih]

theorem follow_lt (cells : List Cell) (h : Rooted cells) :
    ∀ (k i : Nat), i < cells.length → follow cells k i < cells.length := by
  intro k
  induction k with
  | zero => intro i hi; exact hi
  | succ k ih => intro i hi; exact ih _ (h i hi).1

/-- The self-parented cell that a chain reaches does not depend on the number
of steps. -/
theorem follow_unique (cells : List Cell) (i a b : Nat)
    (ha : (cellAt cells (follow cells a i)).parent = follow cells a i)
    (hb : (cellAt cells (follow cells b i)).parent = follow cells b i) :
    follow cells a i = follow cells b i := by
  rcases Nat.le_total a b with h | h
  · obtain ⟨c, rfl⟩ := Nat.exists_eq_add_of_le h
    rw [follow_add, follow_root cells _ ha]
  · obtain ⟨c, rfl⟩ := Nat.exists_eq_add_of_le h
    rw [follow_add, follow_root cells _ hb]

/-- A chain of an array of `n` cells reaches its end in fewer than `n`
steps. -/
theorem follow_steps (cells : List Cell) (h : Rooted cells) (i : Nat) (hi : i < cells.length) :
    ∃ k, k < cells.length ∧ (cellAt cells (follow cells k i)).parent = follow cells k i := by
  classical
  have hex := (h i hi).2
  have hmin : ∀ m, m < Nat.find hex →
      ¬ (cellAt cells (follow cells m i)).parent = follow cells m i :=
    fun m hm => Nat.find_min hex hm
  have hspec := Nat.find_spec hex
  by_contra hcon
  have hge : cells.length ≤ Nat.find hex := by
    by_contra hlt
    exact hcon ⟨Nat.find hex, not_le.1 hlt, hspec⟩
  let g : Fin (cells.length + 1) → Fin cells.length :=
    fun a => ⟨follow cells a.1 i, follow_lt cells h a.1 i hi⟩
  obtain ⟨x, y, hxy, hg⟩ := Fintype.exists_ne_map_eq_of_card_lt g (by simp)
  have hval : follow cells x.1 i = follow cells y.1 i := congrArg Fin.val hg
  have key : ∀ a b : Nat, a < b → b ≤ cells.length → follow cells a i = follow cells b i →
      False := by
    intro a b hab hb he
    have h1 : follow cells (a + (Nat.find hex - b)) i = follow cells (Nat.find hex) i := by
      rw [follow_add, he, ← follow_add]
      congr 1
      omega
    apply hmin (a + (Nat.find hex - b)) (by omega)
    rw [h1]
    exact hspec
  rcases Nat.lt_or_gt_of_ne (fun hh => hxy (Fin.ext hh)) with hlt | hgt
  · exact key x.1 y.1 hlt (Nat.le_of_lt_succ y.2) hval
  · exact key y.1 x.1 hgt (Nat.le_of_lt_succ x.2) hval.symm

/-- With at least one iteration, and as many as the chain from `p` has steps,
the loop of `find_group` stops at the end of the chain. -/
theorem find_loop_follow (cells : List Cell) :
    ∀ (fuel p k : Nat), (cellAt cells (follow cells k p)).parent = follow cells k p →
      k ≤ fuel → 1 ≤ fuel → find_loop cells fuel p = follow cells k p := by
  intro fuel
  induction fuel with
  | zero => intro p k _ _ h1; omega
  | succ fuel ih =>
    intro p k hk hle _
    unfold find_loop
    have h1 : (cellAt cells p).parent = follow cells 1 p := rfl
    by_cases hc : (cellAt cells p).parent ≠ (cellAt cells (cellAt cells p).parent).parent
    · rw [if_pos hc]
      have hk2 : 2 ≤ k := by
        by_contra hlt
        have : k = 0 ∨ k = 1 := by omega
        rcases this with rfl | rfl
        · simp only [follow] at hk
          apply hc
          rw [hk, hk]
        · apply hc
          simp only [follow] at hk
          exact hk.symm
      obtain ⟨k1, rfl⟩ : ∃ k1, k = k1 + 1 := ⟨k - 1, by omega⟩
      have hk' : (cellAt cells (follow cells k1 (cellAt cells p).parent)).parent =
          follow cells k1 (cellAt cells p).parent := hk
      have := ih (cellAt cells p).parent k1 hk' (by omega) (by omega)
      rw [this]
      rfl
    · rw [if_neg hc]
      have hroot : (cellAt cells (follow cells 1 p)).parent = follow cells 1 p := by
        by_contra hx
        exact hc (fun he => hx he.symm)
      exact follow_unique cells p 1 k hroot hk

/-- On a rooted array `find_group(i)` returns the end of the chain of `i`, and
so does the loop with any larger number of iterations. -/
theorem find_group_follow (cells : List Cell) (h : Rooted cells) (i : Nat)
    (hi : i < cells.length) (k : Nat)
    (hk : (cellAt cells (follow cells k i)).parent = follow cells k i) :
    (find_group cells i).1 = follow cells k i ∧
      ∀ fuel, cells.length ≤ fuel →
        find_loop cells fuel (cellAt cells i).parent = follow cells k i := by
  obtain ⟨k0, hk0, hr0⟩ := follow_steps cells h i hi
  have he : follow cells k0 i = follow cells k i := follow_unique cells i k0 k hr0 hk
  have hloop : ∀ fuel, cells.length ≤ fuel →
      find_loop cells fuel (cellAt cells i).parent = follow cells k i := by
    intro fuel hf
    rw [← he]
    by_cases hz : k0 = 0
    · subst hz
      simp only [follow] at hr0 ⊢
      have := find_loop_follow cells fuel (cellAt cells i).parent 0 (by
        simp only [follow]; rw [hr0, hr0]) (by omega) (by omega)
      rw [this]
      simp only [follow, hr0]
    · obtain ⟨k1, rfl⟩ : ∃ k1, k0 = k1 + 1 := ⟨k0 - 1, by omega⟩
      exact find_loop_follow cells fuel (cellAt cells i).parent k1 hr0 (by omega) (by omega)
  refine ⟨?_, hloop⟩
  unfold find_group
  by_cases hc : (cellAt cells i).parent ≠ i
  · rw [if_pos hc]
    exact hloop cells.length (le_refl _)
  · rw [if_neg hc]
    have hroot : (cellAt cells i).parent = i := by
      by_contra hx; exact hc hx
    show (cellAt cells i).parent = follow cells k i
    rw [hroot]
    exact follow_unique cells i 0 k hroot hk

/-- The array after the path-compression write is rooted again, and every
chain ends where it ended before. -/
theorem compress_follow (cells : List Cell) (h : Rooted cells) (i r : Nat)
    (hi : i < cells.length) (hne : (cellAt cells i).parent ≠ i)
    (hr : ∃ k, follow cells k i = r ∧ (cellAt cells r).parent = r) :
    ∀ (k j : Nat), j < cells.length →
      (cellAt cells (follow cells k j)).parent = follow cells k j →
      ∃ k1, follow (cells.set i { cellAt cells i with parent := r }) k1 j = follow cells k j ∧
        (cellAt (cells.set i { cellAt cells i with parent := r }) (follow cells k j)).parent =
          follow cells k j := by
  obtain ⟨kr, hkr, hrr⟩ := hr
  have hri : r ≠ i := by
    intro he
    rw [he] at hrr
    exact hne hrr
  have hpar : ∀ j, (cellAt (cells.set i { cellAt cells i with parent := r }) j).parent =
      if j = i then r else (cellAt cells j).parent := by
    intro j
    rw [cellAt_set]
    by_cases hj : j = i
    · subst hj; simp [hi]
    · have : ¬ (i = j ∧ i < cells.length) := fun hx => hj hx.1.symm
      simp [this, hj]
  have hroot_keep : ∀ q, (cellAt cells q).parent = q →
      (cellAt (cells.set i { cellAt cells i with parent := r }) q).parent = q := by
    intro q hq
    rw [hpar q]
    have : q ≠ i := by
      intro he
      rw [he] at hq
      exact hne hq
    rw [if_neg this, hq]
  intro k
  induction k with
  | zero =>
    intro j _ hk
    exact ⟨0, rfl, hroot_keep _ hk⟩
  | succ k ih =>
    intro j hj hk
    by_cases hji : j = i
    · subst hji
      have he : follow cells (k + 1) j = r := by
        rw [← hkr]
        exact follow_unique cells j (k + 1) kr hk (by rw [hkr]; exact hrr)
      rw [he]
      refine ⟨1, ?_, hroot_keep r hrr⟩
      simp only [follow]
      rw [hpar j, if_pos rfl]
    · have hk' : (cellAt cells (follow cells k (cellAt cells j).parent)).parent =
          follow cells k (cellAt cells j).parent := hk
      obtain ⟨k1, h1, h2⟩ := ih (cellAt cells j).parent (h j hj).1 hk'
      refine ⟨k1 + 1, ?_, h2⟩
      simp only [follow]
      rw [hpar j, if_neg hji]
      exact h1

end Morat

namespace Morat

theorem chain_cells_rooted : Rooted chain_cells := by
  intro i hi
  have hi6 : i < 6 := hi
  interval_cases i <;> exact ⟨by decide, 3, by decide⟩

/-- C30.  `find_group` of both boards, on any parent array whose chains end in
a self-parented cell.  For every cell `i` the call returns the end `r` of the
chain of `i`, a cell of the array with `parent[r] == r`; its loop has stopped
there with as many iterations as the array has cells, and stays there with
any larger number.  The array after the call is the array before it or
differs from it in the one write `parent[i] := r`; it is rooted again, a
later `find_group(j)` returns for every cell `j` what it returned before, and
no field of any cell other than `parent` has changed. -/
theorem C30_find_group_pure :
    ∀ (cells : List Cell), Rooted cells → ∀ i, i < cells.length →
      ((find_group cells i).1 < cells.length ∧
        (cellAt cells (find_group cells i).1).parent = (find_group cells i).1 ∧
        (∃ k, follow cells k i = (find_group cells i).1) ∧
        (∀ fuel, cells.length ≤ fuel →
          find_loop cells fuel (cellAt cells i).parent = (find_group cells i).1)) ∧
      ((find_group cells i).2 = cells ∨
        (find_group cells i).2 =
          cells.set i { cellAt cells i with parent := (find_group cells i).1 }) ∧
      Rooted (find_group cells i).2 ∧
      (∀ j, j < cells.length →
        (find_group (find_group cells i).2 j).1 = (find_group cells j).1) ∧
      (∀ j, cellAt (find_group cells i).2 j =
        { cellAt cells j with parent := (cellAt (find_group cells i).2 j).parent }) := by
  intro cells h i hi
  obtain ⟨k, hk⟩ := (h i hi).2
  obtain ⟨hf, hloop⟩ := find_group_follow cells h i hi k hk
  have hlt : (find_group cells i).1 < cells.length := by
    rw [hf]; exact follow_lt cells h k i hi
  have hroot : (cellAt cells (find_group cells i).1).parent = (find_group cells i).1 := by
    rw [hf]; exact hk
  refine ⟨⟨hlt, hroot, ⟨k, hf.symm⟩, ?_⟩, ?_, ?_, ?_, find_group_cellAt cells i⟩
  · intro fuel hfuel
    rw [hf]
    exact hloop fuel hfuel
  · rw [find_group_snd]
    by_cases hc : (cellAt cells i).parent ≠ i
    · rw [if_pos hc]; exact Or.inr rfl
    · rw [if_neg hc]; exact Or.inl rfl
  · rw [find_group_snd]
    by_cases hc : (cellAt cells i).parent ≠ i
    · rw [if_pos hc]
      intro j hj
      have hj' : j < cells.length := by simpa using hj
      constructor
      · rw [cellAt_set]
        split
        · simpa using hlt
        · simpa using (h j hj').1
      · obtain ⟨kj, hkj⟩ := (h j hj').2
        obtain ⟨k1, h1, h2⟩ :=
          compress_follow cells h i (find_group cells i).1 hi hc ⟨k, hf.symm, hroot⟩ kj j hj' hkj
        exact ⟨k1, by rw [h1]; exact h2⟩
    · rw [if_neg hc]; exact h
  · intro j hj
    obtain ⟨kj, hkj⟩ := (h j hj).2
    have hold := (find_group_follow cells h j hj kj hkj).1
    by_cases hc : (cellAt cells i).parent ≠ i
    · have hnew : Rooted (cells.set i { cellAt cells i with parent := (find_group cells i).1 }) := by
        intro q hq
        have hq' : q < cells.length := by simpa using hq
        constructor
        · rw [cellAt_set]
          split
          · simpa using hlt
          · simpa using (h q hq').1
        · obtain ⟨kq, hkq⟩ := (h q hq').2
          obtain ⟨k1, h1, h2⟩ :=
            compress_follow cells h i (find_group cells i).1 hi hc ⟨k, hf.symm, hroot⟩ kq q hq'
              hkq
          exact ⟨k1, by rw [h1]; exact h2⟩
      obtain ⟨k1, h1, h2⟩ :=
        compress_follow cells h i (find_group cells i).1 hi hc ⟨k, hf.symm, hroot⟩ kj j hj hkj
      have hsnd : (find_group cells i).2 =
          cells.set i { cellAt cells i with parent := (find_group cells i).1 } := by
        rw [find_group_snd, if_pos hc]
      rw [hsnd]
      have := (find_group_follow _ hnew j (by simpa using hj) k1 (by rw [h1]; exact h2)).1
      rw [this, h1, hold]
    · have hsnd : (find_group cells i).2 = cells := by
        rw [find_group_snd, if_neg hc]
      rw [hsnd]

set_option maxRecDepth 100000 in
/-- C30, witness: on the sample array `find_group(4)` follows the chain
`4 → 3 → 1 → 0`, returns `0` and writes `parent[4] := 0`. -/
theorem C30_find_group_pure_witness :
    Rooted chain_cells ∧ 4 < chain_cells.length ∧
    (((find_group chain_cells 4).1 < chain_cells.length ∧
        (cellAt chain_cells (find_group chain_cells 4).1).parent = (find_group chain_cells 4).1 ∧
        (∃ k, follow chain_cells k 4 = (find_group chain_cells 4).1) ∧
        (∀ fuel, chain_cells.length ≤ fuel →
          find_loop chain_cells fuel (cellAt chain_cells 4).parent =
            (find_group chain_cells 4).1)) ∧
      ((find_group chain_cells 4).2 = chain_cells ∨
        (find_group chain_cells 4).2 =
          chain_cells.set 4 { cellAt chain_cells 4 with parent := (find_group chain_cells 4).1 }) ∧
      Rooted (find_group chain_cells 4).2 ∧
      (∀ j, j < chain_cells.length →
        (find_group (find_group chain_cells 4).2 j).1 = (find_group chain_cells j).1) ∧
      (∀ j, cellAt (find_group chain_cells 4).2 j =
        { cellAt chain_cells j with parent := (cellAt (find_group chain_cells 4).2 j).parent })) ∧
    (find_group chain_cells 4).1 = 0 ∧
    ((find_group chain_cells 4).2.map fun c => c.parent) = [0, 0, 2, 1, 0, 2] :=
  ⟨chain_cells_rooted, by decide, C30_find_group_pure chain_cells chain_cells_rooted 4 (by decide),
    by decide, by decide⟩

end Morat

namespace Morat

/-! ## `encirclable` -/

theorem ne_zero_iff_testBit (n : Nat) : n ≠ 0 ↔ ∃ k, n.testBit k = true := by
  constructor
  · intro hn
    by_contra hcon
    apply hn
    apply eq_of_testBit_iff
    intro k
    constructor
    · intro hk; exact absurd ⟨k, hk⟩ hcon
    · intro hk; simp at hk
  · rintro ⟨k, hk⟩ rfl
    simp at hk

section uf
variable {v : Variant} {nb : Nat → List MoveValid} {E C : Nat → Nat} {cells : List Cell}
  {rep rank : Nat → Nat}

/-- Two cells have the same representative exactly when they are connected. -/
theorem rep_eq_iff_connected (h : CellsInv v nb E C cells (fun _ => False) rep rank)
    (a c : Nat) (ha : a < cells.length) (hc : c < cells.length) :
    rep c = rep a ↔ Connected nb cells a c := by
  constructor
  · intro he
    have h1 := h.conn a ha
    have h2 := Connected.conn_symm h (h.conn c hc)
    rw [he] at h2
    exact Relation.ReflTransGen.trans h1 h2
  · intro hcon
    exact (h.rep_of_connected hcon).symm

/-- The mask test of `encirclable` on the representative of a cell, in terms
of the cells of its group. -/
theorem connected_to_iff (h : CellsInv v nb E C cells (fun _ => False) rep rank)
    (hv : v.corners = true) (cells1 : List Cell)
    (hsame : ∀ k, cellAt cells1 k = { cellAt cells k with parent := (cellAt cells1 k).parent })
    (other : Side) (c : Nat) (hc : c < cells.length) :
    Havannah.Cell.connected_to (cellAt cells1 (rep c)) other = true ↔
      (get cells c = other ∧ ∃ j, j < cells.length ∧ Connected nb cells c j ∧
        (E j ≠ 0 ∨ C j ≠ 0)) := by
  have hrl := h.rep_lt c hc
  have hroot := h.par_rep c hc
  have hp : (cellAt cells1 (rep c)).piece = get cells c := by
    rw [hsame (rep c)]
    exact h.piece_rep c hc
  have he : (cellAt cells1 (rep c)).edge = (cellAt cells (rep c)).edge := by
    rw [hsame (rep c)]
  have hcn : (cellAt cells1 (rep c)).corner = (cellAt cells (rep c)).corner := by
    rw [hsame (rep c)]
  unfold Havannah.Cell.connected_to
  rw [hp, he, hcn]
  simp only [Bool.and_eq_true, Bool.or_eq_true, beq_iff_eq, decide_eq_true_eq]
  constructor
  · rintro ⟨h1, h2⟩
    refine ⟨h1, ?_⟩
    rcases h2 with h2 | h2
    · obtain ⟨bit, hb⟩ := (ne_zero_iff_testBit _).1 h2
      obtain ⟨j, hj, hrj, hbj⟩ := (h.edge_eq (rep c) hrl hroot bit).1 hb
      exact ⟨j, hj, (rep_eq_iff_connected h c j hc hj).1 hrj,
        Or.inl ((ne_zero_iff_testBit _).2 ⟨bit, hbj⟩)⟩
    · obtain ⟨bit, hb⟩ := (ne_zero_iff_testBit _).1 h2
      obtain ⟨j, hj, hrj, hbj⟩ := (h.corner_eq hv (rep c) hrl hroot bit).1 hb
      exact ⟨j, hj, (rep_eq_iff_connected h c j hc hj).1 hrj,
        Or.inr ((ne_zero_iff_testBit _).2 ⟨bit, hbj⟩)⟩
  · rintro ⟨h1, j, hj, hcon, h2⟩
    refine ⟨h1, ?_⟩
    have hrj := (rep_eq_iff_connected h c j hc hj).2 hcon
    rcases h2 with h2 | h2
    · obtain ⟨bit, hb⟩ := (ne_zero_iff_testBit _).1 h2
      exact Or.inl ((ne_zero_iff_testBit _).2
        ⟨bit, (h.edge_eq (rep c) hrl hroot bit).2 ⟨j, hj, hrj, hb⟩⟩)
    · obtain ⟨bit, hb⟩ := (ne_zero_iff_testBit _).1 h2
      exact Or.inr ((ne_zero_iff_testBit _).2
        ⟨bit, (h.corner_eq hv (rep c) hrl hroot bit).2 ⟨j, hj, hrj, hb⟩⟩)

/-- The loop of `encirclable` answers `true` exactly when every entry of the
list is on the board and the group of none of them is owned by `other` and
touches an edge or a corner; it writes parent links only and keeps every
representative. -/
theorem encirclable_loop_spec (h : CellsInv v nb E C cells (fun _ => False) rep rank)
    (hv : v.corners = true) (other : Side) :
    ∀ (l : List MoveValid) (cells1 : List Cell),
      CellsInv v nb E C cells1 (fun _ => False) rep rank → cells1.length = cells.length →
      (∀ k, cellAt cells1 k = { cellAt cells k with parent := (cellAt cells1 k).parent }) →
      (∀ m ∈ l, m.on_board = true → m.idx < cells.length) →
      ((Havannah.encirclable_loop other l cells1).1 = true ↔
        ∀ m ∈ l, m.on_board = true ∧
          ¬ (get cells m.idx = other ∧ ∃ j, j < cells.length ∧ Connected nb cells m.idx j ∧
            (E j ≠ 0 ∨ C j ≠ 0))) ∧
      CellsInv v nb E C (Havannah.encirclable_loop other l cells1).2 (fun _ => False) rep rank ∧
      (Havannah.encirclable_loop other l cells1).2.length = cells.length ∧
      (∀ k, cellAt (Havannah.encirclable_loop other l cells1).2 k =
        { cellAt cells k with
          parent := (cellAt (Havannah.encirclable_loop other l cells1).2 k).parent }) := by
  intro l
  induction l with
  | nil =>
    intro cells1 h1 hl hs _
    refine ⟨?_, h1, hl, hs⟩
    simp [Havannah.encirclable_loop]
  | cons m rest ih =>
    intro cells1 h1 hl hs hidx
    have hidxr : ∀ m1 ∈ rest, m1.on_board = true → m1.idx < cells.length :=
      fun m1 hm1 => hidx m1 (List.mem_cons_of_mem _ hm1)
    unfold Havannah.encirclable_loop
    by_cases hob : m.on_board = true
    · have hml := hidx m (List.mem_cons_self _ _) hob
      have hml1 : m.idx < cells1.length := by rw [hl]; exact hml
      have hf := find_group_fst h1 m.idx hml1
      have hinv2 := find_group_inv h1 m.idx hml1
      have hl2 : (find_group cells1 m.idx).2.length = cells.length :=
        (find_group_length cells1 m.idx).trans hl
      have hs2 : ∀ k, cellAt (find_group cells1 m.idx).2 k =
          { cellAt cells k with parent := (cellAt (find_group cells1 m.idx).2 k).parent } := by
        intro k
        rw [find_group_cellAt cells1 m.idx k, hs k]
      have hct := connected_to_iff h hv (find_group cells1 m.idx).2 hs2 other m.idx hml
      rw [← hf] at hct
      simp only [hob, Bool.not_true, Bool.false_eq_true, if_false]
      by_cases hb : Havannah.Cell.connected_to
          (cellAt (find_group cells1 m.idx).2 (find_group cells1 m.idx).1) other = true
      · rw [if_pos hb]
        refine ⟨?_, hinv2, hl2, hs2⟩
        simp only [Bool.false_eq_true, false_iff]
        intro hall
        exact (hall m (List.mem_cons_self _ _)).2 (hct.1 hb)
      · rw [if_neg hb]
        obtain ⟨a1, a2, a3, a4⟩ := ih (find_group cells1 m.idx).2 hinv2 hl2 hs2 hidxr
        refine ⟨?_, a2, a3, a4⟩
        rw [a1]
        constructor
        · intro hall m1 hm1
          rcases List.mem_cons.1 hm1 with rfl | hm1
          · exact ⟨hob, fun hx => hb (hct.2 hx)⟩
          · exact hall m1 hm1
        · intro hall m1 hm1
          exact hall m1 (List.mem_cons_of_mem _ hm1)
    · have hob' : m.on_board = false := by
        cases hx : m.on_board
        · rfl
        · exact absurd hx hob
      simp only [hob', Bool.not_false, if_true]
      refine ⟨?_, h1, hl, hs⟩
      simp only [Bool.false_eq_true, false_iff]
      intro hall
      have := (hall m (List.mem_cons_self _ _)).1
      rw [hob'] at this
      exact absurd this (by simp)

end uf
end Morat

namespace Morat

/-- C28.  Havannah board.  On every reachable board and for every cell `pos`
of the shape, `encirclable(pos, player)` returns `true` if and only if all six
entries of `neighbors_small(pos)` are on the board and neither the group of
`pos` nor the group of any of these neighbours is owned by the opponent of
`player` while it contains a cell of an edge or a corner.  The call writes
parent links only, and `find_group` answers afterwards as before. -/
theorem C28_encirclable :
    ∀ (G : Havannah.Grid) (s : Int) (b : Havannah.Board), Havannah.valid_size s = true →
      Havannah.GridOK G (s * 2 - 1) → Havannah.Reachable G s b →
      ∀ (pos : Move) (player : Side), G.on_board b.size_ pos.x pos.y = true →
      (((b.encirclable G pos player).1 = true ↔
        ((∀ m ∈ G.neighbors_small b.size_ (b.move_valid pos).idx, m.on_board = true) ∧
          ¬ b.group_touches G player.opp (b.move_valid pos).idx ∧
          ∀ m ∈ G.neighbors_small b.size_ (b.move_valid pos).idx,
            ¬ b.group_touches G player.opp m.idx)) ∧
        { (b.encirclable G pos player).2 with cells_ := b.cells_ } = b ∧
        (∀ k, k < b.cells_.length →
          (find_group (b.encirclable G pos player).2.cells_ k).1 = (find_group b.cells_ k).1)) := by
  intro G s b hs hG hb pos player hon
  have hinv := Havannah.h_reachable_inv G s hs hG b hb
  have hsz := hinv.size_eq
  obtain ⟨rep, rank, hc⟩ := hinv.cells
  rw [← hsz] at hc hG
  have hlen : b.cells_.length = (b.size_ * b.size_).toNat := by rw [hinv.len, hsz]
  obtain ⟨hx0, hx1, hy0, hy1⟩ := hG.shape pos.x pos.y hon
  have hidx : (b.move_valid pos).idx = (b.xy pos.x pos.y).toNat := rfl
  have hlt : (b.move_valid pos).idx < b.cells_.length := by
    rw [hlen, hidx]
    unfold Havannah.Board.xy
    have h1 : pos.y * b.size_ + pos.x < b.size_ * b.size_ := by nlinarith
    have h2 : 0 ≤ pos.y * b.size_ + pos.x := by nlinarith
    omega
  have hltn : (b.move_valid pos).idx < (b.size_ * b.size_).toNat := by rw [← hlen]; exact hlt
  have hv : Havannah.variant.corners = true := rfl
  have hf := find_group_fst hc _ hlt
  have hinv1 := find_group_inv hc _ hlt
  have hl1 := find_group_length b.cells_ (b.move_valid pos).idx
  have hs1 : ∀ k, cellAt (find_group b.cells_ (b.move_valid pos).idx).2 k =
      { cellAt b.cells_ k with
        parent := (cellAt (find_group b.cells_ (b.move_valid pos).idx).2 k).parent } :=
    find_group_cellAt b.cells_ _
  have hct := connected_to_iff hc hv _ hs1 player.opp (b.move_valid pos).idx hlt
  rw [← hf] at hct
  obtain ⟨a1, a2, a3, a4⟩ := encirclable_loop_spec hc hv player.opp
    (G.neighbors_small b.size_ (b.move_valid pos).idx) _ hinv1 hl1 hs1
    (fun m hm ho => by rw [hlen]; exact hG.nbr.idx_lt _ hltn m hm ho)
  have hfind : ∀ (cells1 : List Cell),
      CellsInv Havannah.variant (G.neighbors_small b.size_) (Havannah.edge0 G b.size_)
        (Havannah.corner0 G b.size_) cells1 (fun _ => False) rep rank →
      cells1.length = b.cells_.length → ∀ k, k < b.cells_.length →
      (find_group cells1 k).1 = (find_group b.cells_ k).1 := by
    intro cells1 h1 hl k hk
    rw [find_group_fst h1 k (by rw [hl]; exact hk), find_group_fst hc k hk]
  unfold Havannah.Board.encirclable
  simp only [← hidx]
  by_cases hb0 : Havannah.Cell.connected_to
      (cellAt (find_group b.cells_ (b.move_valid pos).idx).2
        (find_group b.cells_ (b.move_valid pos).idx).1) player.opp = true
  · rw [if_pos hb0]
    refine ⟨?_, rfl, hfind _ hinv1 hl1⟩
    simp only [Bool.false_eq_true, false_iff]
    rintro ⟨-, h2, -⟩
    exact h2 (hct.1 hb0)
  · rw [if_neg hb0]
    refine ⟨?_, rfl, hfind _ a2 a3⟩
    simp only
    rw [a1]
    constructor
    · intro hall
      exact ⟨fun m hm => (hall m hm).1, fun hx => hb0 (hct.2 hx), fun m hm => (hall m hm).2⟩
    · rintro ⟨h1, -, h3⟩ m hm
      exact ⟨h1 m hm, h3 m hm⟩

set_option maxRecDepth 100000 in
/-- C28, witness: on the board of the sample game after five moves, the cell
`(1,1)` has its six neighbours on the board, two of them stones of the first
player on the edge `(0,0) (1,0) (2,0)`; it is not encirclable by the second
player. -/
theorem C28_encirclable_witness :
    Havannah.hexGrid.on_board (Havannah.after 5).size_ 1 1 = true ∧
    ((((Havannah.after 5).encirclable Havannah.hexGrid ⟨1, 1⟩ .P2).1 = true ↔
        ((∀ m ∈ Havannah.hexGrid.neighbors_small (Havannah.after 5).size_
            ((Havannah.after 5).move_valid ⟨1, 1⟩).idx, m.on_board = true) ∧
          ¬ (Havannah.after 5).group_touches Havannah.hexGrid Side.P2.opp
            ((Havannah.after 5).move_valid ⟨1, 1⟩).idx ∧
          ∀ m ∈ Havannah.hexGrid.neighbors_small (Havannah.after 5).size_
              ((Havannah.after 5).move_valid ⟨1, 1⟩).idx,
            ¬ (Havannah.after 5).group_touches Havannah.hexGrid Side.P2.opp m.idx)) ∧
      { ((Havannah.after 5).encirclable Havannah.hexGrid ⟨1, 1⟩ .P2).2 with
          cells_ := (Havannah.after 5).cells_ } = Havannah.after 5 ∧
      (∀ k, k < (Havannah.after 5).cells_.length →
        (find_group ((Havannah.after 5).encirclable Havannah.hexGrid ⟨1, 1⟩ .P2).2.cells_ k).1 =
          (find_group (Havannah.after 5).cells_ k).1)) ∧
    ((Havannah.after 5).encirclable Havannah.hexGrid ⟨1, 1⟩ .P2).1 = false ∧
    ((Havannah.after 5).encirclable Havannah.hexGrid ⟨2, 3⟩ .P2).1 = true :=
  ⟨by decide,
    C28_encirclable Havannah.hexGrid 3 (Havannah.after 5) (by decide) Havannah.h_hexGrid_ok
      (Havannah.h_after_reachable 5 (by decide)) ⟨1, 1⟩ .P2 (by decide),
    by decide, by decide⟩

end Morat

namespace Morat
namespace Y

/-! ## The play commands -/

/-- A failing `play` leaves the state as it is. -/
theorem play_fail_state {α : Type} (G : Grid) (parse : String → Move)
    (agent_move : Move → α → α) (g : GTP α) (pos : String) (to_play : Side)
    (r : GTPResponse × GTP α) (h : GTP.play G parse agent_move g pos to_play = some r)
    (hr : r.1.success = false) : r.2 = g := by
  unfold GTP.play at h
  split at h
  · simp only [Option.some.injEq] at h; rw [← h]
  · split at h
    · simp only [Option.some.injEq] at h; rw [← h]
    · split at h
      · simp only [Option.some.injEq] at h; rw [← h]
      · split at h
        · exact absurd h (by simp)
        · simp only [Option.some.injEq] at h
          rw [← h] at hr
          exact absurd hr (by simp)

/-- The loop of `gtp_playgame` on a response that is not a success. -/
theorem playgame_loop_fail {α : Type} (G : Grid) (parse : String → Move)
    (agent_move : Move → α → α) (args : List String) (st : GTPResponse × GTP α)
    (h : st.1.success = false) : GTP.playgame_loop G parse agent_move args st = some st := by
  cases args with
  | nil => rfl
  | cons a rest => simp [GTP.playgame_loop, h]

/-- The loop of `gtp_playgame` on two lists of arguments in a row. -/
theorem playgame_loop_append {α : Type} (G : Grid) (parse : String → Move)
    (agent_move : Move → α → α) :
    ∀ (pre rest : List String) (st st1 : GTPResponse × GTP α),
      GTP.playgame_loop G parse agent_move pre st = some st1 →
      GTP.playgame_loop G parse agent_move (pre ++ rest) st =
        GTP.playgame_loop G parse agent_move rest st1 := by
  intro pre
  induction pre with
  | nil =>
    intro rest st st1 h
    simp only [GTP.playgame_loop, Option.some.injEq] at h
    rw [List.nil_append, h]
  | cons a pre ih =>
    intro rest st st1 h
    simp only [GTP.playgame_loop, List.cons_append] at h ⊢
    by_cases hs : st.1.success = true
    · rw [if_pos hs] at h ⊢
      cases hp : GTP.play G parse agent_move st.2 a st.2.hist.board.to_play with
      | none => rw [hp] at h; exact absurd h (by simp)
      | some st2 =>
        rw [hp] at h
        simp only at h ⊢
        exact ih rest st2 st1 h
    · rw [if_neg hs] at h ⊢
      simp only [Option.some.injEq] at h
      rw [← h]
      have hf : st.1.success = false := by
        cases hx : st.1.success
        · rfl
        · exact absurd hx hs
      exact (playgame_loop_fail G parse agent_move rest st hf).symm

/-- The moves that a successful run of the loop has committed. -/
theorem playgame_loop_hist {α : Type} (G : Grid) (parse : String → Move)
    (agent_move : Move → α → α) :
    ∀ (args : List String) (st st1 : GTPResponse × GTP α), st.1.success = true →
      GTP.playgame_loop G parse agent_move args st = some st1 → st1.1.success = true →
      st1.2.hist.hist = st.2.hist.hist ++ args.map parse := by
  intro args
  induction args with
  | nil =>
    intro st st1 _ h _
    simp only [GTP.playgame_loop, Option.some.injEq] at h
    rw [← h]; simp
  | cons a rest ih =>
    intro st st1 hs h h1
    simp only [GTP.playgame_loop, if_pos hs] at h
    cases hp : GTP.play G parse agent_move st.2 a st.2.hist.board.to_play with
    | none => rw [hp] at h; exact absurd h (by simp)
    | some st2 =>
      rw [hp] at h
      simp only at h
      by_cases hs2 : st2.1.success = true
      · have := ih st2 st1 hs2 h h1
        rw [this]
        have hst2 : st2.2.hist.hist = st.2.hist.hist ++ [parse a] := by
          unfold GTP.play at hp
          split at hp
          · simp only [Option.some.injEq] at hp; rw [← hp] at hs2; exact absurd hs2 (by simp)
          · split at hp
            · simp only [Option.some.injEq] at hp; rw [← hp] at hs2; exact absurd hs2 (by simp)
            · split at hp
              · simp only [Option.some.injEq] at hp; rw [← hp] at hs2
                exact absurd hs2 (by simp)
              · rename_i hv
                unfold GTP.move History.move at hp
                have hv' : st.2.hist.board.valid_move_xy G (parse a) = true := by
                  cases hx : st.2.hist.board.valid_move_xy G (parse a)
                  · rw [hx] at hv; exact absurd rfl hv
                  · rfl
                rw [if_pos hv'] at hp
                cases hm : st.2.hist.board.move_xy G (parse a) true with
                | none => rw [hm] at hp; exact absurd hp (by simp)
                | some rb =>
                  rw [hm] at hp
                  simp only [Option.some.injEq] at hp
                  rw [← hp]
        rw [hst2, List.map_cons, List.append_assoc]
        rfl
      · have hf : st2.1.success = false := by
          cases hx : st2.1.success
          · rfl
          · exact absurd hx hs2
        rw [playgame_loop_fail G parse agent_move rest st2 hf] at h
        simp only [Option.some.injEq] at h
        rw [← h] at h1
        exact absurd h1 hs2

end Y
end Morat

namespace Morat
namespace Y

/-- C25.  `GTP::play(pos, side)` answers with a failure and its reason and
leaves the state of the front end (history and board) as it is when `side`
is not the side to move, else when the game is decided, else when `pos` is
not a valid move; otherwise it commits the one move: the history gains the
move and the side, the board is the one `Board::move` leaves, and the answer
is a success.  `gtp_playgame` without arguments succeeds; after a run on the
arguments `pre` that succeeded, the history has gained the moves of `pre` in
their order, and the run on `pre ++ x :: post` answers, when `play` fails on
`x`, with that failure in the state that the moves of `pre` led to, and
otherwise goes on with `post`. -/
theorem C25_gtp_play :
    ∀ (α : Type) (G : Grid) (parse : String → Move) (agent_move : Move → α → α) (g : GTP α),
      (∀ (pos : String) (side : Side), side ≠ g.hist.board.to_play →
        GTP.play G parse agent_move g pos side =
          some ({ success := false, response := "It is the other player's turn!" }, g)) ∧
      (∀ (pos : String) (side : Side), side = g.hist.board.to_play →
        Outcome.DRAW.to_i ≤ g.hist.board.outcome.to_i →
        GTP.play G parse agent_move g pos side =
          some ({ success := false, response := "The game is already over." }, g)) ∧
      (∀ (pos : String) (side : Side), side = g.hist.board.to_play →
        g.hist.board.outcome.to_i < Outcome.DRAW.to_i →
        g.hist.board.valid_move_xy G (parse pos) = false →
        GTP.play G parse agent_move g pos side =
          some ({ success := false, response := "Invalid move" }, g)) ∧
      (∀ (pos : String) (side : Side), side = g.hist.board.to_play →
        g.hist.board.valid_move_xy G (parse pos) = true →
        ∃ rb, g.hist.board.move_xy G (parse pos) true = some rb ∧
          GTP.play G parse agent_move g pos side =
            some ({ success := true, response := "" },
              { hist :=
                  { hist := g.hist.hist ++ [parse pos], players := g.hist.players ++ [side],
                    board := rb.2 },
                rest := agent_move (parse pos) g.rest })) ∧
      GTP.gtp_playgame G parse agent_move g [] = some ({ success := true, response := "" }, g) ∧
      (∀ (pre : List String) (st : GTPResponse × GTP α),
        GTP.gtp_playgame G parse agent_move g pre = some st → st.1.success = true →
        st.2.hist.hist = g.hist.hist ++ pre.map parse ∧
        ∀ (x : String) (post : List String) (st1 : GTPResponse × GTP α),
          GTP.play G parse agent_move st.2 x st.2.hist.board.to_play = some st1 →
          (st1.1.success = false →
            GTP.gtp_playgame G parse agent_move g (pre ++ x :: post) = some (st1.1, st.2)) ∧
          (st1.1.success = true →
            GTP.gtp_playgame G parse agent_move g (pre ++ x :: post) =
              GTP.gtp_playgame G parse agent_move st1.2 post)) := by
  intro α G parse agent_move g
  refine ⟨?_, ?_, ?_, ?_, rfl, ?_⟩
  · intro pos side h
    unfold GTP.play
    rw [if_pos h]
  · intro pos side h ho
    unfold GTP.play
    rw [if_neg (not_not.2 h), if_pos ho]
  · intro pos side h ho hv
    unfold GTP.play
    rw [if_neg (not_not.2 h), if_neg (not_le.2 ho)]
    simp only [hv, Bool.not_false, if_true]
  · intro pos side h hv
    have ho0 : g.hist.board.outcome_.to_i < Outcome.DRAW.to_i := by
      unfold Board.valid_move_xy at hv
      simp only [Bool.and_eq_true, decide_eq_true_eq] at hv
      exact hv.1.1
    have ho : g.hist.board.outcome.to_i < Outcome.DRAW.to_i := ho0
    have hns : g.hist.board.outcome_.solved = false := by
      unfold Outcome.solved
      simp only [decide_eq_false_iff_not, not_le]
      exact ho0
    have hm : g.hist.board.move_xy G (parse pos) true =
        some (g.hist.board.move_body G (g.hist.board.move_valid (parse pos)) true) := by
      unfold Board.move_xy Board.move
      rw [hns]
      rfl
    refine ⟨_, hm, ?_⟩
    unfold GTP.play
    rw [if_neg (not_not.2 h), if_neg (not_le.2 ho)]
    simp only [hv, Bool.not_true, Bool.false_eq_true, if_false]
    unfold GTP.move History.move
    rw [if_pos hv, hm, h]
  · intro pre st hpre hs
    refine ⟨?_, ?_⟩
    · have := playgame_loop_hist G parse agent_move pre
        ({ success := true, response := "" }, g) st rfl hpre hs
      exact this
    · intro x post st1 hp
      have happ := playgame_loop_append G parse agent_move pre (x :: post)
        ({ success := true, response := "" }, g) st hpre
      have hstep : GTP.playgame_loop G parse agent_move (x :: post) st =
          GTP.playgame_loop G parse agent_move post st1 := by
        simp only [GTP.playgame_loop, if_pos hs, hp]
      constructor
      · intro hf
        unfold GTP.gtp_playgame
        rw [happ, hstep, playgame_loop_fail G parse agent_move post st1 hf]
        have := play_fail_state G parse agent_move st.2 x _ st1 hp hf
        rw [← this]
      · intro ht
        unfold GTP.gtp_playgame
        rw [happ, hstep]
        have : st1 = ({ success := true, response := "" }, st1.2) := by
          unfold GTP.play at hp
          split at hp
          · simp only [Option.some.injEq] at hp; rw [← hp] at ht; exact absurd ht (by simp)
          · split at hp
            · simp only [Option.some.injEq] at hp; rw [← hp] at ht; exact absurd ht (by simp)
            · split at hp
              · simp only [Option.some.injEq] at hp; rw [← hp] at ht
                exact absurd ht (by simp)
              · split at hp
                · exact absurd hp (by simp)
                · simp only [Option.some.injEq] at hp
                  rw [← hp]
        rw [← this]

end Y
end Morat

namespace Morat
namespace Y

set_option maxRecDepth 100000 in
/-- C25, witness: in the sample state the second player is to move; `play`
for the first player fails, `a1` is occupied, `b1` is committed; at the end
of the sample game every `play` fails; `gtp_playgame b1 a1 c1` commits `b1`
and stops at `a1`. -/
theorem C25_gtp_play_witness :
    Side.P1 ≠ gtp_sample.hist.board.to_play ∧
    (Side.P2 = gtp_over.hist.board.to_play ∧
      Outcome.DRAW.to_i ≤ gtp_over.hist.board.outcome.to_i) ∧
    (Side.P2 = gtp_sample.hist.board.to_play ∧
      gtp_sample.hist.board.outcome.to_i < Outcome.DRAW.to_i ∧
      gtp_sample.hist.board.valid_move_xy triGrid (sample_move "a1") = false ∧
      gtp_sample.hist.board.valid_move_xy triGrid (sample_move "b1") = true) ∧
    (GTP.gtp_playgame triGrid sample_move (fun _ u => u) gtp_sample ["b1"] =
        some ({ success := true, response := "" }, gtp_b1) ∧
      GTP.play triGrid sample_move (fun _ u => u) gtp_b1 "a1" gtp_b1.hist.board.to_play =
        some ({ success := false, response := "Invalid move" }, gtp_b1)) ∧
    GTP.play triGrid sample_move (fun _ u => u) gtp_sample "b1" .P1 =
      some ({ success := false, response := "It is the other player's turn!" }, gtp_sample) ∧
    GTP.play triGrid sample_move (fun _ u => u) gtp_over "b1" .P2 =
      some ({ success := false, response := "The game is already over." }, gtp_over) ∧
    GTP.play triGrid sample_move (fun _ u => u) gtp_sample "a1" .P2 =
      some ({ success := false, response := "Invalid move" }, gtp_sample) ∧
    (∃ rb, gtp_sample.hist.board.move_xy triGrid (sample_move "b1") true = some rb ∧
      GTP.play triGrid sample_move (fun _ u => u) gtp_sample "b1" .P2 =
        some ({ success := true, response := "" },
          { hist :=
              { hist := gtp_sample.hist.hist ++ [sample_move "b1"],
                players := gtp_sample.hist.players ++ [Side.P2], board := rb.2 },
            rest := () })) ∧
    GTP.gtp_playgame triGrid sample_move (fun _ u => u) gtp_sample [] =
      some ({ success := true, response := "" }, gtp_sample) ∧
    gtp_b1.hist.hist = gtp_sample.hist.hist ++ ["b1"].map sample_move ∧
    GTP.gtp_playgame triGrid sample_move (fun _ u => u) gtp_sample (["b1"] ++ "a1" :: ["c1"]) =
      some ({ success := false, response := "Invalid move" }, gtp_b1) ∧
    gtp_b1.hist.hist = [⟨0, 0⟩, ⟨3, 0⟩, ⟨0, 1⟩] :=
  ⟨by decide, by decide, by decide, ⟨rfl, rfl⟩,
    (C25_gtp_play Unit triGrid sample_move (fun _ u => u) gtp_sample).1 "b1" .P1 (by decide),
    (C25_gtp_play Unit triGrid sample_move (fun _ u => u) gtp_over).2.1 "b1" .P2 (by decide)
      (by decide),
    (C25_gtp_play Unit triGrid sample_move (fun _ u => u) gtp_sample).2.2.1 "a1" .P2 (by decide)
      (by decide) (by decide),
    (C25_gtp_play Unit triGrid sample_move (fun _ u => u) gtp_sample).2.2.2.1 "b1" .P2
      (by decide) (by decide),
    (C25_gtp_play Unit triGrid sample_move (fun _ u => u) gtp_sample).2.2.2.2.1,
    ((C25_gtp_play Unit triGrid sample_move (fun _ u => u) gtp_sample).2.2.2.2.2 ["b1"]
      ({ success := true, response := "" }, gtp_b1) rfl rfl).1,
    (((C25_gtp_play Unit triGrid sample_move (fun _ u => u) gtp_sample).2.2.2.2.2 ["b1"]
      ({ success := true, response := "" }, gtp_b1) rfl rfl).2 "a1" ["c1"]
      ({ success := false, response := "Invalid move" }, gtp_b1) rfl).1 rfl,
    by decide⟩

end Y
end Morat

namespace Morat
namespace Y

/-! ## The walk of `get_pv` -/

/-- A legal move fills one empty cell. -/
theorem y_empty_after_move (G : Grid) (s : Int) (hs : valid_size s = true) (hG : GridOK G s)
    (b : Board) (h : BoardInv G s b) (m : Move) (hv : b.valid_move_xy G m = true)
    (permanent : Bool) :
    (b.move_body G (b.move_valid m) permanent).2.empty_cells + 1 = b.empty_cells := by
  obtain ⟨-, -, hlt, -, hget, hvm, -⟩ := y_legal_facts G s hs hG b h m hv
  rw [y_move_body_valid G b _ permanent hvm]
  unfold Board.empty_cells Board.get
  simp only
  have hl : (find_group (place_stone variant (G.neighbors_small b.size_ (b.move_valid m).idx)
      b.cells_ b.to_play_ (b.move_valid m).idx permanent).2 (b.move_valid m).idx).2.length =
      b.cells_.length := by
    rw [find_group_length, place_stone_length]
  rw [hl]
  have hg : ∀ k, get (find_group (place_stone variant
      (G.neighbors_small b.size_ (b.move_valid m).idx)
      b.cells_ b.to_play_ (b.move_valid m).idx permanent).2 (b.move_valid m).idx).2 k =
      if k = (b.move_valid m).idx then b.to_play_ else get b.cells_ k := by
    intro k
    rw [find_group_get, place_stone_get _ _ _ _ _ _ hlt]
  have hcu := countP_update (fun i => get b.cells_ i == .NONE)
    (fun i => get (find_group (place_stone variant
      (G.neighbors_small b.size_ (b.move_valid m).idx)
      b.cells_ b.to_play_ (b.move_valid m).idx permanent).2 (b.move_valid m).idx).2 i == .NONE)
    (b.move_valid m).idx (by
      intro k hk
      simp only [hg k, if_neg hk])
    (List.range b.cells_.length) (List.nodup_range _) (List.mem_range.2 hlt)
  have h1 : (get b.cells_ (b.move_valid m).idx == Side.NONE) = true := by
    rw [hget]; rfl
  have h2 : (get (find_group (place_stone variant
      (G.neighbors_small b.size_ (b.move_valid m).idx)
      b.cells_ b.to_play_ (b.move_valid m).idx permanent).2 (b.move_valid m).idx).2
      (b.move_valid m).idx == Side.NONE) = false := by
    rw [hg, if_pos rfl]
    have := h.to_play
    cases hh : b.to_play_ <;> rw [hh] at this <;> simp [Side.isPlayer] at this ⊢
  simp only [h1, h2, if_true, Bool.false_eq_true, if_false] at hcu
  omega

/-- A board with a valid move has an empty cell. -/
theorem y_empty_pos (G : Grid) (s : Int) (hs : valid_size s = true) (hG : GridOK G s)
    (b : Board) (h : BoardInv G s b) (m : Move) (hv : b.valid_move_xy G m = true) :
    1 ≤ b.empty_cells := by
  have := y_empty_after_move G s hs hG b h m hv true
  omega

/-- The search of `get_pv` for the child with the move `mv` is `find_child`
followed by the walk from the child found. -/
theorem pv_find_eq (a : AgentMCTS) (sc : Scoring) (mv : Move) (turn : Side)
    (moves : List Move) :
    ∀ l : List Node, a.pv_find sc mv l turn moves =
      match AgentMCTS.find_child l mv with
      | none => some []
      | some c => a.pv_node sc c turn moves := by
  intro l
  induction l with
  | nil => simp [AgentMCTS.pv_find, AgentMCTS.find_child]
  | cons c cs ih =>
    simp only [AgentMCTS.pv_find, AgentMCTS.find_child, List.find?_cons]
    by_cases hc : c.move = mv
    · simp [hc]
    · simp only [hc, if_false, decide_False]
      rw [ih]
      rfl

/-- One round of the loop of `get_pv` with the move `mv`. -/
theorem pv_node_round (a : AgentMCTS) (sc : Scoring) (n : Node) (turn : Side)
    (mo : Option Move) (moves : List Move) (hc : n.children ≠ [])
    (hmo : mo = match moves with
      | mv :: _ => some mv
      | [] => a.return_move sc n turn) :
    a.pv_node sc n turn moves =
      mo.bind fun m =>
        match AgentMCTS.find_child n.children m with
        | none => some [m]
        | some c => (a.pv_node sc c turn.opp moves.tail).map fun pv => m :: pv := by
  obtain ⟨m, e, r, k, o, d, b, c⟩ := n
  simp only [Node.children] at hc ⊢
  have he : c.isEmpty = false := by
    cases c with
    | nil => exact absurd rfl hc
    | cons x xs => rfl
  simp only [AgentMCTS.pv_node, he, Bool.false_eq_true, if_false]
  cases moves with
  | nil =>
    simp only at hmo
    subst hmo
    cases hr : a.return_move sc (.mk m e r k o d b c) turn with
    | none => rfl
    | some mv =>
      simp only [Option.some_bind]
      rw [pv_find_eq]
      cases AgentMCTS.find_child c mv with
      | none => rfl
      | some x => rfl
  | cons mv tl =>
    simp only at hmo
    subst hmo
    simp only [Option.some_bind]
    rw [pv_find_eq]
    cases AgentMCTS.find_child c mv with
    | none => rfl
    | some x => rfl

/-- One round of the loop of `get_pv` when the argument `moves` is used up:
the move is that of `return_move`. -/
theorem pv_node_nil (a : AgentMCTS) (sc : Scoring) (n : Node) (turn : Side)
    (hc : n.children ≠ []) :
    a.pv_node sc n turn [] =
      (a.return_move sc n turn).bind fun m =>
        match AgentMCTS.find_child n.children m with
        | none => some [m]
        | some c => (a.pv_node sc c turn.opp []).map fun pv => m :: pv :=
  pv_node_round a sc n turn _ [] hc rfl

/-- One round of the loop of `get_pv` with a move of the argument `moves`. -/
theorem pv_node_cons (a : AgentMCTS) (sc : Scoring) (n : Node) (turn : Side) (mv : Move)
    (tl : List Move) (hc : n.children ≠ []) :
    a.pv_node sc n turn (mv :: tl) =
      match AgentMCTS.find_child n.children mv with
      | none => some [mv]
      | some c => (a.pv_node sc c turn.opp tl).map fun pv => mv :: pv :=
  pv_node_round a sc n turn (some mv) (mv :: tl) hc rfl

/-- The move of a round of the loop of `get_pv`. -/
theorem pv_node_some (a : AgentMCTS) (sc : Scoring) (n : Node) (turn : Side) (mv : Move)
    (moves : List Move) (hc : n.children ≠ [])
    (hmv : moves.head? = some mv ∨ (moves = [] ∧ a.return_move sc n turn = some mv)) :
    a.pv_node sc n turn moves =
      match AgentMCTS.find_child n.children mv with
      | none => some [mv]
      | some c => (a.pv_node sc c turn.opp moves.tail).map fun pv => mv :: pv := by
  cases moves with
  | nil =>
    rcases hmv with h | ⟨-, h⟩
    · simp at h
    · rw [pv_node_nil a sc n turn hc, h]
      rfl
  | cons x xs =>
    rcases hmv with h | ⟨h, -⟩
    · simp only [List.head?_cons, Option.some.injEq] at h
      subst h
      exact pv_node_cons a sc n turn x xs hc
    · exact absurd h (by simp)

/-- A round of the loop of `get_pv` that returns has a move. -/
theorem pv_node_move (a : AgentMCTS) (sc : Scoring) (n : Node) (turn : Side)
    (moves pv : List Move) (hc : n.children ≠ []) (h : a.pv_node sc n turn moves = some pv) :
    ∃ mv, moves.head? = some mv ∨ (moves = [] ∧ a.return_move sc n turn = some mv) := by
  cases moves with
  | nil =>
    rw [pv_node_nil a sc n turn hc] at h
    cases hr : a.return_move sc n turn with
    | none => rw [hr] at h; exact absurd h (by simp)
    | some mv => exact ⟨mv, Or.inr ⟨rfl, rfl⟩⟩
  | cons x xs => exact ⟨x, Or.inl rfl⟩

theorem scored_list_mem (a : AgentMCTS) (sc : Scoring) (pn : Nat) :
    ∀ (l : List Node), AgentMCTS.scored_list a sc pn l → ∀ c ∈ l,
      (c.exp.num < 400000000000 ∧
        (a.msrave = -1 ∨ a.msrave = -2 ∨
          (c.outcome.to_i < Outcome.DRAW.to_i →
            -1000000000000 <
              sc.value c.exp c.rave c.know a.msrave - sc.explore pn c.exp.num))) ∧
      AgentMCTS.scored a sc c := by
  intro l
  induction l with
  | nil => intro _ c hc; exact absurd hc (List.not_mem_nil c)
  | cons x xs ih =>
    intro h c hc
    simp only [AgentMCTS.scored_list] at h
    rcases List.mem_cons.1 hc with rfl | hc
    · exact ⟨h.1, h.2.1⟩
    · exact ih h.2.2 c hc

theorem scored_children (a : AgentMCTS) (sc : Scoring) (n : Node) (h : a.scored sc n) :
    AgentMCTS.scored_list a sc n.exp.num n.children := by
  obtain ⟨m, e, r, k, o, d, b, c⟩ := n
  simpa [AgentMCTS.scored, Node.exp, Node.children] using h

theorem find_child_mem (l : List Node) (m : Move) (c : Node)
    (h : AgentMCTS.find_child l m = some c) : c ∈ l ∧ c.move = m := by
  unfold AgentMCTS.find_child at h
  refine ⟨List.mem_of_find?_eq_some h, ?_⟩
  have := List.find?_some h
  simpa using this

/-- On a scored tree `return_move` answers at every node with children. -/
theorem return_move_scored (a : AgentMCTS) (sc : Scoring) (n : Node) (turn : Side)
    (h : a.scored sc n) (hc : n.children ≠ []) : ∃ m, a.return_move sc n turn = some m := by
  by_cases hp : Outcome.DRAW.to_i ≤ n.outcome.to_i
  · refine ⟨n.bestmove, ?_⟩
    unfold AgentMCTS.return_move
    rw [if_pos hp]
  · have hl := scored_children a sc n h
    obtain ⟨pre, c, post, -, h2, -, -⟩ :=
      return_move_unproven a sc n turn (not_le.1 hp) hc (by
        intro c hcm
        obtain ⟨⟨h1, h2⟩, -⟩ := scored_list_mem a sc n.exp.num n.children hl c hcm
        exact child_val_floor a sc n turn c h2 h1)
    exact ⟨c.move, h2⟩

/-- On a scored tree the walk of `get_pv` returns a sequence. -/
theorem pv_node_total (a : AgentMCTS) (sc : Scoring) :
    ∀ (k : Nat) (n : Node), n.size ≤ k → a.scored sc n → ∀ (turn : Side) (moves : List Move),
      ∃ pv, a.pv_node sc n turn moves = some pv := by
  intro k
  induction k using Nat.strong_induction_on with
  | _ k ih =>
    intro n hk hs turn moves
    by_cases hc : n.children = []
    · refine ⟨[], ?_⟩
      obtain ⟨m, e, r, kk, o, d, b, c⟩ := n
      simp only [Node.children] at hc
      subst hc
      simp [AgentMCTS.pv_node]
    · have hmv : ∃ mv, moves.head? = some mv ∨
          (moves = [] ∧ a.return_move sc n turn = some mv) := by
        cases moves with
        | nil =>
          obtain ⟨mv, hmv⟩ := return_move_scored a sc n turn hs hc
          exact ⟨mv, Or.inr ⟨rfl, hmv⟩⟩
        | cons x xs => exact ⟨x, Or.inl rfl⟩
      obtain ⟨mv, hmv⟩ := hmv
      rw [pv_node_some a sc n turn mv moves hc hmv]
      cases hf : AgentMCTS.find_child n.children mv with
      | none => exact ⟨[mv], rfl⟩
      | some c =>
        have hmem := (find_child_mem n.children mv c hf).1
        have hlt : c.size < n.size := by
          rw [size_eq_children n]
          exact size_lt_of_mem c n.children hmem
        have hsc := (scored_list_mem a sc n.exp.num n.children
          (scored_children a sc n hs) c hmem).2
        obtain ⟨pv, hpv⟩ := ih c.size (by omega) c (le_refl _) hsc turn.opp moves.tail
        exact ⟨mv :: pv, by simp only [hpv, Option.map]⟩

theorem legal_children_mem (G : Grid) (b : Board) :
    ∀ (l : List Node), AgentMCTS.legal_children G l b = true → ∀ c ∈ l,
      b.valid_move_xy G c.move = true ∧
        ∀ r, b.move_xy G c.move true = some r → AgentMCTS.legal_node G c r.2 = true := by
  intro l
  induction l with
  | nil => intro _ c hc; exact absurd hc (List.not_mem_nil c)
  | cons x xs ih =>
    intro h c hc
    simp only [AgentMCTS.legal_children, Bool.and_eq_true] at h
    rcases List.mem_cons.1 hc with rfl | hc
    · refine ⟨h.1.1, ?_⟩
      intro r hr
      have := h.1.2
      rw [hr] at this
      exact this
    · exact ih h.2 c hc

theorem legal_node_children (G : Grid) (n : Node) (b : Board)
    (h : AgentMCTS.legal_node G n b = true) : AgentMCTS.legal_children G n.children b = true := by
  obtain ⟨m, e, r, k, o, d, bm, c⟩ := n
  simpa [AgentMCTS.legal_node, Node.children] using h

/-- On a tree of legal moves the walk of `get_pv` is not longer than the
board has empty cells. -/
theorem pv_node_length (G : Grid) (s : Int) (hs : valid_size s = true) (hG : GridOK G s)
    (a : AgentMCTS) (sc : Scoring) :
    ∀ (k : Nat) (n : Node), n.size ≤ k → ∀ (b : Board), BoardInv G s b →
      AgentMCTS.legal_node G n b = true → ∀ (turn : Side) (moves pv : List Move),
      a.pv_node sc n turn moves = some pv → pv.length ≤ b.empty_cells := by
  intro k
  induction k using Nat.strong_induction_on with
  | _ k ih =>
    intro n hk b hb hl turn moves pv hpv
    by_cases hc : n.children = []
    · obtain ⟨m, e, r, kk, o, d, bm, c⟩ := n
      simp only [Node.children] at hc
      subst hc
      simp only [AgentMCTS.pv_node, List.isEmpty_nil, if_true, Option.some.injEq] at hpv
      rw [← hpv]
      exact Nat.zero_le _
    · obtain ⟨mv, hmv⟩ := pv_node_move a sc n turn moves pv hc hpv
      rw [pv_node_some a sc n turn mv moves hc hmv] at hpv
      have hlc := legal_node_children G n b hl
      obtain ⟨x, hx⟩ : ∃ x, x ∈ n.children := by
        cases hh : n.children with
        | nil => exact absurd hh hc
        | cons x xs => exact ⟨x, List.mem_cons_self x xs⟩
      have hpos := y_empty_pos G s hs hG b hb x.move (legal_children_mem G b n.children hlc x hx).1
      cases hf : AgentMCTS.find_child n.children mv with
      | none =>
        rw [hf] at hpv
        simp only [Option.some.injEq] at hpv
        rw [← hpv]
        exact hpos
      | some c =>
        rw [hf] at hpv
        simp only at hpv
        obtain ⟨hmem, hcm⟩ := find_child_mem n.children mv c hf
        obtain ⟨hv, hnext⟩ := legal_children_mem G b n.children hlc c hmem
        have hmove := y_move_xy_legal G s hs hG b hb c.move hv true
        have hl1 := hnext _ hmove
        have hb1 := y_move_inv G s hs hG b hb c.move hv true
        have hcnt := y_empty_after_move G s hs hG b hb c.move hv true
        have hlt : c.size < n.size := by
          rw [size_eq_children n]
          exact size_lt_of_mem c n.children hmem
        cases hp1 : a.pv_node sc c turn.opp moves.tail with
        | none => rw [hp1] at hpv; exact absurd hpv (by simp)
        | some pv1 =>
          rw [hp1] at hpv
          simp only [Option.map, Option.some.injEq] at hpv
          have := ih c.size (by omega) c (le_refl _) _ hb1 hl1 turn.opp moves.tail pv1 hp1
          rw [← hpv, List.length_cons]
          omega

end Y
end Morat

namespace Morat
namespace Y

theorem agent_legal_scored : agent_legal.scored sc_zero node_legal := by
  simp only [node_legal, leaf, AgentMCTS.scored, AgentMCTS.scored_list, ExpPair.num, Node.exp,
    and_true]
  refine ⟨⟨by decide, ?_⟩, ⟨by decide, ?_⟩, ⟨by decide, ?_⟩⟩ <;> exact Or.inr (Or.inl rfl)

/-- C24.  `AgentMCTS::get_pv`, for every tree and every argument `moves`.  On
a root without children it returns exactly `[M_RESIGN]`.  On a root with
children it returns the walk of its loop: each round takes the next move of
`moves` or, when these are used up, the move of `return_move`, appends it and
goes on at the child that `find_child` finds, ending at a node without
children or when there is no such child.  The walk returns a sequence, which
is not empty, on every tree in which `return_move` finds a child at every
node: every child has fewer than `4 * 10^11` playouts and, unless `msrave` is
`-1` or `-2`, a search value above `-10^12`.  On a reachable root board and a
tree in which the children of every node are legal moves of its position the
sequence is not longer than the root board has empty cells. -/
theorem C24_get_pv :
    ∀ (G : Grid) (s : Int) (a : AgentMCTS) (sc : Scoring) (moves : List Move),
      (a.root.children = [] → a.get_pv sc moves = some [M_RESIGN]) ∧
      (a.root.children ≠ [] →
        a.get_pv sc moves = a.pv_node sc a.root a.rootboard.to_play moves) ∧
      (∀ (n : Node) (turn : Side), n.children ≠ [] →
        a.pv_node sc n turn [] =
          (a.return_move sc n turn).bind fun m =>
            match AgentMCTS.find_child n.children m with
            | none => some [m]
            | some c => (a.pv_node sc c turn.opp []).map fun pv => m :: pv) ∧
      (∀ (n : Node) (turn : Side) (mv : Move) (tl : List Move), n.children ≠ [] →
        a.pv_node sc n turn (mv :: tl) =
          match AgentMCTS.find_child n.children mv with
          | none => some [mv]
          | some c => (a.pv_node sc c turn.opp tl).map fun pv => mv :: pv) ∧
      (∀ (n : Node) (turn : Side) (mvs : List Move), n.children = [] →
        a.pv_node sc n turn mvs = some []) ∧
      (a.scored sc a.root → ∃ pv, a.get_pv sc moves = some pv ∧ pv ≠ []) ∧
      (valid_size s = true → GridOK G s → Reachable G s a.rootboard → a.root.children ≠ [] →
        AgentMCTS.legal_node G a.root a.rootboard = true →
        ∀ pv, a.get_pv sc moves = some pv → pv.length ≤ a.rootboard.empty_cells) := by
  intro G s a sc moves
  have hleaf : ∀ (n : Node) (turn : Side) (mvs : List Move), n.children = [] →
      a.pv_node sc n turn mvs = some [] := by
    intro n turn mvs hc
    obtain ⟨m, e, r, k, o, d, b, c⟩ := n
    simp only [Node.children] at hc
    subst hc
    simp [AgentMCTS.pv_node]
  have hwalk : a.root.children ≠ [] →
      a.get_pv sc moves = a.pv_node sc a.root a.rootboard.to_play moves := by
    intro hc
    unfold AgentMCTS.get_pv
    cases hp : a.pv_node sc a.root a.rootboard.to_play moves with
    | none => rfl
    | some pv =>
      have hne : pv ≠ [] := fun he => hc ((pv_node_nonempty a sc a.root _ moves pv hp).1 he)
      simp only [Option.map, List.length_eq_zero, hne, if_false]
  refine ⟨?_, hwalk, fun n turn hc => pv_node_nil a sc n turn hc,
    fun n turn mv tl hc => pv_node_cons a sc n turn mv tl hc, hleaf, ?_, ?_⟩
  · intro hc
    unfold AgentMCTS.get_pv
    rw [hleaf a.root _ moves hc]
    rfl
  · intro hs
    obtain ⟨pv, hpv⟩ := pv_node_total a sc a.root.size a.root (le_refl _) hs
      a.rootboard.to_play moves
    by_cases hc : a.root.children = []
    · refine ⟨[M_RESIGN], ?_, by simp⟩
      unfold AgentMCTS.get_pv
      rw [hleaf a.root _ moves hc]
      rfl
    · refine ⟨pv, ?_, ?_⟩
      · rw [hwalk hc, hpv]
      · exact fun he => hc ((pv_node_nonempty a sc a.root _ moves pv hpv).1 he)
  · intro hs hG hb hc hl pv hpv
    rw [hwalk hc] at hpv
    exact pv_node_length G s hs hG a sc a.root.size a.root (le_refl _) a.rootboard
      (y_reachable_inv G s hs hG a.rootboard hb) hl a.rootboard.to_play moves pv hpv

set_option maxRecDepth 100000 in
/-- C24, witness: an agent fresh from the constructor answers `[M_RESIGN]`;
on the sample tree of legal moves on the empty board of side 4 the walk
returns a sequence that is not empty and not longer than the board has
cells. -/
theorem C24_get_pv_witness :
    (AgentMCTS.create Node.fresh board4).root.children = [] ∧
    agent_legal.root.children ≠ [] ∧ agent_legal.scored sc_zero agent_legal.root ∧
    valid_size 4 = true ∧ AgentMCTS.legal_node triGrid agent_legal.root agent_legal.rootboard = true ∧
    (AgentMCTS.create Node.fresh board4).get_pv sc_zero [] = some [M_RESIGN] ∧
    agent_legal.get_pv sc_zero [] =
      agent_legal.pv_node sc_zero agent_legal.root agent_legal.rootboard.to_play [] ∧
    (agent_legal.pv_node sc_zero node_legal .P1 [] =
      (agent_legal.return_move sc_zero node_legal .P1).bind fun m =>
        match AgentMCTS.find_child node_legal.children m with
        | none => some [m]
        | some c => (agent_legal.pv_node sc_zero c Side.P1.opp []).map fun pv => m :: pv) ∧
    (agent_legal.pv_node sc_zero node_legal .P1 [⟨1, 0⟩, ⟨0, 0⟩] =
      match AgentMCTS.find_child node_legal.children ⟨1, 0⟩ with
      | none => some [⟨1, 0⟩]
      | some c => (agent_legal.pv_node sc_zero c Side.P1.opp [⟨0, 0⟩]).map fun pv => ⟨1, 0⟩ :: pv) ∧
    agent_legal.pv_node sc_zero (leaf ⟨1, 0⟩ 6 5 .UNKNOWN) .P2 [⟨0, 0⟩] = some [] ∧
    (∃ pv, agent_legal.get_pv sc_zero [] = some pv ∧ pv ≠ []) ∧
    (∀ pv, agent_legal.get_pv sc_zero [] = some pv →
      pv.length ≤ agent_legal.rootboard.empty_cells) ∧
    agent_legal.rootboard.empty_cells = 10 :=
  ⟨rfl, by simp [agent_legal, node_legal, Node.children], agent_legal_scored, by decide,
    by decide,
    (C24_get_pv triGrid 4 (AgentMCTS.create Node.fresh board4) sc_zero []).1 rfl,
    (C24_get_pv triGrid 4 agent_legal sc_zero []).2.1
      (by simp [agent_legal, node_legal, Node.children]),
    (C24_get_pv triGrid 4 agent_legal sc_zero []).2.2.1 node_legal .P1
      (by simp [node_legal, Node.children]),
    (C24_get_pv triGrid 4 agent_legal sc_zero []).2.2.2.1 node_legal .P1 ⟨1, 0⟩ [⟨0, 0⟩]
      (by simp [node_legal, Node.children]),
    (C24_get_pv triGrid 4 agent_legal sc_zero []).2.2.2.2.1 (leaf ⟨1, 0⟩ 6 5 .UNKNOWN) .P2
      [⟨0, 0⟩] rfl,
    (C24_get_pv triGrid 4 agent_legal sc_zero []).2.2.2.2.2.1 agent_legal_scored,
    (C24_get_pv triGrid 4 agent_legal sc_zero []).2.2.2.2.2.2 (by decide) y_triGrid_ok
      (y_after_reachable 0 (by decide)) (by simp [agent_legal, node_legal, Node.children])
      (by decide),
    by decide⟩

end Y
end Morat

namespace Morat
namespace Y

/-! ## The number of legal moves -/

theorem y_clear_count (G : Grid) (s : Int) (b : Board) (hs : b.size_ = s)
    (hc : b.num_cells_ = s * s - s * (s - 1) / 2) : CountInv G s (b.clear G) := by
  have hget : ∀ i, i < (s * s).toNat →
      (b.clear G).get i =
        if G.on_board s ((i : Int) % s) ((i : Int) / s) then Side.NONE else Side.UNDEF := by
    intro i hi
    unfold Board.get Board.clear get
    simp only [Board.vec_size, hs]
    rw [cellAt_map_range _ _ _ hi]
    rfl
  have hlen : (b.clear G).cells_.length = (s * s).toNat := by
    simp [Board.clear, Board.vec_size, hs]
  constructor
  · exact hc
  · intro i hi hn
    rw [hlen] at hi
    rw [hget i hi] at hn
    by_contra hcon
    rw [if_neg hcon] at hn
    exact absurd hn (by decide)
  · have h0 : (b.clear G).num_moves_ = 0 := rfl
    rw [h0, add_zero]
    congr 1
    unfold Board.empty_cells Grid.on_board_count
    rw [hlen]
    apply List.countP_congr
    intro i hi
    rw [List.mem_range] at hi
    rw [hget i hi]
    cases G.on_board s ((i : Int) % s) ((i : Int) / s) <;> simp

theorem y_reachable_count (G : Grid) (s : Int) (hs : valid_size s = true) (hG : GridOK G s)
    (b : Board) (hb : Reachable G s b) : CountInv G s b := by
  induction hb with
  | create h =>
    unfold Board.size
    rw [h]
    simp only [Bool.not_true, Bool.false_eq_true, if_false]
    exact y_clear_count G s _ rfl rfl
  | clear b hb ih =>
    exact y_clear_count G s b (y_reachable_inv G s hs hG b hb).size_eq ih.cells_eq
  | toggle b _ ih =>
    have hc : b.toggle_to_play.cells_ = b.cells_ := by
      unfold Board.toggle_to_play
      split
      · split
        · rfl
        · split <;> rfl
      · rfl
    have hn : b.toggle_to_play.num_moves_ = b.num_moves_ := by
      unfold Board.toggle_to_play
      split
      · split
        · rfl
        · split <;> rfl
      · rfl
    have hk : b.toggle_to_play.num_cells_ = b.num_cells_ := by
      unfold Board.toggle_to_play
      split
      · split
        · rfl
        · split <;> rfl
      · rfl
    constructor
    · rw [hk]; exact ih.cells_eq
    · intro i hi hg
      unfold Board.get at hg
      rw [hc] at hi hg
      exact ih.on_shape i hi hg
    · have : b.toggle_to_play.empty_cells = b.empty_cells := by
        unfold Board.empty_cells Board.get
        rw [hc]
      rw [this, hn]
      exact ih.count
  | move b m permanent r b1 hb hv hm ih =>
    have hinv := y_reachable_inv G s hs hG b hb
    rw [y_move_xy_legal G s hs hG b hinv m hv permanent] at hm
    simp only [Option.some.injEq] at hm
    have hcnt := y_empty_after_move G s hs hG b hinv m hv permanent
    obtain ⟨-, -, hlt, -, hget, hvm, -⟩ := y_legal_facts G s hs hG b hinv m hv
    have hb1 : b1 = (b.move_body G (b.move_valid m) permanent).2 := by rw [hm]
    rw [hb1]
    have hbody := y_move_body_valid G b (b.move_valid m) permanent hvm
    constructor
    · rw [hbody]; exact ih.cells_eq
    · intro i hi hg
      rw [hbody] at hi hg
      unfold Board.get at hg
      simp only at hi hg
      rw [find_group_length, place_stone_length] at hi
      rw [find_group_get, place_stone_get _ _ _ _ _ _ hlt] at hg
      by_cases hip : i = (b.move_valid m).idx
      · rw [if_pos hip] at hg
        have := hinv.to_play
        rw [hg] at this
        exact absurd this (by decide)
      · rw [if_neg hip] at hg
        exact ih.on_shape i hi hg
    · have hnm : (b.move_body G (b.move_valid m) permanent).2.num_moves_ = b.num_moves_ + 1 := by
        rw [hbody]
      rw [hnm]
      have := ih.count
      omega

/-- A list that enumerates the valid moves of a reachable board, each once,
has as many entries as the board has empty cells when the outcome is
undecided, and none when it is decided. -/
theorem y_moves_length (G : Grid) (s : Int) (hs : valid_size s = true) (hG : GridOK G s)
    (b : Board) (hb : Reachable G s b) (moves : List Move) (hnd : moves.Nodup)
    (hmem : ∀ m, m ∈ moves ↔ b.valid_move_xy G m = true) :
    moves.length = if Outcome.DRAW.to_i ≤ b.outcome_.to_i then 0 else b.empty_cells := by
  have hinv := y_reachable_inv G s hs hG b hb
  have hcn := y_reachable_count G s hs hG b hb
  obtain ⟨hs4, hs25⟩ := y_valid_size_bounds s hs
  by_cases ho : Outcome.DRAW.to_i ≤ b.outcome_.to_i
  · rw [if_pos ho]
    cases hml : moves with
    | nil => rfl
    | cons x xs =>
      exfalso
      have hx : x ∈ moves := by rw [hml]; exact List.mem_cons_self x xs
      have hv := (hmem x).1 hx
      unfold Board.valid_move_xy at hv
      simp only [Bool.and_eq_true, decide_eq_true_eq] at hv
      omega
  · rw [if_neg ho]
    have hfacts : ∀ m, b.valid_move_xy G m = true →
        (b.move_valid m).idx < b.cells_.length ∧ ((b.move_valid m).idx : Int) = m.y * s + m.x ∧
          get b.cells_ (b.move_valid m).idx = .NONE ∧ 0 ≤ m.x ∧ m.x < s ∧ 0 ≤ m.y ∧ m.y < s := by
      intro m hv
      obtain ⟨-, -, h3, h4, h5, -, -⟩ := y_legal_facts G s hs hG b hinv m hv
      have hon : G.on_board s m.x m.y = true := by
        unfold Board.valid_move_xy at hv
        simp only [Bool.and_eq_true, decide_eq_true_eq] at hv
        have := hv.1.2
        rw [hinv.size_eq] at this
        exact this
      obtain ⟨a1, a2, a3, a4⟩ := hG.shape m.x m.y hon
      exact ⟨h3, h4, h5, a1, a2, a3, a4⟩
    have hperm : List.Perm (moves.map fun m => (b.move_valid m).idx)
        ((List.range b.cells_.length).filter fun i => b.get i == .NONE) := by
      rw [List.perm_ext_iff_of_nodup]
      · intro i
        simp only [List.mem_map, List.mem_filter, List.mem_range, beq_iff_eq]
        constructor
        · rintro ⟨m, hm, rfl⟩
          obtain ⟨h1, -, h3, -⟩ := hfacts m ((hmem m).1 hm)
          exact ⟨h1, h3⟩
        · rintro ⟨hi, hg⟩
          have hon := hcn.on_shape i hi hg
          have hspos : 0 < s := by omega
          have hxy : ((i : Int) / s) * s + (i : Int) % s = (i : Int) := by
            rw [mul_comm]; exact Int.ediv_add_emod _ _
          refine ⟨⟨(i : Int) % s, (i : Int) / s⟩, ?_, ?_⟩
          · rw [hmem]
            unfold Board.valid_move_xy Board.valid_move_fast Board.xy
            simp only [Bool.and_eq_true, decide_eq_true_eq, beq_iff_eq]
            rw [hinv.size_eq, hxy]
            refine ⟨⟨not_le.1 ho, hon⟩, ?_⟩
            simpa using hg
          · show ((b.xy ((i : Int) % s) ((i : Int) / s)).toNat) = i
            unfold Board.xy
            rw [hinv.size_eq, hxy]
            simp
      · rw [List.nodup_map_iff_inj_on hnd]
        intro x hx y hy hxy
        obtain ⟨-, x2, -, x4, x5, x6, x7⟩ := hfacts x ((hmem x).1 hx)
        obtain ⟨-, y2, -, y4, y5, y6, y7⟩ := hfacts y ((hmem y).1 hy)
        have he : x.y * s + x.x = y.y * s + y.x := by rw [← x2, ← y2, hxy]
        have hyy : x.y = y.y := by
          by_contra hne
          rcases lt_or_gt_of_ne hne with h | h
          · have : (x.y + 1) * s ≤ y.y * s := by
              apply mul_le_mul_of_nonneg_right _ (by omega)
              omega
            nlinarith
          · have : (y.y + 1) * s ≤ x.y * s := by
              apply mul_le_mul_of_nonneg_right _ (by omega)
              omega
            nlinarith
        have hxx : x.x = y.x := by
          rw [hyy] at he
          omega
        cases x; cases y
        simp only at hxx hyy
        rw [hxx, hyy]
      · exact (List.nodup_range _).filter _
    have := hperm.length_eq
    rw [List.length_map] at this
    rw [this]
    unfold Board.empty_cells
    rw [List.countP_eq_length_filter]

end Y
end Morat

namespace Morat
namespace Y

theorem of_move_fields (m : Move) :
    (Node.of_move m).move = m ∧ (Node.of_move m).children = [] ∧
      (Node.of_move m).exp = ⟨0, 0⟩ ∧ (Node.of_move m).rave = ⟨0, 0⟩ ∧
      (Node.of_move m).know = 0 ∧ (Node.of_move m).outcome = .UNKNOWN ∧
      (Node.of_move m).proofdepth = 0 :=
  ⟨rfl, rfl, rfl, rfl, rfl, rfl, rfl⟩

set_option maxRecDepth 100000 in
/-- The list `cells4` enumerates the valid moves of the empty board of side
4. -/
theorem cells4_valid : ∀ m, m ∈ cells4 ↔ board4.valid_move_xy triGrid m = true := by
  intro m
  constructor
  · revert m
    decide
  · intro hv
    obtain ⟨x, y⟩ := m
    have hon : tri_on_board 4 x y = true := by
      unfold Board.valid_move_xy at hv
      simp only [Bool.and_eq_true] at hv
      exact hv.1.2
    unfold tri_on_board at hon
    simp only [Bool.and_eq_true, decide_eq_true_eq] at hon
    obtain ⟨⟨hx, hy⟩, hxy⟩ := hon
    have hx3 : x < 4 := by omega
    have hy3 : y < 4 := by omega
    interval_cases x <;> interval_cases y <;> first | decide | omega

/-- C22.  Let `b` be a reachable board of side `s` on a shape with as many
cells as `Board::size` takes for `num_cells_`, and let the loop
`for (auto move : board)` yield the list `moves`, which enumerates the legal
moves of `b`, each exactly once.  Then `moves` has `board.moves_avail()`
entries, which on an undecided board is `num_cells - moves_made`, so the
assertion at the end of `create_children_simple` holds: called on a node
without children the method succeeds, allocates `moves_avail()` children and
adds that number to `nodes`; the moves of the children are the legal moves in
the order of the loop, every child is a leaf without statistics, knowledge
and proof and with unknown outcome, and the other fields of the node are
unchanged. -/
theorem C22_create_children :
    ∀ (G : Grid) (s : Int) (b : Board), valid_size s = true → GridOK G s →
      (G.on_board_count s : Int) = s * s - s * (s - 1) / 2 → Reachable G s b →
      ∀ (moves : List Move) (node : Node), moves.Nodup →
      (∀ m, m ∈ moves ↔ b.valid_move_xy G m = true) → node.children = [] →
      (b.outcome.to_i < Outcome.DRAW.to_i → (moves.length : Int) = b.num_cells - b.moves_made) ∧
      (moves.length : Int) = b.moves_avail ∧
      ∃ r, AgentMCTS.create_children_simple moves b node = some r ∧
        (r.2 : Int) = b.moves_avail ∧ (r.1.children.length : Int) = b.moves_avail ∧
        r.1.children.map Node.move = moves ∧
        (∀ c ∈ r.1.children, c.children = [] ∧ c.exp = ⟨0, 0⟩ ∧ c.rave = ⟨0, 0⟩ ∧
          c.know = 0 ∧ c.outcome = .UNKNOWN ∧ c.proofdepth = 0) ∧
        r.1.with_children [] = node.with_children [] := by
  intro G s b hs hG hcount hb moves node hnd hmem hch
  have hcn := y_reachable_count G s hs hG b hb
  have hlen := y_moves_length G s hs hG b hb moves hnd hmem
  have hcells := hcn.cells_eq
  have hc := hcn.count
  have hund : b.outcome_.to_i < Outcome.DRAW.to_i →
      (moves.length : Int) = b.num_cells_ - b.num_moves_ := by
    intro ho
    rw [hlen, if_neg (not_le.2 ho)]
    omega
  have havail : (moves.length : Int) = b.moves_avail := by
    unfold Board.moves_avail
    by_cases ho : Outcome.DRAW.to_i ≤ b.outcome_.to_i
    · rw [if_pos ho, hlen, if_pos ho]; rfl
    · rw [if_neg ho]
      exact hund (not_le.1 ho)
  refine ⟨hund, havail, ?_⟩
  refine ⟨(node.with_children (moves.map Node.of_move), moves.length), ?_, havail, ?_, ?_, ?_, ?_⟩
  · unfold AgentMCTS.create_children_simple
    rw [hch]
    simp only [List.isEmpty_nil, Bool.not_true, Bool.false_eq_true, if_false]
    rw [if_neg (not_not.2 havail)]
  · simp only
    rw [(with_children_fields node _).2.2.2.2.2.2.2, List.length_map]
    exact havail
  · simp only
    rw [(with_children_fields node _).2.2.2.2.2.2.2, List.map_map]
    have : (Node.move ∘ Node.of_move) = id := by
      funext m; rfl
    rw [this, List.map_id]
  · intro c hcm
    simp only at hcm
    rw [(with_children_fields node _).2.2.2.2.2.2.2, List.mem_map] at hcm
    obtain ⟨m, -, rfl⟩ := hcm
    exact (of_move_fields m).2
  · simp only
    obtain ⟨m, e, r, k, o, d, bm, c⟩ := node
    rfl

set_option maxRecDepth 100000 in
/-- C22, witness: the empty board of side 4 and its ten cells; a leaf gets
ten children. -/
theorem C22_create_children_witness :
    valid_size 4 = true ∧ (triGrid.on_board_count 4 : Int) = 4 * 4 - 4 * (4 - 1) / 2 ∧
    cells4.Nodup ∧ (leaf ⟨2, 0⟩ 6 5 .UNKNOWN).children = [] ∧
    ((board4.outcome.to_i < Outcome.DRAW.to_i →
        (cells4.length : Int) = board4.num_cells - board4.moves_made) ∧
      (cells4.length : Int) = board4.moves_avail ∧
      ∃ r, AgentMCTS.create_children_simple cells4 board4 (leaf ⟨2, 0⟩ 6 5 .UNKNOWN) = some r ∧
        (r.2 : Int) = board4.moves_avail ∧ (r.1.children.length : Int) = board4.moves_avail ∧
        r.1.children.map Node.move = cells4 ∧
        (∀ c ∈ r.1.children, c.children = [] ∧ c.exp = ⟨0, 0⟩ ∧ c.rave = ⟨0, 0⟩ ∧
          c.know = 0 ∧ c.outcome = .UNKNOWN ∧ c.proofdepth = 0) ∧
        r.1.with_children [] = (leaf ⟨2, 0⟩ 6 5 .UNKNOWN).with_children []) ∧
    board4.moves_avail = 10 :=
  ⟨by decide, by decide, by decide, rfl,
    C22_create_children triGrid 4 board4 (by decide) y_triGrid_ok (by decide)
      (y_after_reachable 0 (by decide)) cells4 (leaf ⟨2, 0⟩ 6 5 .UNKNOWN) (by decide)
      cells4_valid rfl,
    by decide⟩

end Y
end Morat

namespace Morat

/-! ## The size that `test_cell` accumulates -/

theorem countP_or_disjoint (A B : Nat → Prop) [DecidablePred A] [DecidablePred B]
    (hd : ∀ j, A j → B j → False) :
    ∀ l : List Nat, l.countP (fun j => decide (A j ∨ B j)) =
      l.countP (fun j => decide (A j)) + l.countP (fun j => decide (B j)) := by
  intro l
  induction l with
  | nil => rfl
  | cons a l ih =>
    rw [List.countP_cons, List.countP_cons, List.countP_cons, ih]
    by_cases ha : A a
    · have hb : ¬ B a := fun hb => hd a ha hb
      simp only [ha, hb, or_false, decide_True, decide_False, if_true]
      simp
      omega
    · by_cases hb : B a
      · simp only [ha, hb, or_true, decide_True, decide_False, if_true]
        simp
        omega
      · simp [ha, hb]

theorem countP_eq_self (p : Nat) : ∀ l : List Nat, l.Nodup → p ∈ l →
    l.countP (fun j => decide (j = p)) = 1 := by
  intro l
  induction l with
  | nil => intro _ hp; exact absurd hp (List.not_mem_nil p)
  | cons a l ih =>
    intro hnd hp
    rw [List.nodup_cons] at hnd
    rw [List.countP_cons]
    by_cases ha : a = p
    · subst ha
      have : l.countP (fun j => decide (j = a)) = 0 := by
        rw [List.countP_eq_zero]
        intro x hx
        simp only [decide_eq_true_eq]
        intro he
        exact hnd.1 (he ▸ hx)
      simp [this]
    · have hp' : p ∈ l := by
        rcases List.mem_cons.1 hp with h | h
        · exact absurd h.symm ha
        · exact h
      simp [ha, ih hnd.2 hp']

/-- The cells that are `p` or in the group of an entry of `T` are, when no two
entries of `T` are in one group and none is in the group of `p`, one more
than the cells of the groups of the entries. -/
theorem countP_groups (rep : Nat → Nat) (p : Nat) (l : List Nat) (hnd : l.Nodup) (hp : p ∈ l) :
    ∀ T : List MoveValid, (∀ m ∈ T, rep p ≠ rep m.idx) →
      ¬ has_pair (fun a b => rep a = rep b) T →
      l.countP (fun j => decide (j = p ∨ ∃ m ∈ T, rep j = rep m.idx)) =
        1 + (T.map fun m => l.countP (fun j => decide (rep j = rep m.idx))).sum := by
  intro T
  induction T with
  | nil =>
    intro _ _
    simp only [List.not_mem_nil, false_and, exists_false, or_false, List.map_nil, List.sum_nil]
    exact countP_eq_self p l hnd hp
  | cons m T ih =>
    intro hpT hpair
    have hpair' : ¬ has_pair (fun a b => rep a = rep b) T := fun hx => hpair (Or.inr hx)
    have hfirst : ∀ y ∈ T, rep m.idx ≠ rep y.idx := fun y hy he => hpair (Or.inl ⟨y, hy, he⟩)
    have hih := ih (fun y hy => hpT y (List.mem_cons_of_mem _ hy)) hpair'
    have hsplit : ∀ j, (j = p ∨ ∃ y ∈ m :: T, rep j = rep y.idx) ↔
        ((j = p ∨ ∃ y ∈ T, rep j = rep y.idx) ∨ rep j = rep m.idx) := by
      intro j
      constructor
      · rintro (h | ⟨y, hy, he⟩)
        · exact Or.inl (Or.inl h)
        · rcases List.mem_cons.1 hy with rfl | hy
          · exact Or.inr he
          · exact Or.inl (Or.inr ⟨y, hy, he⟩)
      · rintro ((h | ⟨y, hy, he⟩) | he)
        · exact Or.inl h
        · exact Or.inr ⟨y, List.mem_cons_of_mem _ hy, he⟩
        · exact Or.inr ⟨m, List.mem_cons_self _ _, he⟩
    have hcongr : l.countP (fun j => decide (j = p ∨ ∃ y ∈ m :: T, rep j = rep y.idx)) =
        l.countP (fun j => decide ((j = p ∨ ∃ y ∈ T, rep j = rep y.idx) ∨ rep j = rep m.idx)) := by
      apply List.countP_congr
      intro j _
      simp only [decide_eq_true_eq]
      exact hsplit j
    rw [hcongr, countP_or_disjoint (fun j => j = p ∨ ∃ y ∈ T, rep j = rep y.idx)
      (fun j => rep j = rep m.idx) _ l, hih, List.map_cons, List.sum_cons]
    · omega
    · intro j hA hB
      rcases hA with rfl | ⟨y, hy, he⟩
      · exact hpT m (List.mem_cons_self _ _) hB
      · exact hfirst y hy (hB.symm.trans he)

theorem sum_mod_mod (q a : Nat) : ∀ l : List Nat,
    (a + (l.map fun x => x % q).sum) % q = (a + l.sum) % q := by
  intro l
  induction l generalizing a with
  | nil => rfl
  | cons x xs ih =>
    simp only [List.map_cons, List.sum_cons]
    rw [← Nat.add_assoc, ih (a + x % q), ← Nat.add_assoc, Nat.add_right_comm a (x % q),
      Nat.add_right_comm a x, Nat.add_mod (a + xs.sum) (x % q), Nat.mod_mod,
      ← Nat.add_mod]

section uf
variable {v : Variant} {nb : Nat → List MoveValid} {E C : Nat → Nat} {cells : List Cell}
  {pend : Nat → Prop} {rep rank : Nat → Nat}

/-- The neighbour loop of `test_cell` adds to the size of `testcell` the size
fields of the representatives of the neighbours taken. -/
theorem test_neighbors_size (turn : Side) (cells0 : List Cell)
    (h0 : ∀ k, (cellAt cells0 k).size = (cellAt cells k).size) :
    ∀ (l : List MoveValid) (skip : Bool) (st : (Cell × Nat) × List Cell),
      CellsInv v nb E C st.2 pend rep rank →
      (∀ m ∈ l, m.on_board = true → m.idx < st.2.length) →
      (∀ k, (cellAt st.2 k).size = (cellAt cells k).size) →
      (∀ k, get st.2 k = get cells k) →
      st.1.1.size < v.size_mod →
      (test_neighbors v turn l skip st).1.1.size =
        (st.1.1.size + ((taken_neighbors turn cells l skip).map
          fun m => (cellAt cells0 (rep m.idx)).size).sum) % v.size_mod := by
  intro l
  induction l with
  | nil =>
    intro skip st _ _ _ _ hlt
    cases skip <;> simp [test_neighbors, taken_neighbors, Nat.mod_eq_of_lt hlt]
  | cons m rest ih =>
    intro skip st hinv hidx hsz hget hlt
    have hidxr : ∀ m1 ∈ rest, m1.on_board = true → m1.idx < st.2.length :=
      fun m1 hm1 => hidx m1 (List.mem_cons_of_mem _ hm1)
    cases skip with
    | true =>
      have := ih false st hinv hidxr hsz hget hlt
      simpa [test_neighbors, taken_neighbors] using this
    | false =>
      by_cases hc : (m.on_board && turn == get st.2 m.idx) = true
      · have hob : m.on_board = true := by
          simp only [Bool.and_eq_true] at hc; exact hc.1
        have hc' : (m.on_board && turn == get cells m.idx) = true := by
          rw [← hget m.idx]; exact hc
        have hml := hidx m (by simp) hob
        have hf := find_group_fst hinv m.idx hml
        have hinv1 := find_group_inv hinv m.idx hml
        have hl1 := find_group_length st.2 m.idx
        have hd := find_group_data st.2 m.idx
        have hmod : 0 < v.size_mod := by omega
        obtain ⟨tc1, htc1⟩ : ∃ tc1 : Cell, tc1 =
            { st.1.1 with
              corner := if v.corners then
                  st.1.1.corner ||| (cellAt (find_group st.2 m.idx).2 (find_group st.2 m.idx).1).corner
                else st.1.1.corner
              edge := st.1.1.edge ||| (cellAt (find_group st.2 m.idx).2 (find_group st.2 m.idx).1).edge
              size := (st.1.1.size +
                (cellAt (find_group st.2 m.idx).2 (find_group st.2 m.idx).1).size) % v.size_mod } :=
          ⟨_, rfl⟩
        have hstep : test_neighbors v turn (m :: rest) false st =
            test_neighbors v turn rest true ((tc1, st.1.2 + 1), (find_group st.2 m.idx).2) := by
          rw [htc1]
          simp only [test_neighbors, hc, if_true]
        have hs1 : tc1.size = (st.1.1.size + (cellAt cells0 (rep m.idx)).size) % v.size_mod := by
          rw [htc1]; simp only
          rw [hf, (hd (rep m.idx)).1, hsz (rep m.idx), h0 (rep m.idx)]
        have htk : taken_neighbors turn cells (m :: rest) false =
            m :: taken_neighbors turn cells rest true := by
          simp only [taken_neighbors, hc', if_true]
        rw [hstep, htk]
        have := ih true ((tc1, st.1.2 + 1), (find_group st.2 m.idx).2) hinv1 (by
            intro m1 hm1 ho1; rw [hl1]; exact hidxr m1 hm1 ho1)
          (by intro k; rw [(hd k).1]; exact hsz k)
          (by intro k; rw [find_group_get]; exact hget k)
          (by rw [hs1]; exact Nat.mod_lt _ hmod)
        rw [this]
        simp only [List.map_cons, List.sum_cons]
        rw [hs1, Nat.mod_add_mod, Nat.add_assoc]
      · have hcf : (m.on_board && turn == get st.2 m.idx) = false := by
          cases hx : (m.on_board && turn == get st.2 m.idx)
          · rfl
          · exact absurd hx hc
        have hcf' : (m.on_board && turn == get cells m.idx) = false := by
          rw [← hget m.idx]; exact hcf
        have hstep : test_neighbors v turn (m :: rest) false st =
            test_neighbors v turn rest false st := by
          simp only [test_neighbors, hcf]; rfl
        have htk : taken_neighbors turn cells (m :: rest) false =
            taken_neighbors turn cells rest false := by
          simp only [taken_neighbors, hcf']; rfl
        rw [hstep, htk]
        exact ih false st hinv hidxr hsz hget hlt

end uf

section uf2
variable {v : Variant} {nb : Nat → List MoveValid} {E C : Nat → Nat} {cells : List Cell}
  {rep rank : Nat → Nat}

/-- The size that `test_cell` computes for an empty cell `p`: one more than
the size fields of the representatives of the neighbours taken, a group
counted once for every contact.  It is the size field of the representative
of `p` after `place_stone` when no two of the neighbours taken are in one
group. -/
theorem test_size_vs_move {n : Nat} (hok : NbrOK nb n) (hn : cells.length = n)
    (hmod : 1 < v.size_mod)
    (h : CellsInv v nb E C cells (fun _ => False) rep rank) (p : Nat) (hp : p < n)
    (hemp : (get cells p).isPlayer = false)
    (hsym : ∀ j, j < n → IsNbr nb p j → IsNbr nb j p)
    (turn : Side) (hturn : turn.isPlayer = true) (permanent : Bool) :
    (test_neighbors v turn (nb p) false
        ((cellAt (find_group cells p).2 (find_group cells p).1, 0), (find_group cells p).2)).1.1.size =
      (1 + contact_sizes cells (taken_neighbors turn cells (nb p) false)) % v.size_mod ∧
    (¬ has_pair (Connected nb cells) (taken_neighbors turn cells (nb p) false) →
      (cellAt (find_group (place_stone v (nb p) cells turn p permanent).2 p).2
        (find_group (place_stone v (nb p) cells turn p permanent).2 p).1).size =
      (1 + contact_sizes cells (taken_neighbors turn cells (nb p) false)) % v.size_mod) := by
  have hpl : p < cells.length := by rw [hn]; exact hp
  have hrp : rep p = p := h.single p hpl hemp (rep p) (h.rep_lt p hpl) (h.rep_rep p hpl)
  have hF0 := find_group_fst h p hpl
  have hinv0 := find_group_inv h p hpl
  have hl0 := find_group_length cells p
  have hd0 := find_group_data cells p
  have hroot0 : (cellAt cells p).parent = p := (h.root_iff p hpl).2 hrp
  have hmem : ∀ m ∈ taken_neighbors turn cells (nb p) false, m.idx < cells.length := by
    intro m hm
    have := taken_mem turn cells (nb p) false m hm
    rw [hn]; exact hok.idx_lt p hp m this.1 this.2.1
  have hcs : contact_sizes cells (taken_neighbors turn cells (nb p) false) =
      ((taken_neighbors turn cells (nb p) false).map
        fun m => (cellAt cells (rep m.idx)).size).sum := by
    unfold contact_sizes
    congr 1
    apply List.map_congr_left
    intro m hm
    rw [find_group_fst h m.idx (hmem m hm)]
  have hone : (cellAt cells p).size = 1 := by
    have h1 := h.size_eq p hpl hroot0
    have h2 := group_count_single h p hpl hemp
    have h3 := h.rank_count p hpl
    rw [hrp] at h2 h3
    have : group_count rep cells.length p = 1 := by omega
    rw [h1, this]
    exact Nat.mod_eq_of_lt hmod
  constructor
  · have := @test_neighbors_size v nb E C cells (fun _ => False) rep rank turn cells
      (fun k => rfl) (nb p) false
      ((cellAt (find_group cells p).2 (find_group cells p).1, 0), (find_group cells p).2) hinv0
      (by intro m hm ho; simp only; rw [hl0, hn]; exact hok.idx_lt p hp m hm ho)
      (fun k => (hd0 k).1) (find_group_get cells p)
      (by
        simp only
        rw [hF0, hrp, (hd0 p).1, hone]
        exact hmod)
    rw [this, hcs]
    simp only
    rw [hF0, hrp, (hd0 p).1, hone]
  · intro hnp
    obtain ⟨rep1, rank1, r1, r2, r3, r4, r5, r6⟩ :=
      place_spec hok hn h p hp hemp hsym turn hturn permanent
    have hpJ : p < (place_stone v (nb p) cells turn p permanent).2.length := by
      rw [r1]; exact hp
    have hF1 := find_group_fst r3 p hpJ
    have hFd := find_group_data (place_stone v (nb p) cells turn p permanent).2 p
    have hroot1 := r3.par_rep p hpJ
    have hrl1 := r3.rep_lt p hpJ
    rw [hF1, (hFd (rep1 p)).1, r3.size_eq (rep1 p) hrl1 hroot1, r1, hcs]
    have hnp' : ¬ has_pair (fun a b => rep a = rep b)
        (taken_neighbors turn cells (nb p) false) := by
      intro hx
      apply hnp
      refine (has_pair_congr_on _ _ _ ?_).1 hx
      intro a ha b hb
      rw [eq_comm]
      exact rep_eq_iff_connected h a.idx b.idx (hmem a ha) (hmem b hb)
    have hpT : ∀ m ∈ taken_neighbors turn cells (nb p) false, rep p ≠ rep m.idx := by
      intro m hm he
      have hmi := hmem m hm
      have := h.single p hpl hemp m.idx hmi he.symm
      have hg := (taken_mem turn cells (nb p) false m hm).2.2
      rw [this] at hg
      rw [hg] at hemp
      rw [hturn] at hemp
      exact absurd hemp (by simp)
    have hcount : group_count rep1 n (rep1 p) =
        (List.range n).countP (fun j => decide (j = p ∨
          ∃ m ∈ taken_neighbors turn cells (nb p) false, rep j = rep m.idx)) := by
      unfold group_count
      apply List.countP_congr
      intro j hj
      simp only [decide_eq_true_eq]
      exact r5 j (List.mem_range.1 hj)
    rw [hcount, countP_groups rep p (List.range n) (List.nodup_range n) (List.mem_range.2 hp)
      _ hpT hnp']
    have hsizes : ((taken_neighbors turn cells (nb p) false).map
        fun m => (cellAt cells (rep m.idx)).size) =
        ((taken_neighbors turn cells (nb p) false).map
          fun m => (List.range n).countP (fun j => decide (rep j = rep m.idx))).map
          fun x => x % v.size_mod := by
      rw [List.map_map]
      apply List.map_congr_left
      intro m hm
      have hmi := hmem m hm
      rw [h.size_eq _ (h.rep_lt _ hmi) (h.par_rep _ hmi), hn]
      rfl
    rw [hsizes, sum_mod_mod]

end uf2
end Morat

namespace Morat

section uf
variable {v : Variant} {nb : Nat → List MoveValid} {E C : Nat → Nat} {cells : List Cell}
  {rep rank : Nat → Nat}

/-- The cell that `test_cell` returns for an empty cell `p` against the
representative of `p` on the array that `move` leaves, which is the array
after `place_stone` and one more `find_group(p)`. -/
theorem test_cell_vs_move {n : Nat} (hok : NbrOK nb n) (hn : cells.length = n)
    (hmod : 1 < v.size_mod)
    (h : CellsInv v nb E C cells (fun _ => False) rep rank) (p : Nat) (hp : p < n)
    (hemp : (get cells p).isPlayer = false)
    (hsym : ∀ j, j < n → IsNbr nb p j → IsNbr nb j p)
    (turn : Side) (hturn : turn.isPlayer = true) (permanent : Bool)
    (after : List Cell)
    (hafter : after = (find_group (place_stone v (nb p) cells turn p permanent).2 p).2)
    (tc : (Cell × Nat) × List Cell)
    (htc : tc = test_neighbors v turn (nb p) false
      ((cellAt (find_group cells p).2 (find_group cells p).1, 0), (find_group cells p).2)) :
    (cellAt after (find_group after p).1).edge = tc.1.1.edge ∧
    (v.corners = true → (cellAt after (find_group after p).1).corner = tc.1.1.corner) ∧
    tc.1.1.size = (1 + contact_sizes cells (taken_neighbors turn cells (nb p) false)) % v.size_mod ∧
    (¬ has_pair (Connected nb cells) (taken_neighbors turn cells (nb p) false) →
      tc.1.1.size = (cellAt after (find_group after p).1).size) ∧
    tc.2.length = cells.length ∧
    (∀ k, cellAt tc.2 k = { cellAt cells k with parent := (cellAt tc.2 k).parent }) ∧
    (∀ k, k < cells.length → (find_group tc.2 k).1 = (find_group cells k).1) := by
  obtain ⟨e1, e2, -, -, e5, e6, e7⟩ :=
    test_vs_move hok hn h p hp hemp hsym turn hturn permanent
  obtain ⟨s1, s2⟩ := test_size_vs_move hok hn hmod h p hp hemp hsym turn hturn permanent
  obtain ⟨rep1, rank1, r1, -, r3, -, -, -⟩ :=
    place_spec hok hn h p hp hemp hsym turn hturn permanent
  have hpJ : p < (place_stone v (nb p) cells turn p permanent).2.length := by rw [r1]; exact hp
  have hagain := find_group_again r3 p hpJ
  have hdata := find_group_data (place_stone v (nb p) cells turn p permanent).2 p
  have hdata2 : ∀ k,
      (cellAt (find_group (find_group (place_stone v (nb p) cells turn p permanent).2 p).2 p).2
          k).size =
        (cellAt (find_group (place_stone v (nb p) cells turn p permanent).2 p).2 k).size ∧
      (cellAt (find_group (find_group (place_stone v (nb p) cells turn p permanent).2 p).2 p).2
          k).edge =
        (cellAt (find_group (place_stone v (nb p) cells turn p permanent).2 p).2 k).edge ∧
      (cellAt (find_group (find_group (place_stone v (nb p) cells turn p permanent).2 p).2 p).2
          k).corner =
        (cellAt (find_group (place_stone v (nb p) cells turn p permanent).2 p).2 k).corner :=
    find_group_data _ p
  rw [hafter, htc, hagain]
  refine ⟨e1, e2, s1, ?_, ?_, e7, ?_⟩
  · intro hnp
    rw [s1, s2 hnp]
  · rw [e6, hn]
  · intro k hk
    rw [find_group_fst e5 k (by rw [e6, ← hn]; exact hk), find_group_fst h k hk]

end uf
end Morat

namespace Morat

set_option maxRecDepth 100000 in
/-- C26, counterexample: on the board after the sample game `game_fork` the
first player is to move and owns the group `(1,0) (2,0) (2,1)`, which touches
the empty cell `(1,1)` at `(1,0)` and, after the skipped `(2,0)`, again at
`(2,1)`.  `test_size((1,1))` counts the three stones twice and answers 7; the
group of `(1,1)` after `move((1,1))` has 4 cells. -/
theorem C26_counterexample :
    Y.Reachable Y.triGrid 4 Y.fork_board ∧
    Y.fork_board.valid_move_xy Y.triGrid ⟨1, 1⟩ = true ∧
    ∃ b1, Y.fork_board.move_xy Y.triGrid ⟨1, 1⟩ true = some (true, b1) ∧
      (Y.fork_board.test_size Y.triGrid ⟨1, 1⟩).1 = 7 ∧
      (b1.rep_cell (Y.fork_board.move_valid ⟨1, 1⟩)).size = 4 ∧
      (group_cells b1.cells_ (find_group b1.cells_ (Y.fork_board.move_valid ⟨1, 1⟩).idx).1).length
        = 4 :=
  ⟨Y.y_play_reachable Y.triGrid 4 Y.game_fork Y.board4 _ (Y.Reachable.create (by decide))
      (by decide),
    by decide,
    (Y.fork_board.move_body Y.triGrid (Y.fork_board.move_valid ⟨1, 1⟩) true).2,
    by decide, by decide, by decide, by decide⟩

/-- C26, as the code has it.  On every reachable board of both variants and
for every legal move `m` (an empty cell of the shape, the outcome undecided):
`test_connectivity(m)` is the number of edges (on the Havannah board, of
corners plus edges) in the masks of the representative of the group of `m`
after `move(m)`.  `test_size(m)` is one plus the `size` fields of the
representatives of the neighbours that the loop takes, a group counted once
for every contact, in the width of the field (16 bits on the Y board, 8 on
the Havannah board); it is the `size` field of the representative of `m`
after `move(m)` when no two of the neighbours taken are connected.  The
queries write parent links only: every other member of the board and every
other field of a cell is unchanged, and `find_group` answers afterwards as
before. -/
theorem C26_test_queries :
    (∀ (G : Y.Grid) (s : Int) (b : Y.Board), Y.valid_size s = true → Y.GridOK G s →
      Y.Reachable G s b → ∀ (m : Move) (permanent : Bool), b.valid_move_xy G m = true →
      ∃ b1, b.move_xy G m permanent = some (true, b1) ∧
        (b.test_connectivity G m).1 = (b1.rep_cell (b.move_valid m)).numedges ∧
        (b.test_size G m).1 =
          (1 + contact_sizes b.cells_ (taken_neighbors b.to_play_ b.cells_
            (G.neighbors_small b.size_ (b.move_valid m).idx) false)) % 65536 ∧
        (¬ has_pair (Connected (G.neighbors_small b.size_) b.cells_)
            (taken_neighbors b.to_play_ b.cells_
              (G.neighbors_small b.size_ (b.move_valid m).idx) false) →
          (b.test_size G m).1 = (b1.rep_cell (b.move_valid m)).size) ∧
        { (b.test_cell G m).2 with cells_ := b.cells_ } = b ∧
        (b.test_cell G m).2.cells_.length = b.cells_.length ∧
        (∀ k, cellAt (b.test_cell G m).2.cells_ k =
          { cellAt b.cells_ k with parent := (cellAt (b.test_cell G m).2.cells_ k).parent }) ∧
        (∀ k, k < b.cells_.length →
          (find_group (b.test_cell G m).2.cells_ k).1 = (find_group b.cells_ k).1)) ∧
    (∀ (G : Havannah.Grid) (s : Int) (b : Havannah.Board), Havannah.valid_size s = true →
      Havannah.GridOK G (s * 2 - 1) → Havannah.Reachable G s b →
      ∀ (m : Move) (permanent : Bool), b.valid_move_xy G m = true →
      ∃ b1, b.move_xy G m true permanent = some (true, b1) ∧
        (b.test_connectivity G m).1 =
          (b1.rep_cell (b.move_valid m)).numcorners + (b1.rep_cell (b.move_valid m)).numedges ∧
        (b.test_size G m).1 =
          (1 + contact_sizes b.cells_ (taken_neighbors b.to_play_ b.cells_
            (G.neighbors_small b.size_ (b.move_valid m).idx) false)) % 256 ∧
        (¬ has_pair (Connected (G.neighbors_small b.size_) b.cells_)
            (taken_neighbors b.to_play_ b.cells_
              (G.neighbors_small b.size_ (b.move_valid m).idx) false) →
          (b.test_size G m).1 = (b1.rep_cell (b.move_valid m)).size) ∧
        { (b.test_cell G m).2 with cells_ := b.cells_ } = b ∧
        (b.test_cell G m).2.cells_.length = b.cells_.length ∧
        (∀ k, cellAt (b.test_cell G m).2.cells_ k =
          { cellAt b.cells_ k with parent := (cellAt (b.test_cell G m).2.cells_ k).parent }) ∧
        (∀ k, k < b.cells_.length →
          (find_group (b.test_cell G m).2.cells_ k).1 = (find_group b.cells_ k).1)) := by
  constructor
  · intro G s b hs hG hb m permanent hv
    have hinv := Y.y_reachable_inv G s hs hG b hb
    have hsz := hinv.size_eq
    subst hsz
    obtain ⟨ho, hob, hlt, hidx, hget, hvm, hsym⟩ := Y.y_legal_facts G b.size_ hs hG b hinv m hv
    obtain ⟨rep, rank, hc⟩ := hinv.cells
    have hltn : (b.move_valid m).idx < (b.size_ * b.size_).toNat := by
      rw [← hinv.len]; exact hlt
    obtain ⟨k1, -, k3, k4, k5, k6, k7⟩ :=
      test_cell_vs_move hG.nbr hinv.len Y.y_variant_mod hc (b.move_valid m).idx hltn
        (by rw [hget]; rfl) hsym b.to_play_ hinv.to_play permanent _ rfl _ rfl
    have hbody := Y.y_move_body_valid G b (b.move_valid m) permanent hvm
    refine ⟨(b.move_body G (b.move_valid m) permanent).2, ?_, ?_⟩
    · rw [Y.y_move_xy_legal G b.size_ hs hG b hinv m hv permanent]
      have h1 : (b.move_body G (b.move_valid m) permanent).1 = true := by rw [hbody]
      exact congrArg some (Prod.ext h1 rfl)
    · have hcells : (b.move_body G (b.move_valid m) permanent).2.cells_ =
          (find_group (place_stone Y.variant (G.neighbors_small b.size_ (b.move_valid m).idx)
            b.cells_ b.to_play_ (b.move_valid m).idx permanent).2 (b.move_valid m).idx).2 := by
        rw [hbody]
      unfold Y.Board.test_connectivity Y.Board.test_size Y.Board.rep_cell Cell.numedges
      rw [hcells]
      exact ⟨congrArg BitsSetTable256 k1.symm, k3, k4, rfl, k5, k6, k7⟩
  · intro G s b hs hG hb m permanent hv
    have hinv := Havannah.h_reachable_inv G s hs hG b hb
    have hsz := hinv.size_eq
    obtain ⟨ho, hob, hlt, hidx, hget, hvm, hsym⟩ := Havannah.h_legal_facts G s hs hG b hinv m hv
    obtain ⟨rep, rank, hc⟩ := hinv.cells
    rw [← hsz] at hc hG hsym
    have hlen : b.cells_.length = (b.size_ * b.size_).toNat := by rw [hinv.len, hsz]
    have hltn : (b.move_valid m).idx < (b.size_ * b.size_).toNat := by
      rw [← hlen]; exact hlt
    obtain ⟨k1, k2, k3, k4, k5, k6, k7⟩ :=
      test_cell_vs_move hG.nbr hlen Havannah.h_variant_mod hc (b.move_valid m).idx hltn
        (by rw [hget]; rfl) hsym b.to_play_ hinv.to_play permanent _ rfl _ rfl
    have hbody := Havannah.h_move_body_valid G b (b.move_valid m) true permanent hvm
    refine ⟨(b.move_body G (b.move_valid m) true permanent).2, ?_, ?_⟩
    · rw [Havannah.h_move_xy_legal G s hs (by rw [← hsz]; exact hG) b hinv m hv true permanent]
      have h1 : (b.move_body G (b.move_valid m) true permanent).1 = true := by rw [hbody]
      exact congrArg some (Prod.ext h1 rfl)
    · have hcells : (b.move_body G (b.move_valid m) true permanent).2.cells_ =
          (find_group (place_stone Havannah.variant
            (G.neighbors_small b.size_ (b.move_valid m).idx)
            b.cells_ b.to_play_ (b.move_valid m).idx permanent).2 (b.move_valid m).idx).2 := by
        rw [hbody]
        rfl
      unfold Havannah.Board.test_connectivity Havannah.Board.test_size Havannah.Board.rep_cell
        Cell.numedges Cell.numcorners
      rw [hcells]
      refine ⟨?_, k3, k4, rfl, k5, k6, k7⟩
      have e1 := congrArg BitsSetTable256 k1.symm
      have e2 := congrArg BitsSetTable256 (k2 rfl).symm
      exact congrArg₂ (· + ·) e2 e1

end Morat

namespace Morat

theorem has_pair_single (R : Nat → Nat → Prop) (x : MoveValid) : ¬ has_pair R [x] := by
  simp [has_pair]

set_option maxRecDepth 100000 in
/-- C26, witness: the move `(1,2)` on the Y board of the sample game after six
moves and the move `(2,0)` on the Havannah board of the sample game after four
moves; each has one neighbour that the loop takes. -/
theorem C26_test_queries_witness :
    (Y.after 6).valid_move_xy Y.triGrid ⟨1, 2⟩ = true ∧
    (Havannah.after 4).valid_move_xy Havannah.hexGrid ⟨2, 0⟩ = true ∧
    (∃ b1, (Y.after 6).move_xy Y.triGrid ⟨1, 2⟩ true = some (true, b1) ∧
      ((Y.after 6).test_connectivity Y.triGrid ⟨1, 2⟩).1 =
        (b1.rep_cell ((Y.after 6).move_valid ⟨1, 2⟩)).numedges ∧
      ((Y.after 6).test_size Y.triGrid ⟨1, 2⟩).1 =
        (1 + contact_sizes (Y.after 6).cells_ (taken_neighbors (Y.after 6).to_play_
          (Y.after 6).cells_ (Y.triGrid.neighbors_small (Y.after 6).size_
            ((Y.after 6).move_valid ⟨1, 2⟩).idx) false)) % 65536 ∧
      ((Y.after 6).test_size Y.triGrid ⟨1, 2⟩).1 =
        (b1.rep_cell ((Y.after 6).move_valid ⟨1, 2⟩)).size ∧
      { ((Y.after 6).test_cell Y.triGrid ⟨1, 2⟩).2 with cells_ := (Y.after 6).cells_ } =
        Y.after 6 ∧
      ((Y.after 6).test_cell Y.triGrid ⟨1, 2⟩).2.cells_.length = (Y.after 6).cells_.length ∧
      (∀ k, cellAt ((Y.after 6).test_cell Y.triGrid ⟨1, 2⟩).2.cells_ k =
        { cellAt (Y.after 6).cells_ k with
          parent := (cellAt ((Y.after 6).test_cell Y.triGrid ⟨1, 2⟩).2.cells_ k).parent }) ∧
      (∀ k, k < (Y.after 6).cells_.length →
        (find_group ((Y.after 6).test_cell Y.triGrid ⟨1, 2⟩).2.cells_ k).1 =
          (find_group (Y.after 6).cells_ k).1)) ∧
    (∃ b1, (Havannah.after 4).move_xy Havannah.hexGrid ⟨2, 0⟩ true true = some (true, b1) ∧
      ((Havannah.after 4).test_connectivity Havannah.hexGrid ⟨2, 0⟩).1 =
        (b1.rep_cell ((Havannah.after 4).move_valid ⟨2, 0⟩)).numcorners +
          (b1.rep_cell ((Havannah.after 4).move_valid ⟨2, 0⟩)).numedges ∧
      ((Havannah.after 4).test_size Havannah.hexGrid ⟨2, 0⟩).1 =
        (1 + contact_sizes (Havannah.after 4).cells_ (taken_neighbors (Havannah.after 4).to_play_
          (Havannah.after 4).cells_ (Havannah.hexGrid.neighbors_small (Havannah.after 4).size_
            ((Havannah.after 4).move_valid ⟨2, 0⟩).idx) false)) % 256 ∧
      ((Havannah.after 4).test_size Havannah.hexGrid ⟨2, 0⟩).1 =
        (b1.rep_cell ((Havannah.after 4).move_valid ⟨2, 0⟩)).size ∧
      { ((Havannah.after 4).test_cell Havannah.hexGrid ⟨2, 0⟩).2 with
          cells_ := (Havannah.after 4).cells_ } = Havannah.after 4 ∧
      ((Havannah.after 4).test_cell Havannah.hexGrid ⟨2, 0⟩).2.cells_.length =
        (Havannah.after 4).cells_.length ∧
      (∀ k, cellAt ((Havannah.after 4).test_cell Havannah.hexGrid ⟨2, 0⟩).2.cells_ k =
        { cellAt (Havannah.after 4).cells_ k with
          parent :=
            (cellAt ((Havannah.after 4).test_cell Havannah.hexGrid ⟨2, 0⟩).2.cells_ k).parent }) ∧
      (∀ k, k < (Havannah.after 4).cells_.length →
        (find_group ((Havannah.after 4).test_cell Havannah.hexGrid ⟨2, 0⟩).2.cells_ k).1 =
          (find_group (Havannah.after 4).cells_ k).1)) ∧
    ((Y.after 6).test_size Y.triGrid ⟨1, 2⟩).1 = 4 ∧
    ((Y.after 6).test_connectivity Y.triGrid ⟨1, 2⟩).1 = 3 ∧
    ((Havannah.after 4).test_size Havannah.hexGrid ⟨2, 0⟩).1 = 3 ∧
    ((Havannah.after 4).test_connectivity Havannah.hexGrid ⟨2, 0⟩).1 = 3 :=
  ⟨by decide, by decide,
    (C26_test_queries.1 Y.triGrid 4 (Y.after 6) (by decide) Y.y_triGrid_ok
      (Y.y_after_reachable 6 (by decide)) ⟨1, 2⟩ true (by decide)).imp
      fun b1 h => ⟨h.1, h.2.1, h.2.2.1,
        h.2.2.2.1 (by
          rw [show taken_neighbors (Y.after 6).to_play_ (Y.after 6).cells_
              (Y.triGrid.neighbors_small (Y.after 6).size_
                ((Y.after 6).move_valid ⟨1, 2⟩).idx) false = [⟨1, 1, 5⟩] from by decide]
          exact has_pair_single _ _),
        h.2.2.2.2⟩,
    (C26_test_queries.2 Havannah.hexGrid 3 (Havannah.after 4) (by decide) Havannah.h_hexGrid_ok
      (Havannah.h_after_reachable 4 (by decide)) ⟨2, 0⟩ true (by decide)).imp
      fun b1 h => ⟨h.1, h.2.1, h.2.2.1,
        h.2.2.2.1 (by
          rw [show taken_neighbors (Havannah.after 4).to_play_ (Havannah.after 4).cells_
              (Havannah.hexGrid.neighbors_small (Havannah.after 4).size_
                ((Havannah.after 4).move_valid ⟨2, 0⟩).idx) false = [⟨1, 0, 1⟩] from by decide]
          exact has_pair_single _ _),
        h.2.2.2.2⟩,
    by decide, by decide, by decide, by decide⟩

end Morat

namespace Morat

section uf
variable {v : Variant} {nb : Nat → List MoveValid} {E C : Nat → Nat} {cells : List Cell}
  {rep rank : Nat → Nat}

/-- The edge mask that the loop of `test_outcome` accumulates for an empty
cell `p`: bit `bit` is set when a cell with that bit in its initial mask is
connected to `p` on an array `cells1` that holds the stones of `cells` and a
stone of `turn` on `p`. -/
theorem test_mask_bits {n : Nat} (hok : NbrOK nb n) (hn : cells.length = n)
    (h : CellsInv v nb E C cells (fun _ => False) rep rank) (p : Nat) (hp : p < n)
    (hemp : (get cells p).isPlayer = false)
    (hsym : ∀ j, j < n → IsNbr nb p j → IsNbr nb j p)
    (turn : Side) (hturn : turn.isPlayer = true)
    (cells1 : List Cell) (hl1 : cells1.length = n)
    (hg1 : ∀ k, get cells1 k = if k = p then turn else get cells k) (bit : Nat) :
    (test_neighbors v turn (nb p) false
        ((cellAt (find_group cells p).2 (find_group cells p).1, 0),
          (find_group cells p).2)).1.1.edge.testBit bit = true ↔
      ∃ j, j < n ∧ Connected nb cells1 p j ∧ (E j).testBit bit = true := by
  obtain ⟨e1, -⟩ := test_vs_move hok hn h p hp hemp hsym turn hturn true
  obtain ⟨rep1, rank1, r1, r2, r3, -⟩ := place_spec hok hn h p hp hemp hsym turn hturn true
  have hpJ : p < (place_stone v (nb p) cells turn p true).2.length := by rw [r1]; exact hp
  have hcon : ∀ j, Connected nb cells1 p j ↔
      Connected nb (place_stone v (nb p) cells turn p true).2 p j := by
    intro j
    exact Connected_congr (hl1.trans r1.symm) (fun k => (hg1 k).trans (r2 k).symm) p j
  rw [← e1, find_group_fst r3 p hpJ, (find_group_data _ p _).2.1,
    r3.edge_eq (rep1 p) (r3.rep_lt p hpJ) (r3.par_rep p hpJ) bit, r1]
  constructor
  · rintro ⟨j, hj, hrj, hb⟩
    exact ⟨j, hj, (hcon j).2 ((rep_eq_iff_connected r3 p j hpJ (by rw [r1]; exact hj)).1 hrj), hb⟩
  · rintro ⟨j, hj, hc, hb⟩
    exact ⟨j, hj, (rep_eq_iff_connected r3 p j hpJ (by rw [r1]; exact hj)).2 ((hcon j).1 hc), hb⟩

/-- A path of stones of `side` on one array is a path on every array of the
same length that has the stones of `side` on the same cells. -/
theorem connected_of_agree (c1 c2 : List Cell) (hl : c1.length = c2.length) (side : Side)
    (hg : ∀ k, get c1 k = side → get c2 k = side) (p : Nat) (hp : get c1 p = side) (j : Nat)
    (hc : Connected nb c1 p j) : Connected nb c2 p j ∧ get c1 j = side := by
  unfold Connected at hc ⊢
  induction hc with
  | refl => exact ⟨Relation.ReflTransGen.refl, hp⟩
  | tail _ hbc ih =>
    obtain ⟨h1, h2, h3, h4, h5⟩ := hbc
    refine ⟨Relation.ReflTransGen.tail ih.1 ⟨by rw [← hl]; exact h1, by rw [← hl]; exact h2, ?_, ?_, h5⟩,
      h4.trans ih.2⟩
    · rw [hg _ ih.2, ← ih.2]; exact h3
    · rw [hg _ ih.2, hg _ (h4.trans ih.2)]

/-- Two arrays that hold the stones of one side on the same cells give the
loop of `test_outcome` the same edge mask for that side. -/
theorem test_mask_agree {n : Nat} (hok : NbrOK nb n) (c1 c2 : List Cell)
    {rep2 rank2 : Nat → Nat}
    (hn1 : c1.length = n) (hn2 : c2.length = n)
    (h1 : CellsInv v nb E C c1 (fun _ => False) rep rank)
    (h2 : CellsInv v nb E C c2 (fun _ => False) rep2 rank2) (p : Nat) (hp : p < n)
    (hemp1 : (get c1 p).isPlayer = false) (hemp2 : (get c2 p).isPlayer = false)
    (hsym : ∀ j, j < n → IsNbr nb p j → IsNbr nb j p)
    (turn : Side) (hturn : turn.isPlayer = true)
    (hg : ∀ k, get c1 k = turn ↔ get c2 k = turn) :
    (test_neighbors v turn (nb p) false
        ((cellAt (find_group c1 p).2 (find_group c1 p).1, 0), (find_group c1 p).2)).1.1.edge =
      (test_neighbors v turn (nb p) false
        ((cellAt (find_group c2 p).2 (find_group c2 p).1, 0), (find_group c2 p).2)).1.1.edge := by
  obtain ⟨ra, rka, a1, a2, -⟩ := place_spec hok hn1 h1 p hp hemp1 hsym turn hturn true
  obtain ⟨rb, rkb, b1, b2, -⟩ := place_spec hok hn2 h2 p hp hemp2 hsym turn hturn true
  apply Nat.eq_of_testBit_eq
  intro bit
  have ha := test_mask_bits hok hn1 h1 p hp hemp1 hsym turn hturn _ a1 a2 bit
  have hb := test_mask_bits hok hn2 h2 p hp hemp2 hsym turn hturn _ b1 b2 bit
  have hab : ∀ k, get (place_stone v (nb p) c1 turn p true).2 k = turn ↔
      get (place_stone v (nb p) c2 turn p true).2 k = turn := by
    intro k
    rw [a2, b2]
    by_cases hk : k = p
    · simp [hk]
    · simp only [hk, if_false]; exact hg k
  have hpa : get (place_stone v (nb p) c1 turn p true).2 p = turn := by rw [a2]; simp
  have hpb : get (place_stone v (nb p) c2 turn p true).2 p = turn := by rw [b2]; simp
  have hiff : ((test_neighbors v turn (nb p) false
        ((cellAt (find_group c1 p).2 (find_group c1 p).1, 0),
          (find_group c1 p).2)).1.1.edge.testBit bit = true ↔
      (test_neighbors v turn (nb p) false
        ((cellAt (find_group c2 p).2 (find_group c2 p).1, 0),
          (find_group c2 p).2)).1.1.edge.testBit bit = true) := by
    rw [ha, hb]
    constructor
    · rintro ⟨j, hj, hc, hbit⟩
      exact ⟨j, hj, (connected_of_agree _ _ (a1.trans b1.symm) turn (fun k => (hab k).1) p hpa j
        hc).1, hbit⟩
    · rintro ⟨j, hj, hc, hbit⟩
      exact ⟨j, hj, (connected_of_agree _ _ (b1.trans a1.symm) turn (fun k => (hab k).2) p hpb j
        hc).1, hbit⟩
  cases hx : (test_neighbors v turn (nb p) false
        ((cellAt (find_group c1 p).2 (find_group c1 p).1, 0),
          (find_group c1 p).2)).1.1.edge.testBit bit
  · cases hy : (test_neighbors v turn (nb p) false
        ((cellAt (find_group c2 p).2 (find_group c2 p).1, 0),
          (find_group c2 p).2)).1.1.edge.testBit bit
    · rfl
    · rw [hiff.2 hy] at hx; cases hx
  · exact (hiff.1 hx).symm

end uf
end Morat

namespace Morat

theorem cell_parent_trans (a b c : Cell) (h1 : a = { b with parent := a.parent })
    (h2 : b = { c with parent := b.parent }) : a = { c with parent := a.parent } := by
  cases a; cases b; cases c
  simp only [Cell.mk.injEq] at h1 h2 ⊢
  simp only [true_and, and_true] at h1 h2 ⊢
  obtain ⟨a1, a2, a3, a4, a5, a6⟩ := h1
  obtain ⟨b1, b2, b3, b4, b5, b6⟩ := h2
  exact ⟨a1.trans b1, a2.trans b2, a3.trans b3, a4.trans b4, a5.trans b5, a6.trans b6⟩

namespace Y

/-- Two valid moves with the same cell index are the same move. -/
theorem y_idx_inj (G : Grid) (s : Int) (hs : valid_size s = true) (hG : GridOK G s)
    (b : Board) (hinv : BoardInv G s b) (x y : Move) (hx : b.valid_move_xy G x = true)
    (hy : b.valid_move_xy G y = true) (hxy : (b.move_valid x).idx = (b.move_valid y).idx) :
    x = y := by
  obtain ⟨hs4, hs25⟩ := y_valid_size_bounds s hs
  have hfacts : ∀ m, b.valid_move_xy G m = true →
      ((b.move_valid m).idx : Int) = m.y * s + m.x ∧ 0 ≤ m.x ∧ m.x < s ∧ 0 ≤ m.y ∧ m.y < s := by
    intro m hv
    obtain ⟨-, -, -, h4, -, -, -⟩ := y_legal_facts G s hs hG b hinv m hv
    have hon : G.on_board s m.x m.y = true := by
      unfold Board.valid_move_xy at hv
      simp only [Bool.and_eq_true, decide_eq_true_eq] at hv
      have := hv.1.2
      rw [hinv.size_eq] at this
      exact this
    obtain ⟨a1, a2, a3, a4⟩ := hG.shape m.x m.y hon
    exact ⟨h4, a1, a2, a3, a4⟩
  obtain ⟨x2, x4, x5, x6, x7⟩ := hfacts x hx
  obtain ⟨y2, y4, y5, y6, y7⟩ := hfacts y hy
  have he : x.y * s + x.x = y.y * s + y.x := by rw [← x2, ← y2, hxy]
  have hyy : x.y = y.y := by
    by_contra hne
    rcases lt_or_gt_of_ne hne with h | h
    · have : (x.y + 1) * s ≤ y.y * s := by
        apply mul_le_mul_of_nonneg_right _ (by omega)
        omega
      nlinarith
    · have : (y.y + 1) * s ≤ x.y * s := by
        apply mul_le_mul_of_nonneg_right _ (by omega)
        omega
      nlinarith
  have hxx : x.x = y.x := by
    rw [hyy] at he
    omega
  cases x; cases y
  simp only at hxx hyy
  rw [hxx, hyy]

theorem compressed_refl (G : Grid) (b : Board) (hinv : BoardInv G b.size_ b) :
    Compressed G b b :=
  ⟨rfl, rfl, fun _ => rfl, hinv.cells⟩

theorem compressed_eq (G : Grid) (b b1 : Board) (h : Compressed G b b1) :
    b1 = { b with cells_ := b1.cells_ } := by
  have h1 := h.1
  cases b1; cases b
  simp only [Board.mk.injEq] at h1 ⊢
  obtain ⟨a1, a2, a3, a4, a5, a6, a7, a8, -, a10⟩ := h1
  exact ⟨a1, a2, a3, a4, a5, a6, a7, a8, trivial, a10⟩

/-- `test_outcome` on a board that differs from `b` in parent links only: the
value is the win of `side` when the edge mask computed on `b` has three bits
and `UNKNOWN` otherwise, and the board after the call again differs from `b`
in parent links only. -/
theorem y_test_outcome_compressed (G : Grid) (b : Board) (hs : valid_size b.size_ = true)
    (hG : GridOK G b.size_) (hinv : BoardInv G b.size_ b)
    (hloc : ∀ cells pos turn, G.test_local b.size_ cells pos turn = false →
      ∀ m ∈ G.neighbors_small b.size_ pos.idx, m.on_board = true → get cells m.idx ≠ turn)
    (hcell : ∀ i, BitsSetTable256 (edge0 G b.size_ i) ≠ 3)
    (b1 : Board) (hcomp : Compressed G b b1) (m : Move) (hv : b.valid_move_xy G m = true)
    (side : Side) (hside : side.isPlayer = true) :
    Compressed G b (b1.test_outcome_xy G m side).2 ∧
      (b1.test_outcome_xy G m side).1 =
        if BitsSetTable256 (test_mask G b.size_ b.cells_ (b.move_valid m).idx side) = 3
        then Outcome.ofSide side else .UNKNOWN := by
  have hb1 := compressed_eq G b b1 hcomp
  obtain ⟨-, hc2, hc3, rep1, rank1, hc1⟩ := hcomp
  generalize b1.cells_ = c1 at hb1 hc2 hc3 hc1
  subst hb1
  obtain ⟨ho, hob, hlt, hidx, hget, hvm, hsym⟩ := y_legal_facts G b.size_ hs hG b hinv m hv
  obtain ⟨rep, rank, hc⟩ := hinv.cells
  have hltn : (b.move_valid m).idx < (b.size_ * b.size_).toNat := by rw [← hinv.len]; exact hlt
  have hg1 : ∀ k, get c1 k = get b.cells_ k := by
    intro k
    unfold get
    rw [hc3 k]
  have hlen1 : c1.length = (b.size_ * b.size_).toNat := hc2.trans hinv.len
  have hemp1 : (get c1 (b.move_valid m).idx).isPlayer = false := by rw [hg1, hget]; rfl
  obtain ⟨e1, -, -, e4, e5, e6, e7⟩ :=
    test_vs_move hG.nbr hlen1 hc1 (b.move_valid m).idx hltn hemp1 hsym side hside true
  have hmask := test_mask_agree hG.nbr c1 b.cells_ hlen1 hinv.len hc1 hc
    (b.move_valid m).idx hltn hemp1 (by rw [hget]; rfl) hsym side hside
    (fun k => by rw [hg1])
  have hmv : Board.move_valid { b with cells_ := c1 } m = b.move_valid m := rfl
  unfold Board.test_outcome_xy Board.test_outcome
  unfold Cell.numedges test_mask
  rw [hmv]
  simp only
  rw [← hmask]
  by_cases hl : G.test_local b.size_ c1 (b.move_valid m) side = true
  · simp only [hl, if_true]
    have hcm : Compressed G b { b with cells_ :=
        (test_neighbors variant side (G.neighbors_small b.size_ (b.move_valid m).idx) false
          ((cellAt (find_group c1 (b.move_valid m).idx).2
            (find_group c1 (b.move_valid m).idx).1, 0),
            (find_group c1 (b.move_valid m).idx).2)).2 } :=
      ⟨rfl, by simp only; rw [e6, hinv.len],
        fun k => cell_parent_trans _ _ _ (e7 k) (hc3 k), rep1, rank1, e5⟩
    split
    · exact ⟨hcm, rfl⟩
    · exact ⟨hcm, rfl⟩
  · have hl0 : G.test_local b.size_ c1 (b.move_valid m) side = false := by
      cases hx : G.test_local b.size_ c1 (b.move_valid m) side
      · rfl
      · exact absurd hx hl
    have hnil := taken_nil side c1 (G.neighbors_small b.size_ (b.move_valid m).idx) false
      (hloc c1 (b.move_valid m) side hl0)
    have hE := (e4 hnil).1
    rw [e1] at hE
    rw [hE]
    simp only [hl0, Bool.false_eq_true, if_false, hcell (b.move_valid m).idx]
    exact ⟨⟨rfl, hc2, hc3, rep1, rank1, hc1⟩, trivial⟩

/-- A legal move: it succeeds, the board after it satisfies the invariant,
holds one more stone, has the other side to move, and its outcome is the win
of the mover when the edge mask of the cell has three bits and `UNKNOWN`
otherwise. -/
theorem y_move_outcome (G : Grid) (b : Board) (hs : valid_size b.size_ = true)
    (hG : GridOK G b.size_) (hinv : BoardInv G b.size_ b) (m : Move)
    (hv : b.valid_move_xy G m = true) :
    ∃ b1, b.move_xy G m true = some (true, b1) ∧ BoardInv G b.size_ b1 ∧ b1.size_ = b.size_ ∧
      b1.to_play_ = b.to_play_.opp ∧
      (∀ k, get b1.cells_ k = if k = (b.move_valid m).idx then b.to_play_ else get b.cells_ k) ∧
      b1.outcome_ =
        if BitsSetTable256 (test_mask G b.size_ b.cells_ (b.move_valid m).idx b.to_play_) = 3
        then Outcome.ofSide b.to_play_ else .UNKNOWN := by
  obtain ⟨ho, hob, hlt, hidx, hget, hvm, hsym⟩ := y_legal_facts G b.size_ hs hG b hinv m hv
  obtain ⟨rep, rank, hc⟩ := hinv.cells
  have hltn : (b.move_valid m).idx < (b.size_ * b.size_).toNat := by rw [← hinv.len]; exact hlt
  obtain ⟨e1, -⟩ :=
    test_vs_move hG.nbr hinv.len hc (b.move_valid m).idx hltn (by rw [hget]; rfl) hsym b.to_play_
      hinv.to_play true
  obtain ⟨rep1, rank1, r1, r2, -⟩ :=
    place_spec hG.nbr hinv.len hc (b.move_valid m).idx hltn (by rw [hget]; rfl) hsym b.to_play_
      hinv.to_play true
  have hI := y_move_inv G b.size_ hs hG b hinv m hv true
  refine ⟨(b.move_body G (b.move_valid m) true).2, ?_, hI, ?_, ?_, ?_, ?_⟩
  · rw [y_move_xy_legal G b.size_ hs hG b hinv m hv true]
    have h1 : (b.move_body G (b.move_valid m) true).1 = true := by
      rw [y_move_body_valid G _ _ true hvm]
    exact congrArg some (Prod.ext h1 rfl)
  · rw [y_move_body_valid G _ _ true hvm]
  · rw [y_move_body_valid G _ _ true hvm]
  · intro k
    rw [y_move_body_valid G _ _ true hvm]
    simp only
    rw [find_group_get, r2]
  · rw [y_move_body_valid G _ _ true hvm]
    simp only [ho]
    unfold Cell.numedges test_mask
    rw [e1]

end Y
end Morat

namespace Morat

/-- Two entries of a list without repetition satisfy `p`: one of them is not
`d`. -/
theorem countP_two_ne {α : Type} (p : α → Bool) (d : α) :
    ∀ l : List α, l.Nodup → 2 ≤ l.countP p → ∃ c ∈ l, c ≠ d ∧ p c = true := by
  intro l
  induction l with
  | nil => intro _ h; simp at h
  | cons a rest ih =>
    intro hnd h
    rw [List.nodup_cons] at hnd
    by_cases hpa : p a = true
    · by_cases had : a = d
      · rw [List.countP_cons_of_pos _ _ hpa] at h
        have hpos : 0 < rest.countP p := by omega
        rw [List.countP_pos_iff] at hpos
        obtain ⟨c, hc, hpc⟩ := hpos
        refine ⟨c, List.mem_cons_of_mem _ hc, ?_, hpc⟩
        intro hcd
        rw [hcd, ← had] at hc
        exact hnd.1 hc
      · exact ⟨a, List.mem_cons_self _ _, had, hpa⟩
    · rw [List.countP_cons_of_neg _ _ hpa] at h
      obtain ⟨c, hc, hcd, hpc⟩ := ih hnd.2 h
      exact ⟨c, List.mem_cons_of_mem _ hc, hcd, hpc⟩

theorem unknown_ne_ofSide (side : Side) (h : side.isPlayer = true) :
    Outcome.UNKNOWN ≠ Outcome.ofSide side := by
  cases side <;> simp_all [Side.isPlayer, Outcome.ofSide]

theorem ofSide_opp_ne (side : Side) (h : side.isPlayer = true) :
    Outcome.ofSide side ≠ Outcome.ofSide side.opp ∧ side.opp ≠ side := by
  cases side <;> simp_all [Side.isPlayer, Outcome.ofSide, Side.opp]

namespace Y

/-- After a move on `d` that did not end the game, another empty cell `c` is
still a valid move, and the edge mask that `test_outcome` computes for `c`
and the side that did not move is the one computed before the move. -/
theorem y_mask_after_move (G : Grid) (b : Board) (hs : valid_size b.size_ = true)
    (hG : GridOK G b.size_) (hinv : BoardInv G b.size_ b) (d c : Move)
    (hd : b.valid_move_xy G d = true) (hc : b.valid_move_xy G c = true) (hcd : c ≠ d)
    (b1 : Board) (hinv1 : BoardInv G b.size_ b1) (hsz : b1.size_ = b.size_)
    (hg : ∀ k, get b1.cells_ k = if k = (b.move_valid d).idx then b.to_play_ else get b.cells_ k)
    (ho : b1.outcome_ = .UNKNOWN) (op : Side) (hop : op.isPlayer = true)
    (hne : op ≠ b.to_play_) :
    b1.valid_move_xy G c = true ∧ (b1.move_valid c).idx = (b.move_valid c).idx ∧
      test_mask G b.size_ b1.cells_ (b.move_valid c).idx op =
        test_mask G b.size_ b.cells_ (b.move_valid c).idx op := by
  obtain ⟨-, -, hlt, -, hget, -, hsym⟩ := y_legal_facts G b.size_ hs hG b hinv c hc
  obtain ⟨-, -, -, -, hgetd, -, -⟩ := y_legal_facts G b.size_ hs hG b hinv d hd
  have hidx : (b.move_valid c).idx ≠ (b.move_valid d).idx :=
    fun he => hcd (y_idx_inj G b.size_ hs hG b hinv c d hc hd he)
  have hg1 : get b1.cells_ (b.move_valid c).idx = .NONE := by rw [hg, if_neg hidx, hget]
  have hmv : b1.move_valid c = b.move_valid c := by
    unfold Board.move_valid Board.xy
    rw [hsz]
  have hxy : (b1.xy c.x c.y).toNat = (b.move_valid c).idx := by
    unfold Board.xy
    rw [hsz]
    rfl
  refine ⟨?_, by rw [hmv], ?_⟩
  · unfold Board.valid_move_xy at hc ⊢
    simp only [Bool.and_eq_true, decide_eq_true_eq] at hc ⊢
    rw [hsz, ho]
    refine ⟨⟨by decide, hc.1.2⟩, ?_⟩
    unfold Board.valid_move_fast Board.get
    rw [hxy, hg1]
    rfl
  · obtain ⟨rep, rank, h0⟩ := hinv.cells
    obtain ⟨rep1, rank1, h1⟩ := hinv1.cells
    have hltn : (b.move_valid c).idx < (b.size_ * b.size_).toNat := by rw [← hinv.len]; exact hlt
    unfold test_mask
    apply test_mask_agree hG.nbr b1.cells_ b.cells_ hinv1.len hinv.len h1 h0
      (b.move_valid c).idx hltn (by rw [hg1]; rfl) (by rw [hget]; rfl) hsym op hop
    intro k
    rw [hg]
    by_cases hk : k = (b.move_valid d).idx
    · rw [if_pos hk, hk, hgetd]
      constructor
      · intro h; exact absurd h.symm hne
      · intro h; rw [← h] at hop; exact absurd hop (by decide)
    · rw [if_neg hk]

/-- The loop of `solve2ply` over valid moves of `b`, started on a board that
differs from `b` in parent links only. -/
theorem solve2ply_loop_spec (G : Grid) (b : Board) (hs : valid_size b.size_ = true)
    (hG : GridOK G b.size_) (hinv : BoardInv G b.size_ b)
    (hloc : ∀ cells pos turn, G.test_local b.size_ cells pos turn = false →
      ∀ m ∈ G.neighbors_small b.size_ pos.idx, m.on_board = true → get cells m.idx ≠ turn)
    (hcell : ∀ i, BitsSetTable256 (edge0 G b.size_ i) ≠ 3) :
    ∀ (l : List Move) (st : SolveState), (∀ m ∈ l, b.valid_move_xy G m = true) →
      Compressed G b st.board → st.outcome = .UNKNOWN →
      Compressed G b (solve2ply_loop G b.to_play_ b.to_play_.opp l st).2.board ∧
      ((solve2ply_loop G b.to_play_ b.to_play_.opp l st).1 = true →
        (solve2ply_loop G b.to_play_ b.to_play_.opp l st).2.outcome =
          Outcome.ofSide b.to_play_ ∧
        ∃ m ∈ l, BitsSetTable256
          (test_mask G b.size_ b.cells_ (b.move_valid m).idx b.to_play_) = 3) ∧
      ((solve2ply_loop G b.to_play_ b.to_play_.opp l st).1 = false →
        (solve2ply_loop G b.to_play_ b.to_play_.opp l st).2.outcome = .UNKNOWN ∧
        (∀ m ∈ l, BitsSetTable256
          (test_mask G b.size_ b.cells_ (b.move_valid m).idx b.to_play_) ≠ 3) ∧
        (solve2ply_loop G b.to_play_ b.to_play_.opp l st).2.losses =
          st.losses + l.countP (fun m => decide (BitsSetTable256
            (test_mask G b.size_ b.cells_ (b.move_valid m).idx b.to_play_.opp) = 3))) := by
  intro l
  induction l with
  | nil =>
    intro st _ hc ho
    simp only [solve2ply_loop, List.countP_nil, Nat.add_zero]
    exact ⟨hc, fun h => absurd h (by decide), fun _ => ⟨ho, fun m hm => absurd hm (List.not_mem_nil m), trivial⟩⟩
  | cons m rest ih =>
    intro st hv hc ho
    have hvm := hv m (List.mem_cons_self _ _)
    have hvr : ∀ x ∈ rest, b.valid_move_xy G x = true :=
      fun x hx => hv x (List.mem_cons_of_mem _ hx)
    obtain ⟨hcA, hvA⟩ := y_test_outcome_compressed G b hs hG hinv hloc hcell st.board hc m hvm
      b.to_play_ hinv.to_play
    obtain ⟨hcB, hvB⟩ := y_test_outcome_compressed G b hs hG hinv hloc hcell
      (st.board.test_outcome_xy G m b.to_play_).2 hcA m hvm b.to_play_.opp
      (Side.isPlayer_opp _ hinv.to_play)
    have hun := unknown_ne_ofSide b.to_play_ hinv.to_play
    have huo := unknown_ne_ofSide b.to_play_.opp (Side.isPlayer_opp _ hinv.to_play)
    rw [solve2ply_loop]
    by_cases hW : BitsSetTable256
        (test_mask G b.size_ b.cells_ (b.move_valid m).idx b.to_play_) = 3
    · rw [if_pos hW] at hvA
      rw [if_pos hvA]
      refine ⟨hcA, fun _ => ⟨hvA, m, List.mem_cons_self _ _, hW⟩, fun h => Bool.noConfusion h⟩
    · rw [if_neg hW] at hvA
      rw [if_neg (by rw [hvA]; exact hun)]
      obtain ⟨i1, i2, i3⟩ := ih
        { outcome :=
            if (st.board.test_outcome_xy G m b.to_play_).1 = .DRAW then .DRAW else st.outcome
          losses :=
            if ((st.board.test_outcome_xy G m b.to_play_).2.test_outcome_xy G m
                b.to_play_.opp).1 = Outcome.ofSide b.to_play_.opp then st.losses + 1
            else st.losses
          nodes := st.nodes + 1
          board := ((st.board.test_outcome_xy G m b.to_play_).2.test_outcome_xy G m
            b.to_play_.opp).2 } hvr hcB (by simp only [hvA]; rw [if_neg (by decide)]; exact ho)
      refine ⟨i1, ?_, ?_⟩
      · intro h
        obtain ⟨j1, x, hx, j2⟩ := i2 h
        exact ⟨j1, x, List.mem_cons_of_mem _ hx, j2⟩
      · intro h
        obtain ⟨j1, j2, j3⟩ := i3 h
        refine ⟨j1, ?_, ?_⟩
        · intro x hx
          rcases List.mem_cons.1 hx with hx | hx
          · rw [hx]; exact hW
          · exact j2 x hx
        · rw [j3]
          simp only
          rw [hvB]
          by_cases hL : BitsSetTable256
              (test_mask G b.size_ b.cells_ (b.move_valid m).idx b.to_play_.opp) = 3
          · rw [if_pos hL, if_pos rfl, List.countP_cons_of_pos _ _ (by simp [hL])]
            omega
          · rw [if_neg hL, if_neg huo, List.countP_cons_of_neg _ _ (by simp [hL])]

/-- The loop of `solve1ply` over valid moves of `b`, started on a board that
differs from `b` in parent links only. -/
theorem solve1ply_loop_spec (G : Grid) (b : Board) (hs : valid_size b.size_ = true)
    (hG : GridOK G b.size_) (hinv : BoardInv G b.size_ b)
    (hloc : ∀ cells pos turn, G.test_local b.size_ cells pos turn = false →
      ∀ m ∈ G.neighbors_small b.size_ pos.idx, m.on_board = true → get cells m.idx ≠ turn)
    (hcell : ∀ i, BitsSetTable256 (edge0 G b.size_ i) ≠ 3) :
    ∀ (l : List Move) (st : SolveState), (∀ m ∈ l, b.valid_move_xy G m = true) →
      Compressed G b st.board → st.outcome = .UNKNOWN →
      Compressed G b (solve1ply_loop G b.to_play_ l st).2.board ∧
      ((solve1ply_loop G b.to_play_ l st).1 = true →
        (solve1ply_loop G b.to_play_ l st).2.outcome = Outcome.ofSide b.to_play_ ∧
        ∃ m ∈ l, BitsSetTable256
          (test_mask G b.size_ b.cells_ (b.move_valid m).idx b.to_play_) = 3) ∧
      ((solve1ply_loop G b.to_play_ l st).1 = false →
        (solve1ply_loop G b.to_play_ l st).2.outcome = .UNKNOWN ∧
        (∀ m ∈ l, BitsSetTable256
          (test_mask G b.size_ b.cells_ (b.move_valid m).idx b.to_play_) ≠ 3)) := by
  intro l
  induction l with
  | nil =>
    intro st _ hc ho
    simp only [solve1ply_loop]
    exact ⟨hc, fun h => absurd h (by decide), fun _ => ⟨ho, fun m hm => absurd hm (List.not_mem_nil m)⟩⟩
  | cons m rest ih =>
    intro st hv hc ho
    have hvm := hv m (List.mem_cons_self _ _)
    have hvr : ∀ x ∈ rest, b.valid_move_xy G x = true :=
      fun x hx => hv x (List.mem_cons_of_mem _ hx)
    obtain ⟨hcA, hvA⟩ := y_test_outcome_compressed G b hs hG hinv hloc hcell st.board hc m hvm
      b.to_play_ hinv.to_play
    have hun := unknown_ne_ofSide b.to_play_ hinv.to_play
    rw [solve1ply_loop]
    by_cases hW : BitsSetTable256
        (test_mask G b.size_ b.cells_ (b.move_valid m).idx b.to_play_) = 3
    · rw [if_pos hW] at hvA
      rw [if_pos hvA]
      refine ⟨hcA, fun _ => ⟨hvA, m, List.mem_cons_self _ _, hW⟩, fun h => Bool.noConfusion h⟩
    · rw [if_neg hW] at hvA
      rw [if_neg (by rw [hvA]; exact hun)]
      obtain ⟨i1, i2, i3⟩ := ih
        { st with
          outcome :=
            if (st.board.test_outcome_xy G m b.to_play_).1 = .DRAW then .DRAW else st.outcome
          nodes := st.nodes + 1
          board := (st.board.test_outcome_xy G m b.to_play_).2 } hvr hcA
        (by simp only [hvA]; rw [if_neg (by decide)]; exact ho)
      refine ⟨i1, ?_, ?_⟩
      · intro h
        obtain ⟨j1, x, hx, j2⟩ := i2 h
        exact ⟨j1, x, List.mem_cons_of_mem _ hx, j2⟩
      · intro h
        obtain ⟨j1, j2⟩ := i3 h
        refine ⟨j1, ?_⟩
        intro x hx
        rcases List.mem_cons.1 hx with hx | hx
        · rw [hx]; exact hW
        · exact j2 x hx

end Y
end Morat

namespace Morat
namespace Y

/-- C27.  Y board.  Let `b` be a reachable board and let the loop
`for (auto move : board)` yield the list `moves`, which enumerates the legal
moves of `b`, each exactly once.  When `solve2ply(b)` returns the win of the
opponent of the side to move, every legal move `d` of the side to move can be
played and has a legal reply `c` after which the outcome of the board is the
win of that opponent.  When `solve1ply(b)` or `solve2ply(b)` returns the win
of the side to move, some legal move `m` can be played and sets that win as
the outcome.  Assumed of the two library functions involved: `test_local`
answers `false` only when no neighbour of the cell is owned by the side, and
no single cell lies on all three edges. -/
theorem C27_solver_sound :
    ∀ (G : Grid) (s : Int) (b : Board), valid_size s = true → GridOK G s →
      (∀ cells pos turn, G.test_local s cells pos turn = false →
        ∀ m ∈ G.neighbors_small s pos.idx, m.on_board = true → get cells m.idx ≠ turn) →
      (∀ i, BitsSetTable256 (edge0 G s i) ≠ 3) →
      Reachable G s b → ∀ (moves : List Move) (nodes : Nat), moves.Nodup →
      (∀ m, m ∈ moves ↔ b.valid_move_xy G m = true) →
      ((Agent.solve2ply G moves b nodes).1 = Outcome.ofSide b.to_play.opp →
        ∀ d, b.valid_move_xy G d = true →
          ∃ b1 c b2, b.move_xy G d true = some (true, b1) ∧ b1.valid_move_xy G c = true ∧
            b1.move_xy G c true = some (true, b2) ∧
            b2.outcome = Outcome.ofSide b.to_play.opp) ∧
      ((Agent.solve1ply G moves b nodes).1 = Outcome.ofSide b.to_play ∨
          (Agent.solve2ply G moves b nodes).1 = Outcome.ofSide b.to_play →
        ∃ m b1, b.valid_move_xy G m = true ∧ b.move_xy G m true = some (true, b1) ∧
          b1.outcome = Outcome.ofSide b.to_play) := by
  intro G s b hs hG hloc hcell hb moves nodes hnd hmem
  have hinv := y_reachable_inv G s hs hG b hb
  have hsz := hinv.size_eq
  subst hsz
  have hvall : ∀ m ∈ moves, b.valid_move_xy G m = true := fun m hm => (hmem m).1 hm
  have hun := unknown_ne_ofSide b.to_play_ hinv.to_play
  have hopp := Side.isPlayer_opp _ hinv.to_play
  have huo := unknown_ne_ofSide b.to_play_.opp hopp
  obtain ⟨hne1, hne2⟩ := ofSide_opp_ne b.to_play_ hinv.to_play
  obtain ⟨-, t1, t2⟩ := solve2ply_loop_spec G b hs hG hinv hloc hcell moves
    { outcome := .UNKNOWN, losses := 0, nodes := nodes, board := b } hvall
    (compressed_refl G b hinv) rfl
  obtain ⟨-, o1, o2⟩ := solve1ply_loop_spec G b hs hG hinv hloc hcell moves
    { outcome := .UNKNOWN, losses := 0, nodes := nodes, board := b } hvall
    (compressed_refl G b hinv) rfl
  have hwin : ∀ m ∈ moves, BitsSetTable256
      (test_mask G b.size_ b.cells_ (b.move_valid m).idx b.to_play_) = 3 →
      ∃ m b1, b.valid_move_xy G m = true ∧ b.move_xy G m true = some (true, b1) ∧
        b1.outcome = Outcome.ofSide b.to_play := by
    intro m hm hW
    obtain ⟨b1, m1, -, -, -, -, m6⟩ := y_move_outcome G b hs hG hinv m (hvall m hm)
    rw [if_pos hW] at m6
    exact ⟨m, b1, hvall m hm, m1, m6⟩
  constructor
  · intro hret d hd
    unfold Agent.solve2ply Board.to_play at hret
    simp only at hret
    cases hr : (solve2ply_loop G b.to_play_ b.to_play_.opp moves
        { outcome := .UNKNOWN, losses := 0, nodes := nodes, board := b }).1
    · rw [hr] at hret
      simp only [Bool.false_eq_true, if_false] at hret
      obtain ⟨j1, j2, j3⟩ := t2 hr
      by_cases hl : (solve2ply_loop G b.to_play_ b.to_play_.opp moves
          { outcome := .UNKNOWN, losses := 0, nodes := nodes, board := b }).2.losses ≥ 2
      · rw [j3, Nat.zero_add] at hl
        obtain ⟨c, hcm, hcd, hpc⟩ := countP_two_ne _ d moves hnd hl
        simp only [decide_eq_true_eq] at hpc
        obtain ⟨b1, m1, m2, m3, m4, m5, m6⟩ := y_move_outcome G b hs hG hinv d hd
        rw [if_neg (j2 d ((hmem d).2 hd))] at m6
        obtain ⟨v1, v2, v3⟩ := y_mask_after_move G b hs hG hinv d c hd (hvall c hcm) hcd b1 m2 m3
          m5 m6 b.to_play_.opp hopp hne2
        have hs1 : valid_size b1.size_ = true := by rw [m3]; exact hs
        have hG1 : GridOK G b1.size_ := by rw [m3]; exact hG
        have hinv1 : BoardInv G b1.size_ b1 := by rw [m3]; exact m2
        obtain ⟨b2, n1, -, -, -, -, n6⟩ := y_move_outcome G b1 hs1 hG1 hinv1 c v1
        rw [m3, v2, m4, v3, if_pos hpc] at n6
        exact ⟨b1, c, b2, m1, v1, n1, n6⟩
      · rw [if_neg hl, j1] at hret
        exact absurd hret huo
    · rw [hr] at hret
      simp only [if_true] at hret
      rw [(t1 hr).1] at hret
      exact absurd hret hne1
  · rintro (hret | hret)
    · unfold Agent.solve1ply Board.to_play at hret
      simp only at hret
      cases hr : (solve1ply_loop G b.to_play_ moves
          { outcome := .UNKNOWN, losses := 0, nodes := nodes, board := b }).1
      · rw [(o2 hr).1] at hret
        exact absurd hret hun
      · obtain ⟨-, m, hm, hW⟩ := o1 hr
        exact hwin m hm hW
    · unfold Agent.solve2ply Board.to_play at hret
      simp only at hret
      cases hr : (solve2ply_loop G b.to_play_ b.to_play_.opp moves
          { outcome := .UNKNOWN, losses := 0, nodes := nodes, board := b }).1
      · rw [hr] at hret
        simp only [Bool.false_eq_true, if_false] at hret
        obtain ⟨j1, -, -⟩ := t2 hr
        by_cases hl : (solve2ply_loop G b.to_play_ b.to_play_.opp moves
            { outcome := .UNKNOWN, losses := 0, nodes := nodes, board := b }).2.losses ≥ 2
        · rw [if_pos hl] at hret
          exact absurd hret.symm hne1
        · rw [if_neg hl, j1] at hret
          exact absurd hret hun
      · obtain ⟨-, m, hm, hW⟩ := t1 hr
        exact hwin m hm hW

end Y
end Morat

namespace Morat
namespace Y

set_option maxRecDepth 100000 in
/-- The list `lost_moves` enumerates the valid moves of `lost_board`. -/
theorem lost_moves_valid : ∀ m, m ∈ lost_moves ↔ lost_board.valid_move_xy triGrid m = true := by
  intro m
  constructor
  · revert m
    decide
  · intro hv
    obtain ⟨x, y⟩ := m
    have hon : tri_on_board 4 x y = true := by
      unfold Board.valid_move_xy at hv
      simp only [Bool.and_eq_true] at hv
      exact hv.1.2
    unfold tri_on_board at hon
    simp only [Bool.and_eq_true, decide_eq_true_eq] at hon
    obtain ⟨⟨hx, hy⟩, hxy⟩ := hon
    have hx3 : x < 4 := by omega
    have hy3 : y < 4 := by omega
    interval_cases x <;> interval_cases y <;> first | decide | (revert hv; decide)

set_option maxRecDepth 100000 in
/-- The list `won_moves` enumerates the valid moves of `after 6`. -/
theorem won_moves_valid : ∀ m, m ∈ won_moves ↔ (after 6).valid_move_xy triGrid m = true := by
  intro m
  constructor
  · revert m
    decide
  · intro hv
    obtain ⟨x, y⟩ := m
    have hon : tri_on_board 4 x y = true := by
      unfold Board.valid_move_xy at hv
      simp only [Bool.and_eq_true] at hv
      exact hv.1.2
    unfold tri_on_board at hon
    simp only [Bool.and_eq_true, decide_eq_true_eq] at hon
    obtain ⟨⟨hx, hy⟩, hxy⟩ := hon
    have hx3 : x < 4 := by omega
    have hy3 : y < 4 := by omega
    interval_cases x <;> interval_cases y <;> first | decide | (revert hv; decide)

set_option maxRecDepth 100000 in
/-- C27, witness: on `lost_board` the first player is to move and
`solve2ply` returns the win of the second player, who has three winning
cells; on the board of the sample game after six moves `solve1ply` returns
the win of the first player, who is to move and wins with `(1,2)`. -/
theorem C27_solver_sound_witness :
    valid_size 4 = true ∧ lost_moves.Nodup ∧ won_moves.Nodup ∧
    (Agent.solve2ply triGrid lost_moves lost_board 0).1 = Outcome.ofSide lost_board.to_play.opp ∧
    (∀ d, lost_board.valid_move_xy triGrid d = true →
      ∃ b1 c b2, lost_board.move_xy triGrid d true = some (true, b1) ∧
        b1.valid_move_xy triGrid c = true ∧ b1.move_xy triGrid c true = some (true, b2) ∧
        b2.outcome = Outcome.ofSide lost_board.to_play.opp) ∧
    (Agent.solve1ply triGrid won_moves (after 6) 0).1 = Outcome.ofSide (after 6).to_play ∧
    (∃ m b1, (after 6).valid_move_xy triGrid m = true ∧
      (after 6).move_xy triGrid m true = some (true, b1) ∧
      b1.outcome = Outcome.ofSide (after 6).to_play) :=
  ⟨by decide, by decide, by decide, by decide,
    (C27_solver_sound triGrid 4 lost_board (by decide) y_triGrid_ok
      (fun cells pos turn h => any_neighbor_sound _ 4 cells pos turn h) tri_edges_single
      (y_play_reachable triGrid 4 game_lost board4 _ (Reachable.create (by decide)) (by decide))
      lost_moves 0 (by decide) lost_moves_valid).1 (by decide),
    by decide,
    (C27_solver_sound triGrid 4 (after 6) (by decide) y_triGrid_ok
      (fun cells pos turn h => any_neighbor_sound _ 4 cells pos turn h) tri_edges_single
      (y_after_reachable 6 (by decide)) won_moves 0 (by decide) won_moves_valid).2
      (Or.inl (by decide))⟩

end Y
end Morat

namespace Morat

/-! ## `join_groups` on rooted parent arrays -/

/-- A cell that is its own parent is not written by `find_group`. -/
theorem find_group_root_keep (cells : List Cell) (i r : Nat)
    (hr : (cellAt cells r).parent = r) : (cellAt (find_group cells i).2 r).parent = r := by
  rw [find_group_snd]
  by_cases hc : (cellAt cells i).parent ≠ i
  · rw [if_pos hc, cellAt_set]
    have hne : ¬ (i = r ∧ i < cells.length) := by
      intro hx
      rw [hx.1] at hc
      exact hc hr
    rw [if_neg hne]
    exact hr
  · rw [if_neg hc]
    exact hr

/-- What `find_group` does on a rooted array: it returns a root of the array,
the array stays rooted, and a later call returns for every cell what it
returned before. -/
theorem find_group_rooted (cells : List Cell) (h : Rooted cells) (i : Nat)
    (hi : i < cells.length) :
    (find_group cells i).1 < cells.length ∧
      (cellAt cells (find_group cells i).1).parent = (find_group cells i).1 ∧
      Rooted (find_group cells i).2 ∧
      (∀ j, j < cells.length →
        (find_group (find_group cells i).2 j).1 = (find_group cells j).1) := by
  obtain ⟨k, hk⟩ := (h i hi).2
  obtain ⟨hf, -⟩ := find_group_follow cells h i hi k hk
  have hlt : (find_group cells i).1 < cells.length := by
    rw [hf]; exact follow_lt cells h k i hi
  have hroot : (cellAt cells (find_group cells i).1).parent = (find_group cells i).1 := by
    rw [hf]; exact hk
  by_cases hc : (cellAt cells i).parent ≠ i
  · have hsnd : (find_group cells i).2 =
        cells.set i { cellAt cells i with parent := (find_group cells i).1 } := by
      rw [find_group_snd, if_pos hc]
    have hnew : Rooted (cells.set i { cellAt cells i with parent := (find_group cells i).1 }) := by
      intro q hq
      have hq1 : q < cells.length := by simpa using hq
      constructor
      · rw [cellAt_set]
        split
        · simpa using hlt
        · simpa using (h q hq1).1
      · obtain ⟨kq, hkq⟩ := (h q hq1).2
        obtain ⟨k1, h1, h2⟩ :=
          compress_follow cells h i (find_group cells i).1 hi hc ⟨k, hf.symm, hroot⟩ kq q hq1
            hkq
        exact ⟨k1, by rw [h1]; exact h2⟩
    refine ⟨hlt, hroot, by rw [hsnd]; exact hnew, ?_⟩
    intro j hj
    obtain ⟨kj, hkj⟩ := (h j hj).2
    have hold := (find_group_follow cells h j hj kj hkj).1
    obtain ⟨k1, h1, h2⟩ :=
      compress_follow cells h i (find_group cells i).1 hi hc ⟨k, hf.symm, hroot⟩ kj j hj hkj
    rw [hsnd]
    have := (find_group_follow _ hnew j (by simpa using hj) k1 (by rw [h1]; exact h2)).1
    rw [this, h1, hold]
  · have hsnd : (find_group cells i).2 = cells := by
      rw [find_group_snd, if_neg hc]
    refine ⟨hlt, hroot, by rw [hsnd]; exact h, ?_⟩
    intro j _
    rw [hsnd]

/-- The parent links after the statements of `join_groups` that attach the
root `small` under the root `big`. -/
theorem link_groups_parent (v : Variant) (cells : List Cell) (big small : Nat)
    (hb : big < cells.length) (hs : small < cells.length) (hne : big ≠ small) (k : Nat) :
    (cellAt (link_groups v cells big small) k).parent =
      if k = small then big else (cellAt cells k).parent := by
  rw [link_groups_cellAt v cells big small hb hs hne k]
  by_cases h1 : k = big
  · subst h1
    rw [if_pos rfl, if_neg hne]
  · rw [if_neg h1]
    by_cases h2 : k = small
    · rw [if_pos h2, if_pos h2]
    · rw [if_neg h2, if_neg h2]

/-- After the root `small` is attached under the root `big`, a chain that
ended in `small` ends in `big`, and every other chain ends where it ended. -/
theorem link_follow (v : Variant) (cells : List Cell) (big small : Nat)
    (hb : big < cells.length) (hs : small < cells.length) (hne : big ≠ small)
    (hrb : (cellAt cells big).parent = big) (hrs : (cellAt cells small).parent = small) :
    ∀ (k j : Nat), (cellAt cells (follow cells k j)).parent = follow cells k j →
      ∃ k1, follow (link_groups v cells big small) k1 j =
          (if follow cells k j = small then big else follow cells k j) ∧
        (cellAt (link_groups v cells big small)
          (if follow cells k j = small then big else follow cells k j)).parent =
          (if follow cells k j = small then big else follow cells k j) := by
  have hpar := link_groups_parent v cells big small hb hs hne
  have hbig : (cellAt (link_groups v cells big small) big).parent = big := by
    rw [hpar big, if_neg hne, hrb]
  have hsm : ∀ k, follow cells k small = small := follow_root cells small hrs
  intro k
  induction k with
  | zero =>
    intro j hk
    simp only [follow] at hk ⊢
    by_cases hj : j = small
    · rw [if_pos hj]
      refine ⟨1, ?_, hbig⟩
      simp only [follow]
      rw [hpar j, if_pos hj]
    · rw [if_neg hj]
      refine ⟨0, rfl, ?_⟩
      rw [hpar j, if_neg hj, hk]
  | succ k ih =>
    intro j hk
    by_cases hj : j = small
    · rw [hj, hsm (k + 1), if_pos rfl]
      refine ⟨1, ?_, hbig⟩
      simp only [follow]
      rw [hpar small, if_pos rfl]
    · have hk1 : (cellAt cells (follow cells k (cellAt cells j).parent)).parent =
          follow cells k (cellAt cells j).parent := hk
      obtain ⟨k1, h1, h2⟩ := ih (cellAt cells j).parent hk1
      refine ⟨k1 + 1, ?_, h2⟩
      simp only [follow]
      rw [hpar j, if_neg hj]
      exact h1

/-- The array after the statements of `join_groups` that attach the root
`small` under the root `big` is rooted, and `find_group` returns `big` for
the cells for which it returned `small`, and for the others what it
returned. -/
theorem link_groups_rooted (v : Variant) (cells : List Cell) (h : Rooted cells)
    (big small : Nat) (hb : big < cells.length) (hs : small < cells.length) (hne : big ≠ small)
    (hrb : (cellAt cells big).parent = big) (hrs : (cellAt cells small).parent = small) :
    Rooted (link_groups v cells big small) ∧
      ∀ j, j < cells.length →
        (find_group (link_groups v cells big small) j).1 =
          if (find_group cells j).1 = small then big else (find_group cells j).1 := by
  have hl := link_groups_length v cells big small
  have hpar := link_groups_parent v cells big small hb hs hne
  have hR : Rooted (link_groups v cells big small) := by
    intro q hq
    rw [hl] at hq
    constructor
    · rw [hpar q, hl]
      split
      · exact hb
      · exact (h q hq).1
    · obtain ⟨kq, hkq⟩ := (h q hq).2
      obtain ⟨k1, h1, h2⟩ := link_follow v cells big small hb hs hne hrb hrs kq q hkq
      exact ⟨k1, by rw [h1]; exact h2⟩
  refine ⟨hR, ?_⟩
  intro j hj
  obtain ⟨kj, hkj⟩ := (h j hj).2
  have hold := (find_group_follow cells h j hj kj hkj).1
  obtain ⟨k1, h1, h2⟩ := link_follow v cells big small hb hs hne hrb hrs kj j hkj
  have := (find_group_follow _ hR j (by rw [hl]; exact hj) k1 (by rw [h1]; exact h2)).1
  rw [this, h1, hold]

/-- An array that satisfies the union-find invariant is rooted. -/
theorem CellsInv.rooted {v : Variant} {nb : Nat → List MoveValid} {E C : Nat → Nat}
    {cells : List Cell} {pend : Nat → Prop} {rep rank : Nat → Nat}
    (h : CellsInv v nb E C cells pend rep rank) : Rooted cells := by
  have key : ∀ d i, i < cells.length → cells.length ≤ d + rank i →
      ∃ k, (cellAt cells (follow cells k i)).parent = follow cells k i := by
    intro d
    induction d with
    | zero =>
      intro i hi hd
      have := h.rank_lt i hi
      omega
    | succ d ih =>
      intro i hi hd
      by_cases hp : (cellAt cells i).parent = i
      · exact ⟨0, hp⟩
      · have h1 := h.rank_par i hi hp
        obtain ⟨k, hk⟩ := ih (cellAt cells i).parent (h.par_lt i hi) (by omega)
        exact ⟨k + 1, hk⟩
  intro i hi
  exact ⟨h.par_lt i hi, key cells.length i hi (by omega)⟩

end Morat

namespace Morat

/-- The two calls of `find_group` that open `join_groups` leave an array that
differs from the one before in parent links only. -/
theorem find_group_twice_cellAt (cells : List Cell) (i j k : Nat) :
    cellAt (find_group (find_group cells i).2 j).2 k =
      { cellAt cells k with parent := (cellAt (find_group (find_group cells i).2 j).2 k).parent } :=
  cell_parent_trans _ _ _ (find_group_cellAt (find_group cells i).2 j k)
    (find_group_cellAt cells i k)

/-- `join_groups` on a rooted array, in terms of the two roots found on the
array before the call. -/
theorem join_groups_eq (v : Variant) (cells : List Cell) (h : Rooted cells) (i j : Nat)
    (hi : i < cells.length) (hj : j < cells.length) :
    join_groups v cells i j =
      if (find_group cells i).1 = (find_group cells j).1 then
        (true, (find_group (find_group cells i).2 j).2)
      else
        (false, link_groups v (find_group (find_group cells i).2 j).2
          (kept_root cells (find_group cells i).1 (find_group cells j).1)
          (attached_root cells (find_group cells i).1 (find_group cells j).1)) := by
  obtain ⟨-, -, -, a4⟩ := find_group_rooted cells h i hi
  have hjeq := a4 j hj
  have hsz : ∀ r, (cellAt (find_group (find_group cells i).2 j).2 r).size = (cellAt cells r).size := by
    intro r
    rw [find_group_twice_cellAt cells i j r]
  unfold join_groups kept_root attached_root
  simp only [hjeq, hsz]
  by_cases heq : (find_group cells i).1 = (find_group cells j).1
  · rw [if_pos heq, if_pos heq]
  · rw [if_neg heq, if_neg heq]
    by_cases hlt : (cellAt cells (find_group cells i).1).size < (cellAt cells (find_group cells j).1).size
    · rw [if_pos hlt, if_pos hlt, if_pos hlt]
    · rw [if_neg hlt, if_neg hlt, if_neg hlt]

/-- The array after the two calls of `find_group` that open `join_groups`. -/
theorem find_group_twice_rooted (cells : List Cell) (h : Rooted cells) (i j : Nat)
    (hi : i < cells.length) (hj : j < cells.length) :
    (find_group (find_group cells i).2 j).2.length = cells.length ∧
      Rooted (find_group (find_group cells i).2 j).2 ∧
      (∀ k, k < cells.length →
        (find_group (find_group (find_group cells i).2 j).2 k).1 = (find_group cells k).1) ∧
      (find_group cells i).1 < cells.length ∧ (find_group cells j).1 < cells.length ∧
      (cellAt (find_group (find_group cells i).2 j).2 (find_group cells i).1).parent =
        (find_group cells i).1 ∧
      (cellAt (find_group (find_group cells i).2 j).2 (find_group cells j).1).parent =
        (find_group cells j).1 := by
  obtain ⟨a1, a2, a3, a4⟩ := find_group_rooted cells h i hi
  have hl1 : (find_group cells i).2.length = cells.length := find_group_length cells i
  obtain ⟨b1, b2, b3, b4⟩ := find_group_rooted (find_group cells i).2 a3 j (by rw [hl1]; exact hj)
  have hjeq := a4 j hj
  rw [hjeq] at b1 b2
  rw [hl1] at b1
  refine ⟨by rw [find_group_length, hl1], b3, ?_, a1, b1, ?_, ?_⟩
  · intro k hk
    rw [b4 k (by rw [hl1]; exact hk), a4 k hk]
  · exact find_group_root_keep _ j _ (find_group_root_keep cells i _ a2)
  · exact find_group_root_keep _ j _ b2

section uf
variable {v : Variant} {nb : Nat → List MoveValid} {E C : Nat → Nat} {cells : List Cell}
  {pend : Nat → Prop} {rep rank : Nat → Nat}

/-- The size field of a root is the number of cells of its group when the
number is below the width of the field. -/
theorem size_eq_count (h : CellsInv v nb E C cells pend rep rank) (i : Nat)
    (hi : i < cells.length) (hlt : group_count rep cells.length (rep i) < v.size_mod) :
    (cellAt cells (rep i)).size = group_count rep cells.length (rep i) := by
  rw [h.size_eq _ (h.rep_lt i hi) (h.par_rep i hi), Nat.mod_eq_of_lt hlt]

/-- Two groups have together no more cells than the array. -/
theorem two_groups_le_length (rep : Nat → Nat) (n a b : Nat) (hne : a ≠ b) :
    group_count rep n a + group_count rep n b ≤ n := by
  unfold group_count
  have := countP_disjoint_le (fun j => decide (rep j = a)) (fun j => decide (rep j = b))
    (by
      intro k hk
      simp only [decide_eq_true_eq] at hk
      simp only [decide_eq_false_iff_not]
      intro hb
      exact hne (hk.symm.trans hb)) (List.range n)
  simpa using this

/-- Two groups of one owner have together no more cells than the owner has
stones. -/
theorem two_groups_le_stones (h : CellsInv v nb E C cells pend rep rank) (i j : Nat)
    (hi : i < cells.length) (hj : j < cells.length) (hne : rep i ≠ rep j)
    (hown : get cells i = get cells j) :
    group_count rep cells.length (rep i) + group_count rep cells.length (rep j) ≤
      Havannah.stones cells (get cells i) := by
  unfold group_count Havannah.stones
  rw [← countP_or_disjoint (fun k => rep k = rep i) (fun k => rep k = rep j)
    (fun k ha hb => hne (ha.symm.trans hb))]
  apply List.countP_mono_left
  intro k hk hx
  simp only [decide_eq_true_eq] at hx ⊢
  have hkl := List.mem_range.1 hk
  rcases hx with hx | hx
  · rw [← h.piece_rep k hkl, hx, h.piece_rep i hi]
  · rw [← h.piece_rep k hkl, hx, h.piece_rep j hj, hown]

end uf

/-- On a reachable Havannah board either player has fewer stones than the
size field counts, also with one more stone. -/
theorem Havannah.h_stones_bound (G : Havannah.Grid) (s : Int) (hs : Havannah.valid_size s = true)
    (hG : Havannah.GridOK G (s * 2 - 1)) (b : Havannah.Board) (hb : Havannah.Reachable G s b)
    (side : Side) (hside : side.isPlayer = true) :
    Havannah.stones b.cells_ side + 1 < Havannah.variant.size_mod := by
  have hinv := Havannah.h_reachable_inv G s hs hG b hb
  obtain ⟨h3, h10⟩ := Havannah.h_valid_size_bounds s hs
  have hle := Havannah.h_stones_le b.cells_
  have hbal := hinv.balance
  have hlen : b.cells_.length ≤ 361 := by
    rw [hinv.len]
    have h1 : (s * 2 - 1) * (s * 2 - 1) ≤ 19 * 19 := by
      apply mul_le_mul <;> omega
    omega
  have hmod : Havannah.variant.size_mod = 256 := rfl
  rw [hmod]
  cases side with
  | P1 => split at hbal <;> omega
  | P2 => split at hbal <;> omega
  | NONE => exact absurd hside (by decide)
  | UNDEF => exact absurd hside (by decide)

end Morat

namespace Morat

/-- C31.  `join_groups(i, j)` of both boards.  On every parent array whose
chains end in a self-parented cell, with `ri` and `rj` the representatives
that `find_group` returns for `i` and `j` before the call: the call returns
`true` exactly when `ri == rj`, and then it has written parent links only and
`find_group` answers for every cell as before.  Otherwise it returns `false`;
the root `attached_root ri rj`, the one with the smaller size or `rj` when
the sizes are equal, has the other root `kept_root ri rj` as its parent; the
kept root has as size the sum of the two sizes in the width of the field, as
edge mask (and, on the Havannah board, as corner mask) the bitwise OR of the
two masks; no other cell has another size or mask; and `find_group` returns
the kept root for the cells of the two groups and what it returned before for
every other cell.  The sum does not wrap in the arrays that the boards hold:
an array with the union-find invariant is rooted, and the sizes of two roots
add up to less than the width of the field when the array has fewer cells
than the field counts (every reachable Y board) or when the two cells have
one owner, who has fewer stones than the field counts (either player of a
reachable Havannah board, one more stone included). -/
theorem C31_join_groups :
    (∀ (v : Variant) (cells : List Cell), Rooted cells →
      ∀ i j, i < cells.length → j < cells.length →
      ((join_groups v cells i j).1 = true ↔ (find_group cells i).1 = (find_group cells j).1) ∧
      (join_groups v cells i j).2.length = cells.length ∧
      Rooted (join_groups v cells i j).2 ∧
      ((find_group cells i).1 = (find_group cells j).1 →
        (∀ k, cellAt (join_groups v cells i j).2 k =
          { cellAt cells k with parent := (cellAt (join_groups v cells i j).2 k).parent }) ∧
        ∀ k, k < cells.length →
          (find_group (join_groups v cells i j).2 k).1 = (find_group cells k).1) ∧
      ((find_group cells i).1 ≠ (find_group cells j).1 →
        (cellAt (join_groups v cells i j).2
          (attached_root cells (find_group cells i).1 (find_group cells j).1)).parent =
            kept_root cells (find_group cells i).1 (find_group cells j).1 ∧
        (cellAt (join_groups v cells i j).2
          (kept_root cells (find_group cells i).1 (find_group cells j).1)).parent =
            kept_root cells (find_group cells i).1 (find_group cells j).1 ∧
        (cellAt (join_groups v cells i j).2
          (kept_root cells (find_group cells i).1 (find_group cells j).1)).size =
            ((cellAt cells (find_group cells i).1).size +
              (cellAt cells (find_group cells j).1).size) % v.size_mod ∧
        (cellAt (join_groups v cells i j).2
          (kept_root cells (find_group cells i).1 (find_group cells j).1)).edge =
            (cellAt cells (find_group cells i).1).edge |||
              (cellAt cells (find_group cells j).1).edge ∧
        (cellAt (join_groups v cells i j).2
          (kept_root cells (find_group cells i).1 (find_group cells j).1)).corner =
            (if v.corners then
              (cellAt cells (find_group cells i).1).corner |||
                (cellAt cells (find_group cells j).1).corner
            else
              (cellAt cells (kept_root cells (find_group cells i).1
                (find_group cells j).1)).corner) ∧
        (∀ k, k ≠ kept_root cells (find_group cells i).1 (find_group cells j).1 →
          (cellAt (join_groups v cells i j).2 k).size = (cellAt cells k).size ∧
          (cellAt (join_groups v cells i j).2 k).edge = (cellAt cells k).edge ∧
          (cellAt (join_groups v cells i j).2 k).corner = (cellAt cells k).corner) ∧
        ∀ k, k < cells.length →
          (find_group (join_groups v cells i j).2 k).1 =
            if (find_group cells k).1 =
                attached_root cells (find_group cells i).1 (find_group cells j).1
            then kept_root cells (find_group cells i).1 (find_group cells j).1
            else (find_group cells k).1)) ∧
    (∀ (v : Variant) (nb : Nat → List MoveValid) (E C : Nat → Nat) (cells : List Cell)
      (pend : Nat → Prop) (rep rank : Nat → Nat), CellsInv v nb E C cells pend rep rank →
      Rooted cells ∧
      ∀ i j, i < cells.length → j < cells.length →
        (find_group cells i).1 ≠ (find_group cells j).1 →
        (cells.length < v.size_mod ∨
          (get cells i = get cells j ∧ Havannah.stones cells (get cells i) < v.size_mod)) →
        (cellAt (join_groups v cells i j).2
          (kept_root cells (find_group cells i).1 (find_group cells j).1)).size =
            (cellAt cells (find_group cells i).1).size +
              (cellAt cells (find_group cells j).1).size) ∧
    (∀ (G : Y.Grid) (s : Int) (b : Y.Board), Y.valid_size s = true → Y.GridOK G s →
      Y.Reachable G s b → b.cells_.length < Y.variant.size_mod) ∧
    (∀ (G : Havannah.Grid) (s : Int) (b : Havannah.Board), Havannah.valid_size s = true →
      Havannah.GridOK G (s * 2 - 1) → Havannah.Reachable G s b →
      ∀ side : Side, side.isPlayer = true →
        Havannah.stones b.cells_ side + 1 < Havannah.variant.size_mod) := by
  have hgen : ∀ (v : Variant) (cells : List Cell), Rooted cells →
      ∀ i j, i < cells.length → j < cells.length →
      (find_group cells i).1 ≠ (find_group cells j).1 →
      (cellAt (join_groups v cells i j).2
        (kept_root cells (find_group cells i).1 (find_group cells j).1)).size =
          ((cellAt cells (find_group cells i).1).size +
            (cellAt cells (find_group cells j).1).size) % v.size_mod := by
    intro v cells h i j hi hj hne
    obtain ⟨l2, r2, f2, ri, rj, pi, pj⟩ := find_group_twice_rooted cells h i j hi hj
    have hd := find_group_twice_cellAt cells i j
    rw [join_groups_eq v cells h i j hi hj, if_neg hne]
    simp only
    unfold kept_root attached_root
    by_cases hlt : (cellAt cells (find_group cells i).1).size <
        (cellAt cells (find_group cells j).1).size
    · simp only [if_pos hlt]
      rw [link_groups_cellAt v _ _ _ (by rw [l2]; exact rj) (by rw [l2]; exact ri)
        (fun hx => hne hx.symm), if_pos rfl]
      simp only
      rw [hd (find_group cells i).1, hd (find_group cells j).1, Nat.add_comm]
    · simp only [if_neg hlt]
      rw [link_groups_cellAt v _ _ _ (by rw [l2]; exact ri) (by rw [l2]; exact rj) hne,
        if_pos rfl]
      simp only
      rw [hd (find_group cells i).1, hd (find_group cells j).1]
  refine ⟨?_, ?_, ?_, ?_⟩
  · intro v cells h i j hi hj
    obtain ⟨l2, r2, f2, ri, rj, pi, pj⟩ := find_group_twice_rooted cells h i j hi hj
    have hd := find_group_twice_cellAt cells i j
    have hsize := hgen v cells h i j hi hj
    rw [join_groups_eq v cells h i j hi hj] at hsize ⊢
    by_cases heq : (find_group cells i).1 = (find_group cells j).1
    · rw [if_pos heq]
      exact ⟨⟨fun _ => heq, fun _ => rfl⟩, l2, r2, fun _ => ⟨hd, f2⟩, fun hx => absurd heq hx⟩
    · rw [if_neg heq] at hsize ⊢
      have hsize1 := hsize heq
      clear hsize
      simp only at hsize1 ⊢
      have hkb : kept_root cells (find_group cells i).1 (find_group cells j).1 < cells.length := by
        unfold kept_root; split <;> assumption
      have hab : attached_root cells (find_group cells i).1 (find_group cells j).1 <
          cells.length := by
        unfold attached_root; split <;> assumption
      have hkne : kept_root cells (find_group cells i).1 (find_group cells j).1 ≠
          attached_root cells (find_group cells i).1 (find_group cells j).1 := by
        unfold kept_root attached_root
        split
        · exact fun hx => heq hx.symm
        · exact heq
      have hkp : (cellAt (find_group (find_group cells i).2 j).2
          (kept_root cells (find_group cells i).1 (find_group cells j).1)).parent =
          kept_root cells (find_group cells i).1 (find_group cells j).1 := by
        unfold kept_root; split <;> assumption
      have hap : (cellAt (find_group (find_group cells i).2 j).2
          (attached_root cells (find_group cells i).1 (find_group cells j).1)).parent =
          attached_root cells (find_group cells i).1 (find_group cells j).1 := by
        unfold attached_root; split <;> assumption
      have hcell := link_groups_cellAt v (find_group (find_group cells i).2 j).2 _ _
        (by rw [l2]; exact hkb) (by rw [l2]; exact hab) hkne
      have hpar := link_groups_parent v (find_group (find_group cells i).2 j).2 _ _
        (by rw [l2]; exact hkb) (by rw [l2]; exact hab) hkne
      obtain ⟨lr, lf⟩ := link_groups_rooted v (find_group (find_group cells i).2 j).2 r2 _ _
        (by rw [l2]; exact hkb) (by rw [l2]; exact hab) hkne hkp hap
      refine ⟨⟨fun hx => Bool.noConfusion hx, fun hx => absurd hx heq⟩,
        by rw [link_groups_length, l2], lr, fun hx => absurd hx heq, fun _ => ⟨?_, ?_, hsize1, ?_, ?_, ?_, ?_⟩⟩
      · rw [hpar, if_pos rfl]
      · rw [hpar, if_neg hkne, hkp]
      · rw [hcell, if_pos rfl]
        simp only
        rw [hd, hd (attached_root cells (find_group cells i).1 (find_group cells j).1)]
        unfold kept_root attached_root
        split
        · simp only
          exact Nat.lor_comm _ _
        · rfl
      · rw [hcell, if_pos rfl]
        simp only
        rw [hd, hd (attached_root cells (find_group cells i).1 (find_group cells j).1)]
        unfold kept_root attached_root
        split
        · split
          · simp only
            exact Nat.lor_comm _ _
          · rfl
        · split <;> rfl
      · intro k hk
        rw [hcell, if_neg hk]
        split
        · next hx =>
          rw [hx]
          simp only
          rw [hd]
          exact ⟨rfl, rfl, rfl⟩
        · rw [hd]
          exact ⟨rfl, rfl, rfl⟩
      · intro k hk
        rw [lf k (by rw [l2]; exact hk), f2 k hk]
  · intro v nb E C cells pend rep rank hc
    have hR := hc.rooted
    refine ⟨hR, ?_⟩
    intro i j hi hj hne hbound
    rw [hgen v cells hR i j hi hj hne]
    apply Nat.mod_eq_of_lt
    have ei := find_group_fst hc i hi
    have ej := find_group_fst hc j hj
    rw [ei, ej] at hne ⊢
    have h2 := two_groups_le_length rep cells.length (rep i) (rep j) hne
    rcases hbound with hb | ⟨hown, hst⟩
    · rw [size_eq_count hc i hi (by omega), size_eq_count hc j hj (by omega)]
      omega
    · have h3 := two_groups_le_stones hc i j hi hj hne hown
      rw [size_eq_count hc i hi (by omega), size_eq_count hc j hj (by omega)]
      omega
  · intro G s b hs hG hb
    have hinv := Y.y_reachable_inv G s hs hG b hb
    obtain ⟨h4, h25⟩ := Y.y_valid_size_bounds s hs
    rw [hinv.len]
    have h1 : s * s ≤ 25 * 25 := by apply mul_le_mul <;> omega
    have hmod : Y.variant.size_mod = 65536 := rfl
    rw [hmod]
    omega
  · intro G s b hs hG hb side hside
    exact Havannah.h_stones_bound G s hs hG b hb side hside

end Morat

namespace Morat

set_option maxRecDepth 100000 in
/-- C31, witness: on the sample array `join_groups(4, 5)` finds the roots `0`
(size 1) and `2` (size 3), swaps them, attaches `0` under `2` and leaves root
`2` with size 4 and edge mask `0 | 2`, so that every chain ends in `2`; on
the array of the sample Y game after six moves `join_groups(3, 8)` adds the
sizes 2 and 1 of the two groups of the second player without wrapping. -/
theorem C31_join_groups_witness :
    Rooted chain_cells ∧
    (find_group chain_cells 4).1 = 0 ∧ (find_group chain_cells 5).1 = 2 ∧
    kept_root chain_cells 0 2 = 2 ∧ attached_root chain_cells 0 2 = 0 ∧
    (((join_groups Y.variant chain_cells 4 5).1 = true ↔
        (find_group chain_cells 4).1 = (find_group chain_cells 5).1) ∧
      (join_groups Y.variant chain_cells 4 5).2.length = chain_cells.length ∧
      Rooted (join_groups Y.variant chain_cells 4 5).2) ∧
    ((cellAt (join_groups Y.variant chain_cells 4 5).2
        (attached_root chain_cells (find_group chain_cells 4).1
          (find_group chain_cells 5).1)).parent =
          kept_root chain_cells (find_group chain_cells 4).1 (find_group chain_cells 5).1 ∧
      (cellAt (join_groups Y.variant chain_cells 4 5).2
        (kept_root chain_cells (find_group chain_cells 4).1
          (find_group chain_cells 5).1)).size =
          ((cellAt chain_cells (find_group chain_cells 4).1).size +
            (cellAt chain_cells (find_group chain_cells 5).1).size) % Y.variant.size_mod ∧
      ∀ k, k < chain_cells.length →
        (find_group (join_groups Y.variant chain_cells 4 5).2 k).1 =
          if (find_group chain_cells k).1 =
              attached_root chain_cells (find_group chain_cells 4).1 (find_group chain_cells 5).1
          then kept_root chain_cells (find_group chain_cells 4).1 (find_group chain_cells 5).1
          else (find_group chain_cells k).1) ∧
    ((join_groups Y.variant chain_cells 4 5).2.map fun c => (c.parent, c.size, c.edge)) =
      [(2, 1, 0), (0, 2, 1), (2, 4, 2), (1, 4, 3), (0, 5, 4), (2, 6, 5)] ∧
    (cellAt (join_groups Y.variant (Y.after 6).cells_ 3 8).2
      (kept_root (Y.after 6).cells_ (find_group (Y.after 6).cells_ 3).1
        (find_group (Y.after 6).cells_ 8).1)).size =
      (cellAt (Y.after 6).cells_ (find_group (Y.after 6).cells_ 3).1).size +
        (cellAt (Y.after 6).cells_ (find_group (Y.after 6).cells_ 8).1).size ∧
    (cellAt (Y.after 6).cells_ (find_group (Y.after 6).cells_ 3).1).size = 2 ∧
    (cellAt (Y.after 6).cells_ (find_group (Y.after 6).cells_ 8).1).size = 1 ∧
    (Y.after 6).cells_.length < Y.variant.size_mod ∧
    Havannah.stones (Havannah.after 5).cells_ .P1 + 1 < Havannah.variant.size_mod := by
  have hw := C31_join_groups.1 Y.variant chain_cells chain_cells_rooted 4 5 (by decide) (by decide)
  obtain ⟨w1, w2, w3, -, w5⟩ := hw
  obtain ⟨x1, -, x3, -, -, -, x7⟩ := w5 (by decide)
  obtain ⟨rep, rank, hc⟩ :=
    (Y.y_reachable_inv Y.triGrid 4 (by decide) Y.y_triGrid_ok (Y.after 6)
      (Y.y_after_reachable 6 (by decide))).cells
  have hb := (C31_join_groups.2.1 Y.variant _ _ _ (Y.after 6).cells_ _ rep rank hc).2 3 8
    (by decide) (by decide) (by decide) (Or.inl (by decide))
  have hy := C31_join_groups.2.2.1 Y.triGrid 4 (Y.after 6) (by decide) Y.y_triGrid_ok
    (Y.y_after_reachable 6 (by decide))
  have hh := C31_join_groups.2.2.2 Havannah.hexGrid 3 (Havannah.after 5) (by decide)
    Havannah.h_hexGrid_ok (Havannah.h_after_reachable 5 (by decide)) .P1 (by decide)
  exact ⟨chain_cells_rooted, by decide, by decide, by decide, by decide, ⟨w1, w2, w3⟩,
    ⟨x1, x3, x7⟩, by decide, hb, by decide, by decide, hy, hh⟩

end Morat

namespace Morat

/-! ## `test_hash` against `gethash` after the move -/

theorem zobrist_six (strings : Int → Nat) (a0 a1 a2 a3 a4 a5 : Nat) (k0 k1 k2 k3 k4 k5 : Int) :
    zobrist_get
      (zobrist_update strings (zobrist_update strings (zobrist_update strings (zobrist_update
        strings (zobrist_update strings (zobrist_update strings [a0, a1, a2, a3, a4, a5] 0 k0) 1
        k1) 2 k2) 3 k3) 4 k4) 5 k5) =
      (min (min (min (min (min (zobrist_test strings [a0, a1, a2, a3, a4, a5] 0 k0) (zobrist_test
        strings [a0, a1, a2, a3, a4, a5] 1 k1)) (zobrist_test strings [a0, a1, a2, a3, a4, a5] 2
        k2)) (zobrist_test strings [a0, a1, a2, a3, a4, a5] 3 k3)) (zobrist_test strings [a0, a1,
        a2, a3, a4, a5] 4 k4)) (zobrist_test strings [a0, a1, a2, a3, a4, a5] 5 k5)) := by
  simp only [zobrist_update, zobrist_test, zobrist_slot, zobrist_get, List.set, List.getD_cons_zero,
    List.getD_cons_succ, List.foldl]

theorem zobrist_twelve (strings : Int → Nat) (a0 a1 a2 a3 a4 a5 a6 a7 a8 a9 a10 a11 : Nat) (k0 k1
  k2 k3 k4 k5 k6 k7 k8 k9 k10 k11 : Int) :
    zobrist_get
      (zobrist_update strings (zobrist_update strings (zobrist_update strings (zobrist_update
        strings (zobrist_update strings (zobrist_update strings (zobrist_update strings
        (zobrist_update strings (zobrist_update strings (zobrist_update strings (zobrist_update
        strings (zobrist_update strings [a0, a1, a2, a3, a4, a5, a6, a7, a8, a9, a10, a11] 0 k0) 1
        k1) 2 k2) 3 k3) 4 k4) 5 k5) 6 k6) 7 k7) 8 k8) 9 k9) 10 k10) 11 k11) =
      (min (min (min (min (min (min (min (min (min (min (min (zobrist_test strings [a0, a1, a2, a3,
        a4, a5, a6, a7, a8, a9, a10, a11] 0 k0) (zobrist_test strings [a0, a1, a2, a3, a4, a5, a6,
        a7, a8, a9, a10, a11] 1 k1)) (zobrist_test strings [a0, a1, a2, a3, a4, a5, a6, a7, a8, a9,
        a10, a11] 2 k2)) (zobrist_test strings [a0, a1, a2, a3, a4, a5, a6, a7, a8, a9, a10, a11] 3
        k3)) (zobrist_test strings [a0, a1, a2, a3, a4, a5, a6, a7, a8, a9, a10, a11] 4 k4))
        (zobrist_test strings [a0, a1, a2, a3, a4, a5, a6, a7, a8, a9, a10, a11] 5 k5))
        (zobrist_test strings [a0, a1, a2, a3, a4, a5, a6, a7, a8, a9, a10, a11] 6 k6))
        (zobrist_test strings [a0, a1, a2, a3, a4, a5, a6, a7, a8, a9, a10, a11] 7 k7))
        (zobrist_test strings [a0, a1, a2, a3, a4, a5, a6, a7, a8, a9, a10, a11] 8 k8))
        (zobrist_test strings [a0, a1, a2, a3, a4, a5, a6, a7, a8, a9, a10, a11] 9 k9))
        (zobrist_test strings [a0, a1, a2, a3, a4, a5, a6, a7, a8, a9, a10, a11] 10 k10))
        (zobrist_test strings [a0, a1, a2, a3, a4, a5, a6, a7, a8, a9, a10, a11] 11 k11)) := by
  simp only [zobrist_update, zobrist_test, zobrist_slot, zobrist_get, List.set, List.getD_cons_zero,
    List.getD_cons_succ, List.foldl]


/-- Y board: the hash that `gethash` reads from the slots that `update_hash`
has written for the move with number `num_moves_ + 1` is the value of
`test_hash` before the move. -/
theorem Y.y_test_hash_update (G : Y.Grid) (b b1 : Y.Board) (pos : MoveValid) (side : Side)
    (hlen : b.hash.length = 6) (hn : b1.num_moves_ = b.num_moves_ + 1)
    (hh : b1.hash = Y.Board.update_hash G
      { b with last_move_ := pos.toMove, num_moves_ := b.num_moves_ + 1 } pos side) :
    b1.gethash = b.test_hash G pos side := by
  unfold Y.Board.gethash Y.Board.test_hash
  rw [hn, hh]
  unfold Y.Board.update_hash
  simp only
  generalize b.hash = h at hlen
  rcases h with _ | ⟨a0, _ | ⟨a1, _ | ⟨a2, _ | ⟨a3, _ | ⟨a4, _ | ⟨a5, _ | ⟨a6, t⟩⟩⟩⟩⟩⟩⟩ <;>
    simp only [List.length_nil, List.length_cons] at hlen <;> try omega
  by_cases hc : b.num_moves_ ≥ unique_depth
  · have hc1 : b.num_moves_ + 1 > unique_depth := by
      unfold unique_depth at hc ⊢; omega
    rw [if_pos hc1, if_pos hc1, if_pos hc]
    simp [zobrist_update, zobrist_test, zobrist_slot]
  · have hc1 : ¬ b.num_moves_ + 1 > unique_depth := by
      unfold unique_depth at hc ⊢; omega
    rw [if_neg hc1, if_neg hc1, if_neg hc]
    exact zobrist_six G.strings a0 a1 a2 a3 a4 a5 _ _ _ _ _ _

/-- Havannah board: the hash that `gethash` reads from the slots that
`update_hash` has written for the move with number `num_moves_ + 1` is the
value of `test_hash` before the move. -/
theorem Havannah.h_test_hash_update (G : Havannah.Grid) (b b1 : Havannah.Board) (pos : MoveValid)
    (side : Side) (hlen : b.hash.length = 12) (hn : b1.num_moves_ = b.num_moves_ + 1)
    (hh : b1.hash = Havannah.Board.update_hash G
      { b with last_move_ := pos.toMove, num_moves_ := b.num_moves_ + 1 } pos side) :
    b1.gethash = b.test_hash G pos side := by
  unfold Havannah.Board.gethash Havannah.Board.test_hash
  rw [hn, hh]
  unfold Havannah.Board.update_hash
  have hx : ∀ x y, Havannah.Board.xyc
      { b with last_move_ := pos.toMove, num_moves_ := b.num_moves_ + 1 } x y = b.xyc x y :=
    fun _ _ => rfl
  simp only [hx]
  generalize b.hash = h at hlen
  rcases h with _ | ⟨a0, _ | ⟨a1, _ | ⟨a2, _ | ⟨a3, _ | ⟨a4, _ | ⟨a5, _ | ⟨a6, _ | ⟨a7,
    _ | ⟨a8, _ | ⟨a9, _ | ⟨a10, _ | ⟨a11, _ | ⟨a12, t⟩⟩⟩⟩⟩⟩⟩⟩⟩⟩⟩⟩⟩ <;>
    simp only [List.length_nil, List.length_cons] at hlen <;> try omega
  by_cases hc : b.num_moves_ ≥ unique_depth
  · have hc1 : b.num_moves_ + 1 > unique_depth := by
      unfold unique_depth at hc ⊢; omega
    rw [if_pos hc1, if_pos hc1, if_pos hc]
    simp [zobrist_update, zobrist_test, zobrist_slot]
  · have hc1 : ¬ b.num_moves_ + 1 > unique_depth := by
      unfold unique_depth at hc ⊢; omega
    rw [if_neg hc1, if_neg hc1, if_neg hc]
    exact zobrist_twelve G.strings a0 a1 a2 a3 a4 a5 a6 a7 a8 a9 a10 a11
      (3 * b.xyc (pos.x - b.size_r_m1_) (pos.y - b.size_r_m1_) + side.to_i) _ _ _ _ _ _ _ _ _ _ _

end Morat

namespace Morat

/-- C32.  On every reachable board of both variants and for every legal move
`m` (the outcome undecided, `m` an empty cell of the shape), the value of
`test_hash(m)` for the side to move, computed before the move, is the value
of `gethash()` after `move(m)`.  The move counts one more move, so the test
`moves_made >= unique_depth` that `test_hash` makes before the move is the
test `moves_made > unique_depth` that `update_hash` and `gethash` make after
it, at every move count. -/
theorem C32_test_hash :
    (∀ (G : Y.Grid) (s : Int) (b : Y.Board), Y.valid_size s = true → Y.GridOK G s →
      Y.Reachable G s b → ∀ (m : Move) (permanent : Bool), b.valid_move_xy G m = true →
      ∃ b1, b.move_xy G m permanent = some (true, b1) ∧
        b1.moves_made = b.moves_made + 1 ∧
        (b.moves_made ≥ unique_depth ↔ b1.moves_made > unique_depth) ∧
        b.test_hash G (b.move_valid m) b.to_play = b1.gethash) ∧
    (∀ (G : Havannah.Grid) (s : Int) (b : Havannah.Board), Havannah.valid_size s = true →
      Havannah.GridOK G (s * 2 - 1) → Havannah.Reachable G s b →
      ∀ (m : Move) (checkwin permanent : Bool), b.valid_move_xy G m = true →
      ∃ b1, b.move_xy G m checkwin permanent = some (true, b1) ∧
        b1.moves_made = b.moves_made + 1 ∧
        (b.moves_made ≥ unique_depth ↔ b1.moves_made > unique_depth) ∧
        b.test_hash G (b.move_valid m) b.to_play = b1.gethash) := by
  constructor
  · intro G s b hs hG hb m permanent hv
    have hinv := Y.y_reachable_inv G s hs hG b hb
    obtain ⟨-, -, -, -, -, hvm, -⟩ := Y.y_legal_facts G s hs hG b hinv m hv
    have hbody := Y.y_move_body_valid G b (b.move_valid m) permanent hvm
    have hn : (b.move_body G (b.move_valid m) permanent).2.num_moves_ = b.num_moves_ + 1 := by
      rw [hbody]
    have hh : (b.move_body G (b.move_valid m) permanent).2.hash =
        Y.Board.update_hash G
          { b with last_move_ := (b.move_valid m).toMove, num_moves_ := b.num_moves_ + 1 }
          (b.move_valid m) b.to_play_ := by
      rw [hbody]
    refine ⟨(b.move_body G (b.move_valid m) permanent).2, ?_, hn, ?_, ?_⟩
    · rw [Y.y_move_xy_legal G s hs hG b hinv m hv permanent]
      have h1 : (b.move_body G (b.move_valid m) permanent).1 = true := by rw [hbody]
      exact congrArg some (Prod.ext h1 rfl)
    · unfold Y.Board.moves_made
      rw [hn]
      unfold unique_depth
      omega
    · exact (Y.y_test_hash_update G b _ (b.move_valid m) b.to_play_ hinv.hash_len hn hh).symm
  · intro G s b hs hG hb m checkwin permanent hv
    have hinv := Havannah.h_reachable_inv G s hs hG b hb
    obtain ⟨-, -, -, -, -, hvm, -⟩ := Havannah.h_legal_facts G s hs hG b hinv m hv
    have hbody := Havannah.h_move_body_valid G b (b.move_valid m) checkwin permanent hvm
    have hn : (b.move_body G (b.move_valid m) checkwin permanent).2.num_moves_ =
        b.num_moves_ + 1 := by
      rw [hbody]
    have hh : (b.move_body G (b.move_valid m) checkwin permanent).2.hash =
        Havannah.Board.update_hash G
          { b with last_move_ := (b.move_valid m).toMove, num_moves_ := b.num_moves_ + 1 }
          (b.move_valid m) b.to_play_ := by
      rw [hbody]
    refine ⟨(b.move_body G (b.move_valid m) checkwin permanent).2, ?_, hn, ?_, ?_⟩
    · rw [Havannah.h_move_xy_legal G s hs hG b hinv m hv checkwin permanent]
      have h1 : (b.move_body G (b.move_valid m) checkwin permanent).1 = true := by rw [hbody]
      exact congrArg some (Prod.ext h1 rfl)
    · unfold Havannah.Board.moves_made
      rw [hn]
      unfold unique_depth
      omega
    · exact (Havannah.h_test_hash_update G b _ (b.move_valid m) b.to_play_ hinv.hash_len hn
        hh).symm

set_option maxRecDepth 100000 in
/-- C32, witness: the fifth move of the sample Y game is tested and made in
the regime of the six symmetric slots, the sixth move, after which
`moves_made` exceeds `unique_depth`, in the regime of slot 0; the fifth move
of the sample Havannah game is tested and made in the regime of the twelve
symmetric slots. -/
theorem C32_test_hash_witness :
    (Y.after 4).moves_made = 4 ∧ (Y.after 5).moves_made = 5 ∧ (Havannah.after 4).moves_made = 4 ∧
    (∃ b1, (Y.after 4).move_xy Y.triGrid ⟨1, 1⟩ true = some (true, b1) ∧
      b1.moves_made = (Y.after 4).moves_made + 1 ∧
      ((Y.after 4).moves_made ≥ unique_depth ↔ b1.moves_made > unique_depth) ∧
      (Y.after 4).test_hash Y.triGrid ((Y.after 4).move_valid ⟨1, 1⟩) (Y.after 4).to_play =
        b1.gethash) ∧
    (∃ b1, (Y.after 5).move_xy Y.triGrid ⟨0, 2⟩ true = some (true, b1) ∧
      b1.moves_made = (Y.after 5).moves_made + 1 ∧
      ((Y.after 5).moves_made ≥ unique_depth ↔ b1.moves_made > unique_depth) ∧
      (Y.after 5).test_hash Y.triGrid ((Y.after 5).move_valid ⟨0, 2⟩) (Y.after 5).to_play =
        b1.gethash) ∧
    (∃ b1, (Havannah.after 4).move_xy Havannah.hexGrid ⟨2, 0⟩ true true = some (true, b1) ∧
      b1.moves_made = (Havannah.after 4).moves_made + 1 ∧
      ((Havannah.after 4).moves_made ≥ unique_depth ↔ b1.moves_made > unique_depth) ∧
      (Havannah.after 4).test_hash Havannah.hexGrid ((Havannah.after 4).move_valid ⟨2, 0⟩)
        (Havannah.after 4).to_play = b1.gethash) :=
  ⟨by decide, by decide, by decide,
    C32_test_hash.1 Y.triGrid 4 (Y.after 4) (by decide) Y.y_triGrid_ok
      (Y.y_after_reachable 4 (by decide)) ⟨1, 1⟩ true (by decide),
    C32_test_hash.1 Y.triGrid 4 (Y.after 5) (by decide) Y.y_triGrid_ok
      (Y.y_after_reachable 5 (by decide)) ⟨0, 2⟩ true (by decide),
    C32_test_hash.2 Havannah.hexGrid 3 (Havannah.after 4) (by decide) Havannah.h_hexGrid_ok
      (Havannah.h_after_reachable 4 (by decide)) ⟨2, 0⟩ true true (by decide)⟩

end Morat

namespace Morat
namespace Y

/-! ## The course of the game on reachable Y boards -/

theorem ofSide_inj (a c : Side) (ha : a.isPlayer = true) (hc : c.isPlayer = true)
    (h : Outcome.ofSide a = Outcome.ofSide c) : a = c := by
  cases a <;> cases c <;> simp_all [Side.isPlayer, Outcome.ofSide]

theorem ofSide_ne_draw (a : Side) (ha : a.isPlayer = true) : Outcome.ofSide a ≠ .DRAW := by
  cases a <;> simp_all [Side.isPlayer, Outcome.ofSide]

theorem y_clear_play (G : Grid) (s : Int) (b : Board) : PlayInv G s (b.clear G) := by
  constructor
  · have h0 : (b.clear G).num_moves_ = 0 := rfl
    rw [h0]
    unfold Board.stones
    have : (List.range (b.clear G).cells_.length).countP
        (fun i => ((b.clear G).get i).isPlayer) = 0 := by
      rw [List.countP_eq_zero]
      intro i hi
      rw [List.mem_range] at hi
      have hl : (b.clear G).cells_.length = b.vec_size.toNat := by simp [Board.clear]
      rw [hl] at hi
      have := y_clear_not_player G b.size_ b.vec_size.toNat i hi
      unfold Board.get Board.clear
      simp only
      rw [this]
      decide
    rw [this]
    rfl
  · intro _; rfl
  · intro h; exact absurd rfl h
  · show (if b.to_play_ = .NONE then Side.P1 else b.first_move) =
      if (0 : Int) % 2 = 0 then (if b.to_play_ = .NONE then Side.P1 else b.first_move)
      else (if b.to_play_ = .NONE then Side.P1 else b.first_move).opp
    simp
  · intro side hside ho
    have h0 : (b.clear G).outcome_ = .UNKNOWN := rfl
    rw [h0] at ho
    exact absurd ho (unknown_ne_ofSide side hside)
  · show Outcome.UNKNOWN ≠ Outcome.DRAW
    decide

/-- On a board that keeps the invariant the last move is `M_NONE` exactly when
no move has been made. -/
theorem y_fresh_iff (G : Grid) (s : Int) (hG : GridOK G s) (b : Board) (h : PlayInv G s b) :
    b.num_moves_ = 0 ↔ b.last_move_ = M_NONE := by
  constructor
  · exact h.fresh
  · intro hl
    by_contra hn
    have := hG.shape _ _ (h.last hn)
    rw [hl] at this
    unfold M_NONE at this
    simp at this

theorem y_toggle_play (G : Grid) (s : Int) (hG : GridOK G s) (b : Board) (h : PlayInv G s b) :
    PlayInv G s b.toggle_to_play := by
  unfold Board.toggle_to_play
  by_cases hl : b.last_move_ = M_NONE
  · have hn := (y_fresh_iff G s hG b h).2 hl
    rw [if_pos hl]
    have hmod : b.num_moves_ % 2 = 0 := by rw [hn]; rfl
    have key : ∀ side : Side, PlayInv G s { b with first_move := side, to_play_ := side } := by
      intro side
      constructor
      · exact h.stones_eq
      · exact h.fresh
      · exact h.last
      · show side = if b.num_moves_ % 2 = 0 then side else side.opp
        rw [if_pos hmod]
      · intro sd hsd ho
        exact absurd hn (h.won sd hsd ho).1
      · exact h.no_draw
    split
    · exact key _
    · split
      · exact key _
      · exact h
  · rw [if_neg hl]
    exact h

theorem y_move_play (G : Grid) (s : Int) (hs : valid_size s = true) (hG : GridOK G s)
    (b : Board) (hinv : BoardInv G s b) (h : PlayInv G s b) (m : Move)
    (hv : b.valid_move_xy G m = true) (permanent : Bool) :
    PlayInv G s (b.move_body G (b.move_valid m) permanent).2 := by
  obtain ⟨ho, hob, hlt, hidx, hget, hvm, hsym⟩ := y_legal_facts G s hs hG b hinv m hv
  have hbody := y_move_body_valid G b (b.move_valid m) permanent hvm
  have hon : G.on_board s m.x m.y = true := by
    unfold Board.valid_move_xy at hv
    simp only [Bool.and_eq_true, decide_eq_true_eq] at hv
    have := hv.1.2
    rw [hinv.size_eq] at this
    exact this
  have hnn : (0 : Int) ≤ b.num_moves_ := by rw [← h.stones_eq]; exact Int.natCast_nonneg _
  have hg : ∀ k, get (b.move_body G (b.move_valid m) permanent).2.cells_ k =
      if k = (b.move_valid m).idx then b.to_play_ else get b.cells_ k := by
    intro k
    rw [hbody]
    simp only
    rw [find_group_get, place_stone_get _ _ _ _ _ _ hlt]
  have hlen : (b.move_body G (b.move_valid m) permanent).2.cells_.length = b.cells_.length := by
    rw [hbody]
    simp only
    rw [find_group_length, place_stone_length]
  have hnum : (b.move_body G (b.move_valid m) permanent).2.num_moves_ = b.num_moves_ + 1 := by
    rw [hbody]
  have hlast : (b.move_body G (b.move_valid m) permanent).2.last_move_ = m := by
    rw [hbody]; rfl
  have hturn : (b.move_body G (b.move_valid m) permanent).2.to_play_ = b.to_play_.opp := by
    rw [hbody]
  have hfirst : (b.move_body G (b.move_valid m) permanent).2.first_move = b.first_move := by
    rw [hbody]
  have hsize : (b.move_body G (b.move_valid m) permanent).2.size_ = b.size_ := by
    rw [hbody]
  have hout : (b.move_body G (b.move_valid m) permanent).2.outcome_ = Outcome.ofSide b.to_play_ ∨
      (b.move_body G (b.move_valid m) permanent).2.outcome_ = .UNKNOWN := by
    rw [hbody]
    simp only
    split
    · exact Or.inl rfl
    · exact Or.inr ho
  constructor
  · rw [hnum, ← h.stones_eq]
    unfold Board.stones Board.get
    rw [hlen]
    have hc := countP_update (fun k => (get b.cells_ k).isPlayer)
      (fun k => (get (b.move_body G (b.move_valid m) permanent).2.cells_ k).isPlayer)
      (b.move_valid m).idx (by intro k hk; simp only; rw [hg k, if_neg hk])
      (List.range b.cells_.length) (List.nodup_range _) (List.mem_range.2 hlt)
    simp only [hg (b.move_valid m).idx, if_true, hget, hinv.to_play] at hc
    have hnp : Side.NONE.isPlayer = false := rfl
    rw [hnp] at hc
    simp only [Bool.false_eq_true, if_false, Nat.add_zero] at hc
    rw [hc]
    rfl
  · intro h0
    rw [hnum] at h0
    omega
  · intro _
    rw [hlast]
    exact hon
  · rw [hturn, hfirst, hnum, h.turn]
    by_cases hp : b.num_moves_ % 2 = 0
    · have : ¬ (b.num_moves_ + 1) % 2 = 0 := by omega
      rw [if_pos hp, if_neg this]
    · have : (b.num_moves_ + 1) % 2 = 0 := by omega
      rw [if_neg hp, if_pos this, Side.opp_opp]
  · intro side hside hos
    rcases hout with ho1 | ho1
    · rw [ho1] at hos
      have hsd := ofSide_inj _ _ hinv.to_play hside hos
      refine ⟨by rw [hnum]; omega, ?_, by rw [hturn, hsd]⟩
      have hmv : Board.move_valid (b.move_body G (b.move_valid m) permanent).2
          (b.move_body G (b.move_valid m) permanent).2.last_move_ = b.move_valid m := by
        rw [hlast]
        have hgen : ∀ c : Board, c.size_ = b.size_ → c.move_valid m = b.move_valid m := by
          intro c hc
          unfold Board.move_valid Board.xy
          rw [hc]
        exact hgen _ hsize
      rw [hmv]
      unfold Board.get
      rw [hg, if_pos rfl, hsd]
    · rw [ho1] at hos
      exact absurd hos (unknown_ne_ofSide side hside)
  · rcases hout with ho1 | ho1
    · rw [ho1]; exact ofSide_ne_draw _ hinv.to_play
    · rw [ho1]; decide

/-- Every reachable board keeps the invariant of the course of the game. -/
theorem y_reachable_play (G : Grid) (s : Int) (hs : valid_size s = true) (hG : GridOK G s)
    (b : Board) (hb : Reachable G s b) : PlayInv G s b := by
  induction hb with
  | create h =>
    unfold Board.size
    rw [h]
    simp only [Bool.not_true, Bool.false_eq_true, if_false]
    exact y_clear_play G s _
  | clear b _ _ => exact y_clear_play G s b
  | toggle b _ ih => exact y_toggle_play G s hG b ih
  | move b m permanent r b1 hb hv hm ih =>
    have hinv := y_reachable_inv G s hs hG b hb
    rw [y_move_xy_legal G s hs hG b hinv m hv permanent] at hm
    have hb1 : b1 = (b.move_body G (b.move_valid m) permanent).2 :=
      (congrArg Prod.snd (Option.some.inj hm)).symm
    rw [hb1]
    exact y_move_play G s hs hG b hinv ih m hv permanent

end Y
end Morat

namespace Morat
namespace Y

/-- C33.  Every board that the constructor, `clear`, `toggle_to_play` and
legal moves produce satisfies: `moves_made()` is the number of cells owned by
one of the two players; the first player is one of the two players, and the
side to move is the first player when `moves_made()` is even and the other
player when it is odd; `moves_avail()` is `0` when the outcome is decided and
`num_cells() - moves_made()` otherwise; the outcome is unknown or the win of
a player, and when it is the win of `side`, the last move is a cell of the
shape that `side` owns and the side to move is the other player.  On a board
with a decided outcome `toggle_to_play` changes nothing, no move is valid and
`move` fails its opening assertion (its body returns `false` and changes
nothing), so every board that follows without a call of `clear` is that
board. -/
theorem C33_y_reachable_invariant :
    ∀ (G : Grid) (s : Int) (b : Board), valid_size s = true → GridOK G s → Reachable G s b →
      b.moves_made = (b.stones : Int) ∧
      (b.first_move.isPlayer = true ∧
        b.to_play = if b.moves_made % 2 = 0 then b.first_move else b.first_move.opp) ∧
      b.moves_avail = (if b.outcome.solved = true then 0 else b.num_cells - b.moves_made) ∧
      (b.outcome = .UNKNOWN ∨ b.outcome = .P1 ∨ b.outcome = .P2) ∧
      (∀ side : Side, side.isPlayer = true → b.outcome = Outcome.ofSide side →
        G.on_board s b.last_move_.x b.last_move_.y = true ∧
        b.get (b.move_valid b.last_move_).idx = side ∧ b.to_play = side.opp) ∧
      (b.outcome.solved = true →
        b.toggle_to_play = b ∧ (∀ m, b.valid_move_xy G m = false) ∧
        (∀ m permanent, b.move_xy G m permanent = none ∧
          b.move_body G (b.move_valid m) permanent = (false, b)) ∧
        ∀ c, Later G b c → c = b) := by
  intro G s b hs hG hb
  have hinv := y_reachable_inv G s hs hG b hb
  have hp := y_reachable_play G s hs hG b hb
  have hout : b.outcome_ = .UNKNOWN ∨ b.outcome_ = .P1 ∨ b.outcome_ = .P2 := by
    have := hp.no_draw
    cases ho : b.outcome_
    · exact Or.inl rfl
    · exact absurd ho this
    · exact Or.inr (Or.inl rfl)
    · exact Or.inr (Or.inr rfl)
  refine ⟨hp.stones_eq.symm, ⟨hinv.first, hp.turn⟩, ?_, hout, ?_, ?_⟩
  · unfold Board.moves_avail Board.outcome Outcome.solved Board.num_cells Board.moves_made
    simp only [decide_eq_true_eq]
  · intro side hside ho
    obtain ⟨w1, w2, w3⟩ := hp.won side hside ho
    exact ⟨hp.last w1, w2, w3⟩
  · intro hsolved
    have hsv : b.outcome_.solved = true := hsolved
    have hdec : Outcome.DRAW.to_i ≤ b.outcome_.to_i := by
      unfold Outcome.solved at hsv
      simpa using hsv
    have hside : ∃ side : Side, side.isPlayer = true ∧ b.outcome_ = Outcome.ofSide side := by
      rcases hout with ho | ho | ho
      · rw [ho] at hdec
        exact absurd hdec (by decide)
      · exact ⟨.P1, rfl, ho⟩
      · exact ⟨.P2, rfl, ho⟩
    obtain ⟨side, hsd, ho⟩ := hside
    have hnz := (hp.won side hsd ho).1
    have hlast : b.last_move_ ≠ M_NONE := fun hl => hnz ((y_fresh_iff G s hG b hp).2 hl)
    have htog : b.toggle_to_play = b := y_toggle_moved b hlast
    have hval : ∀ m, b.valid_move_xy G m = false := by
      intro m
      unfold Board.valid_move_xy
      have : ¬ b.outcome_.to_i < Outcome.DRAW.to_i := by omega
      simp [this]
    have hmove : ∀ m permanent, b.move_xy G m permanent = none ∧
        b.move_body G (b.move_valid m) permanent = (false, b) := by
      intro m permanent
      have hv : b.valid_move (b.move_valid m) = false := by
        unfold Board.valid_move
        have : ¬ b.outcome_.to_i < Outcome.DRAW.to_i := by omega
        simp [this]
      constructor
      · unfold Board.move_xy Board.move
        rw [hsv]
        rfl
      · unfold Board.move_body
        simp [hv]
    refine ⟨htog, hval, hmove, ?_⟩
    intro c hc
    induction hc with
    | refl => rfl
    | toggle c _ ih => rw [ih]; exact htog
    | move c m permanent r c1 _ hm ih =>
      rw [ih, (hmove m permanent).1] at hm
      exact absurd hm (by simp)

set_option maxRecDepth 100000 in
/-- C33, witness: the board of the sample game after its seventh move, which
the first player has won with `(1,2)`. -/
theorem C33_y_reachable_invariant_witness :
    valid_size 4 = true ∧ (after 7).outcome = .P1 ∧ (after 7).moves_made = 7 ∧
    (after 7).last_move_ = ⟨1, 2⟩ ∧
    ((after 7).moves_made = ((after 7).stones : Int) ∧
      ((after 7).first_move.isPlayer = true ∧
        (after 7).to_play =
          if (after 7).moves_made % 2 = 0 then (after 7).first_move
          else (after 7).first_move.opp) ∧
      (after 7).moves_avail =
        (if (after 7).outcome.solved = true then 0
          else (after 7).num_cells - (after 7).moves_made) ∧
      ((after 7).outcome = .UNKNOWN ∨ (after 7).outcome = .P1 ∨ (after 7).outcome = .P2) ∧
      (∀ side : Side, side.isPlayer = true → (after 7).outcome = Outcome.ofSide side →
        triGrid.on_board 4 (after 7).last_move_.x (after 7).last_move_.y = true ∧
        (after 7).get ((after 7).move_valid (after 7).last_move_).idx = side ∧
        (after 7).to_play = side.opp) ∧
      ((after 7).outcome.solved = true →
        (after 7).toggle_to_play = after 7 ∧
        (∀ m, (after 7).valid_move_xy triGrid m = false) ∧
        (∀ m permanent, (after 7).move_xy triGrid m permanent = none ∧
          (after 7).move_body triGrid ((after 7).move_valid m) permanent = (false, after 7)) ∧
        ∀ c, Later triGrid (after 7) c → c = after 7)) :=
  ⟨by decide, by decide, by decide, by decide,
    C33_y_reachable_invariant triGrid 4 (after 7) (by decide) y_triGrid_ok
      (y_after_reachable 7 (by decide))⟩

end Y
end Morat

namespace Morat
namespace Y

/-- C34.  `toggle_to_play` of the Y board, on every board that the
constructor, `clear`, `toggle_to_play` and legal moves produce.  No move has
been made since the last `clear` exactly when the last move is `M_NONE`.
Then the side to move is the first player, and `toggle_to_play` replaces both
by the other player and changes nothing else, so that a second call gives the
board back; a `clear` after the call keeps the new first player, who is then
to move.  When a move has been made, `toggle_to_play` changes nothing.
`History::toggle_to_play` calls it on the board of the history and leaves the
lists of moves and players as they are. -/
theorem C34_toggle_to_play :
    (∀ (G : Grid) (s : Int) (b : Board), valid_size s = true → GridOK G s → Reachable G s b →
      (b.moves_made = 0 ↔ b.last_move_ = M_NONE) ∧
      (b.moves_made = 0 →
        b.to_play = b.first_move ∧ b.first_move.isPlayer = true ∧
        b.first_move.opp.isPlayer = true ∧ b.first_move.opp ≠ b.first_move ∧
        b.toggle_to_play =
          { b with first_move := b.first_move.opp, to_play_ := b.to_play_.opp } ∧
        b.toggle_to_play.toggle_to_play = b ∧
        (b.toggle_to_play.clear G).first_move = b.first_move.opp ∧
        (b.toggle_to_play.clear G).to_play = b.first_move.opp) ∧
      (b.moves_made ≠ 0 → b.toggle_to_play = b)) ∧
    (∀ h : History, h.toggle_to_play = { h with board := h.board.toggle_to_play }) := by
  refine ⟨?_, fun h => rfl⟩
  intro G s b hs hG hb
  have hinv := y_reachable_inv G s hs hG b hb
  have hp := y_reachable_play G s hs hG b hb
  have hiff := y_fresh_iff G s hG b hp
  refine ⟨hiff, ?_, ?_⟩
  · intro h0
    have hl := hiff.1 h0
    have ht : b.to_play_ = b.first_move := by
      have := hp.turn
      have h0' : b.num_moves_ = 0 := h0
      rw [h0'] at this
      simpa using this
    have hf := hinv.first
    obtain ⟨sz, sm, nc, nm, lm, tp, fm, oc, cs, hh⟩ := b
    simp only at hl ht hf
    subst hl
    subst ht
    cases tp with
    | P1 =>
      refine ⟨rfl, rfl, rfl, fun hx => Side.noConfusion hx, rfl, rfl, ?_, ?_⟩ <;>
        simp [Board.toggle_to_play, Board.clear, Board.to_play, Side.opp]
    | P2 =>
      refine ⟨rfl, rfl, rfl, fun hx => Side.noConfusion hx, rfl, rfl, ?_, ?_⟩ <;>
        simp [Board.toggle_to_play, Board.clear, Board.to_play, Side.opp]
    | NONE => exact absurd hf (by decide)
    | UNDEF => exact absurd hf (by decide)
  · intro hn
    have hl : b.last_move_ ≠ M_NONE := fun hx => hn (hiff.2 hx)
    exact y_toggle_moved b hl

set_option maxRecDepth 100000 in
/-- C34, witness: on the empty board of side 4 the first player is `P1`, and
`toggle_to_play` makes `P2` the first player and the side to move; on the
board of the sample game after one move it changes nothing. -/
theorem C34_toggle_to_play_witness :
    valid_size 4 = true ∧ (after 0).moves_made = 0 ∧ (after 1).moves_made ≠ 0 ∧
    (after 0).first_move = .P1 ∧ (after 0).toggle_to_play.first_move = .P2 ∧
    (after 0).toggle_to_play.to_play = .P2 ∧
    ((after 0).to_play = (after 0).first_move ∧ (after 0).first_move.isPlayer = true ∧
      (after 0).first_move.opp.isPlayer = true ∧ (after 0).first_move.opp ≠ (after 0).first_move ∧
      (after 0).toggle_to_play =
        { after 0 with
          first_move := (after 0).first_move.opp, to_play_ := (after 0).to_play_.opp } ∧
      (after 0).toggle_to_play.toggle_to_play = after 0 ∧
      ((after 0).toggle_to_play.clear triGrid).first_move = (after 0).first_move.opp ∧
      ((after 0).toggle_to_play.clear triGrid).to_play = (after 0).first_move.opp) ∧
    (after 1).toggle_to_play = after 1 :=
  ⟨by decide, by decide, by decide, by decide, by decide, by decide,
    (C34_toggle_to_play.1 triGrid 4 (after 0) (by decide) y_triGrid_ok
      (y_after_reachable 0 (by decide))).2.1 (by decide),
    (C34_toggle_to_play.1 triGrid 4 (after 1) (by decide) y_triGrid_ok
      (y_after_reachable 1 (by decide))).2.2 (by decide)⟩

end Y
end Morat

namespace Morat

/-! ## The winning condition of the Y board, seen on the board -/

theorem bits_three (m : Nat) (hm : m < 8) :
    BitsSetTable256 m = 3 ↔
      (m.testBit 0 = true ∧ m.testBit 1 = true ∧ m.testBit 2 = true) := by
  interval_cases m <;> decide

theorem testBit_lt_three (x e : Nat) (hx : x < 8) (h : x.testBit e = true) : e < 3 := by
  by_contra hne
  have h3 : 3 ≤ e := by omega
  have h8 : (8 : Nat) ≤ 2 ^ e := by
    calc (8 : Nat) = 2 ^ 3 := rfl
      _ ≤ 2 ^ e := Nat.pow_le_pow_right (by decide) h3
  rw [Nat.testBit_lt_two_pow (lt_of_lt_of_le hx h8)] at h
  cases h

section uf
variable {nb : Nat → List MoveValid}

/-- A path on one array is a path on every array of the same length that
has the same owners on the cells the path can reach. -/
theorem connected_of_agree_on (c1 c2 : List Cell) (hl : c1.length = c2.length) (p : Nat)
    (hg : ∀ k, Connected nb c1 p k → get c2 k = get c1 k) (j : Nat)
    (hc : Connected nb c1 p j) : Connected nb c2 p j := by
  unfold Connected at hc ⊢
  induction hc with
  | refl => exact Relation.ReflTransGen.refl
  | tail hab hbc ih =>
    obtain ⟨h1, h2, h3, h4, h5⟩ := hbc
    have gb := hg _ hab
    have gc := hg _ (Relation.ReflTransGen.tail hab ⟨h1, h2, h3, h4, h5⟩)
    refine Relation.ReflTransGen.tail ih ⟨by rw [← hl]; exact h1, by rw [← hl]; exact h2, ?_, ?_, h5⟩
    · rw [gb]; exact h3
    · rw [gb, gc]; exact h4

end uf

namespace Y

/-- The edge mask of the representative of a cell of a board that satisfies
the invariant has the bit `e` exactly when the group of the cell lies on that
edge. -/
theorem y_rep_edge_bits (G : Grid) (s : Int) (b : Board) (hinv : BoardInv G s b) (c : Nat)
    (hc : c < b.cells_.length) (e : Nat) :
    (cellAt b.cells_ (find_group b.cells_ c).1).edge.testBit e = true ↔
      b.group_on_edge G c e := by
  obtain ⟨rep, rank, hI⟩ := hinv.cells
  unfold Board.group_on_edge
  rw [find_group_fst hI c hc, hI.edge_eq _ (hI.rep_lt c hc) (hI.par_rep c hc) e, hinv.size_eq]
  constructor
  · rintro ⟨j, hj, hr, hb⟩
    exact ⟨j, hj, (rep_eq_iff_connected hI c j hc hj).1 hr, hb⟩
  · rintro ⟨j, hj, hcn, hb⟩
    exact ⟨j, hj, (rep_eq_iff_connected hI c j hc hj).2 hcn, hb⟩

/-- With edge masks of three bits, the representative of a cell has three
edges in its mask exactly when the group of the cell lies on the three edges
of the board. -/
theorem y_numedges_three (G : Grid) (s : Int) (b : Board) (hinv : BoardInv G s b)
    (hE : ∀ i, edge0 G s i < 8) (c : Nat) (hc : c < b.cells_.length) :
    (cellAt b.cells_ (find_group b.cells_ c).1).numedges = 3 ↔ b.three_edges G c := by
  have hbits := y_rep_edge_bits G s b hinv c hc
  have hlt : (cellAt b.cells_ (find_group b.cells_ c).1).edge < 8 := by
    apply Nat.lt_pow_two_of_testBit _ (n := 3)
    intro i hi
    cases hx : (cellAt b.cells_ (find_group b.cells_ c).1).edge.testBit i
    · rfl
    · exfalso
      obtain ⟨j, -, -, hb⟩ := (hbits i).1 hx
      rw [hinv.size_eq] at hb
      have := testBit_lt_three _ i (hE j) hb
      omega
  unfold Cell.numedges Board.three_edges
  rw [bits_three _ hlt, hbits 0, hbits 1, hbits 2]

/-- Cells of one group lie on the same edges. -/
theorem y_three_edges_conn (G : Grid) (s : Int) (b : Board) (hinv : BoardInv G s b) (c d : Nat)
    (hcd : Connected (G.neighbors_small s) b.cells_ c d) :
    b.three_edges G c ↔ b.three_edges G d := by
  obtain ⟨rep, rank, hI⟩ := hinv.cells
  have hdc := Connected.conn_symm hI hcd
  have key : ∀ e, b.group_on_edge G c e ↔ b.group_on_edge G d e := by
    intro e
    unfold Board.group_on_edge
    rw [hinv.size_eq]
    constructor
    · rintro ⟨j, hj, hcn, hb⟩
      exact ⟨j, hj, Relation.ReflTransGen.trans hdc hcn, hb⟩
    · rintro ⟨j, hj, hcn, hb⟩
      exact ⟨j, hj, Relation.ReflTransGen.trans hcd hcn, hb⟩
  unfold Board.three_edges
  rw [key 0, key 1, key 2]

/-- The board after a legal move: its fields, the owners of its cells and
its outcome, which is the win of the mover when the representative of the
new stone has three edges in its mask and `UNKNOWN` otherwise. -/
theorem y_move_fields (G : Grid) (s : Int) (hs : valid_size s = true) (hG : GridOK G s)
    (b : Board) (hinv : BoardInv G s b) (m : Move) (hv : b.valid_move_xy G m = true)
    (permanent : Bool) :
    b.move_xy G m permanent = some (true, (b.move_body G (b.move_valid m) permanent).2) ∧
    (b.move_body G (b.move_valid m) permanent).2.size_ = b.size_ ∧
    (b.move_body G (b.move_valid m) permanent).2.cells_.length = b.cells_.length ∧
    (b.move_body G (b.move_valid m) permanent).2.last_move_ = m ∧
    (∀ k, get (b.move_body G (b.move_valid m) permanent).2.cells_ k =
      if k = (b.move_valid m).idx then b.to_play_ else get b.cells_ k) ∧
    (b.move_body G (b.move_valid m) permanent).2.outcome_ =
      (if (cellAt (b.move_body G (b.move_valid m) permanent).2.cells_
          (find_group (b.move_body G (b.move_valid m) permanent).2.cells_
            (b.move_valid m).idx).1).numedges = 3
        then Outcome.ofSide b.to_play_ else .UNKNOWN) := by
  obtain ⟨ho, hob, hlt, hidx, hget, hvm, hsym⟩ := y_legal_facts G s hs hG b hinv m hv
  have hbody := y_move_body_valid G b (b.move_valid m) permanent hvm
  obtain ⟨rep, rank, hc⟩ := hinv.cells
  have hltn : (b.move_valid m).idx < (s * s).toNat := by rw [← hinv.len]; exact hlt
  obtain ⟨rep2, rank2, r1, r2, r3, -⟩ :=
    place_spec hG.nbr hinv.len hc (b.move_valid m).idx hltn (by rw [hget]; rfl) hsym b.to_play_
      hinv.to_play permanent
  have hag := find_group_again r3 (b.move_valid m).idx (by rw [r1]; exact hltn)
  have hcells : (b.move_body G (b.move_valid m) permanent).2.cells_ =
      (find_group (place_stone variant (G.neighbors_small s (b.move_valid m).idx) b.cells_
        b.to_play_ (b.move_valid m).idx permanent).2 (b.move_valid m).idx).2 := by
    rw [hbody, hinv.size_eq]
  have hout : (b.move_body G (b.move_valid m) permanent).2.outcome_ =
      if (cellAt (find_group (place_stone variant (G.neighbors_small s (b.move_valid m).idx)
          b.cells_ b.to_play_ (b.move_valid m).idx permanent).2 (b.move_valid m).idx).2
        (find_group (place_stone variant (G.neighbors_small s (b.move_valid m).idx)
          b.cells_ b.to_play_ (b.move_valid m).idx permanent).2 (b.move_valid m).idx).1).numedges = 3
      then Outcome.ofSide b.to_play_ else .UNKNOWN := by
    rw [hbody, hinv.size_eq, ho]
  refine ⟨?_, by rw [hbody], ?_, by rw [hbody]; rfl, ?_, ?_⟩
  · rw [y_move_xy_legal G s hs hG b hinv m hv permanent]
    have h1 : (b.move_body G (b.move_valid m) permanent).1 = true := by rw [hbody]
    exact congrArg some (Prod.ext h1 rfl)
  · rw [hcells, find_group_length, r1, hinv.len]
  · intro k
    rw [hcells, find_group_get, r2]
  · rw [hout, hcells, hag]

end Y
end Morat

namespace Morat

section uf
variable {nb : Nat → List MoveValid}

/-- A path that ends in a cell other than its start ends with a step from a
cell of a player to a cell of the same owner. -/
theorem connected_end_player (cells : List Cell) (c k : Nat) (h : Connected nb cells c k)
    (hne : c ≠ k) : (get cells k).isPlayer = true := by
  unfold Connected at h
  rcases Relation.ReflTransGen.cases_tail h with h1 | ⟨d, -, hd⟩
  · exact absurd h1.symm hne
  · rw [hd.2.2.2.1]; exact hd.2.2.1

/-- Placing a stone on an empty cell changes the group of no cell that is not
joined to the new stone. -/
theorem connected_after_place (c1 c2 : List Cell) (hl : c2.length = c1.length) (idx : Nat)
    (S : Side) (hg : ∀ k, get c2 k = if k = idx then S else get c1 k)
    (hn : (get c1 idx).isPlayer = false) (c : Nat) (hc : ¬ Connected nb c2 c idx) (j : Nat) :
    Connected nb c2 c j ↔ Connected nb c1 c j := by
  have hci : c ≠ idx := by
    intro h
    apply hc
    rw [h]
    exact Relation.ReflTransGen.refl
  constructor
  · apply connected_of_agree_on c2 c1 hl c
    intro k hk
    have hk2 : k ≠ idx := by
      intro h
      rw [h] at hk
      exact hc hk
    rw [hg k, if_neg hk2]
  · apply connected_of_agree_on c1 c2 hl.symm c
    intro k hk
    have hk2 : k ≠ idx := by
      intro h
      rw [h] at hk
      have := connected_end_player c1 c idx hk hci
      rw [hn] at this
      exact Bool.noConfusion this
    rw [hg k, if_neg hk2]

end uf

namespace Y

/-- The edges a group lies on are read from the size and the cells of the
board only. -/
theorem y_three_edges_congr (G : Grid) (b b1 : Board) (hs : b1.size_ = b.size_)
    (hl : b1.cells_.length = b.cells_.length) (c : Nat)
    (h : ∀ j, Connected (G.neighbors_small b.size_) b1.cells_ c j ↔
      Connected (G.neighbors_small b.size_) b.cells_ c j) :
    b1.three_edges G c ↔ b.three_edges G c := by
  have key : ∀ e, b1.group_on_edge G c e ↔ b.group_on_edge G c e := by
    intro e
    unfold Board.group_on_edge
    rw [hs, hl]
    constructor
    · rintro ⟨j, hj, hcn, hb⟩
      exact ⟨j, hj, (h j).1 hcn, hb⟩
    · rintro ⟨j, hj, hcn, hb⟩
      exact ⟨j, hj, (h j).2 hcn, hb⟩
  unfold Board.three_edges
  rw [key 0, key 1, key 2]

theorem y_three_edges_toggle (G : Grid) (b : Board) (c : Nat) :
    b.toggle_to_play.three_edges G c ↔ b.three_edges G c := by
  have h1 : b.toggle_to_play.cells_ = b.cells_ := by
    unfold Board.toggle_to_play
    split_ifs <;> rfl
  have h2 : b.toggle_to_play.size_ = b.size_ := by
    unfold Board.toggle_to_play
    split_ifs <;> rfl
  apply y_three_edges_congr G b b.toggle_to_play h2 (by rw [h1])
  intro j
  rw [h1]

/-- A legal move on a board on which no group lies on the three edges: on the
board after the move only the group of the new stone can lie on the three
edges. -/
theorem y_move_groups (G : Grid) (s : Int) (hs : valid_size s = true) (hG : GridOK G s)
    (b : Board) (hinv : BoardInv G s b) (m : Move) (hv : b.valid_move_xy G m = true)
    (permanent : Bool)
    (hno : ∀ c, c < b.cells_.length → (get b.cells_ c).isPlayer = true → ¬ b.three_edges G c)
    (c : Nat) (hc : c < (b.move_body G (b.move_valid m) permanent).2.cells_.length)
    (hp : (get (b.move_body G (b.move_valid m) permanent).2.cells_ c).isPlayer = true)
    (h3 : (b.move_body G (b.move_valid m) permanent).2.three_edges G c) :
    Connected (G.neighbors_small s) (b.move_body G (b.move_valid m) permanent).2.cells_
      (b.move_valid m).idx c := by
  obtain ⟨-, hsz, hlen, -, hget, -⟩ := y_move_fields G s hs hG b hinv m hv permanent
  obtain ⟨-, -, hlt, -, hnone, -, -⟩ := y_legal_facts G s hs hG b hinv m hv
  have hinv1 := y_move_inv G s hs hG b hinv m hv permanent
  obtain ⟨rep1, rank1, hI1⟩ := hinv1.cells
  by_contra hcon
  have hcon2 : ¬ Connected (G.neighbors_small s)
      (b.move_body G (b.move_valid m) permanent).2.cells_ c (b.move_valid m).idx :=
    fun h => hcon (Connected.conn_symm hI1 h)
  have hci : c ≠ (b.move_valid m).idx := by
    intro h
    apply hcon
    rw [h]
    exact Relation.ReflTransGen.refl
  have hiff := connected_after_place b.cells_ (b.move_body G (b.move_valid m) permanent).2.cells_
    hlen (b.move_valid m).idx b.to_play_ hget (by rw [hnone]; rfl) c hcon2
  have h3b : b.three_edges G c :=
    (y_three_edges_congr G b _ hsz hlen c (by rw [hinv.size_eq]; exact hiff)).1 h3
  rw [hget c, if_neg hci] at hp
  exact hno c (by rw [← hlen]; exact hc) hp h3b

/-- With edge masks of three bits, on a reachable board without a winner no
group of stones lies on the three edges of the board. -/
theorem y_undecided_no_three (G : Grid) (s : Int) (hs : valid_size s = true) (hG : GridOK G s)
    (hE : ∀ i, edge0 G s i < 8) (b : Board) (hb : Reachable G s b) :
    b.outcome_ = .UNKNOWN → ∀ c, c < b.cells_.length → (get b.cells_ c).isPlayer = true →
      ¬ b.three_edges G c := by
  have hclear : ∀ b0 : Board, ∀ c, c < (b0.clear G).cells_.length →
      (get (b0.clear G).cells_ c).isPlayer = true → ¬ (b0.clear G).three_edges G c := by
    intro b0 c hc hp
    have hl : (b0.clear G).cells_.length = b0.vec_size.toNat := by simp [Board.clear]
    rw [hl] at hc
    have := y_clear_not_player G b0.size_ b0.vec_size.toNat c hc
    have hp2 : (get ((List.range b0.vec_size.toNat).map (clear_cell G b0.size_)) c).isPlayer
        = true := hp
    rw [this] at hp2
    exact Bool.noConfusion hp2
  induction hb with
  | create h =>
    intro _
    unfold Board.size
    rw [h]
    simp only [Bool.not_true, Bool.false_eq_true, if_false]
    exact hclear _
  | clear b _ _ => intro _; exact hclear b
  | toggle b _ ih =>
    intro ho c hc hp
    have h1 : b.toggle_to_play.cells_ = b.cells_ := by
      unfold Board.toggle_to_play
      split_ifs <;> rfl
    have h2 : b.toggle_to_play.outcome_ = b.outcome_ := by
      unfold Board.toggle_to_play
      split_ifs <;> rfl
    rw [y_three_edges_toggle]
    rw [h1] at hc hp
    exact ih (by rw [← h2]; exact ho) c hc hp
  | move b m permanent r b1 hb hv hm ih =>
    have hinv := y_reachable_inv G s hs hG b hb
    rw [y_move_xy_legal G s hs hG b hinv m hv permanent] at hm
    have hb1 : b1 = (b.move_body G (b.move_valid m) permanent).2 :=
      (congrArg Prod.snd (Option.some.inj hm)).symm
    rw [hb1]
    intro ho c hc hp h3
    obtain ⟨hunk, -, hlt, -, -, -, -⟩ := y_legal_facts G s hs hG b hinv m hv
    obtain ⟨-, hsz, hlen, -, -, hout⟩ := y_move_fields G s hs hG b hinv m hv permanent
    have hinv1 := y_move_inv G s hs hG b hinv m hv permanent
    have hcon := y_move_groups G s hs hG b hinv m hv permanent (ih hunk) c hc hp h3
    have h3i := (y_three_edges_conn G s _ hinv1 _ _ hcon).2 h3
    have hn3 := (y_numedges_three G s _ hinv1 hE (b.move_valid m).idx
      (by rw [hlen]; exact hlt)).2 h3i
    rw [hout, if_pos hn3] at ho
    exact (ofSide_ne_unknown b.to_play_ hinv.to_play).1 ho

/-- Every edge mask of the triangular grid has three bits. -/
theorem tri_edges_lt (i : Nat) : edge0 triGrid 4 i < 8 := by
  simp only [edge0, clear_cell, triGrid, tri_edges]
  split_ifs <;> omega

end Y
end Morat

namespace Morat

/-! ## C9: the winning condition of the Y board -/

/-- C9.  Y board: a legal move `m` by the side `s` to move on a reachable board,
which is undecided, succeeds and puts a stone of `s` on the cell of `m`.
Afterwards, with `r` the representative of `m`: the outcome is the win of `s`
exactly when the edge mask of `r` has three bits set, it is `UNKNOWN`
otherwise and never a draw; the edge mask of `r` is the OR of the edge masks
of the cells of the group of `m`, and it has the bit of an edge exactly when
a cell joined to `m` by a path of adjacent stones of `s` lies on that edge.
With edge masks of three bits: the outcome is the win of `s` exactly when the
group of `m` lies on the three edges of the board and `UNKNOWN` otherwise;
before the move no group of stones lay on the three edges, and after the move
only the group of `m` can. -/
theorem C9_y_win_iff_three_edges :
    ∀ (G : Y.Grid) (s : Int) (b : Y.Board), Y.valid_size s = true → Y.GridOK G s →
      Y.Reachable G s b → ∀ (m : Move) (permanent : Bool), b.valid_move_xy G m = true →
      b.outcome_ = .UNKNOWN ∧
      ∃ b1, b.move_xy G m permanent = some (true, b1) ∧
        get b1.cells_ (b.move_valid m).idx = b.to_play_ ∧
        (b1.outcome_ = Outcome.ofSide b.to_play_ ↔
          (cellAt b1.cells_ (find_group b1.cells_ (b.move_valid m).idx).1).numedges = 3) ∧
        ((cellAt b1.cells_ (find_group b1.cells_ (b.move_valid m).idx).1).numedges ≠ 3 →
          b1.outcome_ = .UNKNOWN) ∧
        b1.outcome_ ≠ .DRAW ∧
        (cellAt b1.cells_ (find_group b1.cells_ (b.move_valid m).idx).1).edge =
          group_mask (Y.edge0 G s) (fun j => (find_group b1.cells_ j).1) b1.cells_.length
            (find_group b1.cells_ (b.move_valid m).idx).1 ∧
        (∀ e, (cellAt b1.cells_ (find_group b1.cells_ (b.move_valid m).idx).1).edge.testBit e
            = true ↔ b1.group_on_edge G (b.move_valid m).idx e) ∧
        ((∀ i, Y.edge0 G s i < 8) →
          (b1.outcome_ = Outcome.ofSide b.to_play_ ↔ b1.three_edges G (b.move_valid m).idx) ∧
          (¬ b1.three_edges G (b.move_valid m).idx → b1.outcome_ = .UNKNOWN) ∧
          (∀ c, c < b.cells_.length → (get b.cells_ c).isPlayer = true →
            ¬ b.three_edges G c) ∧
          (∀ c, c < b1.cells_.length → (get b1.cells_ c).isPlayer = true →
            b1.three_edges G c →
              Connected (G.neighbors_small s) b1.cells_ (b.move_valid m).idx c)) := by
  intro G s b hs hG hb m permanent hv
  have hinv := Y.y_reachable_inv G s hs hG b hb
  obtain ⟨ho, -, hlt, -, -, -, -⟩ := Y.y_legal_facts G s hs hG b hinv m hv
  have hinv1 := Y.y_move_inv G s hs hG b hinv m hv permanent
  obtain ⟨hmv, -, hlen, -, hget, hout⟩ := Y.y_move_fields G s hs hG b hinv m hv permanent
  have hgroups := Y.y_move_groups G s hs hG b hinv m hv permanent
  refine ⟨ho, (b.move_body G (b.move_valid m) permanent).2, hmv, ?_, ?_⟩
  · rw [hget, if_pos rfl]
  have hlt1 : (b.move_valid m).idx < (b.move_body G (b.move_valid m) permanent).2.cells_.length := by
    rw [hlen]; exact hlt
  have hbits := Y.y_rep_edge_bits G s _ hinv1 (b.move_valid m).idx hlt1
  have hthree := Y.y_numedges_three G s _ hinv1
  obtain ⟨rep1, rank1, hc1⟩ := hinv1.cells
  generalize (b.move_body G (b.move_valid m) permanent).2 = b1 at hout hc1 hlt1 hbits hthree hgroups
  have hroot := find_group_root hc1 (b.move_valid m).idx hlt1
  have hedge := edge_eq_group_mask hc1 _ hroot.2 hroot.1
  have hpl := ofSide_ne_unknown b.to_play_ hinv.to_play
  have hiff : b1.outcome_ = Outcome.ofSide b.to_play_ ↔
      (cellAt b1.cells_ (find_group b1.cells_ (b.move_valid m).idx).1).numedges = 3 := by
    rw [hout]
    constructor
    · intro hx
      by_contra hne
      rw [if_neg hne] at hx
      exact hpl.1 hx.symm
    · intro hx; rw [if_pos hx]
  have hunk : (cellAt b1.cells_ (find_group b1.cells_ (b.move_valid m).idx).1).numedges ≠ 3 →
      b1.outcome_ = .UNKNOWN := by
    rw [hout]
    intro hne; rw [if_neg hne]
  refine ⟨hiff, hunk, ?_, hedge, hbits, ?_⟩
  · rw [hout]
    split
    · exact hpl.2
    · simp
  · intro hE
    have h3 := hthree hE (b.move_valid m).idx hlt1
    have hno := Y.y_undecided_no_three G s hs hG hE b hb ho
    refine ⟨hiff.trans h3, ?_, hno, hgroups hno⟩
    intro hn
    exact hunk (fun h => hn (h3.1 h))

set_option maxRecDepth 100000 in
/-- C9, witness: the seventh move of the sample game on the board of side 4.
It wins for the first player, whose group then lies on the three edges of
the board, while no group did before. -/
theorem C9_y_win_iff_three_edges_witness :
    (Y.after 6).valid_move_xy Y.triGrid ⟨1, 2⟩ = true ∧
    (Y.after 6).to_play_ = .P1 ∧
    ∃ b1, (Y.after 6).move_xy Y.triGrid ⟨1, 2⟩ true = some (true, b1) ∧
      b1.outcome_ = .P1 ∧
      get b1.cells_ ((Y.after 6).move_valid ⟨1, 2⟩).idx = .P1 ∧
      b1.three_edges Y.triGrid ((Y.after 6).move_valid ⟨1, 2⟩).idx ∧
      (cellAt b1.cells_ (find_group b1.cells_ ((Y.after 6).move_valid ⟨1, 2⟩).idx).1).numedges
        = 3 ∧
      (∀ e, (cellAt b1.cells_
          (find_group b1.cells_ ((Y.after 6).move_valid ⟨1, 2⟩).idx).1).edge.testBit e = true ↔
        b1.group_on_edge Y.triGrid ((Y.after 6).move_valid ⟨1, 2⟩).idx e) ∧
      (∀ c, c < (Y.after 6).cells_.length → (get (Y.after 6).cells_ c).isPlayer = true →
        ¬ (Y.after 6).three_edges Y.triGrid c) ∧
      (∀ c, c < b1.cells_.length → (get b1.cells_ c).isPlayer = true →
        b1.three_edges Y.triGrid c →
          Connected (Y.triGrid.neighbors_small 4) b1.cells_
            ((Y.after 6).move_valid ⟨1, 2⟩).idx c) := by
  obtain ⟨-, b1, h1, h2, h3, -, -, -, h7, h8⟩ :=
    C9_y_win_iff_three_edges Y.triGrid 4 (Y.after 6) (by decide) Y.y_triGrid_ok
      (Y.y_after_reachable 6 (by decide)) ⟨1, 2⟩ true (by decide)
  obtain ⟨h9, -, h11, h12⟩ := h8 Y.tri_edges_lt
  have hout : ((Y.after 6).move_xy Y.triGrid ⟨1, 2⟩ true).map (fun r => r.2.outcome_) =
      some .P1 := by decide
  rw [h1] at hout
  have hout1 : b1.outcome_ = .P1 := Option.some.inj hout
  have hw : b1.outcome_ = Outcome.ofSide (Y.after 6).to_play_ := by rw [hout1]; decide
  exact ⟨by decide, by decide, b1, h1, hout1, h2, h9.1 hw, h3.1 hw, h7, h11, h12⟩

end Morat
